import Mathlib

/-!
# Simd: direct NHWC convolution engine (AVX2), its parameter model, layout converters and layers

A shallow embedding of

* `SimdSynetConvolution32f.h`: `ConvParam32f` and the construction of a convolution;
* `SimdAvx2SynetConvolution32fNhwcDirect.cpp`: micro-kernels, row pass, macro driver and the
  selection of the kernels;
* `SimdBaseSynetConvert.cpp` and `SimdNeonSynetConvert.cpp`: the converters between tensor
  layouts, scalar and NEON;
* `SimdAvx1Synet.cpp`: the PReLU, scale and inner product layers.

Conventions of the embedding.

* `size_t` is a 64-bit unsigned integer.  `ConvParam32f::Valid` and the row pass
  `ConvolutionNhwcDirect_2<term, type>` compute with sizes, pads and strides supplied by the
  caller: every operation on them wraps modulo `2 ^ 64` (`wrap`), the counters `sx` and `sy`
  of the row and column loops included.  An offset added to a pointer addresses a buffer that
  exists in memory: there a difference wraps modulo `2 ^ 64`, sums and products are taken
  exactly (`sz`).
* Buffers are memories `Nat → α` indexed from the buffer origin; which indices a routine reads
  and writes is kept explicitly, so that leaving a buffer is observable.  The inner product
  layer, whose masked load of the tail starts `F` elements before the end of a row, is given
  by the list of its loads, with offsets in `Int`, so that a load before the origin is
  observable as well.
* A routine that writes through a moving pointer is given by the list of the values it writes,
  in program order (`storeSeq`); a routine that writes at computed addresses by the list of
  its stores, address and value, in program order (`storeAll`).
* A result of type `Option` is `none` when the C++ routine does not return: a division by zero,
  a loop whose counter never reaches its bound, or an assertion that fails.
* Arithmetic on tensor elements is exact: `α` is any linearly ordered commutative ring; the
  converters only move elements, and need no more than a zero.
-/

set_option autoImplicit false

namespace Simd

/-! ## Machine integers -/

/-- The modulus of `size_t` arithmetic. -/
abbrev sizeMod : Nat := 18446744073709551616

/-- The `size_t` value of an expression built from `+`, `-` and `*` on values of `size_t`,
given its value over the integers: every operation wraps modulo `2 ^ 64`. -/
def wrap (z : Int) : Nat := (z % sizeMod).toNat

/-- The `size_t` value of an offset added to a pointer, given its value over the integers: a
negative value wraps modulo `2 ^ 64`; a non-negative value, which addresses a buffer, is taken
as it is. -/
def sz (z : Int) : Nat := if 0 ≤ z then z.toNat else (z % sizeMod).toNat

/-! ## Parameter model (`SimdSynetConvolution32f.h`) -/

/-- Modelled from the spec: the tensor element type enumeration is declared outside the reviewed
sources, which name only `SimdTensorData32f`; the other constructors stand for the element
types that are not 32-bit float. -/
inductive SimdTensorDataType
  | SimdTensorDataUnknown
  | SimdTensorData32f
  | SimdTensorData32i
  | SimdTensorData8i
  | SimdTensorData8u
  deriving DecidableEq, Repr

/-- Modelled from the spec: the tensor format enumeration is declared outside the reviewed
sources; these are the formats the sources name (image formats, then filter formats). -/
inductive SimdTensorFormatType
  | SimdTensorFormatUnknown
  | SimdTensorFormatNchw
  | SimdTensorFormatNhwc
  | SimdTensorFormatNchw4c
  | SimdTensorFormatNchw8c
  | SimdTensorFormatNchw16c
  | SimdTensorFormatOiyx
  | SimdTensorFormatYxio
  | SimdTensorFormatOyxi4o
  | SimdTensorFormatOyxi8o
  | SimdTensorFormatOyxi16o
  deriving DecidableEq, Repr

/-- The six activation kinds the engine is instantiated for. -/
inductive SimdConvolutionActivationType
  | Identity
  | Relu
  | LeakyRelu
  | RestrictRange
  | Prelu
  | Elu
  deriving DecidableEq, Repr

open SimdTensorDataType SimdTensorFormatType

/-- Modelled from the spec: `SimdConvolutionParameters` is declared outside the reviewed sources;
its fields are the ones `ConvParam32f` and the kernels read, all of type `size_t` apart from the
enumerations. -/
structure SimdConvolutionParameters where
  srcC : Nat
  srcH : Nat
  srcW : Nat
  srcT : SimdTensorDataType
  srcF : SimdTensorFormatType
  dstC : Nat
  dstH : Nat
  dstW : Nat
  dstT : SimdTensorDataType
  dstF : SimdTensorFormatType
  kernelY : Nat
  kernelX : Nat
  dilationY : Nat
  dilationX : Nat
  strideY : Nat
  strideX : Nat
  padY : Nat
  padX : Nat
  padH : Nat
  padW : Nat
  group : Nat
  activation : SimdConvolutionActivationType
  deriving DecidableEq, Repr

/-- `struct ConvParam32f : public SimdConvolutionParameters`; `gemm` is a function address. -/
structure ConvParam32f extends SimdConvolutionParameters where
  trans : Bool
  batch : Nat
  gemm : Nat
  deriving DecidableEq, Repr

/-- The right-hand side of a shape equation of `Valid()`:
`(src + pad0 + pad1 - (dilation * (kernel - 1) + 1)) / stride + 1`, every operation in
`size_t`. -/
def ConvParam32f.shapeRhs (src pad0 pad1 dilation kernel stride : Nat) : Nat :=
  (wrap ((src : Int) + pad0 + pad1 - (dilation * ((kernel : Int) - 1) + 1)) / stride + 1)
    % sizeMod

/-- `ConvParam32f::Valid()`.  The conjunction is evaluated left to right and stops at the first
false operand; a division by a zero stride does not return. -/
def ConvParam32f.Valid (p : ConvParam32f) : Option Bool :=
  if p.strideY = 0 then none
  else if p.dstH = ConvParam32f.shapeRhs p.srcH p.padY p.padH p.dilationY p.kernelY p.strideY
      ∧ 0 < p.dstH then
    if p.strideX = 0 then none
    else some (decide (p.dstW =
          ConvParam32f.shapeRhs p.srcW p.padX p.padW p.dilationX p.kernelX p.strideX)
        && decide (0 < p.dstW)
        && decide (p.srcT = SimdTensorData32f) && decide (p.dstT = SimdTensorData32f)
        && decide (p.srcF = p.dstF)
        && (decide (p.srcF = SimdTensorFormatNchw) || decide (p.srcF = SimdTensorFormatNhwc)))
  else some false

/-- `ConvParam32f::IsKernel`. -/
def ConvParam32f.IsKernel (p : ConvParam32f) (value : Nat) : Bool :=
  decide (p.kernelY = value) && decide (p.kernelX = value)

/-- `ConvParam32f::IsDilation`. -/
def ConvParam32f.IsDilation (p : ConvParam32f) (value : Nat) : Bool :=
  decide (p.dilationY = value) && decide (p.dilationX = value)

/-- `ConvParam32f::IsStride`. -/
def ConvParam32f.IsStride (p : ConvParam32f) (value : Nat) : Bool :=
  decide (p.strideY = value) && decide (p.strideX = value)

/-- `ConvParam32f::IsPad`. -/
def ConvParam32f.IsPad (p : ConvParam32f) (value : Nat) : Bool :=
  decide (p.padY = value) && decide (p.padX = value) && decide (p.padH = value)
    && decide (p.padW = value)

/-- `ConvParam32f::Is1x1`. -/
def ConvParam32f.Is1x1 (p : ConvParam32f) : Bool :=
  p.IsKernel 1 && p.IsDilation 1 && p.IsStride 1 && p.IsPad 0

/-! ## Helpers of the engine that live outside the reviewed sources -/

/-- Modelled from the spec: `AlignLoAny(size, align)` is declared outside the reviewed sources;
it gives the largest multiple of `align` that fits `size` ("the largest group that fits the
remaining pixel count").  The division does not return for `align = 0`. -/
def AlignLoAny (size align : Nat) : Option Nat :=
  if align = 0 then none else some (size / align * align)

/-- Modelled from the spec: `AlignHiAny(size, align)` is declared outside the reviewed sources;
it rounds `size` up to a multiple of `align` (the channel count "zero-padded when
`outputChannels` is not a multiple of microD").  The division does not return for
`align = 0`. -/
def AlignHiAny (size align : Nat) : Option Nat :=
  if align = 0 then none else some ((size + align - 1) / align * align)

/-- The vector width `F` of the AVX2 kernels, in floats. -/
abbrev F : Nat := 8

/-- The micro tile `DF = 2 * F` of destination channels. -/
abbrev DF : Nat := 16

/-- `TermType`: the role of a pass over a block of source channels. -/
inductive TermType
  | TermSingle
  | TermFirst
  | TermIterim
  | TermLast
  deriving DecidableEq, Repr

/-- `SynetConvolution32fNhwcDirect::AlgParam`. -/
structure AlgParam where
  microD : Nat
  macroH : Nat
  macroC : Nat
  macroD : Nat
  deriving DecidableEq, Repr

open SimdConvolutionActivationType TermType

section Epilogue

variable {α : Type} [LinearOrderedCommRing α]

/-- Modelled from the spec: `Activate<type>` is defined in `SimdSynetConvolution32fCommon.h`,
outside the reviewed sources.  The activation table: Identity `f(x)=x`, ReLU `max(0,x)`,
LeakyReLU `x>0?x:α·x`, RestrictRange `clamp(x, lower, upper)`, PReLU `x>0?x:slope[channel]·x`,
ELU `x>0?x:α·(e^x−1)`.  `a0` and `a1` are the first two scalars of the parameter buffer, `slope`
the per-channel parameter, `ex` the exponential. -/
def Activate (ex : α → α) (type : SimdConvolutionActivationType) (a0 a1 slope x : α) : α :=
  match type with
  | Identity => x
  | Relu => max 0 x
  | LeakyRelu => if 0 < x then x else a0 * x
  | RestrictRange => min (max a0 x) a1
  | Prelu => if 0 < x then x else slope * x
  | Elu => if 0 < x then x else a0 * (ex x - 1)

/-- Modelled from the spec: `Term<term>::Save<type, index>` is defined in
`SimdSynetConvolution32fCommon.h`, outside the reviewed sources.  One lane of the epilogue:
`Single`/`Last`: `out = activation(acc + bias[channel])`, where the last pass first adds the
partial sum held by the destination; `First`: `out = acc`; `Iterim`:
`out = acc + previousPartial`.  `old` is the destination element before the store. -/
def Save (ex : α → α) (term : TermType) (type : SimdConvolutionActivationType)
    (a0 a1 slope bias old value : α) : α :=
  match term with
  | TermSingle => Activate ex type a0 a1 slope (value + bias)
  | TermFirst => value
  | TermIterim => old + value
  | TermLast => Activate ex type a0 a1 slope (old + value + bias)

end Epilogue

/-! ## Micro-kernels (`SimdAvx2SynetConvolution32fNhwcDirect.cpp`) -/

/-- One call of a micro-kernel, by the values of its arguments; pointers are offsets from the
origin of their buffer.  `n` is the number of destination pixels (6, 3 or 1), `direct1x1` tells
the `ConvolutionNhwcDirect1x1_2xN` kernels from the `ConvolutionNhwcDirect_2xN` ones, `bias`
is where `_bias[0]` was loaded from, `params` where `_params[0]` was broadcast from and `slope`
where it was loaded from for PReLU. -/
structure MicroCall where
  direct1x1 : Bool
  n : Nat
  src0 : Nat
  kernelH : Nat
  kernelW : Nat
  srcC : Nat
  dstC : Nat
  weight : Nat
  bias : Nat
  params : Nat
  slope : Nat
  dst : Nat
  deriving DecidableEq, Repr

/-- The loop nest `for ky, for kx, for offset` of `ConvolutionNhwcDirect_2xN`: for every product
the offset read from `src0` and the distance of `weight` from its initial value.  `weight` moves
by `DF` after every product and by `dW` after every kernel row, so before the product of
`(ky, kx, c)` it has moved by `ky * (kernelW * srcC * DF + dW) + (kx * srcC + c) * DF`. -/
def kernelMacs (p : ConvParam32f) (kernelH kernelW srcC : Nat) : List (Nat × Nat) :=
  let dW := sz (DF * ((p.kernelX : Int) - kernelW) * srcC)
  let dY := p.srcW * p.srcC
  let dX := p.srcC
  (List.range kernelH).flatMap fun ky =>
    (List.range kernelW).flatMap fun kx =>
      (List.range srcC).map fun c =>
        (ky * dY + kx * dX + c, ky * (kernelW * srcC * DF + dW) + (kx * srcC + c) * DF)

/-- The loop `for offset < srcC` of `ConvolutionNhwcDirect1x1_2xN`. -/
def kernelMacs1x1 (srcC : Nat) : List (Nat × Nat) :=
  (List.range srcC).map fun offset => (offset, offset * DF)

/-- The products of a call, see `kernelMacs`. -/
def MicroCall.macs (p : ConvParam32f) (c : MicroCall) : List (Nat × Nat) :=
  if c.direct1x1 then kernelMacs1x1 c.srcC else kernelMacs p c.kernelH c.kernelW c.srcC

/-- The distance `dS` between the sources of two neighbouring pixels of a call. -/
def MicroCall.dS (p : ConvParam32f) (c : MicroCall) : Nat :=
  if c.direct1x1 then p.srcC else p.srcC * p.strideX

/-- The number of lanes a call stores for each pixel: `Save<type, 0>` then `Save<type, 1>`, each
either whole (`F` lanes) or with the element count the kernel passes. -/
def MicroCall.stored (c : MicroCall) : Nat :=
  if F < c.dstC then (if c.dstC = DF then F + F else F + (c.dstC - F))
  else (if c.dstC = F then F else c.dstC)

/-- The source indices a call reads. -/
def MicroCall.srcReads (p : ConvParam32f) (c : MicroCall) : List Nat :=
  (List.range c.n).flatMap fun i => (c.macs p).map fun m => c.src0 + i * c.dS p + m.1

/-- The stores of a call in program order: pixel, lane, destination index. -/
def MicroCall.stores (p : ConvParam32f) (c : MicroCall) : List (Nat × Nat × Nat) :=
  (List.range c.n).flatMap fun i =>
    (List.range c.stored).map fun l => (i, l, c.dst + i * p.dstC + l)

section Kernel

variable {α : Type} [LinearOrderedCommRing α]

/-- The accumulator of pixel `i`, lane `l` at the end of the loop nest: the fused
multiply-adds `d = s0 * w + d` from `d = 0`, in exact arithmetic. -/
def MicroCall.acc (p : ConvParam32f) (src weight : Nat → α) (c : MicroCall) (i l : Nat) : α :=
  ((c.macs p).map fun m => src (c.src0 + i * c.dS p + m.1) * weight (c.weight + m.2 + l)).sum

/-- A call of `ConvolutionNhwcDirect_2xN<term, type>` or `ConvolutionNhwcDirect1x1_2xN<term,
type>` as a transformer of the destination memory. -/
def MicroCall.run (ex : α → α) (term : TermType) (type : SimdConvolutionActivationType)
    (p : ConvParam32f) (src weight bias params : Nat → α) (c : MicroCall) (dst : Nat → α) :
    Nat → α :=
  (c.stores p).foldl (fun m st =>
    Function.update m st.2.2
      (Save ex term type (params c.params) (params (c.params + 1)) (params (c.slope + st.2.1))
        (bias (c.bias + st.2.1)) (m st.2.2) (c.acc p src weight st.1 st.2.1))) dst

end Kernel

/-! ## Row pass `ConvolutionNhwcDirect_2<term, type>` -/

/-- The values of `(x, d)` at the start of every round of
`for (; x < bound; x += step, d += stepD)`; `fuel` bounds the number of rounds. -/
def forLoop : Nat → Nat → Nat → Nat → Nat → Nat → List (Nat × Nat)
  | 0, _, _, _, _, _ => []
  | fuel + 1, bound, step, stepD, x, d =>
    if x < bound then (x, d) :: forLoop fuel bound step stepD (x + step) (d + stepD) else []

/-- The rounds of `for (; x < bound; x += step, d += stepD)` for `0 < step`. -/
def forRounds (bound step stepD x d : Nat) : List (Nat × Nat) :=
  forLoop (bound - x) bound step stepD x d

/-- The loop `for (; x < bound; x += step, d += stepD)` with a counter `x` of type `size_t`
and a pointer `d`: the values of `(x, d)` at the start of every round, then `x` and `d` after
the loop.  The counter wraps modulo `2 ^ 64`; `fuel` bounds the number of rounds, and the
result is `none` when the loop makes more. -/
def forLoopWrap : Nat → Nat → Nat → Nat → Nat → Nat → Option (List (Nat × Nat) × Nat × Nat)
  | 0, _, _, _, _, _ => none
  | fuel + 1, bound, step, stepD, x, d =>
    if x < bound then
      (forLoopWrap fuel bound step stepD ((x + step) % sizeMod) (d + stepD)).map fun r =>
        ((x, d) :: r.1, r.2)
    else some ([], x, d)

/-- The loop `for (; x < bound; x += step, d += stepD)` run to its end.  The counter takes at
most `2 ^ 64` values and its next value depends on nothing else, so a loop that makes `2 ^ 64`
rounds never ends: the result is `none`. -/
def forRoundsWrap (bound step stepD x d : Nat) : Option (List (Nat × Nat) × Nat × Nat) :=
  forLoopWrap sizeMod bound step stepD x d

/-- The results of the rounds of a loop, in order; `none` when a round does not return. -/
def collect {β : Type} : List (Option β) → Option (List β)
  | [] => some []
  | none :: _ => none
  | some x :: xs => (collect xs).map fun rest => x :: rest

/-- The locals of the row pass that do not change, all of type `size_t`. -/
structure RowBounds where
  noseH : Nat
  noseW : Nat
  bodyH : Nat
  bodyW : Nat
  bodyW3 : Nat
  bodyW6 : Nat
  tailH : Nat
  tailW : Nat
  kY : Nat
  kX : Nat
  kH : Nat
  kW : Nat
  deriving DecidableEq, Repr

/-- The first lines of the row pass.  `AlignLoAny` divides by `3 * strideX` and by
`6 * strideX`, products in `size_t`. -/
def rowBounds (p : ConvParam32f) : Option RowBounds :=
  let noseH := p.padY
  let noseW := p.padX
  let bodyH := wrap ((p.srcH : Int) - p.kernelY + 1 + noseH)
  let bodyW := wrap ((p.srcW : Int) - p.kernelX + 1 + noseW)
  match AlignLoAny (wrap ((bodyW : Int) - noseW)) (wrap (3 * (p.strideX : Int))),
      AlignLoAny (wrap ((bodyW : Int) - noseW)) (wrap (6 * (p.strideX : Int))) with
  | some a3, some a6 =>
    some { noseH := noseH, noseW := noseW, bodyH := bodyH, bodyW := bodyW,
           bodyW3 := wrap ((a3 : Int) + noseW), bodyW6 := wrap ((a6 : Int) + noseW),
           tailH := wrap ((bodyH : Int) + p.padH), tailW := wrap ((bodyW : Int) + p.padW),
           kY := wrap ((p.kernelY : Int) - noseH), kX := wrap ((p.kernelX : Int) - noseW),
           kH := wrap ((bodyH : Int) + p.kernelY - 1),
           kW := wrap ((bodyW : Int) + p.kernelX - 1) }
  | _, _ => none

/-- The five column loops of one destination row: nose singles, body groups of 6, body groups
of 3, body singles, tail singles.  `kernelH`, `s` and `w` are what the row loop passes;
the result is the calls of the row and the destination pointer after it, `none` when a column
loop does not end. -/
def rowColumns (p : ConvParam32f) (b : RowBounds) (kernelH s w srcC dC bias params slope d : Nat) :
    Option (List MicroCall × Nat) :=
  let mk (n src0 kernelW weight dst : Nat) : MicroCall :=
    { direct1x1 := false, n := n, src0 := src0, kernelH := kernelH, kernelW := kernelW,
      srcC := srcC, dstC := dC, weight := weight, bias := bias, params := params,
      slope := slope, dst := dst }
  (forRoundsWrap b.noseW p.strideX p.dstC 0 d).bind fun l1 =>
  (forRoundsWrap b.bodyW6 (wrap (6 * (p.strideX : Int))) (6 * p.dstC) l1.2.1 l1.2.2).bind fun l2 =>
  (forRoundsWrap b.bodyW3 (wrap (3 * (p.strideX : Int))) (3 * p.dstC) l2.2.1 l2.2.2).bind fun l3 =>
  (forRoundsWrap b.bodyW p.strideX p.dstC l3.2.1 l3.2.2).bind fun l4 =>
  (forRoundsWrap b.tailW p.strideX p.dstC l4.2.1 l4.2.2).map fun l5 =>
    (l1.1.map (fun xd => mk 1 s (wrap ((b.kX : Int) + xd.1))
          (w + sz (((b.noseW : Int) - xd.1) * srcC * DF)) xd.2)
      ++ l2.1.map (fun xd => mk 6 (s + sz (((xd.1 : Int) - b.noseW) * p.srcC)) p.kernelX w xd.2)
      ++ l3.1.map (fun xd => mk 3 (s + sz (((xd.1 : Int) - b.noseW) * p.srcC)) p.kernelX w xd.2)
      ++ l4.1.map (fun xd => mk 1 (s + sz (((xd.1 : Int) - b.noseW) * p.srcC)) p.kernelX w xd.2)
      ++ l5.1.map (fun xd => mk 1 (s + sz (((xd.1 : Int) - b.noseW) * p.srcC))
          (wrap ((b.kW : Int) - xd.1)) w xd.2),
     l5.2.2)

/-- The region of a row loop. -/
inductive RowRegion
  | nose
  | body
  | tail
  deriving DecidableEq, Repr

/-- The bound of `sy` in the row loop of a region. -/
def RowRegion.bound (b : RowBounds) : RowRegion → Nat
  | RowRegion.nose => b.noseH
  | RowRegion.body => b.bodyH
  | RowRegion.tail => b.tailH

/-- The body of the row loop of a region at `sy`: the column loops with the effective kernel
height, source row and weight row of the region. -/
def rowBody (p : ConvParam32f) (b : RowBounds) (r : RowRegion)
    (src weight srcC dC bias params slope sy d : Nat) : Option (List MicroCall × Nat) :=
  match r with
  | RowRegion.nose =>
    rowColumns p b (wrap ((b.kY : Int) + sy)) src
      (weight + sz (((b.noseH : Int) - sy) * p.kernelX * srcC * DF)) srcC dC bias params slope d
  | RowRegion.body =>
    rowColumns p b p.kernelY (src + sz (((sy : Int) - b.noseH) * p.srcW * p.srcC))
      weight srcC dC bias params slope d
  | RowRegion.tail =>
    rowColumns p b (wrap ((b.kH : Int) - sy))
      (src + sz (((sy : Int) - b.noseH) * p.srcW * p.srcC)) weight srcC dC bias params slope d

/-- A row loop `for (; sy < bound && dy < yEnd; sy += p.strideY, dy++)`: the calls made and
the values of `sy`, `dy`, `d` after it; `sy` wraps modulo `2 ^ 64`.  `fuel` bounds the number
of rounds: the loop makes at most `yEnd - dy`. -/
def rowLoop (p : ConvParam32f) (b : RowBounds) (r : RowRegion)
    (src weight srcC dC bias params slope yEnd : Nat) :
    Nat → Nat → Nat → Nat → Option (List MicroCall × Nat × Nat × Nat)
  | 0, sy, dy, d => some ([], sy, dy, d)
  | fuel + 1, sy, dy, d =>
    if sy < r.bound b ∧ dy < yEnd then
      (rowBody p b r src weight srcC dC bias params slope sy d).bind fun row =>
        (rowLoop p b r src weight srcC dC bias params slope yEnd fuel
          ((sy + p.strideY) % sizeMod) (dy + 1) row.2).map fun rest =>
          (row.1 ++ rest.1, rest.2)
    else some ([], sy, dy, d)

/-- One round of `for (dc = 0; dc < dstC; dc += DF)` in the row pass: the three row loops. -/
def tileCalls (p : ConvParam32f) (b : RowBounds)
    (src dstC yBeg yEnd srcC weight bias params dst dc : Nat) : Option (List MicroCall) :=
  let dC := min DF (dstC - dc)
  let d := dst + dc + yBeg * p.dstW * p.dstC
  (rowLoop p b RowRegion.nose src weight srcC dC (bias + dc) params (params + dc) yEnd
    (yEnd - yBeg) (wrap ((yBeg : Int) * p.strideY)) yBeg d).bind fun r1 =>
  (rowLoop p b RowRegion.body src weight srcC dC (bias + dc) params (params + dc) yEnd
    (yEnd - r1.2.2.1) r1.2.1 r1.2.2.1 r1.2.2.2).bind fun r2 =>
  (rowLoop p b RowRegion.tail src weight srcC dC (bias + dc) params (params + dc) yEnd
    (yEnd - r2.2.2.1) r2.2.1 r2.2.2.1 r2.2.2.2).map fun r3 =>
    r1.1 ++ r2.1 ++ r3.1

/-- The rounds of `for (dc = 0; dc < dstC; dc += DF)` in the row pass
`ConvolutionNhwcDirect_2<term, type>`, in program order: `dc` and the calls of the round.
`weight` moves by `p.kernelY * p.kernelX * srcC * DF` after every round. -/
def rowPassTiles (p : ConvParam32f)
    (src dstC yBeg yEnd srcC weight bias params dst : Nat) :
    Option (List (Nat × List MicroCall)) :=
  (rowBounds p).bind fun b =>
    collect ((forRounds dstC DF (p.kernelY * p.kernelX * srcC * DF) 0 weight).map fun dw =>
      (tileCalls p b src dstC yBeg yEnd srcC dw.2 bias params dst dw.1).map fun cs =>
        (dw.1, cs))

/-- The calls of the row pass `ConvolutionNhwcDirect_2<term, type>` in program order. -/
def rowPassCalls (p : ConvParam32f)
    (src dstC yBeg yEnd srcC weight bias params dst : Nat) : Option (List MicroCall) :=
  (rowPassTiles p src dstC yBeg yEnd srcC weight bias params dst).map fun ts =>
    ts.flatMap fun t => t.2

/-- One round of `for (dc = 0; dc < dstC; dc += DF)` in the 1x1 row pass: groups of 6, of 3,
singles.  `i` and `pd` are the loop variables; `ps` moves with `i`, by `p.srcC` per pixel. -/
def tileCalls1x1 (p : ConvParam32f) (n1 n3 n6 : Nat)
    (src dstC yBeg srcC weight bias params dst dc : Nat) : List MicroCall :=
  let dC := min DF (dstC - dc)
  let ps := src + yBeg * p.srcW * p.srcC
  let pd := dst + dc + yBeg * p.dstW * p.dstC
  let l6 := forRounds n6 6 (6 * p.dstC) 0 pd
  let i6 := l6.length * 6
  let pd6 := pd + l6.length * (6 * p.dstC)
  let l3 := forRounds n3 3 (3 * p.dstC) i6 pd6
  let i3 := i6 + l3.length * 3
  let pd3 := pd6 + l3.length * (3 * p.dstC)
  let l1 := forRounds n1 1 p.dstC i3 pd3
  let mk (n : Nat) (xd : Nat × Nat) : MicroCall :=
    { direct1x1 := true, n := n, src0 := ps + xd.1 * p.srcC, kernelH := 1, kernelW := 1,
      srcC := srcC, dstC := dC, weight := weight, bias := bias + dc, params := params,
      slope := params + dc, dst := xd.2 }
  l6.map (mk 6) ++ l3.map (mk 3) ++ l1.map (mk 1)

/-- The calls of the row pass `ConvolutionNhwcDirect1x1_2<term, type>` in program order. -/
def rowPassCalls1x1 (p : ConvParam32f)
    (src dstC yBeg yEnd srcC weight bias params dst : Nat) : Option (List MicroCall) :=
  let n1 := sz (((yEnd : Int) - yBeg) * p.dstW)
  match AlignLoAny n1 3, AlignLoAny n1 6 with
  | some n3, some n6 =>
    some ((forRounds dstC DF (srcC * DF) 0 weight).flatMap fun dw =>
      tileCalls1x1 p n1 n3 n6 src dstC yBeg srcC dw.2 bias params dst dw.1)
  | _, _ => none

/-! ## Macro drivers `ConvolutionNhwcDirect_2<type>` and `ConvolutionNhwcDirect1x1_2<type>` -/

/-- The term the drivers pick for the block of source channels `[sc, sc + macroC)`. -/
def driverTerm (p : ConvParam32f) (a : AlgParam) (sc macroC : Nat) : TermType :=
  if a.macroC = p.srcC then TermSingle
  else if sc = 0 then TermFirst
  else if sc + macroC = p.srcC then TermLast
  else TermIterim

/-- The row pass a driver calls: the general one, or the 1x1 one. -/
def passCalls (direct1x1 : Bool) (p : ConvParam32f)
    (src dstC yBeg yEnd srcC weight bias params dst : Nat) : Option (List MicroCall) :=
  if direct1x1 then rowPassCalls1x1 p src dstC yBeg yEnd srcC weight bias params dst
  else rowPassCalls p src dstC yBeg yEnd srcC weight bias params dst

/-- The loop `for (yBeg = 0; yBeg < p.dstH;) { ...; yBeg = yEnd; }` of a driver from `yBeg`
on.  With the fuel `p.dstH - yBeg` the result is `none` when a row pass does not return or
`yBeg` stops moving. -/
def driverRows (direct1x1 : Bool) (p : ConvParam32f) (a : AlgParam) (term : TermType)
    (src macroD macroC weight bias params dst : Nat) :
    Nat → Nat → Option (List (TermType × MicroCall))
  | 0, yBeg => if yBeg < p.dstH then none else some []
  | fuel + 1, yBeg =>
    if yBeg < p.dstH then
      let yEnd := min (yBeg + a.macroH) p.dstH
      match passCalls direct1x1 p src macroD yBeg yEnd macroC weight bias params dst,
          driverRows direct1x1 p a term src macroD macroC weight bias params dst fuel yEnd with
      | some cs, some rest => some (cs.map (fun c => (term, c)) ++ rest)
      | _, _ => none
    else some []

/-- The loop `for (sc = 0; sc < p.srcC; sc += a.macroC)` of a driver from `sc` on, for the
block of destination channels at `dc`; the result is the calls and `weight` after the loop. -/
def driverChannels (direct1x1 : Bool) (p : ConvParam32f) (a : AlgParam)
    (macroD bias params dst dc : Nat) :
    Nat → Nat → Nat → Option (List (TermType × MicroCall) × Nat)
  | 0, sc, weight => if sc < p.srcC then none else some ([], weight)
  | fuel + 1, sc, weight =>
    if sc < p.srcC then
      let macroC := min p.srcC (sc + a.macroC) - sc
      let macroK := (if direct1x1 then 1 else p.kernelY * p.kernelX) * macroC
      match driverRows direct1x1 p a (driverTerm p a sc macroC) sc macroD macroC weight
          (bias + dc) params (dst + dc) p.dstH 0,
          AlignHiAny macroD a.microD with
      | some cs, some aD =>
        match driverChannels direct1x1 p a macroD bias params dst dc fuel (sc + a.macroC)
            (weight + aD * macroK) with
        | some rest => some (cs ++ rest.1, rest.2)
        | none => none
      | _, _ => none
    else some ([], weight)

/-- The loop `for (dc = 0; dc < p.dstC; dc += a.macroD)` of a driver from `dc` on; `params`
moves by `macroD` after a block when the activation is PReLU. -/
def driverBlocks (direct1x1 : Bool) (type : SimdConvolutionActivationType) (p : ConvParam32f)
    (a : AlgParam) (bias dst : Nat) : Nat → Nat → Nat → Nat → Option (List (TermType × MicroCall))
  | 0, dc, _, _ => if dc < p.dstC then none else some []
  | fuel + 1, dc, weight, params =>
    if dc < p.dstC then
      let macroD := min p.dstC (dc + a.macroD) - dc
      match driverChannels direct1x1 p a macroD bias params dst dc p.srcC 0 weight with
      | some cw =>
        match driverBlocks direct1x1 type p a bias dst fuel (dc + a.macroD) cw.2
            (if type = Prelu then params + macroD else params) with
        | some rest => some (cw.1 ++ rest)
        | none => none
      | none => none
    else some []

/-- The calls of a driver in program order, each with the term of its row pass; all pointers
start at the origin of their buffer. -/
def driverCalls (direct1x1 : Bool) (type : SimdConvolutionActivationType) (p : ConvParam32f)
    (a : AlgParam) : Option (List (TermType × MicroCall)) :=
  driverBlocks direct1x1 type p a 0 0 p.dstC 0 0 0

section Engine

variable {α : Type} [LinearOrderedCommRing α]

/-- The destination memory after a list of micro-kernel calls. -/
def runCalls (ex : α → α) (type : SimdConvolutionActivationType) (p : ConvParam32f)
    (src weight bias params : Nat → α) (cs : List (TermType × MicroCall)) (dst : Nat → α) :
    Nat → α :=
  cs.foldl (fun m tc => tc.2.run ex tc.1 type p src weight bias params m) dst

/-- The row pass `ConvolutionNhwcDirect_2<term, type>(src, p, dstC, yBeg, yEnd, srcC, weight,
bias, params, dst)`; the pointer arguments are offsets into the buffers. -/
def ConvolutionNhwcDirect_2_pass (ex : α → α) (term : TermType)
    (type : SimdConvolutionActivationType) (p : ConvParam32f)
    (srcB weightB biasB paramsB : Nat → α)
    (src dstC yBeg yEnd srcC weight bias params dst : Nat) (dstB : Nat → α) :
    Option (Nat → α) :=
  (rowPassCalls p src dstC yBeg yEnd srcC weight bias params dst).map fun cs =>
    runCalls ex type p srcB weightB biasB paramsB (cs.map fun c => (term, c)) dstB

/-- The row pass `ConvolutionNhwcDirect1x1_2<term, type>`. -/
def ConvolutionNhwcDirect1x1_2_pass (ex : α → α) (term : TermType)
    (type : SimdConvolutionActivationType) (p : ConvParam32f)
    (srcB weightB biasB paramsB : Nat → α)
    (src dstC yBeg yEnd srcC weight bias params dst : Nat) (dstB : Nat → α) :
    Option (Nat → α) :=
  (rowPassCalls1x1 p src dstC yBeg yEnd srcC weight bias params dst).map fun cs =>
    runCalls ex type p srcB weightB biasB paramsB (cs.map fun c => (term, c)) dstB

/-- The driver `ConvolutionNhwcDirect_2<type>(src, p, a, weight, bias, params, dst)`. -/
def ConvolutionNhwcDirect_2 (ex : α → α) (type : SimdConvolutionActivationType)
    (src : Nat → α) (p : ConvParam32f) (a : AlgParam) (weight bias params dst : Nat → α) :
    Option (Nat → α) :=
  (driverCalls false type p a).map fun cs => runCalls ex type p src weight bias params cs dst

/-- The driver `ConvolutionNhwcDirect1x1_2<type>(src, p, a, weight, bias, params, dst)`. -/
def ConvolutionNhwcDirect1x1_2 (ex : α → α) (type : SimdConvolutionActivationType)
    (src : Nat → α) (p : ConvParam32f) (a : AlgParam) (weight bias params dst : Nat → α) :
    Option (Nat → α) :=
  (driverCalls true type p a).map fun cs => runCalls ex type p src weight bias params cs dst

/-- The kernel `Set<type>` installs: the 1x1 driver for `Is1x1()` parameters, else the general
one (`microD = 2 * F`). -/
def convolution (ex : α → α) (type : SimdConvolutionActivationType)
    (src : Nat → α) (p : ConvParam32f) (a : AlgParam) (weight bias params dst : Nat → α) :
    Option (Nat → α) :=
  if p.Is1x1 then ConvolutionNhwcDirect1x1_2 ex type src p a weight bias params dst
  else ConvolutionNhwcDirect_2 ex type src p a weight bias params dst

end Engine

/-! ## Reference convolution -/

section Reference

variable {α : Type} [LinearOrderedCommRing α]

/-- The source surrounded by zeros: the element of row `r`, column `q`, channel `c` of the
channels-last tensor that starts at `off`, and `0` outside the image. -/
def srcZeroPadded (p : ConvParam32f) (src : Nat → α) (off : Nat) (r q : Int) (c : Nat) : α :=
  if 0 ≤ r ∧ r < p.srcH ∧ 0 ≤ q ∧ q < p.srcW then
    src (off + (r.toNat * p.srcW + q.toNat) * p.srcC + c)
  else 0

/-- The triple-nested loop of the reference direct convolution for destination pixel `(y, x)`:
the sum over `ky`, `kx` and `n` source channels from channel `off` on of
`srcZeroPadded[y*strideY + ky*dilationY - padY, x*strideX + kx*dilationX - padX, c] * w[ky,kx,c]`. -/
def convSum (p : ConvParam32f) (src : Nat → α) (off n : Nat) (w : Nat → Nat → Nat → α)
    (y x : Nat) : α :=
  ∑ ky in Finset.range p.kernelY, ∑ kx in Finset.range p.kernelX, ∑ c in Finset.range n,
    srcZeroPadded p src off ((y * p.strideY + ky * p.dilationY : Nat) - (p.padY : Int))
      ((x * p.strideX + kx * p.dilationX : Nat) - (p.padX : Int)) c * w ky kx c

/-- The reference direct convolution:
`dst[y,x,d] = activation(bias[d] + sum over ky,kx,c of srcZeroPadded[..] * w[ky,kx,c,d])`, with
the scalar parameters `params[0]`, `params[1]` and the slope `params[d]` of channel `d`. -/
def referenceConvolution (ex : α → α) (type : SimdConvolutionActivationType) (p : ConvParam32f)
    (src : Nat → α) (w : Nat → Nat → Nat → Nat → α) (bias params : Nat → α) (y x d : Nat) : α :=
  Activate ex type (params 0) (params 1) (params d)
    (bias d + convSum p src 0 p.srcC (fun ky kx c => w ky kx c d) y x)

end Reference

/-! ## Layouts of the weight buffer -/

/-- The blocked layout `[outputChannels/microD, kernelH, kernelW, inputChannels, microD]` with
`microD = 16`: the offset of the weight of output channel `o`, kernel position `(ky, kx)` and
source channel `c`. -/
def blockedWeightIndex (p : ConvParam32f) (o ky kx c : Nat) : Nat :=
  ((((o / 16) * p.kernelY + ky) * p.kernelX + kx) * p.srcC + c) * 16 + o % 16

/-- The offset at which a driver reads the weight of output channel `o`, kernel position
`(ky, kx)` and source channel `c`: the blocks of `a.macroD` output channels follow each other,
in each of them the blocks of `a.macroC` source channels, and each such block is laid out as
`[tile of 16 output channels, kernelY, kernelX, source channel of the block, 16]`. -/
def driverWeightIndex (p : ConvParam32f) (a : AlgParam) (o ky kx c : Nat) : Nat :=
  let dc := o / a.macroD * a.macroD
  let macroD := min p.dstC (dc + a.macroD) - dc
  let sc := c / a.macroC * a.macroC
  let macroC := min p.srcC (sc + a.macroC) - sc
  (o / a.macroD) * ((a.macroD + 15) / 16 * 16) * (p.kernelY * p.kernelX * p.srcC)
    + ((macroD + 15) / 16 * 16) * (p.kernelY * p.kernelX * sc)
    + ((((o - dc) / 16 * p.kernelY + ky) * p.kernelX + kx) * macroC + (c - sc)) * 16
    + (o - dc) % 16

/-! ## The row pass without wrap-around

The row pass with its sizes and counters taken over the integers and the natural numbers:
what `rowPassCalls` is when no bound, product or counter of the row pass reaches `2 ^ 64`
(`rowPassCalls_eq_exact`).  The proofs about the row pass go through it. -/

/-- The region bounds of the row pass taken exactly; `bodyHi` and `bodyWi` are `bodyH` and
`bodyW` over the integers. -/
structure RowBoundsExact where
  noseH : Nat
  noseW : Nat
  bodyHi : Int
  bodyWi : Int
  bodyH : Nat
  bodyW : Nat
  bodyW3 : Nat
  bodyW6 : Nat
  tailH : Nat
  tailW : Nat
  deriving Repr

/-- The bounds `rowBounds` computes, with its sums and products taken exactly. -/
def rowBoundsExact (p : ConvParam32f) : Option RowBoundsExact :=
  let noseH := p.padY
  let noseW := p.padX
  let bodyHi : Int := (p.srcH : Int) - p.kernelY + 1 + noseH
  let bodyWi : Int := (p.srcW : Int) - p.kernelX + 1 + noseW
  let bodyH := sz bodyHi
  let bodyW := sz bodyWi
  match AlignLoAny (sz ((bodyW : Int) - noseW)) (3 * p.strideX),
      AlignLoAny (sz ((bodyW : Int) - noseW)) (6 * p.strideX) with
  | some a3, some a6 =>
    some { noseH := noseH, noseW := noseW, bodyHi := bodyHi, bodyWi := bodyWi,
           bodyH := bodyH, bodyW := bodyW, bodyW3 := a3 + noseW, bodyW6 := a6 + noseW,
           tailH := sz (bodyHi + p.padH), tailW := sz (bodyWi + p.padW) }
  | _, _ => none

/-- The locals of the row pass for the exact bounds `b`: each is the value of its expression
over the integers, reduced modulo `2 ^ 64` only where that value depends on the size of the
image. -/
def RowBoundsExact.wrapped (p : ConvParam32f) (b : RowBoundsExact) : RowBounds :=
  { noseH := b.noseH, noseW := b.noseW, bodyH := b.bodyH, bodyW := b.bodyW,
    bodyW3 := b.bodyW3, bodyW6 := b.bodyW6, tailH := b.tailH, tailW := b.tailW,
    kY := p.kernelY - b.noseH, kX := p.kernelX - b.noseW,
    kH := wrap (b.bodyHi + p.kernelY - 1), kW := wrap (b.bodyWi + p.kernelX - 1) }

/-- The five column loops `rowColumns` with a counter `sx` that does not wrap: each loop ends
after at most `bound - sx` rounds. -/
def rowColumnsExact (p : ConvParam32f) (b : RowBoundsExact)
    (kernelH s w srcC dC bias params slope d : Nat) : List MicroCall × Nat :=
  let l1 := forRounds b.noseW p.strideX p.dstC 0 d
  let sx1 := l1.length * p.strideX
  let d1 := d + l1.length * p.dstC
  let l2 := forRounds b.bodyW6 (6 * p.strideX) (6 * p.dstC) sx1 d1
  let sx2 := sx1 + l2.length * (6 * p.strideX)
  let d2 := d1 + l2.length * (6 * p.dstC)
  let l3 := forRounds b.bodyW3 (3 * p.strideX) (3 * p.dstC) sx2 d2
  let sx3 := sx2 + l3.length * (3 * p.strideX)
  let d3 := d2 + l3.length * (3 * p.dstC)
  let l4 := forRounds b.bodyW p.strideX p.dstC sx3 d3
  let sx4 := sx3 + l4.length * p.strideX
  let d4 := d3 + l4.length * p.dstC
  let l5 := forRounds b.tailW p.strideX p.dstC sx4 d4
  let d5 := d4 + l5.length * p.dstC
  let mk (n src0 kernelW weight dst : Nat) : MicroCall :=
    { direct1x1 := false, n := n, src0 := src0, kernelH := kernelH, kernelW := kernelW,
      srcC := srcC, dstC := dC, weight := weight, bias := bias, params := params,
      slope := slope, dst := dst }
  (l1.map (fun xd => mk 1 s (sz ((p.kernelX : Int) - b.noseW + xd.1))
        (w + sz (((b.noseW : Int) - xd.1) * srcC * DF)) xd.2)
    ++ l2.map (fun xd => mk 6 (s + sz (((xd.1 : Int) - b.noseW) * p.srcC)) p.kernelX w xd.2)
    ++ l3.map (fun xd => mk 3 (s + sz (((xd.1 : Int) - b.noseW) * p.srcC)) p.kernelX w xd.2)
    ++ l4.map (fun xd => mk 1 (s + sz (((xd.1 : Int) - b.noseW) * p.srcC)) p.kernelX w xd.2)
    ++ l5.map (fun xd => mk 1 (s + sz (((xd.1 : Int) - b.noseW) * p.srcC))
        (sz (b.bodyWi + p.kernelX - 1 - xd.1)) w xd.2),
   d5)

/-- The bound of `sy` in the row loop of a region, see `RowRegion.bound`. -/
def RowRegion.boundExact (b : RowBoundsExact) : RowRegion → Nat
  | RowRegion.nose => b.noseH
  | RowRegion.body => b.bodyH
  | RowRegion.tail => b.tailH

/-- The body `rowBody` of the row loop of a region at `sy`, over `rowColumnsExact`. -/
def rowBodyExact (p : ConvParam32f) (b : RowBoundsExact) (r : RowRegion)
    (src weight srcC dC bias params slope sy d : Nat) : List MicroCall × Nat :=
  match r with
  | RowRegion.nose =>
    rowColumnsExact p b (sz ((p.kernelY : Int) - b.noseH + sy)) src
      (weight + sz (((b.noseH : Int) - sy) * p.kernelX * srcC * DF)) srcC dC bias params slope d
  | RowRegion.body =>
    rowColumnsExact p b p.kernelY (src + sz (((sy : Int) - b.noseH) * p.srcW * p.srcC))
      weight srcC dC bias params slope d
  | RowRegion.tail =>
    rowColumnsExact p b (sz (b.bodyHi + p.kernelY - 1 - sy))
      (src + sz (((sy : Int) - b.noseH) * p.srcW * p.srcC)) weight srcC dC bias params slope d

/-- The row loop `rowLoop` with a counter `sy` that does not wrap. -/
def rowLoopExact (p : ConvParam32f) (b : RowBoundsExact) (r : RowRegion)
    (src weight srcC dC bias params slope yEnd : Nat) :
    Nat → Nat → Nat → Nat → List MicroCall × Nat × Nat × Nat
  | 0, sy, dy, d => ([], sy, dy, d)
  | fuel + 1, sy, dy, d =>
    if sy < r.boundExact b ∧ dy < yEnd then
      let row := rowBodyExact p b r src weight srcC dC bias params slope sy d
      let rest := rowLoopExact p b r src weight srcC dC bias params slope yEnd fuel
        (sy + p.strideY) (dy + 1) row.2
      (row.1 ++ rest.1, rest.2)
    else ([], sy, dy, d)

/-- The three row loops `tileCalls` of one round of the loop over `dc`, over `rowLoopExact`. -/
def tileCallsExact (p : ConvParam32f) (b : RowBoundsExact)
    (src dstC yBeg yEnd srcC weight bias params dst dc : Nat) : List MicroCall :=
  let dC := min DF (dstC - dc)
  let d := dst + dc + yBeg * p.dstW * p.dstC
  let r1 := rowLoopExact p b RowRegion.nose src weight srcC dC (bias + dc) params (params + dc) yEnd
    (yEnd - yBeg) (yBeg * p.strideY) yBeg d
  let r2 := rowLoopExact p b RowRegion.body src weight srcC dC (bias + dc) params (params + dc) yEnd
    (yEnd - r1.2.2.1) r1.2.1 r1.2.2.1 r1.2.2.2
  let r3 := rowLoopExact p b RowRegion.tail src weight srcC dC (bias + dc) params (params + dc) yEnd
    (yEnd - r2.2.2.1) r2.2.1 r2.2.2.1 r2.2.2.2
  r1.1 ++ r2.1 ++ r3.1

/-- The calls `rowPassCalls` of the row pass, over `rowBoundsExact` and `tileCallsExact`. -/
def rowPassCallsExact (p : ConvParam32f)
    (src dstC yBeg yEnd srcC weight bias params dst : Nat) : Option (List MicroCall) :=
  (rowBoundsExact p).map fun b =>
    (forRounds dstC DF (p.kernelY * p.kernelX * srcC * DF) 0 weight).flatMap fun dw =>
      tileCallsExact p b src dstC yBeg yEnd srcC dw.2 bias params dst dw.1

/-! ## The domain of the engine -/

/-- The parameter sets on which the region split of the row pass is sound: `Valid()` holds,
no dilation, no pad larger than the kernel, the kernel at most one larger than the image, the
kernel fits the padded image, and no counter of the row pass reaches `2 ^ 64`: `sy` stays
below `tailH + strideY` and `sx` below `tailW + strideX`, where
`tailH = srcH + 1 + padY + padH - kernelY` and `tailW = srcW + 1 + padX + padW - kernelX`, the
column loops step by at most `6 * strideX`, and the kernel sizes are values of `size_t`. -/
structure ConvParam32f.InDomain (p : ConvParam32f) : Prop where
  valid : p.Valid = some true
  dilationY : p.dilationY = 1
  dilationX : p.dilationX = 1
  padY : p.padY ≤ p.kernelY
  padH : p.padH ≤ p.kernelY
  padX : p.padX ≤ p.kernelX
  padW : p.padW ≤ p.kernelX
  srcH : p.kernelY ≤ p.srcH + 1
  srcW : p.kernelX ≤ p.srcW + 1
  fitY : p.kernelY ≤ p.srcH + p.padY + p.padH
  fitX : p.kernelX ≤ p.srcW + p.padX + p.padW
  sizeY : p.srcH + 1 + p.padY + p.padH + p.strideY ≤ sizeMod + p.kernelY
  sizeX : p.srcW + 1 + p.padX + p.padW + p.strideX ≤ sizeMod + p.kernelX
  stride6 : 6 * p.strideX < sizeMod
  sizeKY : p.kernelY < sizeMod
  sizeKX : p.kernelX < sizeMod

/-! ## Footprints in the destination -/

/-- The destination elements of pixels `[P0, P1)` and channels `[C0, C1)` of a channels-last
tensor with `D` channels. -/
def Box (D P0 P1 C0 C1 : Nat) (j : Nat) : Prop :=
  P0 ≤ j / D ∧ j / D < P1 ∧ C0 ≤ j % D ∧ j % D < C1

/-- The transformer `f` of the destination memory rewrites exactly the elements of `S`, the
element `j` from its old value `v` to `G j v`. -/
def Updates {α : Type} (f : (Nat → α) → Nat → α) (S : Nat → Prop) (G : Nat → α → α) : Prop :=
  ∀ dst j, (S j → f dst j = G j (dst j)) ∧ (¬ S j → f dst j = dst j)

/-! ## What a call computes -/

/-- The first kernel index of a window at padded position `pos` that meets the image. -/
def winLo (pad pos : Nat) : Nat := pad - pos

/-- The number of kernel indices of a window at padded position `pos` that meet the image. -/
def winCnt (kernel size pad pos : Nat) : Nat := min kernel (size + pad - pos) - (pad - pos)

/-- The first image index a window at padded position `pos` meets. -/
def winOrg (pad pos : Nat) : Nat := pos - pad

/-- What the calls of one tile of a row pass share: the source pointer of the pass, the weight
pointer of the tile, the number of source channels, the number `dC` of channels of the tile,
where bias, parameters and slopes of the tile start, and the destination pointer of the tile
(`dst + dc`). -/
structure TileCtx where
  src : Nat
  weight : Nat
  srcC : Nat
  dC : Nat
  bias : Nat
  params : Nat
  slope : Nat
  d0 : Nat

/-- The call `c` computes the destination pixels `P0, ..., P0 + c.n - 1` (counted row by row)
of the tile `t`: for each of them its kernel extent, source pointer and weight pointer are
those of the window clipped to the image. -/
def MicroCall.Computes (p : ConvParam32f) (t : TileCtx) (P0 : Nat) (c : MicroCall) : Prop :=
  c.macs p = kernelMacs p c.kernelH c.kernelW c.srcC ∧ c.dS p = p.srcC * p.strideX ∧
  c.srcC = t.srcC ∧ c.dstC = t.dC ∧ c.bias = t.bias ∧ c.params = t.params ∧
  c.slope = t.slope ∧ c.dst = t.d0 + P0 * p.dstC ∧
  ∀ i, i < c.n →
    c.kernelH = winCnt p.kernelY p.srcH p.padY ((P0 + i) / p.dstW * p.strideY) ∧
    c.kernelW = winCnt p.kernelX p.srcW p.padX ((P0 + i) % p.dstW * p.strideX) ∧
    c.src0 + i * c.dS p = t.src
      + (winOrg p.padY ((P0 + i) / p.dstW * p.strideY) * p.srcW
          + winOrg p.padX ((P0 + i) % p.dstW * p.strideX)) * p.srcC ∧
    c.weight = t.weight
      + (winLo p.padY ((P0 + i) / p.dstW * p.strideY) * p.kernelX
          + winLo p.padX ((P0 + i) % p.dstW * p.strideX)) * t.srcC * DF

/-- The calls `cs` compute the destination pixels `[P0, P1)` of the tile `t` one group after
the other, each pixel once. -/
def Tiled (p : ConvParam32f) (t : TileCtx) : List MicroCall → Nat → Nat → Prop
  | [], P0, P1 => P0 = P1
  | c :: cs, P0, P1 => c.Computes p t P0 ∧ Tiled p t cs (P0 + c.n) P1

/-- The rows of a region of the row pass on the domain of the engine, by the padded position
`sy` of their window: above the image (nose), inside (body), below (tail). -/
def RowRegion.Holds (p : ConvParam32f) : RowRegion → Nat → Prop
  | RowRegion.nose, sy => sy < p.padY
  | RowRegion.body, sy => p.padY ≤ sy ∧ sy < p.srcH + 1 + p.padY - p.kernelY
  | RowRegion.tail, sy => p.srcH + 1 + p.padY - p.kernelY ≤ sy
      ∧ sy < p.srcH + 1 + p.padY - p.kernelY + p.padH

section PassValue

variable {α : Type} [LinearOrderedCommRing α]

/-- The accumulator of lane `l` of the tile `t` for destination pixel `P`: the reference sum
over the source channels of the pass with the weights of the tile read in the order
`[kernelY, kernelX, source channel, 16]`. -/
def tileAcc (p : ConvParam32f) (src weight : Nat → α) (t : TileCtx) (P l : Nat) : α :=
  convSum p src t.src t.srcC
    (fun ky kx c => weight (t.weight + ((ky * p.kernelX + kx) * t.srcC + c) * DF + l))
    (P / p.dstW) (P % p.dstW)

/-- What a pass with term `term` stores to the destination element `j` of the tile `t` that held
`old`. -/
def tileStore (ex : α → α) (term : TermType) (type : SimdConvolutionActivationType)
    (p : ConvParam32f) (src weight bias params : Nat → α) (t : TileCtx) (j : Nat) (old : α) : α :=
  Save ex term type (params t.params) (params (t.params + 1))
    (params (t.slope + (j % p.dstC - t.d0))) (bias (t.bias + (j % p.dstC - t.d0))) old
    (tileAcc p src weight t (j / p.dstC) (j % p.dstC - t.d0))

end PassValue

/-- The tile of a channel block in a row pass. -/
def passTile (src dstC srcC weight bias params dst dc : Nat) : TileCtx :=
  { src := src, weight := weight, srcC := srcC, dC := min DF (dstC - dc), bias := bias + dc,
    params := params, slope := params + dc, d0 := dst + dc }

/-- What a row pass with term `term` stores to the destination element `j` that held `old`.
With `c` the channel of `j` in the pass: the accumulator is the reference sum over the source
channels of the pass with the weights read at
`weight + ((((c / 16) * kernelY + ky) * kernelX + kx) * srcC + cc) * 16 + c % 16`, the blocked
layout relative to the arguments of the pass. -/
def passStore {α : Type} [LinearOrderedCommRing α] (ex : α → α) (term : TermType)
    (type : SimdConvolutionActivationType) (p : ConvParam32f)
    (srcB weightB biasB paramsB : Nat → α) (src srcC weight bias params dst : Nat)
    (j : Nat) (old : α) : α :=
  Save ex term type (paramsB params) (paramsB (params + 1))
    (paramsB (params + (j % p.dstC - dst))) (biasB (bias + (j % p.dstC - dst))) old
    (convSum p srcB src srcC
      (fun ky kx cc => weightB (weight
        + (((((j % p.dstC - dst) / DF) * p.kernelY + ky) * p.kernelX + kx) * srcC + cc) * DF
        + (j % p.dstC - dst) % DF))
      (j / p.dstC / p.dstW) (j / p.dstC % p.dstW))

/-- The offset at which the passes of the block of destination channels `[dc, dc + macroD)`
read the weight of output channel `o`, kernel position `(ky, kx)` and source channel `c`, when
the weights of the block start at `weight`. -/
def blockWeightIndex (p : ConvParam32f) (a : AlgParam) (weight dc macroD o ky kx c : Nat) : Nat :=
  let sc := c / a.macroC * a.macroC
  let macroC := min p.srcC (sc + a.macroC) - sc
  weight + ((macroD + 15) / 16 * 16) * (p.kernelY * p.kernelX * sc)
    + ((((o - dc) / 16 * p.kernelY + ky) * p.kernelX + kx) * macroC + (c - sc)) * 16
    + (o - dc) % 16

/-- The reference sum over the first `n` source channels for the destination element `j`, with
the weights read in the order of the passes of a block of destination channels. -/
def blockSum {α : Type} [LinearOrderedCommRing α] (p : ConvParam32f) (a : AlgParam)
    (srcB weightB : Nat → α) (weight dc macroD n j : Nat) : α :=
  convSum p srcB 0 n
    (fun ky kx c => weightB (blockWeightIndex p a weight dc macroD (j % p.dstC) ky kx c))
    (j / p.dstC / p.dstW) (j / p.dstC % p.dstW)

/-! ## Concrete parameter sets -/

/-- A 3x3 convolution of a 2x2 image with 2 channels, padded by 1 on every side, to 2 channels:
inside the domain of the engine, with nose, body and tail regions. -/
def pPad : ConvParam32f :=
  { srcC := 2, srcH := 2, srcW := 2, srcT := SimdTensorDataType.SimdTensorData32f,
    srcF := SimdTensorFormatType.SimdTensorFormatNhwc,
    dstC := 2, dstH := 2, dstW := 2, dstT := SimdTensorDataType.SimdTensorData32f,
    dstF := SimdTensorFormatType.SimdTensorFormatNhwc,
    kernelY := 3, kernelX := 3, dilationY := 1, dilationX := 1, strideY := 1, strideX := 1,
    padY := 1, padX := 1, padH := 1, padW := 1, group := 1,
    activation := SimdConvolutionActivationType.Relu, trans := true, batch := 1, gemm := 0 }

/-- Blocks of one source channel, one destination row and 16 destination channels. -/
def aSplit : AlgParam := { microD := 16, macroH := 1, macroC := 1, macroD := 16 }

/-- Blocks of two source channels. -/
def aWide : AlgParam := { microD := 16, macroH := 1, macroC := 2, macroD := 16 }

/-- A 1x2 kernel on a 1x2 image with two channels, no padding: inside the domain of the
engine. -/
def pTwo : ConvParam32f :=
  { srcC := 2, srcH := 1, srcW := 2, srcT := SimdTensorDataType.SimdTensorData32f,
    srcF := SimdTensorFormatType.SimdTensorFormatNhwc,
    dstC := 1, dstH := 1, dstW := 1, dstT := SimdTensorDataType.SimdTensorData32f,
    dstF := SimdTensorFormatType.SimdTensorFormatNhwc,
    kernelY := 1, kernelX := 2, dilationY := 1, dilationX := 1, strideY := 1, strideX := 1,
    padY := 0, padX := 0, padH := 0, padW := 0, group := 1,
    activation := SimdConvolutionActivationType.Identity, trans := true, batch := 1, gemm := 0 }

/-! ## Explicit zero padding -/

/-- The parameters of the same convolution on the explicitly padded source: the image grows by
the pads and all four pads are 0. -/
def padParams (p : ConvParam32f) : ConvParam32f :=
  { p with srcH := p.srcH + p.padY + p.padH, srcW := p.srcW + p.padX + p.padW,
           padY := 0, padX := 0, padH := 0, padW := 0 }

/-- The source surrounded by `padY` rows of zeros above, `padH` below, `padX` columns of zeros
on the left and `padW` on the right, as a channels-last tensor of
`(srcH + padY + padH) x (srcW + padX + padW)` pixels. -/
def padSource {α : Type} [LinearOrderedCommRing α] (p : ConvParam32f) (src : Nat → α)
    (i : Nat) : α :=
  let c := i % p.srcC
  let q := i / p.srcC % (p.srcW + p.padX + p.padW)
  let r := i / p.srcC / (p.srcW + p.padX + p.padW)
  if p.padY ≤ r ∧ r < p.padY + p.srcH ∧ p.padX ≤ q ∧ q < p.padX + p.srcW then
    src (((r - p.padY) * p.srcW + (q - p.padX)) * p.srcC + c)
  else 0

/-- A 3x1 kernel on a 1x1 image with one channel, padded by one row above and below:
`Valid()` holds, and the image is thinner than the kernel minus one. -/
def pThin : ConvParam32f :=
  { srcC := 1, srcH := 1, srcW := 1, srcT := SimdTensorDataType.SimdTensorData32f,
    srcF := SimdTensorFormatType.SimdTensorFormatNhwc,
    dstC := 1, dstH := 1, dstW := 1, dstT := SimdTensorDataType.SimdTensorData32f,
    dstF := SimdTensorFormatType.SimdTensorFormatNhwc,
    kernelY := 3, kernelX := 1, dilationY := 1, dilationX := 1, strideY := 1, strideX := 1,
    padY := 1, padX := 0, padH := 1, padW := 0, group := 1,
    activation := SimdConvolutionActivationType.Identity, trans := true, batch := 1, gemm := 0 }

/-! ## The shape invariant in ordinary integers -/

/-- The right-hand side of the shape invariant as the specification writes it,
`floor((src + pad0 + pad1 - (dilation * (kernel - 1) + 1)) / stride) + 1`, over the integers. -/
def ConvParam32f.shapeSpec (src pad0 pad1 dilation kernel stride : Nat) : Int :=
  Int.fdiv ((src : Int) + pad0 + pad1 - (dilation * ((kernel : Int) - 1) + 1)) stride + 1

/-- The condition the specification gives for `Valid()`: both shape equations in ordinary
integer arithmetic, positive destination sizes, 32-bit float elements, equal formats that are
NCHW or NHWC. -/
def ConvParam32f.ValidSpec (p : ConvParam32f) : Bool :=
  decide ((p.dstH : Int)
      = ConvParam32f.shapeSpec p.srcH p.padY p.padH p.dilationY p.kernelY p.strideY)
    && decide (0 < p.dstH)
    && decide ((p.dstW : Int)
      = ConvParam32f.shapeSpec p.srcW p.padX p.padW p.dilationX p.kernelX p.strideX)
    && decide (0 < p.dstW)
    && decide (p.srcT = SimdTensorDataType.SimdTensorData32f)
    && decide (p.dstT = SimdTensorDataType.SimdTensorData32f)
    && decide (p.srcF = p.dstF)
    && (decide (p.srcF = SimdTensorFormatType.SimdTensorFormatNchw)
      || decide (p.srcF = SimdTensorFormatType.SimdTensorFormatNhwc))

/-- A 3x1 kernel on a 1x1 image without padding, stride 2, and a destination height of
`2^63`. -/
def pWrap : ConvParam32f :=
  { srcC := 1, srcH := 1, srcW := 1, srcT := SimdTensorDataType.SimdTensorData32f,
    srcF := SimdTensorFormatType.SimdTensorFormatNhwc,
    dstC := 1, dstH := 9223372036854775808, dstW := 1,
    dstT := SimdTensorDataType.SimdTensorData32f,
    dstF := SimdTensorFormatType.SimdTensorFormatNhwc,
    kernelY := 3, kernelX := 1, dilationY := 1, dilationX := 1, strideY := 2, strideX := 1,
    padY := 0, padX := 0, padH := 0, padW := 0, group := 1,
    activation := SimdConvolutionActivationType.Identity, trans := true, batch := 1, gemm := 0 }

/-- A parameter set with 8-bit source elements and `strideY = 0`. -/
def pZeroStride : ConvParam32f :=
  { srcC := 1, srcH := 1, srcW := 1, srcT := SimdTensorDataType.SimdTensorData8u,
    srcF := SimdTensorFormatType.SimdTensorFormatNhwc,
    dstC := 1, dstH := 1, dstW := 1, dstT := SimdTensorDataType.SimdTensorData32f,
    dstF := SimdTensorFormatType.SimdTensorFormatNchw,
    kernelY := 1, kernelX := 1, dilationY := 1, dilationX := 1, strideY := 0, strideX := 1,
    padY := 0, padX := 0, padH := 0, padW := 0, group := 1,
    activation := SimdConvolutionActivationType.Identity, trans := false, batch := 1, gemm := 0 }

/-- A parameter set with consistent shape, non-zero strides and different source and
destination formats. -/
def pMixed : ConvParam32f :=
  { srcC := 1, srcH := 1, srcW := 1, srcT := SimdTensorDataType.SimdTensorData32f,
    srcF := SimdTensorFormatType.SimdTensorFormatNhwc,
    dstC := 1, dstH := 1, dstW := 1, dstT := SimdTensorDataType.SimdTensorData32f,
    dstF := SimdTensorFormatType.SimdTensorFormatNchw,
    kernelY := 1, kernelX := 1, dilationY := 1, dilationX := 1, strideY := 1, strideX := 1,
    padY := 0, padX := 0, padH := 0, padW := 0, group := 1,
    activation := SimdConvolutionActivationType.Identity, trans := false, batch := 1, gemm := 0 }

/-- A 1x1 convolution of a single pixel to 17 destination channels. -/
def p17 : ConvParam32f :=
  { srcC := 1, srcH := 1, srcW := 1, srcT := SimdTensorDataType.SimdTensorData32f,
    srcF := SimdTensorFormatType.SimdTensorFormatNhwc,
    dstC := 17, dstH := 1, dstW := 1, dstT := SimdTensorDataType.SimdTensorData32f,
    dstF := SimdTensorFormatType.SimdTensorFormatNhwc,
    kernelY := 1, kernelX := 1, dilationY := 1, dilationX := 1, strideY := 1, strideX := 1,
    padY := 0, padX := 0, padH := 0, padW := 0, group := 1,
    activation := SimdConvolutionActivationType.Identity, trans := true, batch := 1, gemm := 0 }

/-! ## Layout converters (`SimdBaseSynetConvert.cpp`) -/

/-- Modelled from the spec: `AlignLo(size, align)` is declared outside the reviewed sources; it
rounds `size` down to a multiple of the tile width `align` (for the tile widths 4, 8 and 16 of
the converters this is `size & ~(align - 1)`). -/
def AlignLo (size align : Nat) : Nat := size / align * align

/-- Writing the values `vals` one after the other through a destination pointer that starts at
`d` and moves forward by one after every write (`*(dst++) = v`, or `dst[i] = v` for all `i`
below the step followed by `dst += step`): the memory after the writes. -/
def storeSeq {α : Type} (vals : List α) (d : Nat) (dst : Nat → α) : Nat → α :=
  (vals.foldl (fun (st : (Nat → α) × Nat) v => (Function.update st.1 st.2 v, st.2 + 1))
    (dst, d)).1

section Converters

variable {α : Type} [Zero α]

/-- The values `SynetConvertImage_Chw_Hwc` writes, in program order:
`for (s...; ++s, src += 1, dst += channels) for (c...) dst[c] = src[c*spatial]`. -/
def SynetConvertImage_Chw_Hwc_values (channels spatial : Nat) (src : Nat → α) : List α :=
  (List.range spatial).flatMap fun s =>
    (List.range channels).map fun c => src (s + c * spatial)

/-- `SynetConvertImage_Chw_Hwc(channels, spatial, src, dst)`: the destination memory after the
call. -/
def SynetConvertImage_Chw_Hwc (channels spatial : Nat) (src dst : Nat → α) : Nat → α :=
  storeSeq (SynetConvertImage_Chw_Hwc_values channels spatial src) 0 dst

/-- `SynetConvertImage_Hwc_Chw`: the call `SynetConvertImage_Chw_Hwc(spatial, channels, src,
dst)`. -/
def SynetConvertImage_Hwc_Chw (channels spatial : Nat) (src dst : Nat → α) : Nat → α :=
  SynetConvertImage_Chw_Hwc spatial channels src dst

/-- The values `SynetConvertImage_Chw_ChwXc<N>` writes, in program order.  The outer loop
`for (c = 0; c < channels; c += N, src += N*spatial)` gives `(c, src)`; in it
`n = Min(channels, c + N) - c`, and for every `s` (`dst += N`, `ps += 1`) the first inner loop
writes `ps[i*spatial]` for `i < n` and the second one `0` for `n ≤ i < N`. -/
def SynetConvertImage_Chw_ChwXc_values (N channels spatial : Nat) (src : Nat → α) : List α :=
  (forRounds channels N (N * spatial) 0 0).flatMap fun cs =>
    let n := min channels (cs.1 + N) - cs.1
    (List.range spatial).flatMap fun s =>
      (List.range n).map (fun i => src (cs.2 + s + i * spatial)) ++ List.replicate (N - n) 0

/-- `SynetConvertImage_Chw_ChwXc<N>(channels, spatial, src, dst)`. -/
def SynetConvertImage_Chw_ChwXc (N channels spatial : Nat) (src dst : Nat → α) : Nat → α :=
  storeSeq (SynetConvertImage_Chw_ChwXc_values N channels spatial src) 0 dst

/-- The values `SynetConvertImage_Hwc_ChwXc<N>` writes, in program order.  The loop over whole
tiles `for (c = 0; c < channelsN; c += N, src += N)` copies `N` values for every `s`
(`psrc += channels`, `dst += N`); when `tail` is not 0, the last loop starts from the `src` the
first loop left and writes `tail` values and `N - tail` zeros for every `s`. -/
def SynetConvertImage_Hwc_ChwXc_values (N channels spatial : Nat) (src : Nat → α) : List α :=
  let channelsN := AlignLo channels N
  let tail := channels - channelsN
  let whole := forRounds channelsN N N 0 0
  (whole.flatMap fun cs =>
      (List.range spatial).flatMap fun s =>
        (List.range N).map fun i => src (cs.2 + s * channels + i))
    ++ (if tail ≠ 0 then
          (List.range spatial).flatMap fun s =>
            (List.range tail).map (fun i => src (whole.length * N + s * channels + i))
              ++ List.replicate (N - tail) 0
        else [])

/-- `SynetConvertImage_Hwc_ChwXc<N>(channels, spatial, src, dst)`. -/
def SynetConvertImage_Hwc_ChwXc (N channels spatial : Nat) (src dst : Nat → α) : Nat → α :=
  storeSeq (SynetConvertImage_Hwc_ChwXc_values N channels spatial src) 0 dst

end Converters

/-- The values `SynetConvertFilter_Oiyx_OyxiXo<N>` writes, in program order: for every round
of `for (o = 0; o < output; o += N)`, with `n = Min(output, o + N) - o`, for every `k` and
every `i`, the first inner loop writes `src[((o + j)*input + i)*kernel + k]` for `j < n` and
the second one `0` for `n ≤ j < N`. -/
def SynetConvertFilter_Oiyx_OyxiXo_values {α : Type} [Zero α] (N output input kernel : Nat)
    (src : Nat → α) : List α :=
  (forRounds output N 0 0 0).flatMap fun os =>
    let n := min output (os.1 + N) - os.1
    (List.range kernel).flatMap fun k =>
      (List.range input).flatMap fun i =>
        (List.range n).map (fun j => src (((os.1 + j) * input + i) * kernel + k))
          ++ List.replicate (N - n) 0

/-- `SynetConvertFilter_Oiyx_OyxiXo<N>(output, input, kernel, src, dst)`. -/
def SynetConvertFilter_Oiyx_OyxiXo {α : Type} [Zero α] (N output input kernel : Nat)
    (src dst : Nat → α) : Nat → α :=
  storeSeq (SynetConvertFilter_Oiyx_OyxiXo_values N output input kernel src) 0 dst

/-- The values `SynetConvertFilter_Yxio_OyxiXo<N>` writes, in program order.  The loop over
whole tiles `for (o = 0; o < outputN; o += N, src += N)` copies, for every `k` and `i`
(`dst += N`, `psrc += output`), the `N` values at `psrc`; when `outputN < output` the last
loops start from the `src` the first loop left and, for every `k` and `i` (`src += output`),
write `tail` values and `N - tail` zeros. -/
def SynetConvertFilter_Yxio_OyxiXo_values {α : Type} [Zero α] (N output input kernel : Nat)
    (src : Nat → α) : List α :=
  let outputN := AlignLo output N
  let whole := forRounds outputN N N 0 0
  (whole.flatMap fun os =>
      (List.range kernel).flatMap fun k =>
        (List.range input).flatMap fun i =>
          (List.range N).map fun j => src (os.2 + (k * input + i) * output + j))
    ++ (if outputN < output then
          let tail := output - outputN
          (List.range kernel).flatMap fun k =>
            (List.range input).flatMap fun i =>
              (List.range tail).map
                  (fun j => src (whole.length * N + (k * input + i) * output + j))
                ++ List.replicate (N - tail) 0
        else [])

/-- `SynetConvertFilter_Yxio_OyxiXo<N>(output, input, kernel, src, dst)`. -/
def SynetConvertFilter_Yxio_OyxiXo {α : Type} [Zero α] (N output input kernel : Nat)
    (src dst : Nat → α) : Nat → α :=
  storeSeq (SynetConvertFilter_Yxio_OyxiXo_values N output input kernel src) 0 dst

/-- The values `SynetConvertImage_ChwXc_Chw<N>` writes, in program order: for every round of
`for (c = 0; c < channels; c += N, src += N*spatial)`, with `ps = src`, for every
`i < n = Min(channels, c + N) - c` (`ps += 1`, `dst += spatial`) and every `s`, the value
`ps[s*N]`. -/
def SynetConvertImage_ChwXc_Chw_values {α : Type} (N channels spatial : Nat) (src : Nat → α) :
    List α :=
  (forRounds channels N (N * spatial) 0 0).flatMap fun cs =>
    let n := min channels (cs.1 + N) - cs.1
    (List.range n).flatMap fun i =>
      (List.range spatial).map fun s => src (cs.2 + i + s * N)

/-- `SynetConvertImage_ChwXc_Chw<N>(channels, spatial, src, dst)`. -/
def SynetConvertImage_ChwXc_Chw {α : Type} (N channels spatial : Nat) (src dst : Nat → α) :
    Nat → α :=
  storeSeq (SynetConvertImage_ChwXc_Chw_values N channels spatial src) 0 dst

/-- The values `SynetConvertImage_ChwXc_Hwc<N>` writes, in program order: for every `s`
(`src += N`), with `psrc = src`, the loop `for (c = 0; c < channelsN; c += N, psrc += stride,
dst += N)` copies the `N` values at `psrc`, and when `tail` is not 0 the values `psrc[i]`,
`i < tail`, follow, from the `psrc` that loop left. -/
def SynetConvertImage_ChwXc_Hwc_values {α : Type} (N channels spatial : Nat) (src : Nat → α) :
    List α :=
  let stride := N * spatial
  let channelsN := AlignLo channels N
  let tail := channels - channelsN
  (List.range spatial).flatMap fun s =>
    let whole := forRounds channelsN N stride 0 (s * N)
    (whole.flatMap fun cp => (List.range N).map fun i => src (cp.2 + i))
      ++ (if tail ≠ 0 then
            (List.range tail).map fun i => src (s * N + whole.length * stride + i)
          else [])

/-- `SynetConvertImage_ChwXc_Hwc<N>(channels, spatial, src, dst)`. -/
def SynetConvertImage_ChwXc_Hwc {α : Type} (N channels spatial : Nat) (src dst : Nat → α) :
    Nat → α :=
  storeSeq (SynetConvertImage_ChwXc_Hwc_values N channels spatial src) 0 dst

/-- The values `SynetConvertFilter_Oiyx_Yxio` writes, in program order: with
`stride = input * kernel`, for every `k` (`src += 1`), with `ps = src`, for every `i`
(`ps += kernel`) and every `o`, the value `ps[o * stride]`. -/
def SynetConvertFilter_Oiyx_Yxio_values {α : Type} (output input kernel : Nat)
    (src : Nat → α) : List α :=
  let stride := input * kernel
  (List.range kernel).flatMap fun k =>
    (List.range input).flatMap fun i =>
      (List.range output).map fun o => src (k + i * kernel + o * stride)

/-- `SynetConvertFilter_Oiyx_Yxio(output, input, kernel, src, dst)`. -/
def SynetConvertFilter_Oiyx_Yxio {α : Type} (output input kernel : Nat) (src dst : Nat → α) :
    Nat → α :=
  storeSeq (SynetConvertFilter_Oiyx_Yxio_values output input kernel src) 0 dst

/-- `SynetConvertFilter_Yxio_Oiyx`: the call
`SynetConvertFilter_Oiyx_Yxio(kernel, input, output, src, dst)`. -/
def SynetConvertFilter_Yxio_Oiyx {α : Type} (output input kernel : Nat) (src dst : Nat → α) :
    Nat → α :=
  SynetConvertFilter_Oiyx_Yxio kernel input output src dst

/-- The values `SynetConvertFilter_OyxiXo_Oiyx<N>` writes, in program order: for every round
of `for (o = 0; o < output; o += N, src += N*kernel*input)`, for every
`j < n = Min(output, o + N) - o`, every `i` and every `k`, the value
`src[(k*input + i)*N + j]`. -/
def SynetConvertFilter_OyxiXo_Oiyx_values {α : Type} (N output input kernel : Nat)
    (src : Nat → α) : List α :=
  (forRounds output N (N * kernel * input) 0 0).flatMap fun os =>
    let n := min output (os.1 + N) - os.1
    (List.range n).flatMap fun j =>
      (List.range input).flatMap fun i =>
        (List.range kernel).map fun k => src (os.2 + ((k * input + i) * N + j))

/-- `SynetConvertFilter_OyxiXo_Oiyx<N>(output, input, kernel, src, dst)`. -/
def SynetConvertFilter_OyxiXo_Oiyx {α : Type} (N output input kernel : Nat)
    (src dst : Nat → α) : Nat → α :=
  storeSeq (SynetConvertFilter_OyxiXo_Oiyx_values N output input kernel src) 0 dst

/-- The values `SynetConvertFilter_OyxiXo_Yxio<N>` writes, in program order: with
`stride = kernel * input * N`, for every `k` and every `i` (`src += N`), with `psrc = src`,
the loop `for (o = 0; o < outputN; o += N, psrc += stride, dst += N)` copies the `N` values at
`psrc`, and when `outputN < output` the values `psrc[j]`, `j < tail`, follow, from the `psrc`
that loop left. -/
def SynetConvertFilter_OyxiXo_Yxio_values {α : Type} (N output input kernel : Nat)
    (src : Nat → α) : List α :=
  let outputN := AlignLo output N
  let tail := output - outputN
  let stride := kernel * input * N
  (List.range kernel).flatMap fun k =>
    (List.range input).flatMap fun i =>
      let whole := forRounds outputN N stride 0 ((k * input + i) * N)
      (whole.flatMap fun op => (List.range N).map fun j => src (op.2 + j))
        ++ (if outputN < output then
              (List.range tail).map fun j => src ((k * input + i) * N + whole.length * stride + j)
            else [])

/-- `SynetConvertFilter_OyxiXo_Yxio<N>(output, input, kernel, src, dst)`. -/
def SynetConvertFilter_OyxiXo_Yxio {α : Type} (N output input kernel : Nat)
    (src dst : Nat → α) : Nat → α :=
  storeSeq (SynetConvertFilter_OyxiXo_Yxio_values N output input kernel src) 0 dst

/-- The routines `GetImageConverter` can return (`SynetImageConverterPtr`), by name; the
argument is the template argument `N`. -/
inductive SynetImageConverterPtr
  | Chw_Hwc
  | Chw_ChwXc (N : Nat)
  | Hwc_Chw
  | Hwc_ChwXc (N : Nat)
  | ChwXc_Chw (N : Nat)
  | ChwXc_Hwc (N : Nat)
  deriving DecidableEq, Repr

/-- The call `imageConverter(channels, spatial, src, dst)` through the pointer. -/
def SynetImageConverterPtr.call {α : Type} [Zero α] (f : SynetImageConverterPtr)
    (channels spatial : Nat) (src dst : Nat → α) : Nat → α :=
  match f with
  | .Chw_Hwc => SynetConvertImage_Chw_Hwc channels spatial src dst
  | .Chw_ChwXc N => SynetConvertImage_Chw_ChwXc N channels spatial src dst
  | .Hwc_Chw => SynetConvertImage_Hwc_Chw channels spatial src dst
  | .Hwc_ChwXc N => SynetConvertImage_Hwc_ChwXc N channels spatial src dst
  | .ChwXc_Chw N => SynetConvertImage_ChwXc_Chw N channels spatial src dst
  | .ChwXc_Hwc N => SynetConvertImage_ChwXc_Hwc N channels spatial src dst

/-- `GetImageConverter(src, dst)`; `none` is `NULL`. -/
def GetImageConverter (src dst : SimdTensorFormatType) : Option SynetImageConverterPtr :=
  if src = SimdTensorFormatNchw ∧ dst = SimdTensorFormatNhwc then some .Chw_Hwc
  else if src = SimdTensorFormatNchw ∧ dst = SimdTensorFormatNchw4c then some (.Chw_ChwXc 4)
  else if src = SimdTensorFormatNchw ∧ dst = SimdTensorFormatNchw8c then some (.Chw_ChwXc 8)
  else if src = SimdTensorFormatNchw ∧ dst = SimdTensorFormatNchw16c then some (.Chw_ChwXc 16)
  else if src = SimdTensorFormatNhwc ∧ dst = SimdTensorFormatNchw then some .Hwc_Chw
  else if src = SimdTensorFormatNhwc ∧ dst = SimdTensorFormatNchw4c then some (.Hwc_ChwXc 4)
  else if src = SimdTensorFormatNhwc ∧ dst = SimdTensorFormatNchw8c then some (.Hwc_ChwXc 8)
  else if src = SimdTensorFormatNhwc ∧ dst = SimdTensorFormatNchw16c then some (.Hwc_ChwXc 16)
  else if src = SimdTensorFormatNchw4c ∧ dst = SimdTensorFormatNchw then some (.ChwXc_Chw 4)
  else if src = SimdTensorFormatNchw4c ∧ dst = SimdTensorFormatNhwc then some (.ChwXc_Hwc 4)
  else if src = SimdTensorFormatNchw8c ∧ dst = SimdTensorFormatNchw then some (.ChwXc_Chw 8)
  else if src = SimdTensorFormatNchw8c ∧ dst = SimdTensorFormatNhwc then some (.ChwXc_Hwc 8)
  else if src = SimdTensorFormatNchw16c ∧ dst = SimdTensorFormatNchw then some (.ChwXc_Chw 16)
  else if src = SimdTensorFormatNchw16c ∧ dst = SimdTensorFormatNhwc then some (.ChwXc_Hwc 16)
  else none

/-- Modelled from the spec: `AlignHi(size, align)` is declared outside the reviewed sources; it
rounds `size` up to a multiple of `align`. -/
def AlignHi (size align : Nat) : Nat := (size + align - 1) / align * align

/-- Modelled from the spec: `SynetTensorAlignment(format)` is declared outside the reviewed
sources; it is the tile width of a channel-blocked format (4, 8 or 16) and 1 for every other
format. -/
def SynetTensorAlignment (format : SimdTensorFormatType) : Nat :=
  match format with
  | SimdTensorFormatNchw4c => 4
  | SimdTensorFormatNchw8c => 8
  | SimdTensorFormatNchw16c => 16
  | SimdTensorFormatOyxi4o => 4
  | SimdTensorFormatOyxi8o => 8
  | SimdTensorFormatOyxi16o => 16
  | _ => 1

/-- Modelled from the spec: `memcpy(dst + d, src + s, n * sizeof(float))` of the C library
copies `n` elements (the two buffers do not overlap). -/
def memcpy {α : Type} (src : Nat → α) (s : Nat) (dst : Nat → α) (d n : Nat) : Nat → α :=
  fun j => if d ≤ j ∧ j < d + n then src (s + (j - d)) else dst j

/-- A routine written for the pointers `src` and `dst`, called with `src + s` and `dst + d`. -/
def atOffset {α : Type} (f : (Nat → α) → (Nat → α) → Nat → α) (src : Nat → α) (s : Nat)
    (dst : Nat → α) (d : Nat) : Nat → α :=
  fun j => if d ≤ j then f (fun i => src (s + i)) (fun i => dst (d + i)) (j - d) else dst j

/-- The batch loop of `SynetConvertImage`: `for (n = 0; n < batch; ++n)` with
`src += srcStride`, `dst += dstStride` after each round; a round copies `srcStride` elements
when the formats are equal, and otherwise calls the converter after `assert(imageConverter)`
(`none`: the assertion fails). -/
def SynetConvertImage_loop {α : Type} [Zero α] (imageConverter : Option SynetImageConverterPtr)
    (same : Bool) (channels spatial srcStride dstStride : Nat) (src : Nat → α) :
    Nat → Nat → Nat → (Nat → α) → Option (Nat → α)
  | 0, _, _, dst => some dst
  | batch + 1, s, d, dst =>
    if same then
      SynetConvertImage_loop imageConverter same channels spatial srcStride dstStride src batch
        (s + srcStride) (d + dstStride) (memcpy src s dst d srcStride)
    else
      match imageConverter with
      | none => none
      | some f =>
        SynetConvertImage_loop imageConverter same channels spatial srcStride dstStride src
          batch (s + srcStride) (d + dstStride) (atOffset (f.call channels spatial) src s dst d)

/-- `SynetConvertImage(batch, channels, spatial, src, srcFormat, dst, dstFormat)`: the
destination memory after the call, `none` when an assertion fails. -/
def SynetConvertImage {α : Type} [Zero α] (batch channels spatial : Nat) (src : Nat → α)
    (srcFormat : SimdTensorFormatType) (dst : Nat → α) (dstFormat : SimdTensorFormatType) :
    Option (Nat → α) :=
  let imageConverter := GetImageConverter srcFormat dstFormat
  let srcStride := AlignHi channels (SynetTensorAlignment srcFormat) * spatial
  let dstStride := AlignHi channels (SynetTensorAlignment dstFormat) * spatial
  SynetConvertImage_loop imageConverter (decide (srcFormat = dstFormat)) channels spatial
    srcStride dstStride src batch 0 0 dst

/-- The routines `GetFilterConverter` can return (`SynetFilterConverterPtr`), by name; the
argument is the template argument `N`. -/
inductive SynetFilterConverterPtr
  | Oiyx_Yxio
  | Oiyx_OyxiXo (N : Nat)
  | Yxio_Oiyx
  | Yxio_OyxiXo (N : Nat)
  | OyxiXo_Oiyx (N : Nat)
  | OyxiXo_Yxio (N : Nat)
  deriving DecidableEq, Repr

/-- The call `filterConverter(output, input, kernel, src, dst)` through the pointer. -/
def SynetFilterConverterPtr.call {α : Type} [Zero α] (f : SynetFilterConverterPtr)
    (output input kernel : Nat) (src dst : Nat → α) : Nat → α :=
  match f with
  | .Oiyx_Yxio => SynetConvertFilter_Oiyx_Yxio output input kernel src dst
  | .Oiyx_OyxiXo N => SynetConvertFilter_Oiyx_OyxiXo N output input kernel src dst
  | .Yxio_Oiyx => SynetConvertFilter_Yxio_Oiyx output input kernel src dst
  | .Yxio_OyxiXo N => SynetConvertFilter_Yxio_OyxiXo N output input kernel src dst
  | .OyxiXo_Oiyx N => SynetConvertFilter_OyxiXo_Oiyx N output input kernel src dst
  | .OyxiXo_Yxio N => SynetConvertFilter_OyxiXo_Yxio N output input kernel src dst

/-- `GetFilterConverter(src, dst)`; `none` is `NULL`. -/
def GetFilterConverter (src dst : SimdTensorFormatType) : Option SynetFilterConverterPtr :=
  if src = SimdTensorFormatOiyx ∧ dst = SimdTensorFormatYxio then some .Oiyx_Yxio
  else if src = SimdTensorFormatOiyx ∧ dst = SimdTensorFormatOyxi4o then some (.Oiyx_OyxiXo 4)
  else if src = SimdTensorFormatOiyx ∧ dst = SimdTensorFormatOyxi8o then some (.Oiyx_OyxiXo 8)
  else if src = SimdTensorFormatOiyx ∧ dst = SimdTensorFormatOyxi16o then some (.Oiyx_OyxiXo 16)
  else if src = SimdTensorFormatYxio ∧ dst = SimdTensorFormatOiyx then some .Yxio_Oiyx
  else if src = SimdTensorFormatYxio ∧ dst = SimdTensorFormatOyxi4o then some (.Yxio_OyxiXo 4)
  else if src = SimdTensorFormatYxio ∧ dst = SimdTensorFormatOyxi8o then some (.Yxio_OyxiXo 8)
  else if src = SimdTensorFormatYxio ∧ dst = SimdTensorFormatOyxi16o then some (.Yxio_OyxiXo 16)
  else if src = SimdTensorFormatOyxi4o ∧ dst = SimdTensorFormatOiyx then some (.OyxiXo_Oiyx 4)
  else if src = SimdTensorFormatOyxi4o ∧ dst = SimdTensorFormatYxio then some (.OyxiXo_Yxio 4)
  else if src = SimdTensorFormatOyxi8o ∧ dst = SimdTensorFormatOiyx then some (.OyxiXo_Oiyx 8)
  else if src = SimdTensorFormatOyxi8o ∧ dst = SimdTensorFormatYxio then some (.OyxiXo_Yxio 8)
  else if src = SimdTensorFormatOyxi16o ∧ dst = SimdTensorFormatOiyx then some (.OyxiXo_Oiyx 16)
  else if src = SimdTensorFormatOyxi16o ∧ dst = SimdTensorFormatYxio then some (.OyxiXo_Yxio 16)
  else none

/-- `SynetConvertFilter(output, input, kernel, src, srcFormat, dst, dstFormat)`: the
destination memory after the call, `none` when `assert(filterConverter)` fails. -/
def SynetConvertFilter {α : Type} [Zero α] (output input kernel : Nat) (src : Nat → α)
    (srcFormat : SimdTensorFormatType) (dst : Nat → α) (dstFormat : SimdTensorFormatType) :
    Option (Nat → α) :=
  if srcFormat = dstFormat then
    let aligned := AlignHi output (SynetTensorAlignment srcFormat)
    some (memcpy src 0 dst 0 (aligned * input * kernel))
  else
    match GetFilterConverter srcFormat dstFormat with
    | none => none
    | some filterConverter => some (filterConverter.call output input kernel src dst)

/-- The image formats. -/
def IsImageFormat (f : SimdTensorFormatType) : Bool :=
  f = SimdTensorFormatNchw ∨ f = SimdTensorFormatNhwc ∨ f = SimdTensorFormatNchw4c
    ∨ f = SimdTensorFormatNchw8c ∨ f = SimdTensorFormatNchw16c

/-- The filter formats. -/
def IsFilterFormat (f : SimdTensorFormatType) : Bool :=
  f = SimdTensorFormatOiyx ∨ f = SimdTensorFormatYxio ∨ f = SimdTensorFormatOyxi4o
    ∨ f = SimdTensorFormatOyxi8o ∨ f = SimdTensorFormatOyxi16o

/-! ## Construction and scratch buffer (`SimdSynetConvolution32f.h`) -/

/-- The constructor `ConvParam32f::ConvParam32f(batch, conv, gemm)` as a sequence of assignments to the
object `self` under construction: `*((SimdConvolutionParameters*)this) = *conv`, then `trans`
from the copied `srcF`, then `batch` and `gemm`. -/
def ConvParam32f.ctor (self : ConvParam32f) (batch : Nat)
    (conv : SimdConvolutionParameters) (gemm : Nat) : ConvParam32f :=
  let s1 : ConvParam32f := { self with toSimdConvolutionParameters := conv }
  let s2 : ConvParam32f := { s1 with trans := decide (s1.srcF = SimdTensorFormatNhwc) }
  let s3 : ConvParam32f := { s2 with batch := batch }
  { s3 with gemm := gemm }

/-- Modelled from the spec: the array class of `_buffer` is declared outside the reviewed
sources; it holds the address `data` of its storage and its element count `size`. -/
structure Array32f where
  data : Nat
  size : Nat
  deriving DecidableEq, Repr

/-- Modelled from the spec: `Resize(size)` of the array class reallocates the storage when the
element count changes; `alloc` gives the address of newly allocated storage. -/
def Array32f.Resize (alloc : Nat → Nat) (a : Array32f) (size : Nat) : Array32f :=
  if size ≠ a.size then { data := alloc size, size := size } else a

/-- The members of `SynetConvolution32f` the scratch buffer selection touches or must leave
alone: the parameters, the engine-owned buffer and the addresses given to `SetParams`. -/
structure SynetConvolution32f where
  _param : ConvParam32f
  _buffer : Array32f
  _weight : Nat
  _bias : Nat
  _params : Nat
  deriving DecidableEq, Repr

/-- `SynetConvolution32f::ExternalBufferSize()` of the base class: `return 1`. -/
def SynetConvolution32f.ExternalBufferSize : Nat := 1

/-- `SynetConvolution32f::Buffer(buffer)`: the returned address and the object after the call.
`ExternalBufferSize` is the virtual method of the class of the object, `0` is the null
address. -/
def SynetConvolution32f.Buffer (alloc : Nat → Nat) (ExternalBufferSize : Nat)
    (self : SynetConvolution32f) (buffer : Nat) : Nat × SynetConvolution32f :=
  if buffer ≠ 0 then (buffer, self)
  else
    let self1 : SynetConvolution32f :=
      { self with _buffer := self._buffer.Resize alloc ExternalBufferSize }
    (self1._buffer.data, self1)

/-- An engine for the parameters `pPad` that owns no buffer yet. -/
def engineNoBuffer : SynetConvolution32f :=
  { _param := pPad, _buffer := { data := 0, size := 0 }, _weight := 0, _bias := 0,
    _params := 0 }

/-- A 1x2 kernel with dilation 2 on a 1x3 image with one channel, to one destination pixel:
`Valid()` holds. -/
def pDilX : ConvParam32f :=
  { srcC := 1, srcH := 1, srcW := 3, srcT := SimdTensorDataType.SimdTensorData32f,
    srcF := SimdTensorFormatType.SimdTensorFormatNhwc,
    dstC := 1, dstH := 1, dstW := 1, dstT := SimdTensorDataType.SimdTensorData32f,
    dstF := SimdTensorFormatType.SimdTensorFormatNhwc,
    kernelY := 1, kernelX := 2, dilationY := 1, dilationX := 2, strideY := 1, strideX := 1,
    padY := 0, padX := 0, padH := 0, padW := 0, group := 1,
    activation := SimdConvolutionActivationType.Identity, trans := true, batch := 1, gemm := 0 }

/-- The first call of the row pass over row 0 of `pPad`: the nose single of the corner
pixel. -/
def firstCallPad : MicroCall :=
  { direct1x1 := false, n := 1, src0 := 0, kernelH := 2, kernelW := 2, srcC := 2, dstC := 2,
    weight := 128, bias := 0, params := 0, slope := 0, dst := 0 }

/-- The destination indices a list of calls stores to, in program order. -/
def storeIndices (p : ConvParam32f) (cs : List MicroCall) : List Nat :=
  cs.flatMap fun c => (c.stores p).map fun st => st.2.2

/-- The destination pointers of the pixels of a list of calls, in program order. -/
def pixelPointers (p : ConvParam32f) (cs : List MicroCall) : List Nat :=
  cs.flatMap fun c => (List.range c.n).map fun i => c.dst + i * p.dstC

/-- The list `l` holds every index of `S` exactly once and no other index. -/
def OncePer (l : List Nat) (S : Nat → Prop) : Prop :=
  ∀ j, (S j → l.count j = 1) ∧ (¬ S j → l.count j = 0)

/-- A 2x1 kernel on a 1x1 image with one channel, no padding, `strideY = 2^64 - 1` and a
destination of 2 rows: `Valid()` holds because `srcH - kernelY` wraps to `2^64 - 1`; the kernel
is one larger than the image, and does not fit it. -/
def pSkip : ConvParam32f :=
  { srcC := 1, srcH := 1, srcW := 1, srcT := SimdTensorDataType.SimdTensorData32f,
    srcF := SimdTensorFormatType.SimdTensorFormatNhwc,
    dstC := 1, dstH := 2, dstW := 1, dstT := SimdTensorDataType.SimdTensorData32f,
    dstF := SimdTensorFormatType.SimdTensorFormatNhwc,
    kernelY := 2, kernelX := 1, dilationY := 1, dilationX := 1,
    strideY := 18446744073709551615, strideX := 1,
    padY := 0, padX := 0, padH := 0, padW := 0, group := 1,
    activation := SimdConvolutionActivationType.Identity, trans := true, batch := 1, gemm := 0 }

/-! ## The macro loop nest of the drivers -/

/-- The loop variables of a driver at a call of the row pass: the block of destination
channels `[dc, dc + macroD)`, the block of source channels `[sc, sc + macroC)` and the block of
rows `[yBeg, yEnd)`. -/
structure MacroBlock where
  dc : Nat
  macroD : Nat
  sc : Nat
  macroC : Nat
  yBeg : Nat
  yEnd : Nat
  deriving DecidableEq, Repr

/-- The loop `for (yBeg = 0; yBeg < p.dstH;) { yEnd = Min(yBeg + a.macroH, p.dstH); ...;
yBeg = yEnd; }` of a driver from `yBeg` on, as `driverRows`, over what is recorded of a row
pass: `pass blk weight params` is the record of the row pass called for the block `blk` with
the pointers `weight` and `params`, `none` when it does not return. -/
def driverRowsOf {β : Type} (p : ConvParam32f) (a : AlgParam)
    (pass : MacroBlock → Nat → Nat → Option (List β)) (dc macroD sc macroC weight params : Nat) :
    Nat → Nat → Option (List β)
  | 0, yBeg => if yBeg < p.dstH then none else some []
  | fuel + 1, yBeg =>
    if yBeg < p.dstH then
      let yEnd := min (yBeg + a.macroH) p.dstH
      match pass { dc := dc, macroD := macroD, sc := sc, macroC := macroC, yBeg := yBeg,
                   yEnd := yEnd } weight params,
          driverRowsOf p a pass dc macroD sc macroC weight params fuel yEnd with
      | some r, some rest => some (r ++ rest)
      | _, _ => none
    else some []

/-- The loop `for (sc = 0; sc < p.srcC; sc += a.macroC)` of a driver from `sc` on, as
`driverChannels`, over what is recorded of a row pass; the result is the records and `weight`
after the loop. -/
def driverChannelsOf {β : Type} (direct1x1 : Bool) (p : ConvParam32f) (a : AlgParam)
    (pass : MacroBlock → Nat → Nat → Option (List β)) (dc macroD params : Nat) :
    Nat → Nat → Nat → Option (List β × Nat)
  | 0, sc, weight => if sc < p.srcC then none else some ([], weight)
  | fuel + 1, sc, weight =>
    if sc < p.srcC then
      let macroC := min p.srcC (sc + a.macroC) - sc
      let macroK := (if direct1x1 then 1 else p.kernelY * p.kernelX) * macroC
      match driverRowsOf p a pass dc macroD sc macroC weight params p.dstH 0,
          AlignHiAny macroD a.microD with
      | some rs, some aD =>
        match driverChannelsOf direct1x1 p a pass dc macroD params fuel (sc + a.macroC)
            (weight + aD * macroK) with
        | some rest => some (rs ++ rest.1, rest.2)
        | none => none
      | _, _ => none
    else some ([], weight)

/-- The parameter sets on which the row pass splits a row and a column range into nose, body
and tail without wrap-around: `Valid()` holds (so the strides are not zero), no dilation, no pad
larger than the kernel, the kernel at most one larger than the image, and no counter of the row
pass reaches `2 ^ 64` (see `ConvParam32f.InDomain`). -/
structure ConvParam32f.InRegionDomain (p : ConvParam32f) : Prop where
  valid : p.Valid = some true
  dilationY : p.dilationY = 1
  dilationX : p.dilationX = 1
  padY : p.padY ≤ p.kernelY
  padH : p.padH ≤ p.kernelY
  padX : p.padX ≤ p.kernelX
  padW : p.padW ≤ p.kernelX
  srcH : p.kernelY ≤ p.srcH + 1
  srcW : p.kernelX ≤ p.srcW + 1
  sizeY : p.srcH + 1 + p.padY + p.padH + p.strideY ≤ sizeMod + p.kernelY
  sizeX : p.srcW + 1 + p.padX + p.padW + p.strideX ≤ sizeMod + p.kernelX
  stride6 : 6 * p.strideX < sizeMod
  sizeKY : p.kernelY < sizeMod
  sizeKX : p.kernelX < sizeMod

/-- A 1x1 convolution of a 2x2 image with 2 channels to 2 channels: `Is1x1()` and `Valid()`
hold. -/
def pOne : ConvParam32f :=
  { srcC := 2, srcH := 2, srcW := 2, srcT := SimdTensorDataType.SimdTensorData32f,
    srcF := SimdTensorFormatType.SimdTensorFormatNhwc,
    dstC := 2, dstH := 2, dstW := 2, dstT := SimdTensorDataType.SimdTensorData32f,
    dstF := SimdTensorFormatType.SimdTensorFormatNhwc,
    kernelY := 1, kernelX := 1, dilationY := 1, dilationX := 1, strideY := 1, strideX := 1,
    padY := 0, padX := 0, padH := 0, padW := 0, group := 1,
    activation := SimdConvolutionActivationType.Relu, trans := true, batch := 1, gemm := 0 }

/-- A 1x1 convolution of a 1x1 image without source channels to one destination channel:
`Valid()` holds. -/
def pNoSource : ConvParam32f :=
  { srcC := 0, srcH := 1, srcW := 1, srcT := SimdTensorDataType.SimdTensorData32f,
    srcF := SimdTensorFormatType.SimdTensorFormatNhwc,
    dstC := 1, dstH := 1, dstW := 1, dstT := SimdTensorDataType.SimdTensorData32f,
    dstF := SimdTensorFormatType.SimdTensorFormatNhwc,
    kernelY := 1, kernelX := 1, dilationY := 1, dilationX := 1, strideY := 1, strideX := 1,
    padY := 0, padX := 0, padH := 0, padW := 0, group := 1,
    activation := SimdConvolutionActivationType.Identity, trans := true, batch := 1, gemm := 0 }

/-- The parameters `pDilX` with 17 destination channels: a 1x2 kernel with dilation 2 on a
1x3 image with one channel, to one destination pixel of 17 channels; `Valid()` holds. -/
def pDilX17 : ConvParam32f := { pDilX with dstC := 17 }

/-- Blocks of one destination row and 16 destination channels for a tensor without source
channels: `macroC = srcC = 0`. -/
def aNoSource : AlgParam := { microD := 16, macroH := 1, macroC := 0, macroD := 16 }

/-- `ConvParam32f::IsDepthwise`. -/
def ConvParam32f.IsDepthwise (p : ConvParam32f) : Bool :=
  decide (p.srcC = p.group) && decide (p.dstC = p.group)

/-- Four vectors of floats: `QF = 4 * F`. -/
abbrev QF : Nat := 32

/-- The memory after the stores `ws`, each an address and a value, made in program order. -/
def storeAll {α : Type} (ws : List (Nat × α)) (dst : Nat → α) : Nat → α :=
  ws.foldl (fun m w => Function.update m w.1 w.2) dst

/-- The stores `ws` write the addresses of `[lo, hi)` and no other, and every store to an
address `j` writes `g j`. -/
def Covers {α : Type} (ws : List (Nat × α)) (lo hi : Nat) (g : Nat → α) : Prop :=
  (∀ w ∈ ws, lo ≤ w.1 ∧ w.1 < hi ∧ w.2 = g w.1) ∧ ∀ j, lo ≤ j → j < hi → ∃ w ∈ ws, w.1 = j

section Layers

variable {α : Type} [LinearOrderedCommRing α]

/-- Modelled from the spec: `Base::SynetPreluLayerForward(src, slope)` is declared outside the
reviewed sources; it is the scalar PReLU `max(0, src) + slope*min(0, src)`
("PReLU `x>0?x:slope[channel]·x`"). -/
def Base.SynetPreluLayerForward (src slope : α) : α := max 0 src + slope * min 0 src

/-- `Avx::SynetPreluLayerForward<align>(src, slope, dst, offset)` with `slope` a pointer: the
stores of `Store<align>(dst + offset, pos + _slope*neg)`, lane by lane.  `sp` and `dp` are the
pointers `src` and `dst`, `lp` is the pointer `slope`. -/
def Avx.SynetPreluLayerForward (src slope : Nat → α) (sp lp dp offset : Nat) : List (Nat × α) :=
  (List.range F).map fun l =>
    (dp + offset + l,
      max 0 (src (sp + offset + l)) + slope (lp + offset + l) * min 0 (src (sp + offset + l)))

/-- `Avx::SynetPreluLayerForward<align>(src, slope, dst, offset)` with `slope` a register. -/
def Avx.SynetPreluLayerForward_reg (src : Nat → α) (slope : Nat → α) (sp dp offset : Nat) :
    List (Nat × α) :=
  (List.range F).map fun l =>
    (dp + offset + l, max 0 (src (sp + offset + l)) + slope l * min 0 (src (sp + offset + l)))

/-- The stores of `Avx::SynetPreluLayerForwardNchw<align>`, in program order.  The loop over
`c` moves `src` and `dst` by `spatial`; in it `s` runs through the rounds of four vectors
(`s < aligned`), then of one vector (`s < partial`), both only if `partial` is not 0, then
through the scalar rounds up to `spatial`. -/
def Avx.SynetPreluLayerForwardNchw_stores (_align : Bool) (src slope : Nat → α)
    (channels spatial : Nat) : List (Nat × α) :=
  let aligned := AlignLo spatial QF
  let partialF := AlignLo spatial F
  (forRounds channels 1 spatial 0 0).flatMap fun cp =>
    let _slope : Nat → α := fun _ => slope cp.1
    let quads := if partialF ≠ 0 then forRounds aligned QF 0 0 0 else []
    let s1 := quads.length * QF
    let singles := if partialF ≠ 0 then forRounds partialF F 0 s1 0 else []
    let s2 := s1 + singles.length * F
    (quads.flatMap fun sd =>
        Avx.SynetPreluLayerForward_reg src _slope cp.2 cp.2 (sd.1 + F * 0)
          ++ Avx.SynetPreluLayerForward_reg src _slope cp.2 cp.2 (sd.1 + F * 1)
          ++ Avx.SynetPreluLayerForward_reg src _slope cp.2 cp.2 (sd.1 + F * 2)
          ++ Avx.SynetPreluLayerForward_reg src _slope cp.2 cp.2 (sd.1 + F * 3))
      ++ (singles.flatMap fun sd => Avx.SynetPreluLayerForward_reg src _slope cp.2 cp.2 sd.1)
      ++ (forRounds spatial 1 0 s2 0).map fun sd =>
          (cp.2 + sd.1, Base.SynetPreluLayerForward (src (cp.2 + sd.1)) (slope cp.1))

/-- `Avx::SynetPreluLayerForwardNchw(src, slope, channels, spatial, dst)`: the destination
memory after the call; `isAligned` is the outcome of
`Aligned(src) && Aligned(spatial, F) && Aligned(dst)`. -/
def Avx.SynetPreluLayerForwardNchw (isAligned : Bool) (src slope : Nat → α)
    (channels spatial : Nat) (dst : Nat → α) : Nat → α :=
  if isAligned then
    storeAll (Avx.SynetPreluLayerForwardNchw_stores true src slope channels spatial) dst
  else storeAll (Avx.SynetPreluLayerForwardNchw_stores false src slope channels spatial) dst

/-- The stores of `Avx::SynetPreluLayerForwardNhwc<align>`, in program order.  The loop over
`s` moves `src` and `dst` by `channels`; in it `c` runs through the rounds of four vectors,
then of one vector, both only if `partial` is not 0, then through the scalar rounds up to
`channels`. -/
def Avx.SynetPreluLayerForwardNhwc_stores (_align : Bool) (src slope : Nat → α)
    (channels spatial : Nat) : List (Nat × α) :=
  let aligned := AlignLo channels QF
  let partialF := AlignLo channels F
  (forRounds spatial 1 channels 0 0).flatMap fun sp =>
    let quads := if partialF ≠ 0 then forRounds aligned QF 0 0 0 else []
    let c1 := quads.length * QF
    let singles := if partialF ≠ 0 then forRounds partialF F 0 c1 0 else []
    let c2 := c1 + singles.length * F
    (quads.flatMap fun cd =>
        Avx.SynetPreluLayerForward src slope sp.2 0 sp.2 (cd.1 + F * 0)
          ++ Avx.SynetPreluLayerForward src slope sp.2 0 sp.2 (cd.1 + F * 1)
          ++ Avx.SynetPreluLayerForward src slope sp.2 0 sp.2 (cd.1 + F * 2)
          ++ Avx.SynetPreluLayerForward src slope sp.2 0 sp.2 (cd.1 + F * 3))
      ++ (singles.flatMap fun cd => Avx.SynetPreluLayerForward src slope sp.2 0 sp.2 cd.1)
      ++ (forRounds channels 1 0 c2 0).map fun cd =>
          (sp.2 + cd.1, Base.SynetPreluLayerForward (src (sp.2 + cd.1)) (slope cd.1))

/-- `Avx::SynetPreluLayerForwardNhwc(src, slope, channels, spatial, dst)`: the destination
memory after the call; `isAligned` is the outcome of
`Aligned(src) && Aligned(slope) && Aligned(channels, F) && Aligned(dst)`. -/
def Avx.SynetPreluLayerForwardNhwc (isAligned : Bool) (src slope : Nat → α)
    (channels spatial : Nat) (dst : Nat → α) : Nat → α :=
  if isAligned then
    storeAll (Avx.SynetPreluLayerForwardNhwc_stores true src slope channels spatial) dst
  else storeAll (Avx.SynetPreluLayerForwardNhwc_stores false src slope channels spatial) dst

/-- `Avx::SynetScaleLayerForward<align>(src, scale, bias, dst, offset)` with pointers `scale`
and `bias`: the stores of `Store<align>(dst + offset, src*scale + bias)`, lane by lane.  `sp`
and `dp` are the pointers `src` and `dst`. -/
def Avx.SynetScaleLayerForward_bias (src scale bias : Nat → α) (sp dp offset : Nat) :
    List (Nat × α) :=
  (List.range F).map fun l =>
    (dp + offset + l, src (sp + offset + l) * scale (offset + l) + bias (offset + l))

/-- `Avx::SynetScaleLayerForward<align>(src, scale, dst, offset)` with a pointer `scale`. -/
def Avx.SynetScaleLayerForward (src scale : Nat → α) (sp dp offset : Nat) : List (Nat × α) :=
  (List.range F).map fun l => (dp + offset + l, src (sp + offset + l) * scale (offset + l))

/-- `Avx::SynetScaleLayerForward<align>(src, scale, bias, dst, offset)` with registers `scale`
and `bias`. -/
def Avx.SynetScaleLayerForward_reg_bias (src scale bias : Nat → α) (sp dp offset : Nat) :
    List (Nat × α) :=
  (List.range F).map fun l => (dp + offset + l, src (sp + offset + l) * scale l + bias l)

/-- `Avx::SynetScaleLayerForward<align>(src, scale, dst, offset)` with a register `scale`. -/
def Avx.SynetScaleLayerForward_reg (src scale : Nat → α) (sp dp offset : Nat) :
    List (Nat × α) :=
  (List.range F).map fun l => (dp + offset + l, src (sp + offset + l) * scale l)

/-- The stores of the template `Avx::SynetScaleLayerForwardNhwc<align>`, in program order; a
null `bias` is `none`.  The loop over `s` moves `src` and `dst` by `channels`; in it `c` runs
through the rounds of four vectors, then of one vector, both only if `partial` is not 0, then
through the scalar rounds up to `channels`. -/
def Avx.SynetScaleLayerForwardNhwc_stores (_align : Bool) (src scale : Nat → α)
    (bias : Option (Nat → α)) (channels spatial : Nat) : List (Nat × α) :=
  let aligned := AlignLo channels QF
  let partialF := AlignLo channels F
  match bias with
  | some bias =>
    (forRounds spatial 1 channels 0 0).flatMap fun sp =>
      let quads := if partialF ≠ 0 then forRounds aligned QF 0 0 0 else []
      let c1 := quads.length * QF
      let singles := if partialF ≠ 0 then forRounds partialF F 0 c1 0 else []
      let c2 := c1 + singles.length * F
      (quads.flatMap fun cd =>
          Avx.SynetScaleLayerForward_bias src scale bias sp.2 sp.2 (cd.1 + F * 0)
            ++ Avx.SynetScaleLayerForward_bias src scale bias sp.2 sp.2 (cd.1 + F * 1)
            ++ Avx.SynetScaleLayerForward_bias src scale bias sp.2 sp.2 (cd.1 + F * 2)
            ++ Avx.SynetScaleLayerForward_bias src scale bias sp.2 sp.2 (cd.1 + F * 3))
        ++ (singles.flatMap fun cd =>
              Avx.SynetScaleLayerForward_bias src scale bias sp.2 sp.2 cd.1)
        ++ (forRounds channels 1 0 c2 0).map fun cd =>
            (sp.2 + cd.1, src (sp.2 + cd.1) * scale cd.1 + bias cd.1)
  | none =>
    (forRounds spatial 1 channels 0 0).flatMap fun sp =>
      let quads := if partialF ≠ 0 then forRounds aligned QF 0 0 0 else []
      let c1 := quads.length * QF
      let singles := if partialF ≠ 0 then forRounds partialF F 0 c1 0 else []
      let c2 := c1 + singles.length * F
      (quads.flatMap fun cd =>
          Avx.SynetScaleLayerForward src scale sp.2 sp.2 (cd.1 + F * 0)
            ++ Avx.SynetScaleLayerForward src scale sp.2 sp.2 (cd.1 + F * 1)
            ++ Avx.SynetScaleLayerForward src scale sp.2 sp.2 (cd.1 + F * 2)
            ++ Avx.SynetScaleLayerForward src scale sp.2 sp.2 (cd.1 + F * 3))
        ++ (singles.flatMap fun cd => Avx.SynetScaleLayerForward src scale sp.2 sp.2 cd.1)
        ++ (forRounds channels 1 0 c2 0).map fun cd =>
            (sp.2 + cd.1, src (sp.2 + cd.1) * scale cd.1)

/-- The template `Avx::SynetScaleLayerForwardNhwc<align>(src, scale, bias, channels, spatial,
dst)`: the destination memory after the call. -/
def Avx.SynetScaleLayerForwardNhwc_generic (align : Bool) (src scale : Nat → α)
    (bias : Option (Nat → α)) (channels spatial : Nat) (dst : Nat → α) : Nat → α :=
  storeAll (Avx.SynetScaleLayerForwardNhwc_stores align src scale bias channels spatial) dst

/-- The local array `_scale[F*3]` (or `_bias[F*3]`) of `SynetScaleLayerForwardNhwc3` after
`for (i < F) for (c < 3) _scale[i*3 + c] = scale[c]`. -/
def Avx.SynetScaleLayerForwardNhwc3_pattern (scale : Nat → α) : Nat → α :=
  storeAll ((List.range F).flatMap fun i => (List.range 3).map fun c => (i * 3 + c, scale c))
    (fun _ => 0)

/-- The stores of `Avx::SynetScaleLayerForwardNhwc3<align>`, in program order; a null `bias` is
`none`.  If `spatialF3` is not 0, the rounds of `for (; s < spatialF3; s += F*3)` store three
vectors with the registers `_scale0, _scale1, _scale2` loaded from `_scale + 0*F, 1*F, 2*F`;
then the rounds of `for (; s < spatial3; s += 3)` store three scalars. -/
def Avx.SynetScaleLayerForwardNhwc3_stores (_align : Bool) (src scale : Nat → α)
    (bias : Option (Nat → α)) (spatial : Nat) : List (Nat × α) :=
  let spatial3 := spatial * 3
  let spatialF3 := AlignLo spatial F * 3
  match bias with
  | some bias =>
    let _scale := Avx.SynetScaleLayerForwardNhwc3_pattern scale
    let _bias := Avx.SynetScaleLayerForwardNhwc3_pattern bias
    let _scale0 : Nat → α := fun l => _scale (0 * F + l)
    let _scale1 : Nat → α := fun l => _scale (1 * F + l)
    let _scale2 : Nat → α := fun l => _scale (2 * F + l)
    let _bias0 : Nat → α := fun l => _bias (0 * F + l)
    let _bias1 : Nat → α := fun l => _bias (1 * F + l)
    let _bias2 : Nat → α := fun l => _bias (2 * F + l)
    let vectors := if spatialF3 ≠ 0 then forRounds spatialF3 (F * 3) 0 0 0 else []
    let s1 := vectors.length * (F * 3)
    (vectors.flatMap fun sd =>
        Avx.SynetScaleLayerForward_reg_bias src _scale0 _bias0 0 0 (sd.1 + F * 0)
          ++ Avx.SynetScaleLayerForward_reg_bias src _scale1 _bias1 0 0 (sd.1 + F * 1)
          ++ Avx.SynetScaleLayerForward_reg_bias src _scale2 _bias2 0 0 (sd.1 + F * 2))
      ++ (forRounds spatial3 3 0 s1 0).flatMap fun sd =>
          [(sd.1 + 0, src (sd.1 + 0) * scale 0 + bias 0),
            (sd.1 + 1, src (sd.1 + 1) * scale 1 + bias 1),
            (sd.1 + 2, src (sd.1 + 2) * scale 2 + bias 2)]
  | none =>
    let _scale := Avx.SynetScaleLayerForwardNhwc3_pattern scale
    let _scale0 : Nat → α := fun l => _scale (0 * F + l)
    let _scale1 : Nat → α := fun l => _scale (1 * F + l)
    let _scale2 : Nat → α := fun l => _scale (2 * F + l)
    let vectors := if spatialF3 ≠ 0 then forRounds spatialF3 (F * 3) 0 0 0 else []
    let s1 := vectors.length * (F * 3)
    (vectors.flatMap fun sd =>
        Avx.SynetScaleLayerForward_reg src _scale0 0 0 (sd.1 + F * 0)
          ++ Avx.SynetScaleLayerForward_reg src _scale1 0 0 (sd.1 + F * 1)
          ++ Avx.SynetScaleLayerForward_reg src _scale2 0 0 (sd.1 + F * 2))
      ++ (forRounds spatial3 3 0 s1 0).flatMap fun sd =>
          [(sd.1 + 0, src (sd.1 + 0) * scale 0), (sd.1 + 1, src (sd.1 + 1) * scale 1),
            (sd.1 + 2, src (sd.1 + 2) * scale 2)]

/-- `Avx::SynetScaleLayerForwardNhwc3<align>(src, scale, bias, spatial, dst)`: the destination
memory after the call. -/
def Avx.SynetScaleLayerForwardNhwc3 (align : Bool) (src scale : Nat → α)
    (bias : Option (Nat → α)) (spatial : Nat) (dst : Nat → α) : Nat → α :=
  storeAll (Avx.SynetScaleLayerForwardNhwc3_stores align src scale bias spatial) dst

/-- `Avx::SynetScaleLayerForwardNhwc(src, scale, bias, channels, spatial, dst)`, the
dispatcher: `aligned3` is the outcome of `Aligned(src) && Aligned(dst)` and `aligned` the one
of `Aligned(src) && Aligned(scale) && Aligned(bias) && Aligned(channels, F) && Aligned(dst)`. -/
def Avx.SynetScaleLayerForwardNhwc (aligned3 aligned : Bool) (src scale : Nat → α)
    (bias : Option (Nat → α)) (channels spatial : Nat) (dst : Nat → α) : Nat → α :=
  if channels = 3 then
    if aligned3 then Avx.SynetScaleLayerForwardNhwc3 true src scale bias spatial dst
    else Avx.SynetScaleLayerForwardNhwc3 false src scale bias spatial dst
  else
    if aligned then
      Avx.SynetScaleLayerForwardNhwc_generic true src scale bias channels spatial dst
    else Avx.SynetScaleLayerForwardNhwc_generic false src scale bias channels spatial dst

end Layers

/-- A load of eight consecutive floats by the inner product: `_mm256_loadu_ps(S0 + k)` from
the source, or `_mm256_loadu_ps(W + k)` with `k` counted from the first weight of the output
`row`. -/
inductive Avx.Load
  | src (k : Int)
  | weight (row : Nat) (k : Int)
  deriving DecidableEq, Repr

/-- The loads of `Avx::SynetInnerProductLayerForward1` for the output `row`, in program
order. -/
def Avx.SynetInnerProductLayerForward1_loads (row K : Nat) : List Avx.Load :=
  let K8 := K / 8 * 8
  let K32 := K / 32 * 32
  let rounds32 := if K32 ≠ 0 then forRounds K32 32 0 0 0 else []
  let k1 := rounds32.length * 32
  (rounds32.flatMap fun kd =>
      [Avx.Load.src ((kd.1 + 0 * F : Nat) : Int), Avx.Load.src ((kd.1 + 1 * F : Nat) : Int),
        Avx.Load.weight row ((kd.1 + 0 * F : Nat) : Int),
        Avx.Load.weight row ((kd.1 + 1 * F : Nat) : Int),
        Avx.Load.src ((kd.1 + 2 * F : Nat) : Int), Avx.Load.src ((kd.1 + 3 * F : Nat) : Int),
        Avx.Load.weight row ((kd.1 + 2 * F : Nat) : Int),
        Avx.Load.weight row ((kd.1 + 3 * F : Nat) : Int)])
    ++ ((forRounds K8 8 0 k1 0).flatMap fun kd =>
      [Avx.Load.src ((kd.1 : Nat) : Int), Avx.Load.weight row ((kd.1 : Nat) : Int)])
    ++ (if K8 < K then
        [Avx.Load.src ((K : Int) - 8), Avx.Load.weight row ((K : Int) - 8)]
      else [])

/-- The loads of `Avx::SynetInnerProductLayerForward4` for the outputs `row, …, row + 3`, in
program order. -/
def Avx.SynetInnerProductLayerForward4_loads (row K : Nat) : List Avx.Load :=
  let K8 := K / 8 * 8
  let K16 := K / 16 * 16
  let rounds16 := if K16 ≠ 0 then forRounds K16 16 0 0 0 else []
  let k1 := rounds16.length * 16
  (rounds16.flatMap fun kd =>
      [Avx.Load.src ((kd.1 + 0 * F : Nat) : Int), Avx.Load.src ((kd.1 + 1 * F : Nat) : Int)]
        ++ (List.range 4).flatMap fun r =>
          [Avx.Load.weight (row + r) ((kd.1 + 0 * F : Nat) : Int),
            Avx.Load.weight (row + r) ((kd.1 + 1 * F : Nat) : Int)])
    ++ ((forRounds K8 8 0 k1 0).flatMap fun kd =>
      Avx.Load.src ((kd.1 + 0 * F : Nat) : Int)
        :: (List.range 4).map fun r => Avx.Load.weight (row + r) ((kd.1 + 0 * F : Nat) : Int))
    ++ (if K8 < K then
        Avx.Load.src ((K : Int) - 8)
          :: (List.range 4).map fun r => Avx.Load.weight (row + r) ((K : Int) - 8 + (0 * F : Nat))
      else [])

/-- The loads of `Avx::SynetInnerProductLayerForward`, in program order. -/
def Avx.SynetInnerProductLayerForward_loads (count size : Nat) : List Avx.Load :=
  let count4 := AlignLo count 4
  let fours := forRounds count4 4 0 0 0
  let i1 := fours.length * 4
  (fours.flatMap fun id => Avx.SynetInnerProductLayerForward4_loads id.1 size)
    ++ (forRounds count 1 0 i1 0).flatMap fun id =>
        Avx.SynetInnerProductLayerForward1_loads id.1 size

/-- The eight floats of a load lie in the buffer they are meant for: in `src[0, size)`, or in
the `size` weights of an output `row` below `count`. -/
def Avx.Load.InBounds (count size : Nat) : Avx.Load → Prop
  | Avx.Load.src k => 0 ≤ k ∧ k + 8 ≤ size
  | Avx.Load.weight row k => row < count ∧ 0 ≤ k ∧ k + 8 ≤ size

/-! ## Kernel selection at construction (`SimdAvx2SynetConvolution32fNhwcDirect.cpp`) -/

/-- The kernels the constructor can install in `_convolution` (`ConvolutionPtr`), by name and
template argument. -/
inductive ConvolutionPtr
  | ConvolutionNhwcDirect_2 (type : SimdConvolutionActivationType)
  | ConvolutionNhwcDirect1x1_2 (type : SimdConvolutionActivationType)
  deriving DecidableEq, Repr

/-- The call `_convolution(src, p, a, weight, bias, params, dst)` through the pointer. -/
def ConvolutionPtr.call {α : Type} [LinearOrderedCommRing α] (ex : α → α) (f : ConvolutionPtr)
    (src : Nat → α) (p : ConvParam32f) (a : AlgParam) (weight bias params dst : Nat → α) :
    Option (Nat → α) :=
  match f with
  | .ConvolutionNhwcDirect_2 type =>
    Simd.ConvolutionNhwcDirect_2 ex type src p a weight bias params dst
  | .ConvolutionNhwcDirect1x1_2 type =>
    Simd.ConvolutionNhwcDirect1x1_2 ex type src p a weight bias params dst

/-- Modelled from the spec: a value of the enumeration `SimdConvolutionActivationType`, which
is declared outside the reviewed sources: one of the six kinds of the activation table, or
another value, for which the sources have no case. -/
inductive ActivationValue
  | kind (type : SimdConvolutionActivationType)
  | other
  deriving DecidableEq, Repr

/-- `Set<type>(p, microD, convolution)`: the value of `convolution` after the call, `none` when
`assert(0)` is reached. -/
def Avx2.Set (type : SimdConvolutionActivationType) (p : ConvParam32f) (microD : Nat)
    (_convolution : Option ConvolutionPtr) : Option (Option ConvolutionPtr) :=
  if p.Is1x1 then
    if microD = 2 * F then some (some (ConvolutionPtr.ConvolutionNhwcDirect1x1_2 type)) else none
  else
    if microD = 2 * F then some (some (ConvolutionPtr.ConvolutionNhwcDirect_2 type)) else none

/-- The members of the engine `Avx2::SynetConvolution32fNhwcDirect` its constructor sets. -/
structure Avx2.SynetConvolution32fNhwcDirect where
  _convolution : Option ConvolutionPtr
  _alg : AlgParam
  deriving DecidableEq, Repr

/-- The body of the constructor `Avx2::SynetConvolution32fNhwcDirect(p)`, run on the object
`self` the constructor of the base class has left; `activation` is the value of
`p.activation` and `SetAlgParam`, defined outside the reviewed sources, gives the `_alg` it
sets.  The result is `none` when `assert(0)` is reached. -/
def Avx2.SynetConvolution32fNhwcDirect.ctor (SetAlgParam : Nat → Nat → Nat → Nat → AlgParam)
    (self : Avx2.SynetConvolution32fNhwcDirect) (p : ConvParam32f)
    (activation : ActivationValue) : Option Avx2.SynetConvolution32fNhwcDirect :=
  let microD := 2 * F
  let set : Option (Option ConvolutionPtr) :=
    match activation with
    | .kind Identity => Avx2.Set Identity p microD self._convolution
    | .kind Relu => Avx2.Set Relu p microD self._convolution
    | .kind LeakyRelu => Avx2.Set LeakyRelu p microD self._convolution
    | .kind RestrictRange => Avx2.Set RestrictRange p microD self._convolution
    | .kind Prelu => Avx2.Set Prelu p microD self._convolution
    | .kind Elu => Avx2.Set Elu p microD self._convolution
    | .other => none
  set.map fun c =>
    { _convolution := c, _alg := SetAlgParam microD (32 * 1024) (256 * 1024) (2 * 1024 * 1024) }

/-! ## NEON layout converters (`SimdNeonSynetConvert.cpp`) -/

/-- Modelled from the spec: the vector width `F` of the NEON routines is declared outside the
reviewed sources; a NEON vector holds 4 floats (the tile width `N = 4` of the base routines the
NEON ones stand for). -/
abbrev Neon.F : Nat := 4

section NeonConverters

variable {α : Type} [Zero α]

/-- Modelled from the spec: `Transpose4x4<align>(src, srcStride, dst, dstStride)` is declared
outside the reviewed sources; it transposes a 4x4 block of scalars, so that column `c` of row
`r` of the destination is column `r` of row `c` of the source.  The stores, row by row; `sp`
and `dp` are the pointers `src` and `dst`. -/
def Neon.Transpose4x4 (src : Nat → α) (sp srcStride dp dstStride : Nat) : List (Nat × α) :=
  (List.range 4).flatMap fun r =>
    (List.range 4).map fun c => (dp + r * dstStride + c, src (sp + c * srcStride + r))

/-- Modelled from the spec: `Transpose4x4xF<align>(src, srcStride, dst, dstStride)` is declared
outside the reviewed sources; it transposes a 4x4 block of 4-element vectors, so that vector
`c` of row `r` of the destination is vector `r` of row `c` of the source. -/
def Neon.Transpose4x4xF (src : Nat → α) (sp srcStride dp dstStride : Nat) : List (Nat × α) :=
  (List.range 4).flatMap fun r =>
    (List.range 4).flatMap fun c =>
      (List.range Neon.F).map fun l =>
        (dp + r * dstStride + c * Neon.F + l, src (sp + c * srcStride + r * Neon.F + l))

/-- Modelled from the spec: `Copy<align>(src, dst)` is declared outside the reviewed sources;
it copies 4 elements. -/
def Neon.Copy (src : Nat → α) (sp dp : Nat) : List (Nat × α) :=
  (List.range Neon.F).map fun l => (dp + l, src (sp + l))

/-- The stores of `Neon::SynetConvertImage_Chw_Hwc<align>(channels, spatial, src, dst)`, in
program order.  A loop is given by the rounds of its counter, `forRounds bound step 1 start 0`,
whose second component counts the rounds: a pointer that moves by `m` in every round is its
initial value plus `m` times that count, and after the loop plus `m` times the number of
rounds. -/
def Neon.SynetConvertImage_Chw_Hwc_stores (channels spatial : Nat) (src : Nat → α) :
    List (Nat × α) :=
  let channels4 := AlignLo channels 4
  let spatial4 := AlignLo spatial 4
  let rows4 := forRounds spatial4 4 1 0 0
  (rows4.flatMap fun sk =>
      let srcp := 0 + sk.2 * 4
      let dstp := 0 + sk.2 * (4 * channels)
      let cols4 := forRounds channels4 4 1 0 0
      (cols4.flatMap fun cq =>
          Neon.Transpose4x4 src (srcp + cq.2 * (4 * spatial)) spatial (dstp + cq.2 * 4)
            channels)
        ++ (forRounds channels 1 1 (cols4.length * 4) 0).flatMap fun cm =>
            let ps := srcp + cols4.length * (4 * spatial) + cm.2 * spatial
            let pd := dstp + cols4.length * 4 + cm.2 * 1
            [(pd + 0 * channels, src (ps + 0)), (pd + 1 * channels, src (ps + 1)),
              (pd + 2 * channels, src (ps + 2)), (pd + 3 * channels, src (ps + 3))])
    ++ (forRounds spatial 1 1 (rows4.length * 4) 0).flatMap fun sm =>
        let srcp := 0 + rows4.length * 4 + sm.2 * 1
        let dstp := 0 + rows4.length * (4 * channels) + sm.2 * channels
        (List.range channels).map fun c => (dstp + c, src (srcp + c * spatial))

/-- `Neon::SynetConvertImage_Chw_Hwc<align>(channels, spatial, src, dst)`: the destination
memory after the call. -/
def Neon.SynetConvertImage_Chw_Hwc (channels spatial : Nat) (src dst : Nat → α) : Nat → α :=
  storeAll (Neon.SynetConvertImage_Chw_Hwc_stores channels spatial src) dst

/-- The stores of `Neon::SynetConvertImage_Chw_Chw4c<align>`, in program order.  `dst` is not
reset between the rounds of the loop over whole tiles: a round moves it by `perBlock`, `4 * F`
for every transposed block and `F` for every position of the remainder. -/
def Neon.SynetConvertImage_Chw_Chw4c_stores (channels spatial : Nat) (src : Nat → α) :
    List (Nat × α) :=
  let channels4 := AlignLo channels 4
  let spatial4 := AlignLo spatial 4
  let tail := channels - channels4
  let blocks := forRounds channels4 4 1 0 0
  let perBlock := (forRounds spatial4 4 1 0 0).length * (4 * Neon.F)
    + (forRounds spatial 1 1 ((forRounds spatial4 4 1 0 0).length * 4) 0).length * Neon.F
  (blocks.flatMap fun cb =>
      let srcp := 0 + cb.2 * (4 * spatial)
      let dstp := 0 + cb.2 * perBlock
      let cols4 := forRounds spatial4 4 1 0 0
      (cols4.flatMap fun sq =>
          Neon.Transpose4x4 src (srcp + sq.2 * 4) spatial (dstp + sq.2 * (4 * Neon.F)) 4)
        ++ (forRounds spatial 1 1 (cols4.length * 4) 0).flatMap fun sm =>
            let pd := dstp + cols4.length * (4 * Neon.F) + sm.2 * Neon.F
            let ps := srcp + cols4.length * 4 + sm.2 * 1
            [(pd + 0, src (ps + 0 * spatial)), (pd + 1, src (ps + 1 * spatial)),
              (pd + 2, src (ps + 2 * spatial)), (pd + 3, src (ps + 3 * spatial))])
    ++ (if tail ≠ 0 then
          (forRounds spatial 1 1 0 0).flatMap fun sm =>
            let pd := 0 + blocks.length * perBlock + sm.2 * Neon.F
            let ps := 0 + blocks.length * (4 * spatial) + sm.2 * 1
            (forRounds tail 1 1 0 0).map (fun im => (pd + im.1, src (ps + im.1 * spatial)))
              ++ (forRounds Neon.F 1 1 ((forRounds tail 1 1 0 0).length * 1) 0).map
                  (fun im => (pd + im.1, 0))
        else [])

/-- `Neon::SynetConvertImage_Chw_Chw4c<align>(channels, spatial, src, dst)`. -/
def Neon.SynetConvertImage_Chw_Chw4c (channels spatial : Nat) (src dst : Nat → α) : Nat → α :=
  storeAll (Neon.SynetConvertImage_Chw_Chw4c_stores channels spatial src) dst


/-- The stores of `Neon::SynetConvertImage_Hwc_Chw4c<align>`, in program order: the loop over
groups of four tiles (`quads`), the loop over the whole tiles that are left (`singles`), in which
`dst` moves by `F` for every position, and the tail. -/
def Neon.SynetConvertImage_Hwc_Chw4c_stores (channels spatial : Nat) (src : Nat → α) :
    List (Nat × α) :=
  let channelsF := AlignLo channels Neon.F
  let channelsF4 := AlignLo channels (4 * Neon.F)
  let tail := channels - channelsF
  let spatial4 := AlignLo spatial 4
  let stride := spatial * Neon.F
  let quads := forRounds channelsF4 (4 * Neon.F) 1 0 0
  let singles := forRounds channelsF Neon.F 1 (quads.length * (4 * Neon.F)) 0
  let perSingle := (forRounds spatial 1 1 0 0).length * Neon.F
  (quads.flatMap fun cn =>
      let ps := 0 + cn.2 * (4 * Neon.F)
      let pd := 0 + cn.2 * (4 * stride)
      let rows4 := forRounds spatial4 4 1 0 0
      (rows4.flatMap fun iq =>
          Neon.Transpose4x4xF src (ps + iq.2 * (4 * channels)) channels
            (pd + iq.2 * (4 * Neon.F)) stride)
        ++ (forRounds spatial 1 1 (rows4.length * 4) 0).flatMap fun im =>
            let ps1 := ps + rows4.length * (4 * channels) + im.2 * channels
            let pd1 := pd + rows4.length * (4 * Neon.F) + im.2 * Neon.F
            Neon.Copy src (ps1 + 0 * Neon.F) (pd1 + 0 * stride)
              ++ Neon.Copy src (ps1 + 1 * Neon.F) (pd1 + 1 * stride)
              ++ Neon.Copy src (ps1 + 2 * Neon.F) (pd1 + 2 * stride)
              ++ Neon.Copy src (ps1 + 3 * Neon.F) (pd1 + 3 * stride))
    ++ (singles.flatMap fun cn =>
        let ps := 0 + quads.length * (4 * Neon.F) + cn.2 * Neon.F
        let dstp := 0 + quads.length * (4 * stride) + cn.2 * perSingle
        (forRounds spatial 1 1 0 0).flatMap fun sm =>
          Neon.Copy src (ps + sm.2 * channels) (dstp + sm.2 * Neon.F))
    ++ (if tail ≠ 0 then
          (forRounds spatial 1 1 0 0).flatMap fun sm =>
            let psrc := 0 + quads.length * (4 * Neon.F) + singles.length * Neon.F
              + sm.2 * channels
            let dstp := 0 + quads.length * (4 * stride) + singles.length * perSingle
              + sm.2 * Neon.F
            (forRounds tail 1 1 0 0).map (fun im => (dstp + im.1, src (psrc + im.1)))
              ++ (forRounds Neon.F 1 1 ((forRounds tail 1 1 0 0).length * 1) 0).map
                  (fun im => (dstp + im.1, 0))
        else [])

/-- `Neon::SynetConvertImage_Hwc_Chw4c<align>(channels, spatial, src, dst)`. -/
def Neon.SynetConvertImage_Hwc_Chw4c (channels spatial : Nat) (src dst : Nat → α) : Nat → α :=
  storeAll (Neon.SynetConvertImage_Hwc_Chw4c_stores channels spatial src) dst

/-- The stores of `Neon::SynetConvertImage_Chw4c_Chw<align>`, in program order: the loop over
whole tiles, with `Transpose4x4<align>(ps, 4, dst + s, spatial)` for four positions at a time
and four scalar stores for every position of the remainder, and the tail. -/
def Neon.SynetConvertImage_Chw4c_Chw_stores (channels spatial : Nat) (src : Nat → α) :
    List (Nat × α) :=
  let channels4 := AlignLo channels 4
  let spatial4 := AlignLo spatial 4
  let tail := channels - channels4
  let blocks := forRounds channels4 4 1 0 0
  (blocks.flatMap fun cn =>
      let dstp := 0 + cn.2 * (4 * spatial)
      let ps := 0 + cn.2 * (4 * spatial)
      let cols4 := forRounds spatial4 4 1 0 0
      (cols4.flatMap fun sq =>
          Neon.Transpose4x4 src (ps + sq.2 * (4 * Neon.F)) 4 (dstp + sq.1) spatial)
        ++ (forRounds spatial 1 1 (cols4.length * 4) 0).flatMap fun sm =>
            let ps1 := ps + cols4.length * (4 * Neon.F) + sm.2 * 4
            [(dstp + (sm.1 + 0 * spatial), src (ps1 + 0)),
              (dstp + (sm.1 + 1 * spatial), src (ps1 + 1)),
              (dstp + (sm.1 + 2 * spatial), src (ps1 + 2)),
              (dstp + (sm.1 + 3 * spatial), src (ps1 + 3))])
    ++ (if tail ≠ 0 then
          (forRounds tail 1 1 0 0).flatMap fun im =>
            let ps := 0 + blocks.length * (4 * spatial) + im.2 * 1
            let dstp := 0 + blocks.length * (4 * spatial) + im.2 * spatial
            (forRounds spatial 1 1 0 0).map fun sm => (dstp + sm.1, src (ps + sm.1 * Neon.F))
        else [])

/-- `Neon::SynetConvertImage_Chw4c_Chw<align>(channels, spatial, src, dst)`. -/
def Neon.SynetConvertImage_Chw4c_Chw (channels spatial : Nat) (src dst : Nat → α) : Nat → α :=
  storeAll (Neon.SynetConvertImage_Chw4c_Chw_stores channels spatial src) dst

/-- The stores of `Neon::SynetConvertImage_Chw4c_Hwc<align>`, in program order.  In the loop
over the last rows `dst` moves by `F` for every whole tile and by one for every value of the
tail. -/
def Neon.SynetConvertImage_Chw4c_Hwc_stores (channels spatial : Nat) (src : Nat → α) :
    List (Nat × α) :=
  let stride := Neon.F * spatial
  let channelsF := AlignLo channels Neon.F
  let channelsF4 := AlignLo channels (4 * Neon.F)
  let tail := channels - channelsF
  let spatial4 := AlignLo spatial 4
  let rows4 := forRounds spatial4 4 1 0 0
  (rows4.flatMap fun sn =>
      let ps := 0 + sn.2 * (4 * Neon.F)
      let pd := 0 + sn.2 * (4 * channels)
      let quads := forRounds channelsF4 (4 * Neon.F) 1 0 0
      let singles := forRounds channelsF Neon.F 1 (quads.length * (4 * Neon.F)) 0
      (quads.flatMap fun cq =>
          Neon.Transpose4x4xF src (ps + cq.2 * (4 * stride)) stride (pd + cq.2 * (4 * Neon.F))
            channels)
        ++ (singles.flatMap fun cm =>
            let ps1 := ps + quads.length * (4 * stride) + cm.2 * stride
            let pd1 := pd + quads.length * (4 * Neon.F) + cm.2 * Neon.F
            Neon.Copy src (ps1 + 0 * Neon.F) (pd1 + 0 * channels)
              ++ Neon.Copy src (ps1 + 1 * Neon.F) (pd1 + 1 * channels)
              ++ Neon.Copy src (ps1 + 2 * Neon.F) (pd1 + 2 * channels)
              ++ Neon.Copy src (ps1 + 3 * Neon.F) (pd1 + 3 * channels))
        ++ (if tail ≠ 0 then
              (forRounds tail 1 1 0 0).flatMap fun im =>
                let ps2 := ps + quads.length * (4 * stride) + singles.length * stride
                let pd2 := pd + quads.length * (4 * Neon.F) + singles.length * Neon.F
                [(pd2 + (im.1 + 0 * channels), src (ps2 + (im.1 + 0 * Neon.F))),
                  (pd2 + (im.1 + 1 * channels), src (ps2 + (im.1 + 1 * Neon.F))),
                  (pd2 + (im.1 + 2 * channels), src (ps2 + (im.1 + 2 * Neon.F))),
                  (pd2 + (im.1 + 3 * channels), src (ps2 + (im.1 + 3 * Neon.F)))]
            else []))
    ++ (forRounds spatial 1 1 (rows4.length * 4) 0).flatMap fun sm =>
        let whole := forRounds channelsF Neon.F 1 0 0
        let perRow := whole.length * Neon.F
          + (if tail ≠ 0 then (forRounds tail 1 1 0 0).length * 1 else 0)
        let ps := 0 + rows4.length * (4 * Neon.F) + sm.2 * Neon.F
        let dstp := 0 + rows4.length * (4 * channels) + sm.2 * perRow
        (whole.flatMap fun cq => Neon.Copy src (ps + cq.2 * stride) (dstp + cq.2 * Neon.F))
          ++ (if tail ≠ 0 then
                (forRounds tail 1 1 0 0).map fun im =>
                  (dstp + whole.length * Neon.F + im.2 * 1,
                    src (ps + whole.length * stride + im.1))
              else [])

/-- `Neon::SynetConvertImage_Chw4c_Hwc<align>(channels, spatial, src, dst)`. -/
def Neon.SynetConvertImage_Chw4c_Hwc (channels spatial : Nat) (src dst : Nat → α) : Nat → α :=
  storeAll (Neon.SynetConvertImage_Chw4c_Hwc_stores channels spatial src) dst

/-- `Neon::SynetConvertImage_Hwc_Chw<align>`: the call
`SynetConvertImage_Chw_Hwc<align>(spatial, channels, src, dst)`. -/
def Neon.SynetConvertImage_Hwc_Chw (channels spatial : Nat) (src dst : Nat → α) : Nat → α :=
  Neon.SynetConvertImage_Chw_Hwc spatial channels src dst

/-- The stores of `Neon::SynetConvertFilter_Oiyx_Yxio<align>`, in program order: the call of
`SynetConvertImage_Chw_Hwc<align>(output, input, src, dst)` when `kernel == 1`, the loops
otherwise. -/
def Neon.SynetConvertFilter_Oiyx_Yxio_stores (output input kernel : Nat) (src : Nat → α) :
    List (Nat × α) :=
  if kernel = 1 then Neon.SynetConvertImage_Chw_Hwc_stores output input src
  else
    let output4 := AlignLo output 4
    let kernel4 := AlignLo kernel 4
    let ik := input * kernel
    let oi := output * input
    (forRounds input 1 1 0 0).flatMap fun iN =>
      let ps := 0 + iN.2 * kernel
      let pd := 0 + iN.2 * output
      let taps4 := forRounds kernel4 4 1 0 0
      (taps4.flatMap fun kq =>
          let ps1 := ps + kq.2 * 4
          let pd1 := pd + kq.2 * (4 * oi)
          let outs4 := forRounds output4 4 1 0 0
          (outs4.flatMap fun oq =>
              Neon.Transpose4x4 src (ps1 + oq.1 * ik) ik (pd1 + oq.1) oi)
            ++ (forRounds output 1 1 (outs4.length * 4) 0).flatMap fun om =>
                [(pd1 + (0 * oi + om.1), src (ps1 + (om.1 * ik + 0))),
                  (pd1 + (1 * oi + om.1), src (ps1 + (om.1 * ik + 1))),
                  (pd1 + (2 * oi + om.1), src (ps1 + (om.1 * ik + 2))),
                  (pd1 + (3 * oi + om.1), src (ps1 + (om.1 * ik + 3)))])
        ++ (forRounds kernel 1 1 (taps4.length * 4) 0).flatMap fun km =>
            let ps1 := ps + taps4.length * 4 + km.2 * 1
            let pd1 := pd + taps4.length * (4 * oi) + km.2 * oi
            (forRounds output 1 1 0 0).map fun om => (pd1 + om.1, src (ps1 + om.1 * ik))

/-- `Neon::SynetConvertFilter_Oiyx_Yxio<align>(output, input, kernel, src, dst)`. -/
def Neon.SynetConvertFilter_Oiyx_Yxio (output input kernel : Nat) (src dst : Nat → α) :
    Nat → α :=
  storeAll (Neon.SynetConvertFilter_Oiyx_Yxio_stores output input kernel src) dst

/-- The stores of `Neon::SynetConvertFilter_Oiyx_Oyxi4o<align>`, in program order: the call of
`SynetConvertImage_Chw_Chw4c<align>(output, input, src, dst)` when `kernel == 1`, the loops
otherwise. -/
def Neon.SynetConvertFilter_Oiyx_Oyxi4o_stores (output input kernel : Nat) (src : Nat → α) :
    List (Nat × α) :=
  if kernel = 1 then Neon.SynetConvertImage_Chw_Chw4c_stores output input src
  else
    let outputF := AlignLo output Neon.F
    let kernelF := AlignLo kernel Neon.F
    let tail := output - outputF
    let ik := input * kernel
    let stride := input * Neon.F
    ((forRounds outputF Neon.F 1 0 0).flatMap fun oN =>
        (forRounds input 1 1 0 0).flatMap fun iN =>
          let ps := 0 + oN.1 * ik + iN.1 * kernel
          let pd := 0 + oN.1 * ik + iN.1 * Neon.F
          let taps4 := forRounds kernelF Neon.F 1 0 0
          (taps4.flatMap fun kq =>
              Neon.Transpose4x4 src (ps + kq.2 * Neon.F) ik (pd + kq.2 * (Neon.F * stride))
                stride)
            ++ (forRounds kernel 1 1 (taps4.length * Neon.F) 0).flatMap fun km =>
                let ps1 := ps + taps4.length * Neon.F + km.2 * 1
                let pd1 := pd + taps4.length * (Neon.F * stride) + km.2 * stride
                (forRounds Neon.F 1 1 0 0).map fun jm => (pd1 + jm.1, src (ps1 + jm.1 * ik)))
      ++ (if tail ≠ 0 then
            (forRounds input 1 1 0 0).flatMap fun iN =>
              let ps := 0 + outputF * ik + iN.1 * kernel
              let pd := 0 + outputF * ik + iN.1 * Neon.F
              (forRounds kernel 1 1 0 0).flatMap fun km =>
                let ps1 := ps + km.2 * 1
                let pd1 := pd + km.2 * stride
                (forRounds tail 1 1 0 0).map (fun jm => (pd1 + jm.1, src (ps1 + jm.1 * ik)))
                  ++ (forRounds Neon.F 1 1 ((forRounds tail 1 1 0 0).length * 1) 0).map
                      (fun jm => (pd1 + jm.1, 0))
          else [])

/-- `Neon::SynetConvertFilter_Oiyx_Oyxi4o<align>(output, input, kernel, src, dst)`. -/
def Neon.SynetConvertFilter_Oiyx_Oyxi4o (output input kernel : Nat) (src dst : Nat → α) :
    Nat → α :=
  storeAll (Neon.SynetConvertFilter_Oiyx_Oyxi4o_stores output input kernel src) dst

/-- The stores of `Neon::SynetConvertFilter_Yxio_Oiyx<align>`: the call of
`SynetConvertImage_Chw_Hwc<align>(input, output, src, dst)` when `kernel == 1`, the call of
`SynetConvertFilter_Oiyx_Yxio<align>(kernel, input, output, src, dst)` otherwise. -/
def Neon.SynetConvertFilter_Yxio_Oiyx_stores (output input kernel : Nat) (src : Nat → α) :
    List (Nat × α) :=
  if kernel = 1 then Neon.SynetConvertImage_Chw_Hwc_stores input output src
  else Neon.SynetConvertFilter_Oiyx_Yxio_stores kernel input output src

/-- `Neon::SynetConvertFilter_Yxio_Oiyx<align>(output, input, kernel, src, dst)`. -/
def Neon.SynetConvertFilter_Yxio_Oiyx (output input kernel : Nat) (src dst : Nat → α) :
    Nat → α :=
  storeAll (Neon.SynetConvertFilter_Yxio_Oiyx_stores output input kernel src) dst

/-- The stores of `Neon::SynetConvertFilter_Yxio_Oyxi4o<align>`, in program order.  In the
last loops `src` moves by `output` per round of `i`, through all rounds of `k`, and `dst` by
one per write: by the number of values and of zeros per round of `i`. -/
def Neon.SynetConvertFilter_Yxio_Oyxi4o_stores (output input kernel : Nat) (src : Nat → α) :
    List (Nat × α) :=
  let outputF := AlignLo output Neon.F
  let outputF4 := AlignLo output (Neon.F * 4)
  let ki := kernel * input
  let stride := ki * Neon.F
  let ki4 := AlignLo ki 4
  let quads := forRounds outputF4 (4 * Neon.F) 1 0 0
  let singles := forRounds outputF Neon.F 1 (quads.length * (4 * Neon.F)) 0
  (quads.flatMap fun oN =>
      let ps := 0 + oN.2 * (4 * Neon.F)
      let pd := 0 + oN.2 * (4 * stride)
      let rows4 := forRounds ki4 4 1 0 0
      (rows4.flatMap fun iq =>
          Neon.Transpose4x4xF src (ps + iq.2 * (4 * output)) output
            (pd + iq.2 * (4 * Neon.F)) stride)
        ++ (forRounds ki 1 1 (rows4.length * 4) 0).flatMap fun im =>
            let ps1 := ps + rows4.length * (4 * output) + im.2 * output
            let pd1 := pd + rows4.length * (4 * Neon.F) + im.2 * Neon.F
            Neon.Copy src (ps1 + 0 * Neon.F) (pd1 + 0 * stride)
              ++ Neon.Copy src (ps1 + 1 * Neon.F) (pd1 + 1 * stride)
              ++ Neon.Copy src (ps1 + 2 * Neon.F) (pd1 + 2 * stride)
              ++ Neon.Copy src (ps1 + 3 * Neon.F) (pd1 + 3 * stride))
    ++ (singles.flatMap fun oN =>
        let ps := 0 + quads.length * (4 * Neon.F) + oN.2 * Neon.F
        let pd := 0 + quads.length * (4 * stride) + oN.2 * stride
        (forRounds ki 1 1 0 0).flatMap fun im =>
          Neon.Copy src (ps + im.2 * output) (pd + im.2 * Neon.F))
    ++ (if outputF < output then
          let tail := output - outputF
          let values := forRounds tail 1 1 0 0
          let zeros := forRounds Neon.F 1 1 (values.length * 1) 0
          (forRounds kernel 1 1 0 0).flatMap fun kN =>
            (forRounds input 1 1 0 0).flatMap fun iN =>
              let round := kN.2 * (forRounds input 1 1 0 0).length + iN.2
              let srcp := 0 + quads.length * (4 * Neon.F) + singles.length * Neon.F
                + round * output
              let dstp := 0 + quads.length * (4 * stride) + singles.length * stride
                + round * (values.length + zeros.length)
              values.map (fun jm => (dstp + jm.2, src (srcp + jm.1)))
                ++ zeros.map (fun jm => (dstp + values.length + jm.2, 0))
        else [])

/-- `Neon::SynetConvertFilter_Yxio_Oyxi4o<align>(output, input, kernel, src, dst)`. -/
def Neon.SynetConvertFilter_Yxio_Oyxi4o (output input kernel : Nat) (src dst : Nat → α) :
    Nat → α :=
  storeAll (Neon.SynetConvertFilter_Yxio_Oyxi4o_stores output input kernel src) dst

/-- The stores of `Neon::SynetConvertFilter_Oyxi4o_Oiyx<align>`, in program order: the call of
`SynetConvertImage_Chw4c_Chw<align>(output, input, src, dst)` when `kernel == 1`, the loops
otherwise.  In the last loops `dst` moves by one per write. -/
def Neon.SynetConvertFilter_Oyxi4o_Oiyx_stores (output input kernel : Nat) (src : Nat → α) :
    List (Nat × α) :=
  if kernel = 1 then Neon.SynetConvertImage_Chw4c_Chw_stores output input src
  else
    let outputF := AlignLo output Neon.F
    let tail := output - outputF
    let kernelF := AlignLo kernel Neon.F
    let ik := input * kernel
    let stride := Neon.F * input
    let blocks := forRounds outputF Neon.F 1 0 0
    let taps4 := forRounds kernelF Neon.F 1 0 0
    let taps1 := forRounds kernel 1 1 (taps4.length * Neon.F) 0
    (blocks.flatMap fun oN =>
        let srcp := 0 + oN.2 * (Neon.F * ik)
        let dstp := 0 + oN.2 * (Neon.F * ik)
        (forRounds input 1 1 0 0).flatMap fun iN =>
          let ps := srcp + iN.2 * Neon.F
          let pd := dstp + iN.2 * (taps4.length * Neon.F + taps1.length * 1)
          (taps4.flatMap fun kq =>
              Neon.Transpose4x4 src (ps + kq.1 * stride) stride (pd + kq.2 * Neon.F) ik)
            ++ taps1.flatMap fun km =>
                let pd1 := pd + taps4.length * Neon.F + km.2 * 1
                [(pd1 + 0 * ik, src (ps + (km.1 * stride + 0))),
                  (pd1 + 1 * ik, src (ps + (km.1 * stride + 1))),
                  (pd1 + 2 * ik, src (ps + (km.1 * stride + 2))),
                  (pd1 + 3 * ik, src (ps + (km.1 * stride + 3)))])
      ++ (if tail ≠ 0 then
            (forRounds tail 1 1 0 0).flatMap fun jN =>
              let ps := 0 + blocks.length * (Neon.F * ik) + jN.1
              (forRounds input 1 1 0 0).flatMap fun iN =>
                let ps1 := ps + iN.2 * Neon.F
                (forRounds kernel 1 1 0 0).map fun km =>
                  (0 + blocks.length * (Neon.F * ik)
                      + ((jN.2 * (forRounds input 1 1 0 0).length + iN.2)
                          * (forRounds kernel 1 1 0 0).length + km.2),
                    src (ps1 + km.1 * stride))
          else [])

/-- `Neon::SynetConvertFilter_Oyxi4o_Oiyx<align>(output, input, kernel, src, dst)`. -/
def Neon.SynetConvertFilter_Oyxi4o_Oiyx (output input kernel : Nat) (src dst : Nat → α) :
    Nat → α :=
  storeAll (Neon.SynetConvertFilter_Oyxi4o_Oiyx_stores output input kernel src) dst

/-- The stores of `Neon::SynetConvertFilter_Oyxi4o_Yxio<align>`, in program order: four
positions `k*input + i` at a time, and one at a time for the remainder, where `dst` moves by
`F` for every whole tile and by one for every value of the tail. -/
def Neon.SynetConvertFilter_Oyxi4o_Yxio_stores (output input kernel : Nat) (src : Nat → α) :
    List (Nat × α) :=
  let outputF := AlignLo output Neon.F
  let outputF4 := AlignLo output (4 * Neon.F)
  let tail := output - outputF
  let ki := kernel * input
  let ki4 := AlignLo ki 4
  let stride := ki * Neon.F
  let rows4 := forRounds ki4 4 1 0 0
  (rows4.flatMap fun iN =>
      let ps := 0 + iN.2 * (4 * Neon.F)
      let pd := 0 + iN.2 * (4 * output)
      let quads := forRounds outputF4 (4 * Neon.F) 1 0 0
      let singles := forRounds outputF Neon.F 1 (quads.length * (4 * Neon.F)) 0
      (quads.flatMap fun oq =>
          Neon.Transpose4x4xF src (ps + oq.2 * (4 * stride)) stride (pd + oq.2 * (4 * Neon.F))
            output)
        ++ (singles.flatMap fun om =>
            let ps1 := ps + quads.length * (4 * stride) + om.2 * stride
            let pd1 := pd + quads.length * (4 * Neon.F) + om.2 * Neon.F
            Neon.Copy src (ps1 + 0 * Neon.F) (pd1 + 0 * output)
              ++ Neon.Copy src (ps1 + 1 * Neon.F) (pd1 + 1 * output)
              ++ Neon.Copy src (ps1 + 2 * Neon.F) (pd1 + 2 * output)
              ++ Neon.Copy src (ps1 + 3 * Neon.F) (pd1 + 3 * output))
        ++ (if tail ≠ 0 then
              (forRounds tail 1 1 0 0).flatMap fun jm =>
                let ps2 := ps + quads.length * (4 * stride) + singles.length * stride
                let pd2 := pd + quads.length * (4 * Neon.F) + singles.length * Neon.F
                [(pd2 + (jm.1 + 0 * output), src (ps2 + (jm.1 + 0 * Neon.F))),
                  (pd2 + (jm.1 + 1 * output), src (ps2 + (jm.1 + 1 * Neon.F))),
                  (pd2 + (jm.1 + 2 * output), src (ps2 + (jm.1 + 2 * Neon.F))),
                  (pd2 + (jm.1 + 3 * output), src (ps2 + (jm.1 + 3 * Neon.F)))]
            else []))
    ++ (forRounds ki 1 1 (rows4.length * 4) 0).flatMap fun im =>
        let whole := forRounds outputF Neon.F 1 0 0
        let perRow := whole.length * Neon.F
          + (if tail ≠ 0 then (forRounds tail 1 1 0 0).length * 1 else 0)
        let ps := 0 + rows4.length * (4 * Neon.F) + im.2 * Neon.F
        let dstp := 0 + rows4.length * (4 * output) + im.2 * perRow
        (whole.flatMap fun oq => Neon.Copy src (ps + oq.2 * stride) (dstp + oq.2 * Neon.F))
          ++ (if tail ≠ 0 then
                (forRounds tail 1 1 0 0).map fun jm =>
                  (dstp + whole.length * Neon.F + jm.2 * 1,
                    src (ps + whole.length * stride + jm.1))
              else [])

/-- `Neon::SynetConvertFilter_Oyxi4o_Yxio<align>(output, input, kernel, src, dst)`. -/
def Neon.SynetConvertFilter_Oyxi4o_Yxio (output input kernel : Nat) (src dst : Nat → α) :
    Nat → α :=
  storeAll (Neon.SynetConvertFilter_Oyxi4o_Yxio_stores output input kernel src) dst

end NeonConverters

/-- The routines `Neon::GetImageConverter` can return (`SynetImageConverterPtr`), by name; all
of them are returned with `align = false`. -/
inductive Neon.SynetImageConverterPtr
  | Chw_Hwc
  | Chw_Chw4c
  | Hwc_Chw
  | Hwc_Chw4c
  | Chw4c_Chw
  | Chw4c_Hwc
  deriving DecidableEq, Repr

/-- The call `imageConverter(channels, spatial, src, dst)` through a pointer to a NEON
routine. -/
def Neon.SynetImageConverterPtr.call {α : Type} [Zero α] (f : Neon.SynetImageConverterPtr)
    (channels spatial : Nat) (src dst : Nat → α) : Nat → α :=
  match f with
  | .Chw_Hwc => Neon.SynetConvertImage_Chw_Hwc channels spatial src dst
  | .Chw_Chw4c => Neon.SynetConvertImage_Chw_Chw4c channels spatial src dst
  | .Hwc_Chw => Neon.SynetConvertImage_Hwc_Chw channels spatial src dst
  | .Hwc_Chw4c => Neon.SynetConvertImage_Hwc_Chw4c channels spatial src dst
  | .Chw4c_Chw => Neon.SynetConvertImage_Chw4c_Chw channels spatial src dst
  | .Chw4c_Hwc => Neon.SynetConvertImage_Chw4c_Hwc channels spatial src dst

/-- `Neon::GetImageConverter(src, dst)`; `none` is `NULL`. -/
def Neon.GetImageConverter (src dst : SimdTensorFormatType) :
    Option Neon.SynetImageConverterPtr :=
  if src = SimdTensorFormatNchw ∧ dst = SimdTensorFormatNhwc then some .Chw_Hwc
  else if src = SimdTensorFormatNchw ∧ dst = SimdTensorFormatNchw4c then some .Chw_Chw4c
  else if src = SimdTensorFormatNhwc ∧ dst = SimdTensorFormatNchw then some .Hwc_Chw
  else if src = SimdTensorFormatNhwc ∧ dst = SimdTensorFormatNchw4c then some .Hwc_Chw4c
  else if src = SimdTensorFormatNchw4c ∧ dst = SimdTensorFormatNchw then some .Chw4c_Chw
  else if src = SimdTensorFormatNchw4c ∧ dst = SimdTensorFormatNhwc then some .Chw4c_Hwc
  else none

/-- The routines `Neon::GetFilterConverter` can return (`SynetFilterConverterPtr`), by name;
all of them are returned with `align = false`. -/
inductive Neon.SynetFilterConverterPtr
  | Oiyx_Yxio
  | Oiyx_Oyxi4o
  | Yxio_Oiyx
  | Yxio_Oyxi4o
  | Oyxi4o_Oiyx
  | Oyxi4o_Yxio
  deriving DecidableEq, Repr

/-- The call `filterConverter(output, input, kernel, src, dst)` through a pointer to a NEON
routine. -/
def Neon.SynetFilterConverterPtr.call {α : Type} [Zero α] (f : Neon.SynetFilterConverterPtr)
    (output input kernel : Nat) (src dst : Nat → α) : Nat → α :=
  match f with
  | .Oiyx_Yxio => Neon.SynetConvertFilter_Oiyx_Yxio output input kernel src dst
  | .Oiyx_Oyxi4o => Neon.SynetConvertFilter_Oiyx_Oyxi4o output input kernel src dst
  | .Yxio_Oiyx => Neon.SynetConvertFilter_Yxio_Oiyx output input kernel src dst
  | .Yxio_Oyxi4o => Neon.SynetConvertFilter_Yxio_Oyxi4o output input kernel src dst
  | .Oyxi4o_Oiyx => Neon.SynetConvertFilter_Oyxi4o_Oiyx output input kernel src dst
  | .Oyxi4o_Yxio => Neon.SynetConvertFilter_Oyxi4o_Yxio output input kernel src dst

/-- `Neon::GetFilterConverter(src, dst)`; `none` is `NULL`. -/
def Neon.GetFilterConverter (src dst : SimdTensorFormatType) :
    Option Neon.SynetFilterConverterPtr :=
  if src = SimdTensorFormatOiyx ∧ dst = SimdTensorFormatYxio then some .Oiyx_Yxio
  else if src = SimdTensorFormatOiyx ∧ dst = SimdTensorFormatOyxi4o then some .Oiyx_Oyxi4o
  else if src = SimdTensorFormatYxio ∧ dst = SimdTensorFormatOiyx then some .Yxio_Oiyx
  else if src = SimdTensorFormatYxio ∧ dst = SimdTensorFormatOyxi4o then some .Yxio_Oyxi4o
  else if src = SimdTensorFormatOyxi4o ∧ dst = SimdTensorFormatOiyx then some .Oyxi4o_Oiyx
  else if src = SimdTensorFormatOyxi4o ∧ dst = SimdTensorFormatYxio then some .Oyxi4o_Yxio
  else none

/-! ## Theorems -/

/-! ### Machine integers, boxes and loops -/

theorem sz_of_nonneg {z : Int} (h : 0 ≤ z) : sz z = z.toNat := by
  unfold sz; simp [h]

/-- An expression whose value over the integers is a value of `size_t` does not wrap. -/
theorem wrap_eq {z : Int} (n : Nat) (hz : z = (n : Int)) (hn : n < sizeMod) : wrap z = n := by
  subst hz
  unfold wrap
  rw [Int.emod_eq_of_lt (Int.natCast_nonneg n) (by exact_mod_cast hn)]
  exact Int.toNat_natCast n

/-- A wrapped value is a value of `size_t`. -/
theorem wrap_lt (z : Int) : wrap z < sizeMod := by
  unfold wrap
  have h1 : 0 ≤ z % ((sizeMod : Nat) : Int) := Int.emod_nonneg _ (by decide)
  have h2 : z % ((sizeMod : Nat) : Int) < ((sizeMod : Nat) : Int) :=
    Int.emod_lt_of_pos _ (by decide)
  omega

/-- Wrapping an operand of a sum before the sum changes nothing. -/
theorem wrap_add_left (a c : Int) : wrap ((wrap a : Int) + c) = wrap (a + c) := by
  unfold wrap
  rw [Int.toNat_of_nonneg (Int.emod_nonneg _ (by decide)), Int.emod_add_emod]

theorem sz_natCast_sub {a b : Nat} (h : b ≤ a) : sz ((a : Int) - b) = a - b := by
  rw [sz_of_nonneg (by omega)]; omega

theorem div_row (dy W k : Nat) (hk : k < W) : (dy * W + k) / W = dy ∧ (dy * W + k) % W = k := by
  have hW : 0 < W := by omega
  constructor
  · rw [Nat.add_comm, Nat.add_mul_div_right _ _ hW, Nat.div_eq_of_lt hk, Nat.zero_add]
  · rw [Nat.add_comm, Nat.add_mul_mod_self_right, Nat.mod_eq_of_lt hk]

theorem box_iff_interval (D P C0 m j : Nat) (h : C0 + m ≤ D) :
    Box D P (P + 1) C0 (C0 + m) j ↔ C0 + P * D ≤ j ∧ j < C0 + P * D + m := by
  unfold Box
  have hdm := Nat.div_add_mod j D
  have hc : D * (j / D) = j / D * D := Nat.mul_comm _ _
  constructor
  · rintro ⟨h1, h2, h3, h4⟩
    have hP : j / D = P := by omega
    rw [hP] at hc hdm
    omega
  · rintro ⟨h1, h2⟩
    have hD : 0 < D := by omega
    have hP : j / D = P := by
      apply Nat.div_eq_of_lt_le
      · omega
      · rw [Nat.add_mul]; omega
    rw [hP] at hc hdm
    omega

theorem box_disjoint_pix {D P0 P1 P2 C0 C1 j : Nat} (h : Box D P0 P1 C0 C1 j) :
    ¬ Box D P1 P2 C0 C1 j := by
  unfold Box at *; omega

theorem box_union_pix (D P0 P1 P2 C0 C1 : Nat) (h1 : P0 ≤ P1) (h2 : P1 ≤ P2) (j : Nat) :
    Box D P0 P2 C0 C1 j ↔ Box D P0 P1 C0 C1 j ∨ Box D P1 P2 C0 C1 j := by
  unfold Box; omega

theorem box_disjoint_ch {D P0 P1 C0 C1 C2 j : Nat} (h : Box D P0 P1 C0 C1 j) :
    ¬ Box D P0 P1 C1 C2 j := by
  unfold Box at *; omega

theorem box_union_ch (D P0 P1 C0 C1 C2 : Nat) (h1 : C0 ≤ C1) (h2 : C1 ≤ C2) (j : Nat) :
    Box D P0 P1 C0 C2 j ↔ Box D P0 P1 C0 C1 j ∨ Box D P0 P1 C1 C2 j := by
  unfold Box; omega

theorem box_empty_pix (D P C0 C1 j : Nat) : ¬ Box D P P C0 C1 j := by
  unfold Box; omega

theorem box_empty_ch (D P0 P1 C j : Nat) : ¬ Box D P0 P1 C C j := by
  unfold Box; omega

theorem stored_eq (c : MicroCall) : c.stored = c.dstC := by
  unfold MicroCall.stored
  simp only [F, DF]
  split_ifs <;> omega

theorem winCnt_le (kernel size pad pos : Nat) : winCnt kernel size pad pos ≤ kernel := by
  unfold winCnt; omega

theorem forLoop_succ (fuel bound step stepD x d : Nat) :
    forLoop (fuel + 1) bound step stepD x d =
      if x < bound then (x, d) :: forLoop fuel bound step stepD (x + step) (d + stepD) else [] :=
  rfl

theorem tiled_le (p : ConvParam32f) (t : TileCtx) (cs : List MicroCall) (P0 P1 : Nat)
    (h : Tiled p t cs P0 P1) : P0 ≤ P1 := by
  induction cs generalizing P0 with
  | nil => exact Nat.le_of_eq h
  | cons c cs ih => exact Nat.le_trans (Nat.le_add_right _ _) (ih _ h.2)

/-- A loop over groups of `g` pixels, from column `k0` of the row that starts at pixel `base`:
when every call it makes computes its group, the calls compute the pixels up to the column at
which the loop ends, and this column is the first of the progression at or above `bound`. -/
theorem tiled_forLoop (p : ConvParam32f) (t : TileCtx) (g s D : Nat) (hs : 0 < s) (hg : 0 < g)
    (mk : Nat × Nat → MicroCall) (bound base dRow : Nat) :
    ∀ fuel k0, bound ≤ k0 * s + fuel →
      (∀ i, (k0 + g * i) * s < bound →
        (mk ((k0 + g * i) * s, dRow + (k0 + g * i) * D)).Computes p t (base + (k0 + g * i))
          ∧ (mk ((k0 + g * i) * s, dRow + (k0 + g * i) * D)).n = g) →
      Tiled p t ((forLoop fuel bound (g * s) (g * D) (k0 * s) (dRow + k0 * D)).map mk) (base + k0)
          (base + (k0 + g * (forLoop fuel bound (g * s) (g * D) (k0 * s) (dRow + k0 * D)).length))
        ∧ bound ≤ (k0 + g * (forLoop fuel bound (g * s) (g * D) (k0 * s)
            (dRow + k0 * D)).length) * s
        ∧ ((forLoop fuel bound (g * s) (g * D) (k0 * s) (dRow + k0 * D)).length = 0
          ∨ (k0 + g * ((forLoop fuel bound (g * s) (g * D) (k0 * s)
            (dRow + k0 * D)).length - 1)) * s < bound) := by
  intro fuel
  induction fuel with
  | zero =>
    intro k0 hb _
    simp only [forLoop, List.map_nil, List.length_nil, Nat.mul_zero, Nat.add_zero]
    exact ⟨rfl, by omega, Or.inl trivial⟩
  | succ fuel ih =>
    intro k0 hb hmk
    rw [forLoop_succ]
    by_cases hlt : k0 * s < bound
    · rw [if_pos hlt]
      have e1 : k0 * s + g * s = (k0 + g) * s := by ring
      have e2 : dRow + k0 * D + g * D = dRow + (k0 + g) * D := by ring
      rw [e1, e2]
      have hgs : 1 ≤ g * s := Nat.mul_pos hg hs
      have hb' : bound ≤ (k0 + g) * s + fuel := by rw [← e1]; omega
      have hmk' : ∀ i, (k0 + g + g * i) * s < bound →
          (mk ((k0 + g + g * i) * s, dRow + (k0 + g + g * i) * D)).Computes p t
              (base + (k0 + g + g * i))
            ∧ (mk ((k0 + g + g * i) * s, dRow + (k0 + g + g * i) * D)).n = g := by
        intro i hi
        have e3 : k0 + g + g * i = k0 + g * (i + 1) := by ring
        rw [e3] at hi ⊢
        exact hmk (i + 1) hi
      obtain ⟨h1, h2, h3⟩ := ih (k0 + g) hb' hmk'
      have h0 := hmk 0 (by simpa using hlt)
      simp only [Nat.mul_zero, Nat.add_zero] at h0
      simp only [List.map_cons, List.length_cons]
      have e4 : ∀ n, k0 + g * (n + 1) = k0 + g + g * n := by intro n; ring
      refine ⟨⟨h0.1, ?_⟩, ?_, ?_⟩
      · rw [h0.2, e4]
        have e5 : base + k0 + g = base + (k0 + g) := by ring
        rw [e5]
        exact h1
      · rw [e4]; exact h2
      · right
        simp only [Nat.add_sub_cancel]
        rcases h3 with h3 | h3
        · rw [h3]; simpa using hlt
        · have e6 : k0 + g * (forLoop fuel bound (g * s) (g * D) ((k0 + g) * s)
              (dRow + (k0 + g) * D)).length
              = k0 + g + g * ((forLoop fuel bound (g * s) (g * D) ((k0 + g) * s)
              (dRow + (k0 + g) * D)).length - 1) := by
            have : 0 < (forLoop fuel bound (g * s) (g * D) ((k0 + g) * s)
              (dRow + (k0 + g) * D)).length := by
              by_contra hc
              have hz : (forLoop fuel bound (g * s) (g * D) ((k0 + g) * s)
                (dRow + (k0 + g) * D)).length = 0 := by omega
              rw [hz] at h3
              simp at h3
              rw [hz] at h2
              simp at h2
              omega
            obtain ⟨n, hn⟩ := Nat.exists_eq_succ_of_ne_zero (Nat.pos_iff_ne_zero.1 this)
            rw [hn]; simp; ring
          rw [e6]; exact h3
    · rw [if_neg hlt]
      simp only [List.map_nil, List.length_nil, Nat.mul_zero, Nat.add_zero]
      exact ⟨rfl, by omega, Or.inl trivial⟩

/-- What `Valid()` gives on the domain of the engine: positive strides and the shape equations
over the natural numbers. -/
theorem ConvParam32f.InDomain.shape {p : ConvParam32f} (h : p.InDomain) :
    0 < p.strideY ∧ 0 < p.strideX
      ∧ p.dstH = (p.srcH + p.padY + p.padH - p.kernelY) / p.strideY + 1
      ∧ p.dstW = (p.srcW + p.padX + p.padW - p.kernelX) / p.strideX + 1 := by
  have hv := h.valid
  have hfy := h.fitY
  have hfx := h.fitX
  have hzy := h.sizeY
  have hzx := h.sizeX
  unfold ConvParam32f.Valid at hv
  by_cases hy : p.strideY = 0
  · simp [hy] at hv
  rw [if_neg hy] at hv
  split_ifs at hv with h1 hx
  · simp only [Option.some.injEq, Bool.and_eq_true, decide_eq_true_eq] at hv
    obtain ⟨⟨⟨⟨⟨hw, -⟩, -⟩, -⟩, -⟩, -⟩ := hv
    have hH := h1.1
    unfold ConvParam32f.shapeRhs at hH hw
    rw [h.dilationY] at hH
    rw [h.dilationX] at hw
    have eH : wrap ((p.srcH : Int) + p.padY + p.padH - (((1 : Nat) : Int) * ((p.kernelY : Int) - 1)
        + 1)) = p.srcH + p.padY + p.padH - p.kernelY :=
      wrap_eq _ (by push_cast; omega) (by omega)
    have eW : wrap ((p.srcW : Int) + p.padX + p.padW - (((1 : Nat) : Int) * ((p.kernelX : Int) - 1)
        + 1)) = p.srcW + p.padX + p.padW - p.kernelX :=
      wrap_eq _ (by push_cast; omega) (by omega)
    have dH := Nat.div_le_self (p.srcH + p.padY + p.padH - p.kernelY) p.strideY
    have dW := Nat.div_le_self (p.srcW + p.padX + p.padW - p.kernelX) p.strideX
    rw [eH, Nat.mod_eq_of_lt (by omega)] at hH
    rw [eW, Nat.mod_eq_of_lt (by omega)] at hw
    exact ⟨Nat.pos_of_ne_zero hy, Nat.pos_of_ne_zero hx, hH, hw⟩
  · simp at hv

/-- The region bounds of the row pass on the domain of the engine. -/
theorem ConvParam32f.InDomain.rowBoundsExact {p : ConvParam32f} (h : p.InDomain) :
    ∃ b, rowBoundsExact p = some b ∧ b.noseH = p.padY ∧ b.noseW = p.padX
      ∧ b.bodyHi = (p.srcH : Int) - p.kernelY + 1 + p.padY
      ∧ b.bodyWi = (p.srcW : Int) - p.kernelX + 1 + p.padX
      ∧ b.bodyH = p.srcH + 1 + p.padY - p.kernelY
      ∧ b.bodyW = p.srcW + 1 + p.padX - p.kernelX
      ∧ b.bodyW3 = (p.srcW + 1 - p.kernelX) / (3 * p.strideX) * (3 * p.strideX) + p.padX
      ∧ b.bodyW6 = (p.srcW + 1 - p.kernelX) / (6 * p.strideX) * (6 * p.strideX) + p.padX
      ∧ b.tailH = p.srcH + 1 + p.padY - p.kernelY + p.padH
      ∧ b.tailW = p.srcW + 1 + p.padX - p.kernelX + p.padW := by
  obtain ⟨-, hsx, -, -⟩ := h.shape
  have hH := h.srcH
  have hW := h.srcW
  have e1 : sz ((p.srcH : Int) - p.kernelY + 1 + p.padY) = p.srcH + 1 + p.padY - p.kernelY := by
    rw [sz_of_nonneg (by omega)]; omega
  have e2 : sz ((p.srcW : Int) - p.kernelX + 1 + p.padX) = p.srcW + 1 + p.padX - p.kernelX := by
    rw [sz_of_nonneg (by omega)]; omega
  have e3 : sz (((p.srcW + 1 + p.padX - p.kernelX : Nat) : Int) - p.padX)
      = p.srcW + 1 - p.kernelX := by
    rw [sz_of_nonneg (by omega)]; omega
  have e4 : sz ((p.srcH : Int) - p.kernelY + 1 + p.padY + p.padH)
      = p.srcH + 1 + p.padY - p.kernelY + p.padH := by
    rw [sz_of_nonneg (by omega)]; omega
  have e5 : sz ((p.srcW : Int) - p.kernelX + 1 + p.padX + p.padW)
      = p.srcW + 1 + p.padX - p.kernelX + p.padW := by
    rw [sz_of_nonneg (by omega)]; omega
  unfold Simd.rowBoundsExact AlignLoAny
  simp only [e1, e2, e3, e4, e5]
  rw [if_neg (by omega), if_neg (by omega)]
  exact ⟨_, rfl, rfl, rfl, rfl, rfl, rfl, rfl, rfl, rfl, rfl, rfl⟩

/-- A pixel column whose window starts inside the padded row is a column of the destination. -/
theorem col_lt_dstW {p : ConvParam32f} (h : p.InDomain) (k : Nat)
    (hk : k * p.strideX < p.srcW + 1 + p.padX - p.kernelX + p.padW) : k < p.dstW := by
  obtain ⟨-, hsx, -, hw⟩ := h.shape
  have hf := h.fitX
  have hW := h.srcW
  rw [hw]
  have : k ≤ (p.srcW + p.padX + p.padW - p.kernelX) / p.strideX := by
    rw [Nat.le_div_iff_mul_le hsx]; omega
  omega

/-- A group of `g` pixels that starts below a bound aligned to `g` strides past the nose ends
inside the body. -/
theorem group_fit (g s N BW A k1 u : Nat) (hg : 0 < g) (hA : A + N ≤ BW)
    (hlo : N ≤ k1 * s) (hhi : k1 * s < N + s)
    (hlt : (k1 + g * u) * s < A / (g * s) * (g * s) + N) :
    (k1 + g * u + (g - 1)) * s < BW := by
  obtain ⟨g', hg'⟩ : ∃ g', g = g' + 1 := ⟨g - 1, by omega⟩
  subst hg'
  have hA' : A / ((g' + 1) * s) * ((g' + 1) * s) ≤ A := Nat.div_mul_le_self _ _
  have e1 : (k1 + (g' + 1) * u) * s = k1 * s + u * ((g' + 1) * s) := by ring
  rw [e1] at hlt
  have hu : u * ((g' + 1) * s) < A / ((g' + 1) * s) * ((g' + 1) * s) := by omega
  have hu' : u < A / ((g' + 1) * s) := Nat.lt_of_mul_lt_mul_right hu
  have hu2 : (u + 1) * ((g' + 1) * s) ≤ A / ((g' + 1) * s) * ((g' + 1) * s) :=
    Nat.mul_le_mul_right _ hu'
  have e2 : (k1 + (g' + 1) * u + (g' + 1 - 1)) * s + s
      = k1 * s + (u + 1) * ((g' + 1) * s) := by
    simp only [Nat.add_sub_cancel]; ring
  omega


theorem sz_natCast (n : Nat) : sz (n : Int) = n := by
  rw [sz_of_nonneg (Int.natCast_nonneg n), Int.toNat_natCast]

theorem sz_sub_mul (a b c : Nat) (h : b ≤ a) : sz (((a : Int) - b) * c) = (a - b) * c := by
  have e : ((a : Int) - b) * c = (((a - b) * c : Nat) : Int) := by
    push_cast [Nat.cast_sub h]; ring
  rw [e, sz_natCast]

theorem sz_sub_mul2 (a b c d : Nat) (h : b ≤ a) :
    sz (((a : Int) - b) * c * d) = (a - b) * c * d := by
  have e : ((a : Int) - b) * c * d = (((a - b) * c * d : Nat) : Int) := by
    push_cast [Nat.cast_sub h]; ring
  rw [e, sz_natCast]

theorem sz_sub_mul3 (a b c d e : Nat) (h : b ≤ a) :
    sz (((a : Int) - b) * c * d * e) = (a - b) * c * d * e := by
  have e' : ((a : Int) - b) * c * d * e = (((a - b) * c * d * e : Nat) : Int) := by
    push_cast [Nat.cast_sub h]; ring
  rw [e', sz_natCast]

theorem tiled_append (p : ConvParam32f) (t : TileCtx) (cs1 cs2 : List MicroCall)
    (P0 P1 P2 : Nat) (h1 : Tiled p t cs1 P0 P1) (h2 : Tiled p t cs2 P1 P2) :
    Tiled p t (cs1 ++ cs2) P0 P2 := by
  induction cs1 generalizing P0 with
  | nil =>
    have : P0 = P1 := h1
    subst this
    exact h2
  | cons c cs ih => exact ⟨h1.1, ih _ h1.2⟩

/-- The loop lemma with the loop variables given by equations. -/
theorem tiled_loop (p : ConvParam32f) (t : TileCtx) (g s D : Nat) (hs : 0 < s) (hg : 0 < g)
    (mk : Nat × Nat → MicroCall) (bound base dRow fuel step stepD x d k0 : Nat)
    (hstep : step = g * s) (hstepD : stepD = g * D) (hx : x = k0 * s) (hd : d = dRow + k0 * D)
    (hfuel : bound ≤ x + fuel)
    (hmk : ∀ i, (k0 + g * i) * s < bound →
        (mk ((k0 + g * i) * s, dRow + (k0 + g * i) * D)).Computes p t (base + (k0 + g * i))
          ∧ (mk ((k0 + g * i) * s, dRow + (k0 + g * i) * D)).n = g) :
    Tiled p t ((forLoop fuel bound step stepD x d).map mk) (base + k0)
        (base + (k0 + g * (forLoop fuel bound step stepD x d).length))
      ∧ bound ≤ (k0 + g * (forLoop fuel bound step stepD x d).length) * s
      ∧ ((forLoop fuel bound step stepD x d).length = 0
        ∨ (k0 + g * ((forLoop fuel bound step stepD x d).length - 1)) * s < bound) := by
  subst hstep hstepD hx hd
  exact tiled_forLoop p t g s D hs hg mk bound base dRow fuel k0 hfuel hmk

/-- The call the nose loop makes at column `k` computes the pixel of that column. -/
theorem computes_nose {p : ConvParam32f} (h : p.InDomain) (t : TileCtx) (dy k kH s w : Nat)
    (hkH : kH = winCnt p.kernelY p.srcH p.padY (dy * p.strideY))
    (hs : s = t.src + winOrg p.padY (dy * p.strideY) * p.srcW * p.srcC)
    (hw : w = t.weight + winLo p.padY (dy * p.strideY) * p.kernelX * t.srcC * DF)
    (hk : k * p.strideX < p.padX) :
    ({ direct1x1 := false, n := 1, src0 := s, kernelH := kH,
       kernelW := sz ((p.kernelX : Int) - p.padX + ((k * p.strideX : Nat) : Int)),
       srcC := t.srcC, dstC := t.dC,
       weight := w + sz (((p.padX : Int) - ((k * p.strideX : Nat) : Int)) * t.srcC * DF),
       bias := t.bias, params := t.params, slope := t.slope,
       dst := t.d0 + dy * p.dstW * p.dstC + k * p.dstC } : MicroCall).Computes p t
      (dy * p.dstW + k) := by
  have hpx := h.padX
  have hsw := h.srcW
  have hkd : k < p.dstW := col_lt_dstW h k (by omega)
  obtain ⟨hdiv, hmod⟩ := div_row dy p.dstW k hkd
  refine ⟨rfl, rfl, rfl, rfl, rfl, rfl, rfl, by ring, ?_⟩
  intro i hi
  have hi0 : i = 0 := by
    have : i < 1 := hi
    omega
  subst hi0
  simp only [Nat.add_zero, Nat.zero_mul, hdiv, hmod]
  refine ⟨hkH, ?_, ?_, ?_⟩
  · rw [sz_of_nonneg (by omega)]
    unfold winCnt
    omega
  · rw [hs]
    have : winOrg p.padX (k * p.strideX) = 0 := by unfold winOrg; omega
    rw [this]; ring
  · rw [hw, sz_sub_mul2 _ _ _ _ (by omega)]
    unfold winLo
    ring

/-- A call of a body loop on the `g` pixels from column `k` on computes these pixels when all
their windows lie inside the image columns. -/
theorem computes_body {p : ConvParam32f} (h : p.InDomain) (t : TileCtx) (dy k g kH s w : Nat)
    (hkH : kH = winCnt p.kernelY p.srcH p.padY (dy * p.strideY))
    (hs : s = t.src + winOrg p.padY (dy * p.strideY) * p.srcW * p.srcC)
    (hw : w = t.weight + winLo p.padY (dy * p.strideY) * p.kernelX * t.srcC * DF)
    (hg : 0 < g) (hlo : p.padX ≤ k * p.strideX)
    (hhi : (k + (g - 1)) * p.strideX < p.srcW + 1 + p.padX - p.kernelX) :
    ({ direct1x1 := false, n := g,
       src0 := s + sz ((((k * p.strideX : Nat) : Int) - p.padX) * p.srcC), kernelH := kH,
       kernelW := p.kernelX, srcC := t.srcC, dstC := t.dC, weight := w,
       bias := t.bias, params := t.params, slope := t.slope,
       dst := t.d0 + dy * p.dstW * p.dstC + k * p.dstC } : MicroCall).Computes p t
      (dy * p.dstW + k) := by
  have hsw := h.srcW
  refine ⟨rfl, rfl, rfl, rfl, rfl, rfl, rfl, by ring, ?_⟩
  intro i hi
  have hi' : i < g := hi
  have hmono : (k + i) * p.strideX ≤ (k + (g - 1)) * p.strideX :=
    Nat.mul_le_mul_right _ (by omega)
  have hmono2 : k * p.strideX ≤ (k + i) * p.strideX := Nat.mul_le_mul_right _ (by omega)
  have hkd : k + i < p.dstW := col_lt_dstW h (k + i) (by omega)
  obtain ⟨hdiv, hmod⟩ := div_row dy p.dstW (k + i) hkd
  have hassoc : dy * p.dstW + k + i = dy * p.dstW + (k + i) := Nat.add_assoc _ _ _
  rw [hassoc, hdiv, hmod]
  refine ⟨hkH, ?_, ?_, ?_⟩
  · show p.kernelX = _
    unfold winCnt
    omega
  · show s + sz ((((k * p.strideX : Nat) : Int) - p.padX) * p.srcC)
        + i * (p.srcC * p.strideX) = _
    rw [hs, sz_sub_mul _ _ _ hlo]
    unfold winOrg
    obtain ⟨e, he⟩ := Nat.exists_eq_add_of_le hlo
    have he2 : (k + i) * p.strideX = p.padX + (e + i * p.strideX) := by
      rw [Nat.add_mul, he]; ring
    rw [he2, he]
    simp only [Nat.add_sub_cancel_left]
    ring
  · show w = _
    rw [hw]
    have : winLo p.padX ((k + i) * p.strideX) = 0 := by unfold winLo; omega
    rw [this]; ring

/-- The call the tail loop makes at column `k` computes the pixel of that column. -/
theorem computes_tail {p : ConvParam32f} (h : p.InDomain) (t : TileCtx) (dy k kH s w : Nat)
    (hkH : kH = winCnt p.kernelY p.srcH p.padY (dy * p.strideY))
    (hs : s = t.src + winOrg p.padY (dy * p.strideY) * p.srcW * p.srcC)
    (hw : w = t.weight + winLo p.padY (dy * p.strideY) * p.kernelX * t.srcC * DF)
    (hlo : p.srcW + 1 + p.padX - p.kernelX ≤ k * p.strideX)
    (hhi : k * p.strideX < p.srcW + 1 + p.padX - p.kernelX + p.padW) :
    ({ direct1x1 := false, n := 1,
       src0 := s + sz ((((k * p.strideX : Nat) : Int) - p.padX) * p.srcC), kernelH := kH,
       kernelW := sz ((p.srcW : Int) - p.kernelX + 1 + p.padX + p.kernelX - 1
          - ((k * p.strideX : Nat) : Int)),
       srcC := t.srcC, dstC := t.dC, weight := w,
       bias := t.bias, params := t.params, slope := t.slope,
       dst := t.d0 + dy * p.dstW * p.dstC + k * p.dstC } : MicroCall).Computes p t
      (dy * p.dstW + k) := by
  have hsw := h.srcW
  have hpw := h.padW
  have hkd : k < p.dstW := col_lt_dstW h k hhi
  obtain ⟨hdiv, hmod⟩ := div_row dy p.dstW k hkd
  have hpad : p.padX ≤ k * p.strideX := by omega
  refine ⟨rfl, rfl, rfl, rfl, rfl, rfl, rfl, by ring, ?_⟩
  intro i hi
  have hi0 : i = 0 := by
    have : i < 1 := hi
    omega
  subst hi0
  simp only [Nat.add_zero, Nat.zero_mul, hdiv, hmod]
  refine ⟨hkH, ?_, ?_, ?_⟩
  · rw [sz_of_nonneg (by omega)]
    unfold winCnt
    omega
  · rw [hs, sz_sub_mul _ _ _ hpad]
    unfold winOrg
    ring
  · rw [hw]
    have : winLo p.padX (k * p.strideX) = 0 := by unfold winLo; omega
    rw [this]; ring


/-- Where a loop with positive step ends: at the first value of its progression at or above the
bound; its last round started below the bound. -/
theorem forLoop_exit (g s : Nat) (hs : 0 < s) (hg : 0 < g) (bound stepD : Nat) :
    ∀ fuel k0 d, bound ≤ k0 * s + fuel →
      bound ≤ (k0 + g * (forLoop fuel bound (g * s) stepD (k0 * s) d).length) * s
        ∧ ((forLoop fuel bound (g * s) stepD (k0 * s) d).length = 0
          ∨ (k0 + g * ((forLoop fuel bound (g * s) stepD (k0 * s) d).length - 1)) * s < bound) := by
  intro fuel
  induction fuel with
  | zero =>
    intro k0 d hb
    simp only [forLoop, List.length_nil, Nat.mul_zero, Nat.add_zero]
    exact ⟨by omega, Or.inl trivial⟩
  | succ fuel ih =>
    intro k0 d hb
    rw [forLoop_succ]
    by_cases hlt : k0 * s < bound
    · rw [if_pos hlt]
      have e1 : k0 * s + g * s = (k0 + g) * s := by ring
      rw [e1]
      have hgs : 1 ≤ g * s := Nat.mul_pos hg hs
      have hb' : bound ≤ (k0 + g) * s + fuel := by rw [← e1]; omega
      obtain ⟨h2, h3⟩ := ih (k0 + g) (d + stepD) hb'
      simp only [List.length_cons, Nat.add_sub_cancel]
      have e4 : ∀ n, k0 + g * (n + 1) = k0 + g + g * n := by intro n; ring
      refine ⟨by rw [e4]; exact h2, Or.inr ?_⟩
      rcases h3 with h3 | h3
      · rw [h3]; simpa using hlt
      · rcases Nat.eq_zero_or_pos (forLoop fuel bound (g * s) stepD ((k0 + g) * s)
            (d + stepD)).length with hz | hpos
        · rw [hz]; simpa using hlt
        · obtain ⟨n, hn⟩ := Nat.exists_eq_succ_of_ne_zero (Nat.pos_iff_ne_zero.1 hpos)
          rw [hn] at h3 ⊢
          simp only [Nat.succ_eq_add_one, Nat.add_sub_cancel] at h3
          rw [e4]; exact h3
    · rw [if_neg hlt]
      simp only [List.length_nil, Nat.mul_zero, Nat.add_zero]
      exact ⟨by omega, Or.inl trivial⟩

/-- The exit of a loop whose variables are given by equations. -/
theorem forLoop_exit' (g s : Nat) (hs : 0 < s) (hg : 0 < g) (bound stepD fuel step x d k0 : Nat)
    (L : List (Nat × Nat)) (hL : forLoop fuel bound step stepD x d = L)
    (hstep : step = g * s) (hx : x = k0 * s) (hfuel : bound ≤ x + fuel) :
    bound ≤ (k0 + g * L.length) * s
      ∧ (L.length = 0 ∨ (k0 + g * (L.length - 1)) * s < bound) := by
  subst hstep hx hL
  exact forLoop_exit g s hs hg bound stepD fuel k0 d hfuel

/-- The loop lemma with all loop variables and both ends given by equations. -/
theorem tiled_loop' (p : ConvParam32f) (t : TileCtx) (g s D : Nat) (hs : 0 < s) (hg : 0 < g)
    (mk : Nat × Nat → MicroCall) (bound base dRow fuel step stepD x d k0 P0 P1 : Nat)
    (L : List (Nat × Nat)) (hL : forLoop fuel bound step stepD x d = L)
    (hstep : step = g * s) (hstepD : stepD = g * D) (hx : x = k0 * s) (hd : d = dRow + k0 * D)
    (hfuel : bound ≤ x + fuel) (hP0 : P0 = base + k0)
    (hP1 : P1 = base + (k0 + g * L.length))
    (hmk : ∀ i, (k0 + g * i) * s < bound →
        (mk ((k0 + g * i) * s, dRow + (k0 + g * i) * D)).Computes p t (base + (k0 + g * i))
          ∧ (mk ((k0 + g * i) * s, dRow + (k0 + g * i) * D)).n = g) :
    Tiled p t (L.map mk) P0 P1 := by
  subst hP0 hP1 hL
  exact (tiled_loop p t g s D hs hg mk bound base dRow fuel step stepD x d k0 hstep hstepD hx hd
    hfuel hmk).1

/-- The last pixel of a loop over groups lies in the body when the last pixel before the loop
does and every group of the loop fits. -/
theorem last_in (g s k len bound BW : Nat) (hg : 0 < g)
    (hfit : ∀ u, (k + g * u) * s < bound → (k + g * u + (g - 1)) * s < BW)
    (hprev : k = 0 ∨ (k - 1) * s < BW)
    (hX : len = 0 ∨ (k + g * (len - 1)) * s < bound) :
    k + g * len = 0 ∨ (k + g * len - 1) * s < BW := by
  rcases Nat.eq_zero_or_pos len with hz | hpos
  · subst hz; simpa using hprev
  · obtain ⟨n, hn⟩ : ∃ n, len = n + 1 := ⟨len - 1, by omega⟩
    subst hn
    rcases hX with h0 | h0
    · omega
    · right
      simp only [Nat.add_sub_cancel] at h0
      have h1 := hfit n h0
      have e : k + g * (n + 1) - 1 = k + g * n + (g - 1) := by
        rw [Nat.mul_add, Nat.mul_one]; omega
      rw [e]; exact h1

/-- The first column past the nose is less than one stride past it. -/
theorem first_past (s N n1 : Nat) (hs : 0 < s)
    (X1 : N ≤ (0 + 1 * n1) * s ∧ (n1 = 0 ∨ (0 + 1 * (n1 - 1)) * s < N)) :
    N ≤ n1 * s ∧ n1 * s < N + s ∧ (n1 = 0 ∨ (n1 - 1) * s < N) := by
  simp only [Nat.zero_add, Nat.one_mul] at X1
  refine ⟨X1.1, ?_, X1.2⟩
  rcases Nat.eq_zero_or_pos n1 with hz | hpos
  · subst hz; omega
  · obtain ⟨n, hn⟩ : ∃ n, n1 = n + 1 := ⟨n1 - 1, by omega⟩
    subst hn
    rcases X1.2 with h0 | h0
    · omega
    · simp only [Nat.add_sub_cancel] at h0
      rw [Nat.add_mul, Nat.one_mul]; omega

/-- The number of columns the five loops visit is the width of the destination. -/
theorem columns_count (s Z k dstW : Nat) (hs : 0 < s) (hd : dstW = Z / s + 1)
    (hge : Z + 1 ≤ k * s) (hlast : k = 0 ∨ (k - 1) * s < Z + 1) : k = dstW := by
  have hZ : Z / s * s ≤ Z := Nat.div_mul_le_self _ _
  have h1 : dstW ≤ k := by
    by_contra hc
    have h1 : k ≤ Z / s := by omega
    have h2 : k * s ≤ Z / s * s := Nat.mul_le_mul_right _ h1
    omega
  have h2 : k ≤ dstW := by
    rcases hlast with c | c
    · omega
    · have h3 : (k - 1) * s ≤ Z := by omega
      have h4 := (Nat.le_div_iff_mul_le hs).2 h3
      omega
  omega

theorem le_add_sub' (a b : Nat) : a ≤ b + (a - b) := by omega

set_option maxHeartbeats 1000000 in
/-- The five column loops of a row compute the pixels of the row, each once, and leave the
destination pointer at the start of the next row. -/
theorem rowColumns_tiled {p : ConvParam32f} (h : p.InDomain) (b : RowBoundsExact)
    (hb : rowBoundsExact p = some b) (t : TileCtx) (dy kH s w : Nat)
    (hkH : kH = winCnt p.kernelY p.srcH p.padY (dy * p.strideY))
    (hs : s = t.src + winOrg p.padY (dy * p.strideY) * p.srcW * p.srcC)
    (hw : w = t.weight + winLo p.padY (dy * p.strideY) * p.kernelX * t.srcC * DF) :
    Tiled p t (rowColumnsExact p b kH s w t.srcC t.dC t.bias t.params t.slope
        (t.d0 + dy * p.dstW * p.dstC)).1 (dy * p.dstW) (dy * p.dstW + p.dstW)
      ∧ (rowColumnsExact p b kH s w t.srcC t.dC t.bias t.params t.slope
        (t.d0 + dy * p.dstW * p.dstC)).2 = t.d0 + dy * p.dstW * p.dstC + p.dstW * p.dstC := by
  obtain ⟨b', hb', -, hnW, -, hbWi, -, hbW, hb3, hb6, -, htW⟩ := h.rowBoundsExact
  have hbb : b' = b := Option.some.inj (hb'.symm.trans hb)
  subst hbb
  obtain ⟨-, hsx, -, hdW⟩ := h.shape
  have hsw := h.srcW
  have hA : p.srcW + 1 - p.kernelX + p.padX ≤ p.srcW + 1 + p.padX - p.kernelX := by omega
  have hZ : p.srcW + 1 + p.padX - p.kernelX + p.padW
      = p.srcW + p.padX + p.padW - p.kernelX + 1 := by
    have := h.fitX
    omega
  have hBT : p.srcW + 1 + p.padX - p.kernelX ≤ p.srcW + 1 + p.padX - p.kernelX + p.padW :=
    Nat.le_add_right _ _
  simp only [rowColumnsExact, forRounds, hnW, hbWi, hbW, hb3, hb6, htW]
  clear hb' hb hnW hbWi hbW hb3 hb6 htW
  generalize hl1 : forLoop (p.padX - 0) p.padX p.strideX p.dstC 0
    (t.d0 + dy * p.dstW * p.dstC) = l1
  generalize hl2 : forLoop ((p.srcW + 1 - p.kernelX) / (6 * p.strideX) * (6 * p.strideX)
      + p.padX - l1.length * p.strideX)
    ((p.srcW + 1 - p.kernelX) / (6 * p.strideX) * (6 * p.strideX) + p.padX)
    (6 * p.strideX) (6 * p.dstC) (l1.length * p.strideX)
    (t.d0 + dy * p.dstW * p.dstC + l1.length * p.dstC) = l2
  generalize hl3 : forLoop ((p.srcW + 1 - p.kernelX) / (3 * p.strideX) * (3 * p.strideX)
      + p.padX - (l1.length * p.strideX + l2.length * (6 * p.strideX)))
    ((p.srcW + 1 - p.kernelX) / (3 * p.strideX) * (3 * p.strideX) + p.padX)
    (3 * p.strideX) (3 * p.dstC) (l1.length * p.strideX + l2.length * (6 * p.strideX))
    (t.d0 + dy * p.dstW * p.dstC + l1.length * p.dstC + l2.length * (6 * p.dstC)) = l3
  generalize hl4 : forLoop (p.srcW + 1 + p.padX - p.kernelX
      - (l1.length * p.strideX + l2.length * (6 * p.strideX) + l3.length * (3 * p.strideX)))
    (p.srcW + 1 + p.padX - p.kernelX) p.strideX p.dstC
    (l1.length * p.strideX + l2.length * (6 * p.strideX) + l3.length * (3 * p.strideX))
    (t.d0 + dy * p.dstW * p.dstC + l1.length * p.dstC + l2.length * (6 * p.dstC)
      + l3.length * (3 * p.dstC)) = l4
  generalize hl5 : forLoop (p.srcW + 1 + p.padX - p.kernelX + p.padW
      - (l1.length * p.strideX + l2.length * (6 * p.strideX) + l3.length * (3 * p.strideX)
        + l4.length * p.strideX))
    (p.srcW + 1 + p.padX - p.kernelX + p.padW) p.strideX p.dstC
    (l1.length * p.strideX + l2.length * (6 * p.strideX) + l3.length * (3 * p.strideX)
        + l4.length * p.strideX)
    (t.d0 + dy * p.dstW * p.dstC + l1.length * p.dstC + l2.length * (6 * p.dstC)
      + l3.length * (3 * p.dstC) + l4.length * p.dstC) = l5
  have X1 := forLoop_exit' 1 p.strideX hsx Nat.one_pos p.padX p.dstC (p.padX - 0) p.strideX 0
    (t.d0 + dy * p.dstW * p.dstC) 0 l1 hl1 (Nat.one_mul _).symm (Nat.zero_mul _).symm
    (le_add_sub' _ _)
  have X2 := forLoop_exit' 6 p.strideX hsx (by decide) _ (6 * p.dstC) _ (6 * p.strideX)
    (l1.length * p.strideX) _ l1.length l2 hl2 rfl rfl (le_add_sub' _ _)
  have X3 := forLoop_exit' 3 p.strideX hsx (by decide) _ (3 * p.dstC) _ (3 * p.strideX)
    (l1.length * p.strideX + l2.length * (6 * p.strideX)) _
    (l1.length + 6 * l2.length) l3 hl3 rfl (by ring) (le_add_sub' _ _)
  have X4 := forLoop_exit' 1 p.strideX hsx Nat.one_pos _ p.dstC _ p.strideX
    (l1.length * p.strideX + l2.length * (6 * p.strideX) + l3.length * (3 * p.strideX)) _
    (l1.length + 6 * l2.length + 3 * l3.length) l4 hl4 (Nat.one_mul _).symm (by ring)
    (le_add_sub' _ _)
  have X5 := forLoop_exit' 1 p.strideX hsx Nat.one_pos _ p.dstC _ p.strideX
    (l1.length * p.strideX + l2.length * (6 * p.strideX) + l3.length * (3 * p.strideX)
        + l4.length * p.strideX) _
    (l1.length + 6 * l2.length + 3 * l3.length + l4.length) l5 hl5 (Nat.one_mul _).symm
    (by ring) (le_add_sub' _ _)
  obtain ⟨hk1lo, hk1hi, hk1last⟩ := first_past p.strideX p.padX l1.length hsx X1
  have mono : ∀ a c : Nat, a ≤ c → a * p.strideX ≤ c * p.strideX :=
    fun a c hac => Nat.mul_le_mul_right _ hac
  have hfit6 : ∀ u, (l1.length + 6 * u) * p.strideX
        < (p.srcW + 1 - p.kernelX) / (6 * p.strideX) * (6 * p.strideX) + p.padX →
      (l1.length + 6 * u + (6 - 1)) * p.strideX < p.srcW + 1 + p.padX - p.kernelX :=
    fun u hu => group_fit 6 p.strideX p.padX (p.srcW + 1 + p.padX - p.kernelX)
      (p.srcW + 1 - p.kernelX) l1.length u (by decide) hA hk1lo hk1hi hu
  have hfit3' : ∀ u, (l1.length + 3 * u) * p.strideX
        < (p.srcW + 1 - p.kernelX) / (3 * p.strideX) * (3 * p.strideX) + p.padX →
      (l1.length + 3 * u + (3 - 1)) * p.strideX < p.srcW + 1 + p.padX - p.kernelX :=
    fun u hu => group_fit 3 p.strideX p.padX (p.srcW + 1 + p.padX - p.kernelX)
      (p.srcW + 1 - p.kernelX) l1.length u (by decide) hA hk1lo hk1hi hu
  have hfit3 : ∀ u, (l1.length + 6 * l2.length + 3 * u) * p.strideX
        < (p.srcW + 1 - p.kernelX) / (3 * p.strideX) * (3 * p.strideX) + p.padX →
      (l1.length + 6 * l2.length + 3 * u + (3 - 1)) * p.strideX
        < p.srcW + 1 + p.padX - p.kernelX := by
    intro u hu
    have e0 : l1.length + 6 * l2.length + 3 * u = l1.length + 3 * (2 * l2.length + u) := by
      ring
    rw [e0] at hu ⊢
    exact hfit3' _ hu
  have hfit1 : ∀ u, (l1.length + 6 * l2.length + 3 * l3.length + 1 * u) * p.strideX
        < p.srcW + 1 + p.padX - p.kernelX →
      (l1.length + 6 * l2.length + 3 * l3.length + 1 * u + (1 - 1)) * p.strideX
        < p.srcW + 1 + p.padX - p.kernelX := fun u hu => hu
  have C1 : l1.length = 0 ∨ (l1.length - 1) * p.strideX < p.srcW + 1 + p.padX - p.kernelX := by
    rcases hk1last with c | c
    · exact Or.inl c
    · right; clear X1 X2 X3 X4 X5 hfit6 hfit3 hfit3' hfit1 mono hl1 hl2 hl3 hl4 hl5; omega
  have C2 := last_in 6 p.strideX l1.length l2.length _ _ (by decide) hfit6 C1 X2.2
  have C3 := last_in 3 p.strideX (l1.length + 6 * l2.length) l3.length _ _ (by decide) hfit3
    C2 X3.2
  have C4 := last_in 1 p.strideX (l1.length + 6 * l2.length + 3 * l3.length) l4.length _ _
    Nat.one_pos hfit1 C3 X4.2
  have C4' : l1.length + 6 * l2.length + 3 * l3.length + 1 * l4.length = 0
      ∨ (l1.length + 6 * l2.length + 3 * l3.length + 1 * l4.length - 1) * p.strideX
        < p.srcW + 1 + p.padX - p.kernelX + p.padW := by
    rcases C4 with c | c
    · exact Or.inl c
    · exact Or.inr (Nat.lt_of_lt_of_le c hBT)
  rw [Nat.one_mul] at C4'
  have C5 := last_in 1 p.strideX (l1.length + 6 * l2.length + 3 * l3.length + l4.length)
    l5.length (p.srcW + 1 + p.padX - p.kernelX + p.padW)
    (p.srcW + 1 + p.padX - p.kernelX + p.padW) Nat.one_pos (fun u hu => hu) C4' X5.2
  have X5a := X5.1
  rw [hZ] at C5 X5a
  have hcount := columns_count p.strideX (p.srcW + p.padX + p.padW - p.kernelX)
    (l1.length + 6 * l2.length + 3 * l3.length + l4.length + 1 * l5.length) p.dstW hsx hdW
    X5a C5
  rw [Nat.one_mul] at hcount
  have X4a : p.srcW + 1 + p.padX - p.kernelX
      ≤ (l1.length + 6 * l2.length + 3 * l3.length + l4.length) * p.strideX := by
    have := X4.1
    rw [Nat.one_mul] at this
    exact this
  clear X1 X2 X3 X4 X5 X5a C1 C2 C3 C4 C4' C5 hk1last hfit3' hfit1 hZ hBT hdW
  refine ⟨?_, ?_⟩
  · refine tiled_append p t _ _ _
      (dy * p.dstW + (l1.length + 6 * l2.length + 3 * l3.length + l4.length)) _
      (tiled_append p t _ _ _ (dy * p.dstW + (l1.length + 6 * l2.length + 3 * l3.length)) _
        (tiled_append p t _ _ _ (dy * p.dstW + (l1.length + 6 * l2.length)) _
          (tiled_append p t _ _ _ (dy * p.dstW + l1.length) _ ?_ ?_) ?_) ?_) ?_
    · refine tiled_loop' p t 1 p.strideX p.dstC hsx Nat.one_pos _ p.padX (dy * p.dstW)
        (t.d0 + dy * p.dstW * p.dstC) _ _ _ _ _ 0 _ _ l1 hl1 (Nat.one_mul _).symm
        (Nat.one_mul _).symm (Nat.zero_mul _).symm (by simp) (le_add_sub' _ _) rfl (by simp) ?_
      intro i hi
      exact ⟨computes_nose h t dy (0 + 1 * i) kH s w hkH hs hw hi, rfl⟩
    · refine tiled_loop' p t 6 p.strideX p.dstC hsx (by decide) _ _ (dy * p.dstW)
        (t.d0 + dy * p.dstW * p.dstC) _ _ _ _ _ l1.length _ _ l2 hl2 rfl rfl rfl rfl
        (le_add_sub' _ _) rfl rfl ?_
      intro i hi
      exact ⟨computes_body h t dy (l1.length + 6 * i) 6 kH s w hkH hs hw (by decide)
        (Nat.le_trans hk1lo (mono _ _ (Nat.le_add_right _ _))) (hfit6 i hi), rfl⟩
    · refine tiled_loop' p t 3 p.strideX p.dstC hsx (by decide) _ _ (dy * p.dstW)
        (t.d0 + dy * p.dstW * p.dstC) _ _ _ _ _ (l1.length + 6 * l2.length) _ _ l3 hl3 rfl rfl
        (by ring) (by ring) (le_add_sub' _ _) rfl rfl ?_
      intro i hi
      exact ⟨computes_body h t dy (l1.length + 6 * l2.length + 3 * i) 3 kH s w hkH hs hw
        (by decide) (Nat.le_trans hk1lo (mono _ _ (by omega))) (hfit3 i hi), rfl⟩
    · refine tiled_loop' p t 1 p.strideX p.dstC hsx Nat.one_pos _ _ (dy * p.dstW)
        (t.d0 + dy * p.dstW * p.dstC) _ _ _ _ _ (l1.length + 6 * l2.length + 3 * l3.length) _ _
        l4 hl4 (Nat.one_mul _).symm (Nat.one_mul _).symm (by ring) (by ring)
        (le_add_sub' _ _) rfl (by rw [Nat.one_mul]) ?_
      intro i hi
      exact ⟨computes_body h t dy (l1.length + 6 * l2.length + 3 * l3.length + 1 * i) 1 kH s w
        hkH hs hw Nat.one_pos (Nat.le_trans hk1lo (mono _ _ (by omega))) hi, rfl⟩
    · refine tiled_loop' p t 1 p.strideX p.dstC hsx Nat.one_pos _ _ (dy * p.dstW)
        (t.d0 + dy * p.dstW * p.dstC) _ _ _ _ _
        (l1.length + 6 * l2.length + 3 * l3.length + l4.length) _ _
        l5 hl5 (Nat.one_mul _).symm (Nat.one_mul _).symm (by ring) (by ring)
        (le_add_sub' _ _) rfl (by rw [Nat.one_mul, hcount]) ?_
      intro i hi
      exact ⟨computes_tail h t dy (l1.length + 6 * l2.length + 3 * l3.length + l4.length + 1 * i)
        kH s w hkH hs hw (Nat.le_trans X4a (mono _ _ (Nat.le_add_right _ _))) hi, rfl⟩
  · rw [← hcount]; ring

/-- The column loops of a row of a region compute the pixels of the row. -/
theorem rowBody_tiled {p : ConvParam32f} (h : p.InDomain) (b : RowBoundsExact)
    (hb : rowBoundsExact p = some b) (t : TileCtx) (r : RowRegion) (dy : Nat)
    (hr : r.Holds p (dy * p.strideY)) :
    Tiled p t (rowBodyExact p b r t.src t.weight t.srcC t.dC t.bias t.params t.slope
        (dy * p.strideY) (t.d0 + dy * p.dstW * p.dstC)).1 (dy * p.dstW) (dy * p.dstW + p.dstW)
      ∧ (rowBodyExact p b r t.src t.weight t.srcC t.dC t.bias t.params t.slope
        (dy * p.strideY) (t.d0 + dy * p.dstW * p.dstC)).2
          = t.d0 + dy * p.dstW * p.dstC + p.dstW * p.dstC := by
  obtain ⟨b', hb', hnH, -, hbHi, -, -, -, -, -, -, -⟩ := h.rowBoundsExact
  have hbb : b' = b := Option.some.inj (hb'.symm.trans hb)
  subst hbb
  have hsh := h.srcH
  have hpy := h.padY
  have hph := h.padH
  cases r with
  | nose =>
    simp only [RowRegion.Holds] at hr
    simp only [rowBodyExact, hnH]
    refine rowColumns_tiled h b' hb t dy _ _ _ ?_ ?_ ?_
    · rw [sz_of_nonneg (by omega)]
      unfold winCnt
      omega
    · have : winOrg p.padY (dy * p.strideY) = 0 := by unfold winOrg; omega
      rw [this]; ring
    · rw [sz_sub_mul3 _ _ _ _ _ (by omega)]
      unfold winLo
      ring
  | body =>
    simp only [RowRegion.Holds] at hr
    simp only [rowBodyExact, hnH]
    refine rowColumns_tiled h b' hb t dy _ _ _ ?_ ?_ ?_
    · unfold winCnt
      omega
    · rw [sz_sub_mul2 _ _ _ _ hr.1]
      unfold winOrg
      ring
    · have : winLo p.padY (dy * p.strideY) = 0 := by unfold winLo; omega
      rw [this]; ring
  | tail =>
    simp only [RowRegion.Holds] at hr
    simp only [rowBodyExact, hnH, hbHi]
    refine rowColumns_tiled h b' hb t dy _ _ _ ?_ ?_ ?_
    · rw [sz_of_nonneg (by omega)]
      unfold winCnt
      omega
    · rw [sz_sub_mul2 _ _ _ _ (by omega)]
      unfold winOrg
      ring
    · have : winLo p.padY (dy * p.strideY) = 0 := by unfold winLo; omega
      rw [this]; ring

/-- A row loop of the row pass computes the rows it runs over, and stops at `yEnd` or at the
bound of its region. -/
theorem rowLoop_tiled {p : ConvParam32f} (h : p.InDomain) (b : RowBoundsExact)
    (hb : rowBoundsExact p = some b) (t : TileCtx) (r : RowRegion) (yEnd lo : Nat)
    (hreg : ∀ dy, lo ≤ dy * p.strideY → dy * p.strideY < r.boundExact b →
      r.Holds p (dy * p.strideY)) :
    ∀ fuel dy, yEnd ≤ dy + fuel → dy ≤ yEnd → (dy = yEnd ∨ lo ≤ dy * p.strideY) →
      ∃ dy', (rowLoopExact p b r t.src t.weight t.srcC t.dC t.bias t.params t.slope yEnd fuel
          (dy * p.strideY) dy (t.d0 + dy * p.dstW * p.dstC)).2
            = (dy' * p.strideY, dy', t.d0 + dy' * p.dstW * p.dstC) ∧
        dy ≤ dy' ∧ dy' ≤ yEnd ∧ (dy' = yEnd ∨ r.boundExact b ≤ dy' * p.strideY) ∧
        (dy' = yEnd ∨ lo ≤ dy' * p.strideY) ∧
        Tiled p t (rowLoopExact p b r t.src t.weight t.srcC t.dC t.bias t.params t.slope yEnd fuel
          (dy * p.strideY) dy (t.d0 + dy * p.dstW * p.dstC)).1 (dy * p.dstW) (dy' * p.dstW) := by
  intro fuel
  induction fuel with
  | zero =>
    intro dy h1 h2 h3
    have e : dy = yEnd := by omega
    exact ⟨dy, rfl, le_refl _, h2, Or.inl e, h3, rfl⟩
  | succ fuel ih =>
    intro dy h1 h2 h3
    unfold rowLoopExact
    by_cases hc : dy * p.strideY < r.boundExact b ∧ dy < yEnd
    · rw [if_pos hc]
      have hlo : lo ≤ dy * p.strideY := by
        rcases h3 with h3 | h3
        · omega
        · exact h3
      obtain ⟨hT, hd⟩ := rowBody_tiled h b hb t r dy (hreg dy hlo hc.1)
      have e1 : dy * p.strideY + p.strideY = (dy + 1) * p.strideY := by ring
      have e2 : t.d0 + dy * p.dstW * p.dstC + p.dstW * p.dstC
          = t.d0 + (dy + 1) * p.dstW * p.dstC := by ring
      have e3 : dy * p.dstW + p.dstW = (dy + 1) * p.dstW := by ring
      simp only [hd, e1, e2]
      rw [e3] at hT
      have hge : lo ≤ (dy + 1) * p.strideY := by
        rw [← e1]; omega
      obtain ⟨dy', g1, g2, g3, g4, g5, g6⟩ := ih (dy + 1) (by omega) (by omega) (Or.inr hge)
      refine ⟨dy', g1, by omega, g3, g4, g5, ?_⟩
      exact tiled_append p t _ _ _ _ _ hT g6
    · rw [if_neg hc]
      refine ⟨dy, rfl, le_refl _, h2, ?_, h3, rfl⟩
      by_cases hy : dy < yEnd
      · right
        by_contra hn
        exact hc ⟨by omega, hy⟩
      · left; omega

theorem rows_end (s Z dy yEnd dstH : Nat) (hd : dstH = Z / s + 1)
    (hE : yEnd ≤ dstH) (hle : dy ≤ yEnd) (hx : dy = yEnd ∨ Z + 1 ≤ dy * s) : dy = yEnd := by
  rcases hx with hx | hx
  · exact hx
  · by_contra hne
    have h1 : dy ≤ Z / s := by omega
    have h2 : dy * s ≤ Z / s * s := Nat.mul_le_mul_right _ h1
    have h3 : Z / s * s ≤ Z := Nat.div_mul_le_self _ _
    omega

/-- The three row loops of a tile compute the rows `[yBeg, yEnd)` of the tile. -/
theorem tileCalls_tiled {p : ConvParam32f} (h : p.InDomain) (b : RowBoundsExact)
    (hb : rowBoundsExact p = some b) (src dstC yBeg yEnd srcC weight bias params dst dc : Nat)
    (hy : yBeg ≤ yEnd) (hE : yEnd ≤ p.dstH) :
    Tiled p (passTile src dstC srcC weight bias params dst dc)
      (tileCallsExact p b src dstC yBeg yEnd srcC weight bias params dst dc)
      (yBeg * p.dstW) (yEnd * p.dstW) := by
  obtain ⟨b', hb', hnH, -, -, -, hbH, -, -, -, htH, -⟩ := h.rowBoundsExact
  rw [hb] at hb'
  cases hb'
  obtain ⟨hsy, -, hdH, -⟩ := h.shape
  have hsrc := h.srcH
  have hpY := h.padY
  have hfit := h.fitY
  generalize ht : passTile src dstC srcC weight bias params dst dc = t
  have hts : t.src = src := by rw [← ht]; rfl
  have htw : t.weight = weight := by rw [← ht]; rfl
  have htc : t.srcC = srcC := by rw [← ht]; rfl
  have htd : t.dC = min DF (dstC - dc) := by rw [← ht]; rfl
  have htb : t.bias = bias + dc := by rw [← ht]; rfl
  have htp : t.params = params := by rw [← ht]; rfl
  have htl : t.slope = params + dc := by rw [← ht]; rfl
  have ht0 : t.d0 = dst + dc := by rw [← ht]; rfl
  unfold tileCallsExact
  simp only []
  rw [← hts, ← htw, ← htc, ← htd, ← htb, ← htl, ← ht0]
  simp only [← htp]
  obtain ⟨y1, e1, a1, a2, a3, -, T1⟩ := rowLoop_tiled h b hb t RowRegion.nose yEnd 0
    (by intro dy _ h2; simpa [RowRegion.Holds, RowRegion.boundExact, hnH] using h2)
    (yEnd - yBeg) yBeg (by omega) hy (Or.inr (Nat.zero_le _))
  rw [e1]
  simp only []
  simp only [RowRegion.boundExact, hnH] at a3
  obtain ⟨y2, e2, c1, c2, c3, -, T2⟩ := rowLoop_tiled h b hb t RowRegion.body yEnd p.padY
    (by intro dy h1 h2; simp only [RowRegion.boundExact, hbH] at h2; exact ⟨h1, h2⟩)
    (yEnd - y1) y1 (by omega) a2 a3
  rw [e2]
  simp only []
  simp only [RowRegion.boundExact, hbH] at c3
  obtain ⟨y3, e3, f1, f2, f3, -, T3⟩ := rowLoop_tiled h b hb t RowRegion.tail yEnd
    (p.srcH + 1 + p.padY - p.kernelY)
    (by intro dy h1 h2; simp only [RowRegion.boundExact, htH] at h2; exact ⟨h1, h2⟩)
    (yEnd - y2) y2 (by omega) c2 c3
  simp only [RowRegion.boundExact, htH] at f3
  have hend : y3 = yEnd :=
    rows_end p.strideY (p.srcH + p.padY + p.padH - p.kernelY) y3 yEnd p.dstH hdH hE f2
      (by rcases f3 with f3 | f3
          · exact Or.inl f3
          · right; omega)
  rw [hend] at T3
  exact tiled_append p t _ _ _ _ _ (tiled_append p t _ _ _ _ _ T1 T2) T3

/-- What `Is1x1()` says. -/
theorem is1x1_iff (p : ConvParam32f) : p.Is1x1 = true ↔
    (p.kernelY = 1 ∧ p.kernelX = 1) ∧ (p.dilationY = 1 ∧ p.dilationX = 1)
      ∧ (p.strideY = 1 ∧ p.strideX = 1)
      ∧ (p.padY = 0 ∧ p.padX = 0 ∧ p.padH = 0 ∧ p.padW = 0) := by
  simp only [ConvParam32f.Is1x1, ConvParam32f.IsKernel, ConvParam32f.IsDilation,
    ConvParam32f.IsStride, ConvParam32f.IsPad, Bool.and_eq_true, decide_eq_true_eq]
  tauto

/-- The loop of the 1x1 micro-kernels is the loop nest of the general ones for a 1x1 kernel. -/
theorem kernelMacs_one (p : ConvParam32f) (hk : p.kernelX = 1) (srcC : Nat) :
    kernelMacs p 1 1 srcC = kernelMacs1x1 srcC := by
  unfold kernelMacs kernelMacs1x1
  have e : List.range 1 = [0] := rfl
  simp only [hk, e, List.flatMap_cons, List.flatMap_nil, List.append_nil, Nat.zero_mul,
    Nat.zero_add]

/-- A call of a 1x1 micro-kernel on `g` pixels from pixel `base + k` of the pass on computes
these pixels. -/
theorem computes_1x1 {p : ConvParam32f} (h : p.InDomain) (h1 : p.Is1x1 = true) (t : TileCtx)
    (yBeg yEnd k g : Nat) (hE : yEnd ≤ p.dstH) (hk : yBeg * p.dstW + k + g ≤ yEnd * p.dstW) :
    MicroCall.Computes p t (yBeg * p.dstW + k)
      { direct1x1 := true, n := g, src0 := t.src + yBeg * p.srcW * p.srcC + k * p.srcC,
        kernelH := 1, kernelW := 1, srcC := t.srcC, dstC := t.dC, weight := t.weight,
        bias := t.bias, params := t.params, slope := t.slope,
        dst := t.d0 + yBeg * p.dstW * p.dstC + k * p.dstC } := by
  obtain ⟨⟨hkY, hkX⟩, -, ⟨hsY, hsX⟩, hpY, hpX, hpH, hpW⟩ := (is1x1_iff p).1 h1
  obtain ⟨-, -, hdH, hdW⟩ := h.shape
  have hfY := h.fitY
  have hfX := h.fitX
  rw [hkY, hsY, hpY, hpH] at hdH
  rw [hkX, hsX, hpX, hpW] at hdW
  rw [hkY, hpY, hpH] at hfY
  rw [hkX, hpX, hpW] at hfX
  simp only [Nat.add_zero, Nat.div_one] at hdH hdW hfY hfX
  have hH : p.dstH = p.srcH := by omega
  have hW : p.dstW = p.srcW := by omega
  refine ⟨?_, ?_, rfl, rfl, rfl, rfl, rfl, ?_, ?_⟩
  · simp only [MicroCall.macs, if_true]
    exact (kernelMacs_one p hkX _).symm
  · simp only [MicroCall.dS, if_true, hsX, Nat.mul_one]
  · show t.d0 + yBeg * p.dstW * p.dstC + k * p.dstC = t.d0 + (yBeg * p.dstW + k) * p.dstC
    ring
  · intro i hi
    have hi' : i < g := hi
    have hWpos : 0 < p.dstW := by omega
    have hlt : yBeg * p.dstW + k + i < yEnd * p.dstW := by omega
    have hy : (yBeg * p.dstW + k + i) / p.dstW < yEnd := (Nat.div_lt_iff_lt_mul hWpos).2 hlt
    have hx : (yBeg * p.dstW + k + i) % p.dstW < p.dstW := Nat.mod_lt _ hWpos
    have hdm := Nat.div_add_mod (yBeg * p.dstW + k + i) p.dstW
    simp only [MicroCall.dS, if_true, winCnt, winOrg, winLo, hkY, hkX, hsY, hsX, hpY, hpX,
      Nat.mul_one, Nat.add_zero, Nat.sub_zero, Nat.zero_sub, Nat.zero_mul]
    refine ⟨?_, ?_, ?_, ?_⟩
    · omega
    · omega
    · rw [← hW]
      have e : (yBeg * p.dstW + k + i) / p.dstW * p.dstW + (yBeg * p.dstW + k + i) % p.dstW
          = yBeg * p.dstW + k + i := by rw [Nat.mul_comm]; exact hdm
      rw [e]; ring
    · simp

/-- The three pixel loops of a tile of the 1x1 row pass compute the rows `[yBeg, yEnd)` of the
tile. -/
theorem tileCalls1x1_tiled {p : ConvParam32f} (h : p.InDomain) (h1 : p.Is1x1 = true)
    (src dstC yBeg yEnd srcC weight bias params dst dc : Nat)
    (hy : yBeg ≤ yEnd) (hE : yEnd ≤ p.dstH) :
    Tiled p (passTile src dstC srcC weight bias params dst dc)
      (tileCalls1x1 p ((yEnd - yBeg) * p.dstW) ((yEnd - yBeg) * p.dstW / 3 * 3)
        ((yEnd - yBeg) * p.dstW / 6 * 6) src dstC yBeg srcC weight bias params dst dc)
      (yBeg * p.dstW) (yEnd * p.dstW) := by
  generalize ht : passTile src dstC srcC weight bias params dst dc = t
  have hts : src = t.src := by rw [← ht]; rfl
  have htw : weight = t.weight := by rw [← ht]; rfl
  have htc : srcC = t.srcC := by rw [← ht]; rfl
  have htd : min DF (dstC - dc) = t.dC := by rw [← ht]; rfl
  have htb : bias + dc = t.bias := by rw [← ht]; rfl
  have htp : params = t.params := by rw [← ht]; rfl
  have htl : params + dc = t.slope := by rw [← ht]; rfl
  have ht0 : dst + dc = t.d0 := by rw [← ht]; rfl
  have hn : yBeg * p.dstW + (yEnd - yBeg) * p.dstW = yEnd * p.dstW := by
    rw [← Nat.add_mul]; congr 1; omega
  generalize (yEnd - yBeg) * p.dstW = n1 at hn ⊢
  simp only [tileCalls1x1, forRounds, htd, htb, htl, ht0]
  rw [hts, htw, htc, htp]
  clear ht hts htw htc htd htb htp htl ht0
  generalize hl6 : forLoop (n1 / 6 * 6 - 0) (n1 / 6 * 6) 6 (6 * p.dstC) 0
    (t.d0 + yBeg * p.dstW * p.dstC) = l6
  generalize hl3 : forLoop (n1 / 3 * 3 - l6.length * 6) (n1 / 3 * 3) 3 (3 * p.dstC)
    (l6.length * 6) (t.d0 + yBeg * p.dstW * p.dstC + l6.length * (6 * p.dstC)) = l3
  generalize hl1 : forLoop (n1 - (l6.length * 6 + l3.length * 3)) n1 1 p.dstC
    (l6.length * 6 + l3.length * 3)
    (t.d0 + yBeg * p.dstW * p.dstC + l6.length * (6 * p.dstC) + l3.length * (3 * p.dstC)) = l1
  have X6 := forLoop_exit' 6 1 Nat.one_pos (by decide) (n1 / 6 * 6) (6 * p.dstC) _ 6 0 _ 0 l6
    hl6 rfl rfl (le_add_sub' _ _)
  have X3 := forLoop_exit' 3 1 Nat.one_pos (by decide) (n1 / 3 * 3) (3 * p.dstC) _ 3
    (l6.length * 6) _ (6 * l6.length) l3 hl3 rfl (by ring) (le_add_sub' _ _)
  have X1 := forLoop_exit' 1 1 Nat.one_pos Nat.one_pos n1 p.dstC _ 1
    (l6.length * 6 + l3.length * 3) _ (6 * l6.length + 3 * l3.length) l1 hl1 rfl (by ring)
    (le_add_sub' _ _)
  have e6 : 6 * l6.length = n1 / 6 * 6 := by omega
  have e3 : 6 * l6.length + 3 * l3.length = n1 / 3 * 3 := by omega
  have e1 : 6 * l6.length + 3 * l3.length + l1.length = n1 := by omega
  have T6 := tiled_loop' p t 6 1 p.dstC Nat.one_pos (by decide)
    (fun xd => ({
        direct1x1 := true, n := 6,
        src0 := t.src + yBeg * p.srcW * p.srcC + xd.1 * p.srcC, kernelH := 1, kernelW := 1,
        srcC := t.srcC, dstC := t.dC, weight := t.weight, bias := t.bias, params := t.params,
        slope := t.slope, dst := xd.2 } : MicroCall))
    (n1 / 6 * 6) (yBeg * p.dstW) (t.d0 + yBeg * p.dstW * p.dstC) _ 6 (6 * p.dstC) 0 _ 0
    (yBeg * p.dstW) (yBeg * p.dstW + 6 * l6.length) l6 hl6 rfl rfl rfl (by ring)
    (le_add_sub' _ _) rfl (by rw [Nat.zero_add])
    (by
      intro i hi
      refine ⟨?_, rfl⟩
      simp only [Nat.zero_add, Nat.mul_one] at hi ⊢
      exact computes_1x1 h h1 t yBeg yEnd (6 * i) 6 hE (by omega))
  have T3 := tiled_loop' p t 3 1 p.dstC Nat.one_pos (by decide)
    (fun xd => ({
        direct1x1 := true, n := 3,
        src0 := t.src + yBeg * p.srcW * p.srcC + xd.1 * p.srcC, kernelH := 1, kernelW := 1,
        srcC := t.srcC, dstC := t.dC, weight := t.weight, bias := t.bias, params := t.params,
        slope := t.slope, dst := xd.2 } : MicroCall))
    (n1 / 3 * 3) (yBeg * p.dstW) (t.d0 + yBeg * p.dstW * p.dstC) _ 3 (3 * p.dstC)
    (l6.length * 6) _ (6 * l6.length)
    (yBeg * p.dstW + 6 * l6.length) (yBeg * p.dstW + (6 * l6.length + 3 * l3.length)) l3 hl3
    rfl rfl (by ring) (by ring) (le_add_sub' _ _) rfl rfl
    (by
      intro i hi
      refine ⟨?_, rfl⟩
      simp only [Nat.mul_one] at hi ⊢
      exact computes_1x1 h h1 t yBeg yEnd (6 * l6.length + 3 * i) 3 hE (by omega))
  have T1 := tiled_loop' p t 1 1 p.dstC Nat.one_pos Nat.one_pos
    (fun xd => ({
        direct1x1 := true, n := 1,
        src0 := t.src + yBeg * p.srcW * p.srcC + xd.1 * p.srcC, kernelH := 1, kernelW := 1,
        srcC := t.srcC, dstC := t.dC, weight := t.weight, bias := t.bias, params := t.params,
        slope := t.slope, dst := xd.2 } : MicroCall))
    n1 (yBeg * p.dstW) (t.d0 + yBeg * p.dstW * p.dstC) _ 1 p.dstC
    (l6.length * 6 + l3.length * 3) _ (6 * l6.length + 3 * l3.length)
    (yBeg * p.dstW + (6 * l6.length + 3 * l3.length)) (yEnd * p.dstW) l1 hl1
    rfl (Nat.one_mul _).symm (by ring) (by ring) (le_add_sub' _ _) rfl (by omega)
    (by
      intro i hi
      refine ⟨?_, rfl⟩
      simp only [Nat.mul_one, Nat.one_mul] at hi ⊢
      exact computes_1x1 h h1 t yBeg yEnd (6 * l6.length + 3 * l3.length + i) 1 hE
        (by omega))
  exact tiled_append p t _ _ _ _ _ (tiled_append p t _ _ _ _ _ T6 T3) T1

/-- The loop over source-channel blocks is over once `sc` has reached `p.srcC`. -/
theorem driverChannels_done (direct1x1 : Bool) (p : ConvParam32f) (a : AlgParam)
    (macroD bias params dst dc fuel sc weight : Nat) (h : ¬ sc < p.srcC) :
    driverChannels direct1x1 p a macroD bias params dst dc fuel sc weight
      = some ([], weight) := by
  cases fuel <;> simp [driverChannels, h]

/-- One round of the loop over source-channel blocks. -/
theorem driverChannels_step (direct1x1 : Bool) (p : ConvParam32f) (a : AlgParam)
    (macroD bias params dst dc fuel sc weight : Nat) (hlt : sc < p.srcC)
    (cs : List (TermType × MicroCall)) (aD : Nat)
    (hrows : driverRows direct1x1 p a (driverTerm p a sc (min p.srcC (sc + a.macroC) - sc)) sc
      macroD (min p.srcC (sc + a.macroC) - sc) weight (bias + dc) params (dst + dc) p.dstH 0
        = some cs)
    (hA : AlignHiAny macroD a.microD = some aD)
    (rest : List (TermType × MicroCall) × Nat)
    (hrest : driverChannels direct1x1 p a macroD bias params dst dc fuel (sc + a.macroC)
      (weight + aD * ((if direct1x1 then 1 else p.kernelY * p.kernelX)
        * (min p.srcC (sc + a.macroC) - sc))) = some rest) :
    driverChannels direct1x1 p a macroD bias params dst dc (fuel + 1) sc weight
      = some (cs ++ rest.1, rest.2) := by
  simp only [driverChannels, hlt, if_true, hrows, hA, hrest]

/-- The number of kernel positions a driver counts for its weight pointer. -/
theorem macroK_eq (direct1x1 : Bool) (p : ConvParam32f)
    (h1 : direct1x1 = true → p.Is1x1 = true) :
    (if direct1x1 then 1 else p.kernelY * p.kernelX) = p.kernelY * p.kernelX := by
  cases direct1x1 with
  | false => simp
  | true =>
    obtain ⟨⟨hkY, hkX⟩, -⟩ := (is1x1_iff p).1 (h1 rfl)
    simp [hkY, hkX]

theorem alignHi_16 (a : AlgParam) (hm : a.microD = 16) (macroD : Nat) :
    AlignHiAny macroD a.microD = some ((macroD + 15) / 16 * 16) := by
  simp [AlignHiAny, hm]

/-- The loop over blocks of destination channels is over once `dc` has reached `p.dstC`. -/
theorem driverBlocks_done (direct1x1 : Bool) (type : SimdConvolutionActivationType)
    (p : ConvParam32f) (a : AlgParam) (bias dst fuel dc weight params : Nat)
    (h : ¬ dc < p.dstC) :
    driverBlocks direct1x1 type p a bias dst fuel dc weight params = some [] := by
  cases fuel <;> simp [driverBlocks, h]

/-- One round of the loop over blocks of destination channels. -/
theorem driverBlocks_step (direct1x1 : Bool) (type : SimdConvolutionActivationType)
    (p : ConvParam32f) (a : AlgParam) (bias dst fuel dc weight params : Nat)
    (hlt : dc < p.dstC) (cw : List (TermType × MicroCall) × Nat)
    (hcw : driverChannels direct1x1 p a (min p.dstC (dc + a.macroD) - dc) bias params dst dc
      p.srcC 0 weight = some cw)
    (rest : List (TermType × MicroCall))
    (hrest : driverBlocks direct1x1 type p a bias dst fuel (dc + a.macroD) cw.2
      (if type = SimdConvolutionActivationType.Prelu
        then params + (min p.dstC (dc + a.macroD) - dc) else params) = some rest) :
    driverBlocks direct1x1 type p a bias dst (fuel + 1) dc weight params
      = some (cw.1 ++ rest) := by
  simp only [driverBlocks, hlt, if_true, hcw, hrest]

/-- With all source channels in one pass and blocks of destination channels that are a multiple
of 16 (or a single block), the driver reads the weights in the blocked layout
`[outputChannels/16, kernelY, kernelX, inputChannels, 16]`. -/
theorem driverWeightIndex_eq_blocked (p : ConvParam32f) (a : AlgParam)
    (hC : a.macroC = p.srcC) (hD : 0 < a.macroD) (h16 : 16 ∣ a.macroD ∨ p.dstC ≤ a.macroD)
    (o ky kx c : Nat) (ho : o < p.dstC) (hc : c < p.srcC) :
    driverWeightIndex p a o ky kx c = blockedWeightIndex p o ky kx c := by
  have hsc : c / a.macroC * a.macroC = 0 := by
    rw [hC, Nat.div_eq_of_lt hc, Nat.zero_mul]
  unfold driverWeightIndex blockedWeightIndex
  simp only []
  rw [hsc]
  simp only [Nat.zero_add, Nat.sub_zero, Nat.mul_zero, Nat.add_zero, hC, Nat.min_self]
  generalize a.macroD = M at hD h16
  rcases h16 with ⟨q, hq⟩ | hle
  · subst hq
    have hA : (16 * q + 15) / 16 * 16 = 16 * q := by omega
    have hdm := Nat.div_add_mod o (16 * q)
    have hsub : o - o / (16 * q) * (16 * q) = o % (16 * q) := by
      have : 16 * q * (o / (16 * q)) = o / (16 * q) * (16 * q) := Nat.mul_comm _ _
      omega
    have ho16 : o / 16 = q * (o / (16 * q)) + o % (16 * q) / 16 := by
      conv_lhs => rw [← hdm, Nat.mul_assoc, Nat.mul_add_div (by decide : 0 < 16)]
    have hm16 : o % 16 = o % (16 * q) % 16 := by
      conv_lhs => rw [← hdm, Nat.mul_assoc, Nat.mul_add_mod]
    rw [hA, hsub, ho16, hm16]
    ring
  · have hdiv : o / M = 0 := Nat.div_eq_of_lt (by omega)
    simp only [hdiv, Nat.zero_mul, Nat.zero_add, Nat.sub_zero]

/-- The explicitly padded convolution is in the domain of the engine when the padded one is. -/
theorem ConvParam32f.InDomain.pad {p : ConvParam32f} (h : p.InDomain) :
    (padParams p).InDomain := by
  have hv := h.valid
  have e : ∀ (s p0 p1 d k st : Nat),
      ConvParam32f.shapeRhs (s + p0 + p1) 0 0 d k st = ConvParam32f.shapeRhs s p0 p1 d k st := by
    intro s p0 p1 d k st
    unfold ConvParam32f.shapeRhs
    simp only [Nat.cast_add, Nat.cast_zero, add_zero]
  refine ⟨?_, h.dilationY, h.dilationX, Nat.zero_le _, Nat.zero_le _, Nat.zero_le _,
    Nat.zero_le _, ?_, ?_, ?_, ?_, ?_, ?_, h.stride6, h.sizeKY, h.sizeKX⟩
  rotate_left 5
  · show p.srcH + p.padY + p.padH + 1 + 0 + 0 + p.strideY ≤ sizeMod + p.kernelY
    have := h.sizeY
    omega
  · show p.srcW + p.padX + p.padW + 1 + 0 + 0 + p.strideX ≤ sizeMod + p.kernelX
    have := h.sizeX
    omega
  · unfold ConvParam32f.Valid at hv ⊢
    simp only [padParams, e]
    exact hv
  · show p.kernelY ≤ p.srcH + p.padY + p.padH + 1
    have := h.fitY
    omega
  · show p.kernelX ≤ p.srcW + p.padX + p.padW + 1
    have := h.fitX
    omega
  · show p.kernelY ≤ p.srcH + p.padY + p.padH + 0 + 0
    have := h.fitY
    omega
  · show p.kernelX ≤ p.srcW + p.padX + p.padW + 0 + 0
    have := h.fitX
    omega

/-- Every call of a chain computes a group of pixels of the chain. -/
theorem tiled_mem (p : ConvParam32f) (t : TileCtx) (cs : List MicroCall) (P0 P1 : Nat)
    (h : Tiled p t cs P0 P1) (c : MicroCall) (hc : c ∈ cs) :
    ∃ P, P0 ≤ P ∧ P + c.n ≤ P1 ∧ c.Computes p t P := by
  induction cs generalizing P0 with
  | nil => cases hc
  | cons c0 cs ih =>
    obtain ⟨h0, hrest⟩ := h
    have hle := tiled_le p t cs _ _ hrest
    rcases List.mem_cons.1 hc with e | hmem
    · subst e
      exact ⟨P0, le_refl _, hle, h0⟩
    · obtain ⟨P, g1, g2, g3⟩ := ih _ hrest hmem
      exact ⟨P, by omega, g2, g3⟩

/-- The kernel indices of a clipped window meet the image. -/
theorem win_in (kernel size pad pos k : Nat) (hk : k < winCnt kernel size pad pos) :
    winOrg pad pos + k < size := by
  unfold winCnt at hk
  unfold winOrg
  omega

/-- The products of the loop nest of a micro-kernel. -/
theorem mem_kernelMacs (p : ConvParam32f) (kernelH kernelW srcC : Nat) (m : Nat × Nat)
    (hm : m ∈ kernelMacs p kernelH kernelW srcC) :
    ∃ ky kx c, ky < kernelH ∧ kx < kernelW ∧ c < srcC
      ∧ m.1 = ky * (p.srcW * p.srcC) + kx * p.srcC + c := by
  unfold kernelMacs at hm
  simp only [List.mem_flatMap, List.mem_map, List.mem_range] at hm
  obtain ⟨ky, hky, kx, hkx, c, hc, e⟩ := hm
  exact ⟨ky, kx, c, hky, hkx, hc, by rw [← e]⟩

/-- A call that computes pixels of a tile reads source elements of the image only: row below
`srcH`, column below `srcW`, channel among the source channels of the pass. -/
theorem computes_reads (p : ConvParam32f) (t : TileCtx) (P : Nat) (c : MicroCall)
    (h : c.Computes p t P) (idx : Nat) (hidx : idx ∈ c.srcReads p) :
    ∃ r q ch, r < p.srcH ∧ q < p.srcW ∧ ch < t.srcC
      ∧ idx = (r * p.srcW + q) * p.srcC + (t.src + ch) := by
  obtain ⟨hmacs, -, hsrcC, -, -, -, -, -, hall⟩ := h
  unfold MicroCall.srcReads at hidx
  simp only [List.mem_flatMap, List.mem_map, List.mem_range] at hidx
  obtain ⟨i, hi, m, hm, e⟩ := hidx
  rw [hmacs] at hm
  obtain ⟨ky, kx, ch, hky, hkx, hch, em⟩ := mem_kernelMacs p _ _ _ m hm
  obtain ⟨hH, hW, hsrc, -⟩ := hall i hi
  rw [hH] at hky
  rw [hW] at hkx
  have hr := win_in _ _ _ _ ky hky
  have hq := win_in _ _ _ _ kx hkx
  refine ⟨_, _, ch, hr, hq, by rw [← hsrcC]; exact hch, ?_⟩
  rw [← e, hsrc, em]
  ring

/-- The rounds of a loop: the loop variables have moved by a number of steps, and the loop
condition holds. -/
theorem forLoop_mem (bound step stepD : Nat) (xd : Nat × Nat) :
    ∀ fuel x d, xd ∈ forLoop fuel bound step stepD x d →
      ∃ k, xd.1 = x + k * step ∧ xd.2 = d + k * stepD ∧ xd.1 < bound := by
  intro fuel
  induction fuel with
  | zero =>
    intro x d h
    simp [forLoop] at h
  | succ fuel ih =>
    intro x d h
    rw [forLoop_succ] at h
    by_cases hlt : x < bound
    · rw [if_pos hlt] at h
      rcases List.mem_cons.1 h with e | hmem
      · subst e
        exact ⟨0, by simp, by simp, hlt⟩
      · obtain ⟨k, e1, e2, e3⟩ := ih _ _ hmem
        exact ⟨k + 1, by rw [e1]; ring, by rw [e2]; ring, e3⟩
    · rw [if_neg hlt] at h
      cases h

/-- Parameters that pass `Valid()` have non-zero strides, a destination that is not empty,
and the row pass computes its region bounds. -/
theorem valid_strides (p : ConvParam32f) (hv : p.Valid = some true) :
    0 < p.strideY ∧ 0 < p.strideX ∧ 0 < p.dstH ∧ 0 < p.dstW ∧ ∃ b, rowBoundsExact p = some b := by
  unfold ConvParam32f.Valid at hv
  by_cases hy : p.strideY = 0
  · rw [if_pos hy] at hv; cases hv
  rw [if_neg hy] at hv
  by_cases g1 : p.dstH = ConvParam32f.shapeRhs p.srcH p.padY p.padH p.dilationY p.kernelY
      p.strideY ∧ 0 < p.dstH
  · rw [if_pos g1] at hv
    by_cases hx : p.strideX = 0
    · rw [if_pos hx] at hv; cases hv
    rw [if_neg hx] at hv
    simp only [Option.some.injEq, Bool.and_eq_true, decide_eq_true_eq] at hv
    obtain ⟨⟨⟨⟨⟨-, hw⟩, -⟩, -⟩, -⟩, -⟩ := hv
    refine ⟨Nat.pos_of_ne_zero hy, Nat.pos_of_ne_zero hx, g1.2, hw, ?_⟩
    unfold rowBoundsExact AlignLoAny
    simp only []
    rw [if_neg (by omega), if_neg (by omega)]
    exact ⟨_, rfl⟩
  · rw [if_neg g1] at hv
    simp at hv

/-- The region bounds of the row pass when the kernel is at most one larger than the image. -/
theorem ConvParam32f.InRegionDomain.rowBounds_region {p : ConvParam32f} (h : p.InRegionDomain) :
    ∃ b, rowBoundsExact p = some b ∧ b.noseH = p.padY ∧ b.noseW = p.padX
      ∧ b.bodyHi = (p.srcH : Int) - p.kernelY + 1 + p.padY
      ∧ b.bodyWi = (p.srcW : Int) - p.kernelX + 1 + p.padX
      ∧ b.bodyH = p.srcH + 1 + p.padY - p.kernelY
      ∧ b.bodyW = p.srcW + 1 + p.padX - p.kernelX
      ∧ b.bodyW3 = (p.srcW + 1 - p.kernelX) / (3 * p.strideX) * (3 * p.strideX) + p.padX
      ∧ b.bodyW6 = (p.srcW + 1 - p.kernelX) / (6 * p.strideX) * (6 * p.strideX) + p.padX
      ∧ b.tailH = p.srcH + 1 + p.padY - p.kernelY + p.padH
      ∧ b.tailW = p.srcW + 1 + p.padX - p.kernelX + p.padW := by
  obtain ⟨-, hsx, -⟩ := valid_strides p h.valid
  have hH := h.srcH
  have hW := h.srcW
  have e1 : sz ((p.srcH : Int) - p.kernelY + 1 + p.padY) = p.srcH + 1 + p.padY - p.kernelY := by
    rw [sz_of_nonneg (by omega)]; omega
  have e2 : sz ((p.srcW : Int) - p.kernelX + 1 + p.padX) = p.srcW + 1 + p.padX - p.kernelX := by
    rw [sz_of_nonneg (by omega)]; omega
  have e3 : sz (((p.srcW + 1 + p.padX - p.kernelX : Nat) : Int) - p.padX)
      = p.srcW + 1 - p.kernelX := by
    rw [sz_of_nonneg (by omega)]; omega
  have e4 : sz ((p.srcH : Int) - p.kernelY + 1 + p.padY + p.padH)
      = p.srcH + 1 + p.padY - p.kernelY + p.padH := by
    rw [sz_of_nonneg (by omega)]; omega
  have e5 : sz ((p.srcW : Int) - p.kernelX + 1 + p.padX + p.padW)
      = p.srcW + 1 + p.padX - p.kernelX + p.padW := by
    rw [sz_of_nonneg (by omega)]; omega
  unfold Simd.rowBoundsExact AlignLoAny
  simp only [e1, e2, e3, e4, e5]
  rw [if_neg (by omega), if_neg (by omega)]
  exact ⟨_, rfl, rfl, rfl, rfl, rfl, rfl, rfl, rfl, rfl, rfl, rfl⟩

/-! ### The row pass does not wrap on the domain of the engine -/

/-- A loop whose counter does not reach `2 ^ 64` makes the rounds of `forLoop`. -/
theorem forLoopWrap_eq (bound step stepD : Nat) (hs : 0 < step) :
    ∀ n fuel x d, bound ≤ x + n → n < fuel →
      (∀ k, x + k * step < bound → x + k * step + step < sizeMod) →
      forLoopWrap fuel bound step stepD x d
        = some (forLoop n bound step stepD x d,
            x + (forLoop n bound step stepD x d).length * step,
            d + (forLoop n bound step stepD x d).length * stepD) := by
  intro n
  induction n with
  | zero =>
    intro fuel x d hb hf _
    obtain ⟨f, rfl⟩ : ∃ f, fuel = f + 1 := ⟨fuel - 1, by omega⟩
    simp only [forLoopWrap, forLoop]
    rw [if_neg (by omega)]
    simp
  | succ n ih =>
    intro fuel x d hb hf hnw
    obtain ⟨f, rfl⟩ : ∃ f, fuel = f + 1 := ⟨fuel - 1, by omega⟩
    rw [forLoop_succ]
    simp only [forLoopWrap]
    by_cases hlt : x < bound
    · rw [if_pos hlt, if_pos hlt]
      have h0 := hnw 0 (by simpa using hlt)
      have e : (x + step) % sizeMod = x + step := Nat.mod_eq_of_lt (by simpa using h0)
      have hnw' : ∀ k, x + step + k * step < bound → x + step + k * step + step < sizeMod := by
        intro k hk
        have := hnw (k + 1) (by rw [Nat.add_mul, Nat.one_mul]; omega)
        rw [Nat.add_mul, Nat.one_mul] at this
        omega
      rw [e, ih f (x + step) (d + stepD) (by omega) (by omega) hnw']
      simp only [Option.map_some', List.length_cons, Nat.add_mul, Nat.one_mul]
      congr 3 <;> omega
    · rw [if_neg hlt, if_neg hlt]
      simp

/-- The rounds of a loop that does not wrap. -/
theorem forRoundsWrap_eq (bound step stepD x d : Nat) (hs : 0 < step) (hb : bound < sizeMod)
    (hnw : ∀ k, x + k * step < bound → x + k * step + step < sizeMod) :
    forRoundsWrap bound step stepD x d
      = some (forRounds bound step stepD x d,
          x + (forRounds bound step stepD x d).length * step,
          d + (forRounds bound step stepD x d).length * stepD) := by
  unfold forRoundsWrap forRounds
  exact forLoopWrap_eq bound step stepD hs (bound - x) sizeMod x d (by omega) (by omega) hnw

/-- A group that starts below a bound aligned to the group size ends inside the aligned
range. -/
theorem group_nowrap (G A N x0 k : Nat) (hx0 : N ≤ x0) (h : x0 + k * G < A / G * G + N) :
    x0 + k * G + G ≤ x0 + A := by
  have h1 : k * G < A / G * G := by omega
  have h2 : k < A / G := Nat.lt_of_mul_lt_mul_right h1
  have h3 : (k + 1) * G ≤ A / G * G := Nat.mul_le_mul_right _ h2
  have h4 : A / G * G ≤ A := Nat.div_mul_le_self _ _
  rw [Nat.add_mul, Nat.one_mul] at h3
  omega

/-- On the region domain the bounds of the row pass do not wrap. -/
theorem ConvParam32f.InRegionDomain.rowBounds_wrapped {p : ConvParam32f}
    (h : p.InRegionDomain) : rowBounds p = (rowBoundsExact p).map (RowBoundsExact.wrapped p) := by
  obtain ⟨be, hbe, e1, e2, e3, e4, e5, e6, e7, e8, e9, e10⟩ := h.rowBounds_region
  obtain ⟨hsy, hsx, -⟩ := valid_strides p h.valid
  have hH := h.srcH
  have hW := h.srcW
  have hzy := h.sizeY
  have hzx := h.sizeX
  have h6 := h.stride6
  have hky := h.sizeKY
  have hkx := h.sizeKX
  have hpy := h.padY
  have hpx := h.padX
  have d3 : (p.srcW + 1 - p.kernelX) / (3 * p.strideX) * (3 * p.strideX)
      ≤ p.srcW + 1 - p.kernelX := Nat.div_mul_le_self _ _
  have d6 : (p.srcW + 1 - p.kernelX) / (6 * p.strideX) * (6 * p.strideX)
      ≤ p.srcW + 1 - p.kernelX := Nat.div_mul_le_self _ _
  have w1 : wrap ((p.srcH : Int) - p.kernelY + 1 + p.padY) = p.srcH + 1 + p.padY - p.kernelY :=
    wrap_eq _ (by omega) (by omega)
  have w2 : wrap ((p.srcW : Int) - p.kernelX + 1 + p.padX) = p.srcW + 1 + p.padX - p.kernelX :=
    wrap_eq _ (by omega) (by omega)
  have w3 : wrap (((p.srcW + 1 + p.padX - p.kernelX : Nat) : Int) - p.padX)
      = p.srcW + 1 - p.kernelX := wrap_eq _ (by omega) (by omega)
  have w4 : wrap (3 * (p.strideX : Int)) = 3 * p.strideX :=
    wrap_eq _ (by push_cast; ring) (by omega)
  have w5 : wrap (6 * (p.strideX : Int)) = 6 * p.strideX :=
    wrap_eq _ (by push_cast; ring) (by omega)
  have w6 : wrap ((((p.srcW + 1 - p.kernelX) / (3 * p.strideX) * (3 * p.strideX) : Nat) : Int)
      + p.padX) = (p.srcW + 1 - p.kernelX) / (3 * p.strideX) * (3 * p.strideX) + p.padX :=
    wrap_eq _ (by push_cast; ring) (by omega)
  have w7 : wrap ((((p.srcW + 1 - p.kernelX) / (6 * p.strideX) * (6 * p.strideX) : Nat) : Int)
      + p.padX) = (p.srcW + 1 - p.kernelX) / (6 * p.strideX) * (6 * p.strideX) + p.padX :=
    wrap_eq _ (by push_cast; ring) (by omega)
  have w8 : wrap (((p.srcH + 1 + p.padY - p.kernelY : Nat) : Int) + p.padH)
      = p.srcH + 1 + p.padY - p.kernelY + p.padH := wrap_eq _ (by push_cast; ring) (by omega)
  have w9 : wrap (((p.srcW + 1 + p.padX - p.kernelX : Nat) : Int) + p.padW)
      = p.srcW + 1 + p.padX - p.kernelX + p.padW := wrap_eq _ (by push_cast; ring) (by omega)
  have w10 : wrap ((p.kernelY : Int) - p.padY) = p.kernelY - p.padY :=
    wrap_eq _ (by omega) (by omega)
  have w11 : wrap ((p.kernelX : Int) - p.padX) = p.kernelX - p.padX :=
    wrap_eq _ (by omega) (by omega)
  have w12 : ((p.srcH + 1 + p.padY - p.kernelY : Nat) : Int) = be.bodyHi := by rw [e3]; omega
  have w13 : ((p.srcW + 1 + p.padX - p.kernelX : Nat) : Int) = be.bodyWi := by rw [e4]; omega
  rw [hbe, Option.map_some']
  unfold rowBounds AlignLoAny RowBoundsExact.wrapped
  simp only [w1, w2, w3, w4, w5]
  rw [if_neg (by omega), if_neg (by omega)]
  simp only [w6, w7, w8, w9, w10, w11]
  simp only [w12, w13, e1, e2, e5, e6, e7, e8, e9, e10]

/-- A loop `for (; x < bound; x += step)` with a positive step ends with its variable at or above
the bound: after the rounds of the model, `bound ≤ x`. -/
theorem forRounds_exits (bound step stepD : Nat) (hs : 0 < step) :
    ∀ fuel x d, bound ≤ x + fuel →
      bound ≤ x + (forLoop fuel bound step stepD x d).length * step := by
  intro fuel
  induction fuel with
  | zero =>
    intro x d h0
    simp only [forLoop, List.length_nil, Nat.zero_mul]
    omega
  | succ fuel ih =>
    intro x d h0
    rw [forLoop_succ]
    by_cases hlt : x < bound
    · rw [if_pos hlt, List.length_cons, Nat.add_mul, Nat.one_mul]
      have := ih (x + step) (d + stepD) (by omega)
      omega
    · rw [if_neg hlt]
      simp only [List.length_nil, Nat.zero_mul]
      omega

/-- A row loop `for (; sy < bound && dy < yEnd; sy += p.strideY, dy++)` ends because its
condition has become false: with the fuel `yEnd - dy` of the model, `sy < bound ∧ dy < yEnd`
fails for the final `sy` and `dy`. -/
theorem rowLoop_exits (p : ConvParam32f) (b : RowBoundsExact) (r : RowRegion)
    (src weight srcC dC bias params slope yEnd : Nat) :
    ∀ fuel sy dy d, yEnd ≤ dy + fuel →
      ¬ ((rowLoopExact p b r src weight srcC dC bias params slope yEnd fuel sy dy d).2.1
            < r.boundExact b
        ∧ (rowLoopExact p b r src weight srcC dC bias params slope yEnd fuel sy dy d).2.2.1
            < yEnd) := by
  intro fuel
  induction fuel with
  | zero =>
    intro sy dy d h0
    simp only [rowLoopExact]
    omega
  | succ fuel ih =>
    intro sy dy d h0
    unfold rowLoopExact
    by_cases hc : sy < r.boundExact b ∧ dy < yEnd
    · rw [if_pos hc]
      exact ih _ _ _ (by omega)
    · rw [if_neg hc]
      exact hc

/-- A value of `size_t` that is not negative over the integers is the same for `wrap` and
`sz`. -/
theorem wrap_eq_sz {z z' : Int} (he : z = z') (h0 : 0 ≤ z') (h1 : z' < sizeMod) :
    wrap z = sz z' := by
  subst he
  rw [sz_of_nonneg h0]
  exact wrap_eq _ (Int.toNat_of_nonneg h0).symm (by omega)

/-- Wrapping the minuend of a difference before the difference changes nothing. -/
theorem wrap_sub_left (a c : Int) : wrap ((wrap a : Int) - c) = wrap (a - c) := by
  rw [sub_eq_add_neg, wrap_add_left, ← sub_eq_add_neg]

/-- The members of the rounds of a loop lie between its start and its bound. -/
theorem forRounds_mem_range (bound step stepD x d : Nat) (xd : Nat × Nat)
    (h : xd ∈ forRounds bound step stepD x d) : x ≤ xd.1 ∧ xd.1 < bound := by
  obtain ⟨k, e1, -, e3⟩ := forLoop_mem bound step stepD xd _ _ _ h
  omega

set_option maxHeartbeats 1000000 in
/-- On the region domain no column loop wraps: the column loops of a row are those of
`rowColumnsExact`. -/
theorem rowColumns_eq {p : ConvParam32f} (h : p.InRegionDomain) (be : RowBoundsExact)
    (hb : rowBoundsExact p = some be) (kernelH s w srcC dC bias params slope d : Nat) :
    rowColumns p (be.wrapped p) kernelH s w srcC dC bias params slope d
      = some (rowColumnsExact p be kernelH s w srcC dC bias params slope d) := by
  obtain ⟨b', hb', e1, e2, e3, e4, e5, e6, e7, e8, e9, e10⟩ := h.rowBounds_region
  rw [hb] at hb'
  cases hb'
  obtain ⟨hsy, hsx, -⟩ := valid_strides p h.valid
  have hH := h.srcH
  have hW := h.srcW
  have hzx := h.sizeX
  have h6 := h.stride6
  have hkx := h.sizeKX
  have hpx := h.padX
  have hpw := h.padW
  have d3 : (p.srcW + 1 - p.kernelX) / (3 * p.strideX) * (3 * p.strideX)
      ≤ p.srcW + 1 - p.kernelX := Nat.div_mul_le_self _ _
  have d6 : (p.srcW + 1 - p.kernelX) / (6 * p.strideX) * (6 * p.strideX)
      ≤ p.srcW + 1 - p.kernelX := Nat.div_mul_le_self _ _
  have w4 : wrap (3 * (p.strideX : Int)) = 3 * p.strideX :=
    wrap_eq _ (by push_cast; ring) (by omega)
  have w5 : wrap (6 * (p.strideX : Int)) = 6 * p.strideX :=
    wrap_eq _ (by push_cast; ring) (by omega)
  -- the first loop ends less than one stride past the nose
  have X1 := forLoop_exit' 1 p.strideX hsx (by decide) be.noseW p.dstC (be.noseW - 0) p.strideX
    0 d 0 (forRounds be.noseW p.strideX p.dstC 0 d) rfl (by omega) (by simp) (by omega)
  obtain ⟨n1lo, n1hi, -⟩ := first_past p.strideX be.noseW _ hsx X1
  -- the fourth loop ends at or past the body
  have X4 : ∀ x4 d4, be.bodyW ≤ x4 + (forRounds be.bodyW p.strideX p.dstC x4 d4).length
      * p.strideX := fun x4 d4 =>
    forRounds_exits be.bodyW p.strideX p.dstC hsx (be.bodyW - x4) x4 d4 (by omega)
  obtain ⟨l1, hl1⟩ : ∃ l, forRounds be.noseW p.strideX p.dstC 0 d = l := ⟨_, rfl⟩
  rw [hl1] at n1lo n1hi
  have L1 := forRoundsWrap_eq be.noseW p.strideX p.dstC 0 d hsx (by omega)
    (by intro k hk; omega)
  rw [hl1, Nat.zero_add] at L1
  obtain ⟨l2, hl2⟩ : ∃ l, forRounds be.bodyW6 (6 * p.strideX) (6 * p.dstC)
      (l1.length * p.strideX) (d + l1.length * p.dstC) = l := ⟨_, rfl⟩
  have L2 := forRoundsWrap_eq be.bodyW6 (6 * p.strideX) (6 * p.dstC)
    (l1.length * p.strideX) (d + l1.length * p.dstC) (by omega) (by omega)
    (by
      intro k hk
      rw [e8] at hk
      have := group_nowrap (6 * p.strideX) (p.srcW + 1 - p.kernelX) p.padX _ k
        (by omega) hk
      omega)
  rw [hl2] at L2
  obtain ⟨l3, hl3⟩ : ∃ l, forRounds be.bodyW3 (3 * p.strideX) (3 * p.dstC)
      (l1.length * p.strideX + l2.length * (6 * p.strideX))
      (d + l1.length * p.dstC + l2.length * (6 * p.dstC)) = l := ⟨_, rfl⟩
  have L3 := forRoundsWrap_eq be.bodyW3 (3 * p.strideX) (3 * p.dstC)
    (l1.length * p.strideX + l2.length * (6 * p.strideX))
    (d + l1.length * p.dstC + l2.length * (6 * p.dstC)) (by omega) (by omega)
    (by
      intro k hk
      rw [e7] at hk
      have e : l2.length * (6 * p.strideX) + k * (3 * p.strideX)
          = (2 * l2.length + k) * (3 * p.strideX) := by ring
      have := group_nowrap (3 * p.strideX) (p.srcW + 1 - p.kernelX) p.padX
        (l1.length * p.strideX) (2 * l2.length + k) (by omega) (by omega)
      omega)
  rw [hl3] at L3
  obtain ⟨l4, hl4⟩ : ∃ l, forRounds be.bodyW p.strideX p.dstC
      (l1.length * p.strideX + l2.length * (6 * p.strideX) + l3.length * (3 * p.strideX))
      (d + l1.length * p.dstC + l2.length * (6 * p.dstC) + l3.length * (3 * p.dstC)) = l :=
    ⟨_, rfl⟩
  have L4 := forRoundsWrap_eq be.bodyW p.strideX p.dstC
    (l1.length * p.strideX + l2.length * (6 * p.strideX) + l3.length * (3 * p.strideX))
    (d + l1.length * p.dstC + l2.length * (6 * p.dstC) + l3.length * (3 * p.dstC)) hsx
    (by omega) (by intro k hk; omega)
  have h4 := X4 (l1.length * p.strideX + l2.length * (6 * p.strideX)
    + l3.length * (3 * p.strideX))
    (d + l1.length * p.dstC + l2.length * (6 * p.dstC) + l3.length * (3 * p.dstC))
  rw [hl4] at L4 h4
  obtain ⟨l5, hl5⟩ : ∃ l, forRounds be.tailW p.strideX p.dstC
      (l1.length * p.strideX + l2.length * (6 * p.strideX) + l3.length * (3 * p.strideX)
        + l4.length * p.strideX)
      (d + l1.length * p.dstC + l2.length * (6 * p.dstC) + l3.length * (3 * p.dstC)
        + l4.length * p.dstC) = l := ⟨_, rfl⟩
  have L5 := forRoundsWrap_eq be.tailW p.strideX p.dstC
    (l1.length * p.strideX + l2.length * (6 * p.strideX) + l3.length * (3 * p.strideX)
        + l4.length * p.strideX)
    (d + l1.length * p.dstC + l2.length * (6 * p.dstC) + l3.length * (3 * p.dstC)
        + l4.length * p.dstC) hsx (by omega) (by intro k hk; omega)
  have m1 : ∀ xd ∈ l1, xd.1 < be.noseW := fun xd hxd =>
    (forRounds_mem_range _ _ _ _ _ _ (hl1 ▸ hxd)).2
  have m5 : ∀ xd ∈ l5, be.bodyW ≤ xd.1 ∧ xd.1 < be.tailW := fun xd hxd => by
    have := forRounds_mem_range _ _ _ _ _ _ (hl5 ▸ hxd)
    omega
  rw [hl5] at L5
  unfold rowColumns rowColumnsExact
  simp only [RowBoundsExact.wrapped, w4, w5, hl1, hl2, hl3, hl4, hl5, L1, L2, L3, L4, L5,
    Option.some_bind, Option.map_some']
  congr 2
  congr 1
  · congr 3
    apply List.map_congr_left
    intro xd hxd
    have hr := m1 xd hxd
    congr 1
    exact wrap_eq_sz (by rw [e2]; omega) (by omega) (by omega)
  · apply List.map_congr_left
    intro xd hxd
    have hr := m5 xd hxd
    congr 1
    rw [wrap_sub_left]
    exact wrap_eq_sz rfl (by omega) (by omega)

/-- On the region domain the body of a row loop is that of `rowBodyExact`, for `sy` in the
region. -/
theorem rowBody_eq {p : ConvParam32f} (h : p.InRegionDomain) (be : RowBoundsExact)
    (hb : rowBoundsExact p = some be) (r : RowRegion)
    (src weight srcC dC bias params slope sy d : Nat) (hsy : sy < r.boundExact be)
    (htail : r = RowRegion.tail → be.bodyH ≤ sy) :
    rowBody p (be.wrapped p) r src weight srcC dC bias params slope sy d
      = some (rowBodyExact p be r src weight srcC dC bias params slope sy d) := by
  obtain ⟨b', hb', e1, e2, e3, e4, e5, e6, e7, e8, e9, e10⟩ := h.rowBounds_region
  rw [hb] at hb'
  cases hb'
  have hH := h.srcH
  have hky := h.sizeKY
  have hpy := h.padY
  have hph := h.padH
  cases r with
  | nose =>
    have hs : sy < be.noseH := hsy
    unfold rowBody rowBodyExact
    simp only []
    rw [rowColumns_eq h be hb]
    congr 3
    exact wrap_eq_sz (by simp only [RowBoundsExact.wrapped]; omega) (by omega) (by omega)
  | body =>
    unfold rowBody rowBodyExact
    simp only []
    rw [rowColumns_eq h be hb]
    rfl
  | tail =>
    have hs : sy < be.tailH := hsy
    have hlo := htail rfl
    unfold rowBody rowBodyExact
    simp only []
    rw [rowColumns_eq h be hb]
    congr 3
    simp only [RowBoundsExact.wrapped]
    rw [wrap_sub_left]
    exact wrap_eq_sz rfl (by omega) (by omega)

/-- On the region domain a row loop is that of `rowLoopExact`; the loop of the tail starts at
or past the body or makes no round. -/
theorem rowLoop_eq {p : ConvParam32f} (h : p.InRegionDomain) (be : RowBoundsExact)
    (hb : rowBoundsExact p = some be) (r : RowRegion)
    (src weight srcC dC bias params slope yEnd : Nat) :
    ∀ fuel sy dy d, (r = RowRegion.tail → fuel = 0 ∨ be.bodyH ≤ sy) →
      rowLoop p (be.wrapped p) r src weight srcC dC bias params slope yEnd fuel sy dy d
        = some (rowLoopExact p be r src weight srcC dC bias params slope yEnd fuel sy dy d) := by
  obtain ⟨b', hb', e1, e2, e3, e4, e5, e6, e7, e8, e9, e10⟩ := h.rowBounds_region
  rw [hb] at hb'
  cases hb'
  have hH := h.srcH
  have hzy := h.sizeY
  have hbound : r.bound (be.wrapped p) = r.boundExact be := by cases r <;> rfl
  have hle : r.boundExact be ≤ be.tailH := by
    cases r
    · show be.noseH ≤ be.tailH
      have := h.padY
      omega
    · show be.bodyH ≤ be.tailH
      omega
    · exact Nat.le_refl _
  intro fuel
  induction fuel with
  | zero =>
    intro sy dy d _
    rfl
  | succ fuel ih =>
    intro sy dy d ht
    unfold rowLoop rowLoopExact
    rw [hbound]
    by_cases hc : sy < r.boundExact be ∧ dy < yEnd
    · rw [if_pos hc, if_pos hc]
      have e : (sy + p.strideY) % sizeMod = sy + p.strideY := Nat.mod_eq_of_lt (by omega)
      rw [rowBody_eq h be hb r _ _ _ _ _ _ _ sy d hc.1
        (fun hr => by rcases ht hr with h0 | h0 <;> omega), e]
      simp only [Option.some_bind]
      rw [ih _ _ _ (fun hr => by rcases ht hr with h0 | h0 <;> omega)]
      rfl
    · rw [if_neg hc, if_neg hc]

/-- On the region domain the three row loops of a round of the loop over `dc` are those of
`tileCallsExact`, when the first `sy` is a value of `size_t`. -/
theorem tileCalls_eq {p : ConvParam32f} (h : p.InRegionDomain) (be : RowBoundsExact)
    (hb : rowBoundsExact p = some be) (src dstC yBeg yEnd srcC weight bias params dst dc : Nat)
    (hy : yBeg * p.strideY < sizeMod) :
    tileCalls p (be.wrapped p) src dstC yBeg yEnd srcC weight bias params dst dc
      = some (tileCallsExact p be src dstC yBeg yEnd srcC weight bias params dst dc) := by
  have w : wrap ((yBeg : Int) * p.strideY) = yBeg * p.strideY :=
    wrap_eq _ (by push_cast; ring) hy
  unfold tileCalls tileCallsExact
  simp only [w]
  rw [rowLoop_eq h be hb RowRegion.nose _ _ _ _ _ _ _ _ _ _ _ _ (fun hr => by cases hr)]
  simp only [Option.some_bind]
  rw [rowLoop_eq h be hb RowRegion.body _ _ _ _ _ _ _ _ _ _ _ _ (fun hr => by cases hr)]
  simp only [Option.some_bind]
  rw [rowLoop_eq h be hb RowRegion.tail _ _ _ _ _ _ _ _ _ _ _ _ (fun _ => by
    have hx := rowLoop_exits p be RowRegion.body src weight srcC (min DF (dstC - dc))
      (bias + dc) params (params + dc) yEnd
      (yEnd - (rowLoopExact p be RowRegion.nose src weight srcC (min DF (dstC - dc))
        (bias + dc) params (params + dc) yEnd (yEnd - yBeg) (yBeg * p.strideY) yBeg
        (dst + dc + yBeg * p.dstW * p.dstC)).2.2.1)
      (rowLoopExact p be RowRegion.nose src weight srcC (min DF (dstC - dc))
        (bias + dc) params (params + dc) yEnd (yEnd - yBeg) (yBeg * p.strideY) yBeg
        (dst + dc + yBeg * p.dstW * p.dstC)).2.1
      (rowLoopExact p be RowRegion.nose src weight srcC (min DF (dstC - dc))
        (bias + dc) params (params + dc) yEnd (yEnd - yBeg) (yBeg * p.strideY) yBeg
        (dst + dc + yBeg * p.dstW * p.dstC)).2.2.1
      (rowLoopExact p be RowRegion.nose src weight srcC (min DF (dstC - dc))
        (bias + dc) params (params + dc) yEnd (yEnd - yBeg) (yBeg * p.strideY) yBeg
        (dst + dc + yBeg * p.dstW * p.dstC)).2.2.2 (by omega)
    have hx' : RowRegion.body.boundExact be = be.bodyH := rfl
    rw [hx'] at hx
    omega)]
  rfl

/-- The results of rounds that all return. -/
theorem collect_map_some {β γ : Type} (f : β → γ) (l : List β) :
    collect (l.map fun x => some (f x)) = some (l.map f) := by
  induction l with
  | nil => rfl
  | cons x xs ih => simp only [List.map_cons, collect, ih, Option.map_some']

/-- On the region domain the rounds of the loop over `dc` of the row pass are those of
`tileCallsExact`. -/
theorem rowPassTiles_eq {p : ConvParam32f} (h : p.InRegionDomain)
    (src dstC yBeg yEnd srcC weight bias params dst : Nat) (hy : yBeg * p.strideY < sizeMod) :
    rowPassTiles p src dstC yBeg yEnd srcC weight bias params dst
      = (rowBoundsExact p).map fun be =>
          (forRounds dstC DF (p.kernelY * p.kernelX * srcC * DF) 0 weight).map fun dw =>
            (dw.1, tileCallsExact p be src dstC yBeg yEnd srcC dw.2 bias params dst dw.1) := by
  obtain ⟨be, hbe, -⟩ := h.rowBounds_region
  unfold rowPassTiles
  rw [h.rowBounds_wrapped, hbe]
  simp only [Option.map_some', Option.some_bind, tileCalls_eq h be hbe _ _ _ _ _ _ _ _ _ _ hy]
  exact collect_map_some _ _

/-- On the region domain the row pass makes the calls of `rowPassCallsExact`. -/
theorem rowPassCalls_eq_exact {p : ConvParam32f} (h : p.InRegionDomain)
    (src dstC yBeg yEnd srcC weight bias params dst : Nat) (hy : yBeg * p.strideY < sizeMod) :
    rowPassCalls p src dstC yBeg yEnd srcC weight bias params dst
      = rowPassCallsExact p src dstC yBeg yEnd srcC weight bias params dst := by
  obtain ⟨be, hbe, -⟩ := h.rowBounds_region
  unfold rowPassCalls rowPassCallsExact
  rw [rowPassTiles_eq h _ _ _ _ _ _ _ _ _ hy, hbe]
  simp only [Option.map_some', List.flatMap_map]

/-- The first row of a row block of a driver starts at a value of `size_t`. -/
theorem valid_rows (p : ConvParam32f) (hv : p.Valid = some true) (yBeg : Nat)
    (hy : yBeg < p.dstH) : yBeg * p.strideY < sizeMod := by
  obtain ⟨hsy, -⟩ := valid_strides p hv
  unfold ConvParam32f.Valid at hv
  rw [if_neg (by omega)] at hv
  by_cases g1 : p.dstH = ConvParam32f.shapeRhs p.srcH p.padY p.padH p.dilationY p.kernelY
      p.strideY ∧ 0 < p.dstH
  · have hH := g1.1
    unfold ConvParam32f.shapeRhs at hH
    obtain ⟨Z, hZe⟩ : ∃ Z, wrap ((p.srcH : Int) + p.padY + p.padH
      - (p.dilationY * ((p.kernelY : Int) - 1) + 1)) = Z := ⟨_, rfl⟩
    rw [hZe] at hH
    have hZ : Z < sizeMod := hZe ▸ wrap_lt _
    have hq : Z / p.strideY * p.strideY ≤ Z := Nat.div_mul_le_self _ _
    have hd : Z / p.strideY ≤ Z := Nat.div_le_self _ _
    have hle : yBeg ≤ Z / p.strideY := by
      by_cases hlt : Z / p.strideY + 1 < sizeMod
      · rw [Nat.mod_eq_of_lt hlt] at hH
        omega
      · have e : Z / p.strideY + 1 = sizeMod := by omega
        rw [e, Nat.mod_self] at hH
        omega
    have := Nat.mul_le_mul_right p.strideY hle
    omega
  · rw [if_neg g1] at hv
    simp at hv

/-- The domain of the engine lies in the region domain. -/
theorem ConvParam32f.InDomain.region {p : ConvParam32f} (h : p.InDomain) : p.InRegionDomain :=
  ⟨h.valid, h.dilationY, h.dilationX, h.padY, h.padH, h.padX, h.padW, h.srcH, h.srcW,
    h.sizeY, h.sizeX, h.stride6, h.sizeKY, h.sizeKX⟩

/-- On the domain of the engine the row pass makes the calls of `rowPassCallsExact` for every
block of rows of the destination. -/
theorem ConvParam32f.InDomain.rowPassCalls_eq {p : ConvParam32f} (h : p.InDomain)
    (src dstC yBeg yEnd srcC weight bias params dst : Nat) (hy : yBeg ≤ p.dstH) :
    rowPassCalls p src dstC yBeg yEnd srcC weight bias params dst
      = rowPassCallsExact p src dstC yBeg yEnd srcC weight bias params dst := by
  obtain ⟨hsy, -, hdH, -⟩ := h.shape
  have hzy := h.sizeY
  have hfy := h.fitY
  have hq : (p.srcH + p.padY + p.padH - p.kernelY) / p.strideY * p.strideY
      ≤ p.srcH + p.padY + p.padH - p.kernelY := Nat.div_mul_le_self _ _
  have hm : yBeg * p.strideY ≤ p.dstH * p.strideY := Nat.mul_le_mul_right _ hy
  rw [hdH, Nat.add_mul, Nat.one_mul] at hm
  exact rowPassCalls_eq_exact h.region _ _ _ _ _ _ _ _ _ (by omega)

/-- Every call of a row pass on the domain of the engine computes a group of pixels of the rows
of the pass, for one of the tiles of 16 destination channels. -/
theorem pass_mem_computes {p : ConvParam32f} (h : p.InDomain) (direct1x1 : Bool)
    (h1 : direct1x1 = true → p.Is1x1 = true)
    (src dstC yBeg yEnd srcC weight bias params dst : Nat)
    (hy : yBeg ≤ yEnd) (hE : yEnd ≤ p.dstH) (cs : List MicroCall)
    (hcs : passCalls direct1x1 p src dstC yBeg yEnd srcC weight bias params dst = some cs)
    (c : MicroCall) (hc : c ∈ cs) :
    ∃ k P, DF * k < dstC ∧ yBeg * p.dstW ≤ P ∧ P + c.n ≤ yEnd * p.dstW
      ∧ c.Computes p (passTile src dstC srcC
          (weight + k * (p.kernelY * p.kernelX * srcC * DF)) bias params dst (DF * k)) P := by
  have key : ∀ (g : Nat × Nat → List MicroCall),
      (∀ k, DF * k < dstC → Tiled p
        (passTile src dstC srcC (weight + k * (p.kernelY * p.kernelX * srcC * DF)) bias params
          dst (DF * k))
        (g (DF * k, weight + k * (p.kernelY * p.kernelX * srcC * DF)))
        (yBeg * p.dstW) (yEnd * p.dstW)) →
      c ∈ (forRounds dstC DF (p.kernelY * p.kernelX * srcC * DF) 0 weight).flatMap g →
      ∃ k P, DF * k < dstC ∧ yBeg * p.dstW ≤ P ∧ P + c.n ≤ yEnd * p.dstW
        ∧ c.Computes p (passTile src dstC srcC
            (weight + k * (p.kernelY * p.kernelX * srcC * DF)) bias params dst (DF * k)) P := by
    intro g hg hmem
    obtain ⟨dw, hdw, hcg⟩ := List.mem_flatMap.1 hmem
    obtain ⟨k, e1, e2, e3⟩ := forLoop_mem _ _ _ dw _ _ _ hdw
    have e1' : dw.1 = DF * k := by rw [e1]; ring
    have hdw' : dw = (DF * k, weight + k * (p.kernelY * p.kernelX * srcC * DF)) :=
      Prod.ext e1' e2
    rw [hdw'] at hcg
    have hk : DF * k < dstC := by rw [← e1']; exact e3
    obtain ⟨P, g1, g2, g3⟩ := tiled_mem p _ _ _ _ (hg k hk) c hcg
    exact ⟨k, P, hk, g1, g2, g3⟩
  cases direct1x1 with
  | false =>
    obtain ⟨b, hb, -⟩ := h.rowBoundsExact
    simp only [passCalls, Bool.false_eq_true, if_false] at hcs
    rw [h.rowPassCalls_eq _ _ _ _ _ _ _ _ _ (by omega)] at hcs
    simp only [rowPassCallsExact, hb, Option.map_some', Option.some.injEq] at hcs
    rw [← hcs] at hc
    exact key (fun dw => tileCallsExact p b src dstC yBeg yEnd srcC dw.2 bias params dst dw.1)
      (fun k _ => tileCalls_tiled h b hb src dstC yBeg yEnd srcC _ bias params dst _ hy hE) hc
  | true =>
    have h1' := h1 rfl
    obtain ⟨⟨hkY, hkX⟩, -⟩ := (is1x1_iff p).1 h1'
    have hn : sz (((yEnd : Int) - yBeg) * p.dstW) = (yEnd - yBeg) * p.dstW :=
      sz_sub_mul yEnd yBeg p.dstW hy
    have hstep : srcC * DF = p.kernelY * p.kernelX * srcC * DF := by
      rw [hkY, hkX]; ring
    simp only [passCalls, rowPassCalls1x1, hn, AlignLoAny, if_true, hstep] at hcs
    simp only [OfNat.ofNat_ne_zero, if_false, Option.some.injEq] at hcs
    rw [← hcs] at hc
    exact key (fun dw => tileCalls1x1 p ((yEnd - yBeg) * p.dstW)
        ((yEnd - yBeg) * p.dstW / 3 * 3) ((yEnd - yBeg) * p.dstW / 6 * 6) src dstC yBeg srcC
        dw.2 bias params dst dw.1)
      (fun k _ => tileCalls1x1_tiled h h1' src dstC yBeg yEnd srcC _ bias params dst _ hy hE) hc

/-- The destination pointers of the rounds of a loop that moves `d` by `g * D`. -/
theorem forLoop_dst (bound step g D fuel x d : Nat) (xd : Nat × Nat)
    (h : xd ∈ forLoop fuel bound step (g * D) x d) : ∃ P, xd.2 = d + P * D := by
  obtain ⟨k, -, e, -⟩ := forLoop_mem bound step (g * D) xd fuel x d h
  exact ⟨k * g, by rw [e]; ring⟩

set_option maxHeartbeats 1000000 in
/-- The calls of the column loops of a row store `dC` channels each, at destination pointers
that differ from the pointer of the row by whole pixels; so does the pointer after the row. -/
theorem rowColumns_dst (p : ConvParam32f) (b : RowBoundsExact)
    (kH s w srcC dC bias params slope d : Nat) :
    (∀ c, c ∈ (rowColumnsExact p b kH s w srcC dC bias params slope d).1 →
        c.dstC = dC ∧ c.srcC = srcC ∧ ∃ P, c.dst = d + P * p.dstC)
      ∧ ∃ N, (rowColumnsExact p b kH s w srcC dC bias params slope d).2 = d + N * p.dstC := by
  simp only [rowColumnsExact, forRounds]
  generalize hl1 : forLoop (b.noseW - 0) b.noseW p.strideX p.dstC 0 d = l1
  generalize hl2 : forLoop (b.bodyW6 - l1.length * p.strideX) b.bodyW6 (6 * p.strideX)
    (6 * p.dstC) (l1.length * p.strideX) (d + l1.length * p.dstC) = l2
  generalize hl3 : forLoop (b.bodyW3 - (l1.length * p.strideX + l2.length * (6 * p.strideX)))
    b.bodyW3 (3 * p.strideX) (3 * p.dstC)
    (l1.length * p.strideX + l2.length * (6 * p.strideX))
    (d + l1.length * p.dstC + l2.length * (6 * p.dstC)) = l3
  generalize hl4 : forLoop (b.bodyW - (l1.length * p.strideX + l2.length * (6 * p.strideX)
      + l3.length * (3 * p.strideX))) b.bodyW p.strideX p.dstC
    (l1.length * p.strideX + l2.length * (6 * p.strideX) + l3.length * (3 * p.strideX))
    (d + l1.length * p.dstC + l2.length * (6 * p.dstC) + l3.length * (3 * p.dstC)) = l4
  generalize hl5 : forLoop (b.tailW - (l1.length * p.strideX + l2.length * (6 * p.strideX)
      + l3.length * (3 * p.strideX) + l4.length * p.strideX)) b.tailW p.strideX p.dstC
    (l1.length * p.strideX + l2.length * (6 * p.strideX) + l3.length * (3 * p.strideX)
      + l4.length * p.strideX)
    (d + l1.length * p.dstC + l2.length * (6 * p.dstC) + l3.length * (3 * p.dstC)
      + l4.length * p.dstC) = l5
  constructor
  · intro c hc
    simp only [List.mem_append, List.mem_map] at hc
    rcases hc with (((⟨xd, hxd, rfl⟩ | ⟨xd, hxd, rfl⟩) | ⟨xd, hxd, rfl⟩) | ⟨xd, hxd, rfl⟩)
      | ⟨xd, hxd, rfl⟩
    · rw [← hl1] at hxd
      obtain ⟨P, e⟩ := forLoop_dst _ _ 1 p.dstC _ _ _ xd (by rw [Nat.one_mul]; exact hxd)
      exact ⟨rfl, rfl, P, e⟩
    · rw [← hl2] at hxd
      obtain ⟨P, e⟩ := forLoop_dst _ _ 6 p.dstC _ _ _ xd hxd
      exact ⟨rfl, rfl, l1.length + P, by show xd.2 = _; rw [e]; ring⟩
    · rw [← hl3] at hxd
      obtain ⟨P, e⟩ := forLoop_dst _ _ 3 p.dstC _ _ _ xd hxd
      exact ⟨rfl, rfl, l1.length + 6 * l2.length + P, by show xd.2 = _; rw [e]; ring⟩
    · rw [← hl4] at hxd
      obtain ⟨P, e⟩ := forLoop_dst _ _ 1 p.dstC _ _ _ xd (by rw [Nat.one_mul]; exact hxd)
      exact ⟨rfl, rfl, l1.length + 6 * l2.length + 3 * l3.length + P, by
        show xd.2 = _; rw [e]; ring⟩
    · rw [← hl5] at hxd
      obtain ⟨P, e⟩ := forLoop_dst _ _ 1 p.dstC _ _ _ xd (by rw [Nat.one_mul]; exact hxd)
      exact ⟨rfl, rfl, l1.length + 6 * l2.length + 3 * l3.length + l4.length + P, by
        show xd.2 = _; rw [e]; ring⟩
  · exact ⟨l1.length + 6 * l2.length + 3 * l3.length + l4.length + l5.length, by ring⟩

/-- The calls of a row loop store `dC` channels each, at destination pointers that differ from
the pointer at the start of the loop by whole pixels; so does the pointer after the loop. -/
theorem rowLoop_dst (p : ConvParam32f) (b : RowBoundsExact) (r : RowRegion)
    (src weight srcC dC bias params slope yEnd : Nat) :
    ∀ fuel sy dy d,
      (∀ c, c ∈ (rowLoopExact p b r src weight srcC dC bias params slope yEnd fuel sy dy d).1 →
          c.dstC = dC ∧ c.srcC = srcC ∧ ∃ P, c.dst = d + P * p.dstC)
        ∧ ∃ N, (rowLoopExact p b r src weight srcC dC bias params slope yEnd fuel sy dy d).2.2.2
            = d + N * p.dstC := by
  intro fuel
  induction fuel with
  | zero =>
    intro sy dy d
    exact ⟨fun c hc => by simp [rowLoopExact] at hc, 0, by simp [rowLoopExact]⟩
  | succ fuel ih =>
    intro sy dy d
    unfold rowLoopExact
    by_cases hc : sy < r.boundExact b ∧ dy < yEnd
    · rw [if_pos hc]
      have hrow : (∀ c, c ∈ (rowBodyExact p b r src weight srcC dC bias params slope sy d).1 →
            c.dstC = dC ∧ c.srcC = srcC ∧ ∃ P, c.dst = d + P * p.dstC)
          ∧ ∃ N, (rowBodyExact p b r src weight srcC dC bias params slope sy d).2
              = d + N * p.dstC := by
        cases r <;> exact rowColumns_dst p b _ _ _ srcC dC bias params slope d
      obtain ⟨hr1, N1, hr2⟩ := hrow
      obtain ⟨hi1, N2, hi2⟩ := ih (sy + p.strideY) (dy + 1)
        (rowBodyExact p b r src weight srcC dC bias params slope sy d).2
      simp only []
      constructor
      · intro c hmem
        rcases List.mem_append.1 hmem with hm | hm
        · exact hr1 c hm
        · obtain ⟨g1, g0, P, g2⟩ := hi1 c hm
          exact ⟨g1, g0, N1 + P, by rw [g2, hr2]; ring⟩
      · exact ⟨N1 + N2, by rw [hi2, hr2]; ring⟩
    · rw [if_neg hc]
      exact ⟨fun c hc => by simp at hc, 0, by simp⟩

/-- The calls of a tile of the row pass store the channels of the tile, at destination pointers
that differ from `dst + dc` by whole pixels. -/
theorem tileCalls_dst (p : ConvParam32f) (b : RowBoundsExact)
    (src dstC yBeg yEnd srcC weight bias params dst dc : Nat) (c : MicroCall)
    (hc : c ∈ tileCallsExact p b src dstC yBeg yEnd srcC weight bias params dst dc) :
    c.dstC = min DF (dstC - dc) ∧ c.srcC = srcC ∧ ∃ P, c.dst = dst + dc + P * p.dstC := by
  unfold tileCallsExact at hc
  simp only [] at hc
  obtain ⟨a1, N1, a2⟩ := rowLoop_dst p b RowRegion.nose src weight srcC (min DF (dstC - dc))
    (bias + dc) params (params + dc) yEnd (yEnd - yBeg) (yBeg * p.strideY) yBeg
    (dst + dc + yBeg * p.dstW * p.dstC)
  generalize hr1 : rowLoopExact p b RowRegion.nose src weight srcC (min DF (dstC - dc))
    (bias + dc) params (params + dc) yEnd (yEnd - yBeg) (yBeg * p.strideY) yBeg
    (dst + dc + yBeg * p.dstW * p.dstC) = r1 at hc a1 a2
  obtain ⟨c1, N2, c2⟩ := rowLoop_dst p b RowRegion.body src weight srcC (min DF (dstC - dc))
    (bias + dc) params (params + dc) yEnd (yEnd - r1.2.2.1) r1.2.1 r1.2.2.1 r1.2.2.2
  generalize hr2 : rowLoopExact p b RowRegion.body src weight srcC (min DF (dstC - dc))
    (bias + dc) params (params + dc) yEnd (yEnd - r1.2.2.1) r1.2.1 r1.2.2.1 r1.2.2.2
      = r2 at hc c1 c2
  obtain ⟨f1, N3, f2⟩ := rowLoop_dst p b RowRegion.tail src weight srcC (min DF (dstC - dc))
    (bias + dc) params (params + dc) yEnd (yEnd - r2.2.2.1) r2.2.1 r2.2.2.1 r2.2.2.2
  generalize hr3 : rowLoopExact p b RowRegion.tail src weight srcC (min DF (dstC - dc))
    (bias + dc) params (params + dc) yEnd (yEnd - r2.2.2.1) r2.2.1 r2.2.2.1 r2.2.2.2
      = r3 at hc f1 f2
  rcases List.mem_append.1 hc with hm | hm
  · rcases List.mem_append.1 hm with hm | hm
    · obtain ⟨g1, g0, P, g2⟩ := a1 c hm
      exact ⟨g1, g0, yBeg * p.dstW + P, by rw [g2]; ring⟩
    · obtain ⟨g1, g0, P, g2⟩ := c1 c hm
      exact ⟨g1, g0, yBeg * p.dstW + N1 + P, by rw [g2, a2]; ring⟩
  · obtain ⟨g1, g0, P, g2⟩ := f1 c hm
    exact ⟨g1, g0, yBeg * p.dstW + N1 + N2 + P, by rw [g2, c2, a2]; ring⟩
/-- The calls of a tile of the 1x1 row pass store the channels of the tile, at destination
pointers that differ from `dst + dc` by whole pixels. -/
theorem tileCalls1x1_dst (p : ConvParam32f) (n1 n3 n6 : Nat)
    (src dstC yBeg srcC weight bias params dst dc : Nat) (c : MicroCall)
    (hc : c ∈ tileCalls1x1 p n1 n3 n6 src dstC yBeg srcC weight bias params dst dc) :
    c.dstC = min DF (dstC - dc) ∧ c.srcC = srcC ∧ ∃ P, c.dst = dst + dc + P * p.dstC := by
  simp only [tileCalls1x1, forRounds] at hc
  generalize hl6 : forLoop (n6 - 0) n6 6 (6 * p.dstC) 0 (dst + dc + yBeg * p.dstW * p.dstC)
    = l6 at hc
  generalize hl3 : forLoop (n3 - l6.length * 6) n3 3 (3 * p.dstC) (l6.length * 6)
    (dst + dc + yBeg * p.dstW * p.dstC + l6.length * (6 * p.dstC)) = l3 at hc
  generalize hl1 : forLoop (n1 - (l6.length * 6 + l3.length * 3)) n1 1 p.dstC
    (l6.length * 6 + l3.length * 3)
    (dst + dc + yBeg * p.dstW * p.dstC + l6.length * (6 * p.dstC) + l3.length * (3 * p.dstC))
    = l1 at hc
  simp only [List.mem_append, List.mem_map] at hc
  rcases hc with (⟨xd, hxd, rfl⟩ | ⟨xd, hxd, rfl⟩) | ⟨xd, hxd, rfl⟩
  · rw [← hl6] at hxd
    obtain ⟨P, e⟩ := forLoop_dst _ _ 6 p.dstC _ _ _ xd hxd
    exact ⟨rfl, rfl, yBeg * p.dstW + P, by show xd.2 = _; rw [e]; ring⟩
  · rw [← hl3] at hxd
    obtain ⟨P, e⟩ := forLoop_dst _ _ 3 p.dstC _ _ _ xd hxd
    exact ⟨rfl, rfl, yBeg * p.dstW + 6 * l6.length + P, by show xd.2 = _; rw [e]; ring⟩
  · rw [← hl1] at hxd
    obtain ⟨P, e⟩ := forLoop_dst _ _ 1 p.dstC _ _ _ xd (by rw [Nat.one_mul]; exact hxd)
    exact ⟨rfl, rfl, yBeg * p.dstW + 6 * l6.length + 3 * l3.length + P, by
      show xd.2 = _; rw [e]; ring⟩

/-- Every call of a row pass belongs to a tile of 16 destination channels of the pass: it
stores the channels of the tile, for the source channels of the pass, at a destination pointer
that differs from `dst + dc` by whole pixels. -/
theorem passCalls_dst (direct1x1 : Bool) {p : ConvParam32f} (h : p.InRegionDomain)
    (src dstC yBeg yEnd srcC weight bias params dst : Nat) (hy : yBeg * p.strideY < sizeMod)
    (cs : List MicroCall)
    (hcs : passCalls direct1x1 p src dstC yBeg yEnd srcC weight bias params dst = some cs)
    (c : MicroCall) (hc : c ∈ cs) :
    ∃ k P, DF * k < dstC ∧ c.dstC = min DF (dstC - DF * k) ∧ c.srcC = srcC
      ∧ c.dst = dst + DF * k + P * p.dstC := by
  have key : ∀ (step : Nat) (g : Nat × Nat → List MicroCall),
      (∀ dw c, c ∈ g dw →
        c.dstC = min DF (dstC - dw.1) ∧ c.srcC = srcC ∧ ∃ P, c.dst = dst + dw.1 + P * p.dstC) →
      c ∈ (forRounds dstC DF step 0 weight).flatMap g →
      ∃ k P, DF * k < dstC ∧ c.dstC = min DF (dstC - DF * k) ∧ c.srcC = srcC
        ∧ c.dst = dst + DF * k + P * p.dstC := by
    intro step g hg hmem
    obtain ⟨dw, hdw, hcg⟩ := List.mem_flatMap.1 hmem
    obtain ⟨k, e1, -, e3⟩ := forLoop_mem _ _ _ dw _ _ _ hdw
    have e1' : dw.1 = DF * k := by rw [e1]; ring
    obtain ⟨g1, g0, P, g2⟩ := hg dw c hcg
    rw [e1'] at g1 g2 e3
    exact ⟨k, P, e3, g1, g0, g2⟩
  cases direct1x1 with
  | false =>
    simp only [passCalls, Bool.false_eq_true, if_false] at hcs
    rw [rowPassCalls_eq_exact h _ _ _ _ _ _ _ _ _ hy] at hcs
    simp only [rowPassCallsExact] at hcs
    cases hb : rowBoundsExact p with
    | none => rw [hb] at hcs; simp at hcs
    | some b =>
      rw [hb] at hcs
      simp only [Option.map_some', Option.some.injEq] at hcs
      rw [← hcs] at hc
      exact key _ (fun dw => tileCallsExact p b src dstC yBeg yEnd srcC dw.2 bias params dst dw.1)
        (fun dw c hc => tileCalls_dst p b src dstC yBeg yEnd srcC dw.2 bias params dst dw.1 c hc)
        hc
  | true =>
    simp only [passCalls, rowPassCalls1x1, AlignLoAny, if_true] at hcs
    simp only [OfNat.ofNat_ne_zero, if_false, Option.some.injEq] at hcs
    rw [← hcs] at hc
    exact key _ (fun dw => tileCalls1x1 p _ _ _ src dstC yBeg srcC dw.2 bias params dst dw.1)
      (fun dw c hc => tileCalls1x1_dst p _ _ _ src dstC yBeg srcC dw.2 bias params dst dw.1 c hc)
      hc

/-- The memory after sequential writes: the written values from `d` on, the old memory
elsewhere. -/
theorem storeSeq_spec {α : Type} (vals : List α) :
    ∀ (d : Nat) (dst : Nat → α) (j : Nat),
      (∀ k (hk : k < vals.length), j = d + k → storeSeq vals d dst j = vals.get ⟨k, hk⟩)
        ∧ (¬ (d ≤ j ∧ j < d + vals.length) → storeSeq vals d dst j = dst j) := by
  induction vals with
  | nil =>
    intro d dst j
    exact ⟨fun k hk => absurd hk (Nat.not_lt_zero _), fun _ => rfl⟩
  | cons v vs ih =>
    intro d dst j
    have hstep : storeSeq (v :: vs) d dst = storeSeq vs (d + 1) (Function.update dst d v) := rfl
    rw [hstep]
    obtain ⟨h1, h2⟩ := ih (d + 1) (Function.update dst d v) j
    constructor
    · intro k hk hj
      cases k with
      | zero =>
        rw [h2 (by omega), hj, Nat.add_zero, Function.update_same]
        rfl
      | succ k =>
        have hk' : k < vs.length := by simpa using hk
        rw [h1 k hk' (by omega)]
        rfl
    · intro hj
      have hlen : (v :: vs).length = vs.length + 1 := rfl
      rw [hlen] at hj
      rw [h2 (by omega), Function.update_noteq (by omega)]

/-- The elements of a list of `A` blocks of `B` elements each. -/
theorem flatMap_range_get {α : Type} (B : Nat) (f : Nat → List α) :
    ∀ A, (∀ a, a < A → (f a).length = B) →
      ((List.range A).flatMap f).length = A * B
        ∧ ∀ a b, a < A → b < B → ((List.range A).flatMap f)[a * B + b]? = (f a)[b]? := by
  intro A
  induction A with
  | zero =>
    intro _
    exact ⟨by simp, fun a b ha _ => absurd ha (Nat.not_lt_zero _)⟩
  | succ A ih =>
    intro hf
    obtain ⟨hl, hg⟩ := ih (fun a ha => hf a (Nat.lt_succ_of_lt ha))
    have hA := hf A (Nat.lt_succ_self A)
    rw [List.range_succ, List.flatMap_append]
    simp only [List.flatMap_cons, List.flatMap_nil, List.append_nil]
    constructor
    · rw [List.length_append, hl, hA]; ring
    · intro a b ha hb
      rcases Nat.lt_succ_iff_lt_or_eq.1 ha with ha' | ha'
      · have hlt : a * B + b < ((List.range A).flatMap f).length := by
          rw [hl]
          have : (a + 1) * B ≤ A * B := Nat.mul_le_mul_right _ ha'
          rw [Nat.add_mul, Nat.one_mul] at this
          omega
        rw [List.getElem?_append_left hlt]
        exact hg a b ha' hb
      · subst ha'
        rw [List.getElem?_append_right (by rw [hl]; omega), hl, Nat.add_sub_cancel_left]

/-- The rounds of a loop, by their number. -/
theorem forLoop_eq_map (bound step stepD : Nat) :
    ∀ fuel x d, forLoop fuel bound step stepD x d
      = (List.range (forLoop fuel bound step stepD x d).length).map
          (fun k => (x + k * step, d + k * stepD)) := by
  intro fuel
  induction fuel with
  | zero => intro x d; rfl
  | succ fuel ih =>
    intro x d
    rw [forLoop_succ]
    by_cases hlt : x < bound
    · rw [if_pos hlt, List.length_cons, List.range_succ_eq_map, List.map_cons, List.map_map]
      congr 1
      · simp
      · conv_lhs => rw [ih (x + step) (d + stepD)]
        apply List.map_congr_left
        intro k _
        simp only [Function.comp, Nat.succ_eq_add_one]
        congr 1 <;> ring
    · rw [if_neg hlt]
      rfl

/-- The number of rounds of `for (x = 0; x < bound; x += N)`. -/
theorem forRounds_length (bound N stepD d : Nat) (hN : 0 < N) :
    (forRounds bound N stepD 0 d).length = (bound + N - 1) / N := by
  obtain ⟨h1, h2⟩ := forLoop_exit' 1 N hN Nat.one_pos bound stepD (bound - 0) N 0 d 0
    (forRounds bound N stepD 0 d) rfl (Nat.one_mul N).symm (Nat.zero_mul N).symm
    (le_add_sub' _ _)
  simp only [Nat.zero_add, Nat.one_mul] at h1 h2
  generalize (forRounds bound N stepD 0 d).length = len at h1 h2
  symm
  apply Nat.div_eq_of_lt_le
  · rcases h2 with h2 | h2
    · subst h2; simp
    · have e : (len - 1) * N + N = len * N := by
        obtain ⟨m, hm⟩ : ∃ m, len = m + 1 := ⟨len - 1, by
          rcases Nat.eq_zero_or_pos len with h0 | h0
          · subst h0; simp at h1 h2; omega
          · omega⟩
        subst hm
        simp [Nat.add_mul]
      omega
  · rw [Nat.add_mul, Nat.one_mul]
    omega

/-- The rounds of `for (x = 0; x < bound; x += N)` with a pointer that moves by `stepD`. -/
theorem forRounds_eq_map (bound N stepD d : Nat) (hN : 0 < N) :
    forRounds bound N stepD 0 d
      = (List.range ((bound + N - 1) / N)).map (fun k => (k * N, d + k * stepD)) := by
  have h := forLoop_eq_map bound N stepD (bound - 0) 0 d
  have hl := forRounds_length bound N stepD d hN
  unfold forRounds at hl ⊢
  rw [hl] at h
  rw [h]
  apply List.map_congr_left
  intro k _
  rw [Nat.zero_add]

/-- The memory after sequential writes from 0 on, by the list of values. -/
theorem storeSeq_values {α : Type} (vals : List α) (dst : Nat → α) (total : Nat)
    (hlen : vals.length = total) :
    (∀ j v, vals[j]? = some v → storeSeq vals 0 dst j = v)
      ∧ ∀ j, total ≤ j → storeSeq vals 0 dst j = dst j := by
  constructor
  · intro j v hv
    obtain ⟨hj, e⟩ := List.getElem?_eq_some_iff.1 hv
    rw [(storeSeq_spec vals 0 dst j).1 j hj (Nat.zero_add j).symm, ← e]
    rfl
  · intro j hj
    exact (storeSeq_spec vals 0 dst j).2 (by omega)

/-- The values `SynetConvertImage_Chw_Hwc` writes: `channels * spatial` of them, the one at
`s * channels + c` is `src[c * spatial + s]`. -/
theorem chw_hwc_values {α : Type} (channels spatial : Nat) (src : Nat → α) :
    (SynetConvertImage_Chw_Hwc_values channels spatial src).length = spatial * channels
      ∧ ∀ s c, s < spatial → c < channels →
        (SynetConvertImage_Chw_Hwc_values channels spatial src)[s * channels + c]?
          = some (src (c * spatial + s)) := by
  obtain ⟨h1, h2⟩ := flatMap_range_get channels
    (fun s => (List.range channels).map fun c => src (s + c * spatial)) spatial
    (fun a _ => by simp)
  refine ⟨h1, fun s c hs hc => ?_⟩
  unfold SynetConvertImage_Chw_Hwc_values
  rw [h2 s c hs hc]
  simp [hc, Nat.add_comm]

/-- The number of whole tiles and the round-up of a channel count. -/
theorem tiles_count (channels N : Nat) (hN : 0 < N) :
    (AlignLo channels N + N - 1) / N = channels / N
      ∧ (channels + N - 1) / N
          = channels / N + (if channels - AlignLo channels N ≠ 0 then 1 else 0)
      ∧ AlignLo channels N ≤ channels
      ∧ channels - AlignLo channels N = channels % N := by
  unfold AlignLo
  have hdm := Nat.div_add_mod channels N
  have hc : N * (channels / N) = channels / N * N := Nat.mul_comm _ _
  have hm := Nat.mod_lt channels hN
  have h3 : channels / N * N ≤ channels := Nat.div_mul_le_self _ _
  have h4 : channels - channels / N * N = channels % N := by omega
  refine ⟨?_, ?_, h3, h4⟩
  · apply Nat.div_eq_of_lt_le
    · omega
    · rw [Nat.add_mul, Nat.one_mul]; omega
  · rw [h4]
    by_cases h0 : channels % N = 0
    · rw [if_neg (by simpa using h0), Nat.add_zero]
      apply Nat.div_eq_of_lt_le
      · omega
      · rw [Nat.add_mul, Nat.one_mul]; omega
    · rw [if_pos h0]
      apply Nat.div_eq_of_lt_le
      · rw [Nat.add_mul, Nat.one_mul]; omega
      · rw [Nat.add_mul, Nat.add_mul, Nat.one_mul]; omega

/-- A tile of `n ≤ N` values followed by `N - n` zeros. -/
theorem padded_tile_get {α : Type} [Zero α] (N n i : Nat) (f : Nat → α) (hn : n ≤ N) (hi : i < N) :
    ((List.range n).map f ++ List.replicate (N - n) 0).length = N
      ∧ ((List.range n).map f ++ List.replicate (N - n) 0)[i]?
          = some (if i < n then f i else 0) := by
  constructor
  · simp; omega
  · by_cases h : i < n
    · rw [List.getElem?_append_left (by simpa using h), if_pos h]
      simp [h]
    · rw [List.getElem?_append_right (by simpa using h), if_neg h]
      rw [List.getElem?_eq_getElem (by simp; omega)]
      simp

/-- The values `SynetConvertImage_Chw_ChwXc<N>` writes: `ceil(channels/N) * spatial * N` of
them, the one at `(b*spatial + s)*N + i` is the source value of channel `b*N + i` at position
`s`, or 0 when there is no such channel. -/
theorem chw_chwXc_values {α : Type} [Zero α] (N channels spatial : Nat) (src : Nat → α) (hN : 0 < N) :
    (SynetConvertImage_Chw_ChwXc_values N channels spatial src).length
        = (channels + N - 1) / N * (spatial * N)
      ∧ ∀ b s i, b < (channels + N - 1) / N → s < spatial → i < N →
        (SynetConvertImage_Chw_ChwXc_values N channels spatial src)[(b * spatial + s) * N + i]?
          = some (if b * N + i < channels then src ((b * N + i) * spatial + s) else 0) := by
  unfold SynetConvertImage_Chw_ChwXc_values
  rw [forRounds_eq_map channels N (N * spatial) 0 hN, List.flatMap_map]
  have hn : ∀ b, min channels (b * N + N) - b * N ≤ N := by intro b; omega
  have hinner : ∀ b, ((List.range spatial).flatMap fun s =>
        (List.range (min channels (b * N + N) - b * N)).map
            (fun i => src (0 + b * (N * spatial) + s + i * spatial))
          ++ List.replicate (N - (min channels (b * N + N) - b * N)) 0).length = spatial * N
      ∧ ∀ s i, s < spatial → i < N → ((List.range spatial).flatMap fun s =>
        (List.range (min channels (b * N + N) - b * N)).map
            (fun i => src (0 + b * (N * spatial) + s + i * spatial))
          ++ List.replicate (N - (min channels (b * N + N) - b * N)) 0)[s * N + i]?
          = some (if i < min channels (b * N + N) - b * N
              then src (0 + b * (N * spatial) + s + i * spatial) else 0) := by
    intro b
    obtain ⟨h1, h2⟩ := flatMap_range_get N (fun s =>
        (List.range (min channels (b * N + N) - b * N)).map
            (fun i => src (0 + b * (N * spatial) + s + i * spatial))
          ++ List.replicate (N - (min channels (b * N + N) - b * N)) 0) spatial
      (fun s _ => (padded_tile_get N _ 0 _ (hn b) hN).1)
    refine ⟨h1, fun s i hs hi => ?_⟩
    rw [h2 s i hs hi]
    exact (padded_tile_get N _ i _ (hn b) hi).2
  obtain ⟨h1, h2⟩ := flatMap_range_get (spatial * N) (fun b =>
      (List.range spatial).flatMap fun s =>
        (List.range (min channels (b * N + N) - b * N)).map
            (fun i => src (0 + b * (N * spatial) + s + i * spatial))
          ++ List.replicate (N - (min channels (b * N + N) - b * N)) 0)
    ((channels + N - 1) / N) (fun b _ => (hinner b).1)
  refine ⟨h1, fun b s i hb hs hi => ?_⟩
  have hidx : (b * spatial + s) * N + i = b * (spatial * N) + (s * N + i) := by ring
  have hlt : s * N + i < spatial * N := by
    have : (s + 1) * N ≤ spatial * N := Nat.mul_le_mul_right _ hs
    rw [Nat.add_mul, Nat.one_mul] at this
    omega
  rw [hidx]
  show ((List.range ((channels + N - 1) / N)).flatMap _)[b * (spatial * N) + (s * N + i)]? = _
  rw [h2 b (s * N + i) hb hlt, (hinner b).2 s i hs hi]
  congr 1
  by_cases hc : b * N + i < channels
  · rw [if_pos hc, if_pos (by omega)]
    congr 1
    ring
  · rw [if_neg hc, if_neg (by omega)]

/-- The position of element `i` of tile `s` of block `b`, for blocks of `spatial` tiles of `N`
elements. -/
theorem tile_index (N spatial b s i : Nat) (hs : s < spatial) (hi : i < N) :
    (b * spatial + s) * N + i = b * (spatial * N) + (s * N + i) ∧ s * N + i < spatial * N := by
  constructor
  · ring
  · have : (s + 1) * N ≤ spatial * N := Nat.mul_le_mul_right _ hs
    rw [Nat.add_mul, Nat.one_mul] at this
    omega

/-- The values `SynetConvertImage_Hwc_ChwXc<N>` writes: `ceil(channels/N) * spatial * N` of
them, the one at `(b*spatial + s)*N + i` is the source value of channel `b*N + i` at position
`s`, or 0 when there is no such channel. -/
theorem hwc_chwXc_values {α : Type} [Zero α] (N channels spatial : Nat) (src : Nat → α) (hN : 0 < N) :
    (SynetConvertImage_Hwc_ChwXc_values N channels spatial src).length
        = (channels + N - 1) / N * (spatial * N)
      ∧ ∀ b s i, b < (channels + N - 1) / N → s < spatial → i < N →
        (SynetConvertImage_Hwc_ChwXc_values N channels spatial src)[(b * spatial + s) * N + i]?
          = some (if b * N + i < channels then src (s * channels + (b * N + i)) else 0) := by
  obtain ⟨hq, hceil, hle, htail⟩ := tiles_count channels N hN
  have hdm := Nat.div_add_mod channels N
  have hcomm : N * (channels / N) = channels / N * N := Nat.mul_comm _ _
  have hmod := Nat.mod_lt channels hN
  unfold SynetConvertImage_Hwc_ChwXc_values
  simp only []
  rw [forRounds_eq_map (AlignLo channels N) N N 0 hN, hq, List.flatMap_map, List.length_map,
    List.length_range]
  have hwholeInner : ∀ b, ((List.range spatial).flatMap fun s =>
        (List.range N).map fun i => src (0 + b * N + s * channels + i)).length = spatial * N
      ∧ ∀ s i, s < spatial → i < N → ((List.range spatial).flatMap fun s =>
        (List.range N).map fun i => src (0 + b * N + s * channels + i))[s * N + i]?
          = some (src (0 + b * N + s * channels + i)) := by
    intro b
    obtain ⟨h1, h2⟩ := flatMap_range_get N (fun s =>
        (List.range N).map fun i => src (0 + b * N + s * channels + i)) spatial
      (fun s _ => by simp)
    refine ⟨h1, fun s i hs hi => ?_⟩
    rw [h2 s i hs hi]
    simp [hi]
  obtain ⟨w1, w2⟩ := flatMap_range_get (spatial * N) (fun b =>
      (List.range spatial).flatMap fun s =>
        (List.range N).map fun i => src (0 + b * N + s * channels + i))
    (channels / N) (fun b _ => (hwholeInner b).1)
  have htl : channels - AlignLo channels N ≤ N := by omega
  obtain ⟨t1, t2⟩ := flatMap_range_get N (fun s =>
      (List.range (channels - AlignLo channels N)).map
          (fun i => src (channels / N * N + s * channels + i))
        ++ List.replicate (N - (channels - AlignLo channels N)) 0) spatial
    (fun s _ => (padded_tile_get N _ 0 _ htl hN).1)
  constructor
  · rw [List.length_append, hceil]
    show ((List.range (channels / N)).flatMap _).length + _ = _
    rw [w1]
    by_cases h0 : channels - AlignLo channels N ≠ 0
    · rw [if_pos h0, if_pos h0]
      show _ + ((List.range spatial).flatMap _).length = _
      rw [t1]; ring
    · rw [if_neg h0, if_neg h0]
      simp
  · intro b s i hb hs hi
    obtain ⟨hidx, hlt⟩ := tile_index N spatial b s i hs hi
    rw [hidx]
    by_cases hbq : b < channels / N
    · have hin : b * N + i < channels := by
        have : (b + 1) * N ≤ channels / N * N := Nat.mul_le_mul_right _ hbq
        rw [Nat.add_mul, Nat.one_mul] at this
        omega
      have hpos : b * (spatial * N) + (s * N + i)
          < ((List.range (channels / N)).flatMap fun b =>
              (List.range spatial).flatMap fun s =>
                (List.range N).map fun i => src (0 + b * N + s * channels + i)).length := by
        rw [w1]
        have : (b + 1) * (spatial * N) ≤ channels / N * (spatial * N) :=
          Nat.mul_le_mul_right _ hbq
        rw [Nat.add_mul, Nat.one_mul] at this
        omega
      rw [List.getElem?_append_left hpos]
      show ((List.range (channels / N)).flatMap _)[b * (spatial * N) + (s * N + i)]? = _
      rw [w2 b (s * N + i) hbq hlt, (hwholeInner b).2 s i hs hi, if_pos hin]
      congr 2
      ring
    · rw [hceil] at hb
      have h0 : channels - AlignLo channels N ≠ 0 := by
        intro h0
        rw [if_neg (by simpa using h0)] at hb
        omega
      rw [if_pos h0] at hb
      have hbe : b = channels / N := by omega
      subst hbe
      rw [if_pos h0]
      have hge : ((List.range (channels / N)).flatMap fun b =>
              (List.range spatial).flatMap fun s =>
                (List.range N).map fun i => src (0 + b * N + s * channels + i)).length
          ≤ channels / N * (spatial * N) + (s * N + i) := by
        rw [w1]; omega
      rw [List.getElem?_append_right hge]
      show ((List.range spatial).flatMap _)[_ - ((List.range (channels / N)).flatMap _).length]?
        = _
      rw [w1, Nat.add_sub_cancel_left, t2 s i hs hi, (padded_tile_get N _ i _ htl hi).2]
      congr 1
      by_cases hc : channels / N * N + i < channels
      · rw [if_pos hc, if_pos (by omega)]
        congr 1
        ring
      · rw [if_neg hc, if_neg (by omega)]

/-- The elements of a list of `A * B` blocks of `C` elements each, in two levels. -/
theorem flatMap_range_get2 {α : Type} (B C : Nat) (f : Nat → Nat → List α) (A : Nat)
    (hf : ∀ a b, a < A → b < B → (f a b).length = C) :
    ((List.range A).flatMap fun a => (List.range B).flatMap (f a)).length = A * (B * C)
      ∧ ∀ a b c, a < A → b < B → c < C →
          ((List.range A).flatMap fun a => (List.range B).flatMap (f a))[(a * B + b) * C + c]?
            = (f a b)[c]? := by
  have hin : ∀ a, a < A → ((List.range B).flatMap (f a)).length = B * C
      ∧ ∀ b c, b < B → c < C → ((List.range B).flatMap (f a))[b * C + c]? = (f a b)[c]? :=
    fun a ha => flatMap_range_get C (f a) B (fun b hb => hf a b ha hb)
  obtain ⟨h1, h2⟩ := flatMap_range_get (B * C) (fun a => (List.range B).flatMap (f a)) A
    (fun a ha => (hin a ha).1)
  refine ⟨h1, fun a b c ha hb hc => ?_⟩
  obtain ⟨hidx, hlt⟩ := tile_index C B a b c hb hc
  rw [hidx, h2 a (b * C + c) ha hlt]
  exact (hin a ha).2 b c hb hc

/-- The values `SynetConvertFilter_Oiyx_OyxiXo<N>` writes: `ceil(output/N)*kernel*input*N` of
them, the one at `((b*kernel + k)*input + i)*N + j` is the filter value at
`(o = b*N + j, i, k)`, or 0 when there is no such output channel. -/
theorem oiyx_oyxiXo_values {α : Type} [Zero α] (N output input kernel : Nat) (src : Nat → α)
    (hN : 0 < N) :
    (SynetConvertFilter_Oiyx_OyxiXo_values N output input kernel src).length
        = (output + N - 1) / N * (kernel * (input * N))
      ∧ ∀ b k i j, b < (output + N - 1) / N → k < kernel → i < input → j < N →
        (SynetConvertFilter_Oiyx_OyxiXo_values N output input kernel src)[
            ((b * kernel + k) * input + i) * N + j]?
          = some (if b * N + j < output then src (((b * N + j) * input + i) * kernel + k)
              else 0) := by
  unfold SynetConvertFilter_Oiyx_OyxiXo_values
  rw [forRounds_eq_map output N 0 0 hN, List.flatMap_map]
  have hn : ∀ b, min output (b * N + N) - b * N ≤ N := by intro b; omega
  have hinner : ∀ b, _ := fun b => flatMap_range_get2 input N (fun k i =>
      (List.range (min output (b * N + N) - b * N)).map
          (fun j => src (((b * N + j) * input + i) * kernel + k))
        ++ List.replicate (N - (min output (b * N + N) - b * N)) 0) kernel
    (fun k i _ _ => (padded_tile_get N _ 0 _ (hn b) hN).1)
  obtain ⟨h1, h2⟩ := flatMap_range_get (kernel * (input * N)) (fun b =>
      (List.range kernel).flatMap fun k => (List.range input).flatMap fun i =>
      (List.range (min output (b * N + N) - b * N)).map
          (fun j => src (((b * N + j) * input + i) * kernel + k))
        ++ List.replicate (N - (min output (b * N + N) - b * N)) 0)
    ((output + N - 1) / N) (fun b _ => (hinner b).1)
  refine ⟨h1, fun b k i j hb hk hi hj => ?_⟩
  obtain ⟨hidx, hlt⟩ := tile_index N input k i j hi hj
  have hlt2 : (k * input + i) * N + j < kernel * (input * N) := by
    have : (k + 1) * (input * N) ≤ kernel * (input * N) := Nat.mul_le_mul_right _ hk
    rw [Nat.add_mul, Nat.one_mul] at this
    omega
  have hidx2 : ((b * kernel + k) * input + i) * N + j
      = b * (kernel * (input * N)) + ((k * input + i) * N + j) := by ring
  rw [hidx2]
  show ((List.range ((output + N - 1) / N)).flatMap _)[_]? = _
  rw [h2 b _ hb hlt2, (hinner b).2 k i j hk hi hj, (padded_tile_get N _ j _ (hn b) hj).2]
  congr 1
  by_cases hc : b * N + j < output
  · rw [if_pos hc, if_pos (by omega)]
  · rw [if_neg hc, if_neg (by omega)]

/-- The values `SynetConvertFilter_Yxio_OyxiXo<N>` writes: `ceil(output/N)*kernel*input*N` of
them, the one at `((b*kernel + k)*input + i)*N + j` is the filter value at
`(o = b*N + j, i, k)`, or 0 when there is no such output channel. -/
theorem yxio_oyxiXo_values {α : Type} [Zero α] (N output input kernel : Nat) (src : Nat → α)
    (hN : 0 < N) :
    (SynetConvertFilter_Yxio_OyxiXo_values N output input kernel src).length
        = (output + N - 1) / N * (kernel * (input * N))
      ∧ ∀ b k i j, b < (output + N - 1) / N → k < kernel → i < input → j < N →
        (SynetConvertFilter_Yxio_OyxiXo_values N output input kernel src)[
            ((b * kernel + k) * input + i) * N + j]?
          = some (if b * N + j < output then src ((k * input + i) * output + (b * N + j))
              else 0) := by
  obtain ⟨hq, hceil, hle, htail⟩ := tiles_count output N hN
  have hdm := Nat.div_add_mod output N
  have hcomm : N * (output / N) = output / N * N := Nat.mul_comm _ _
  have hmod := Nat.mod_lt output hN
  unfold SynetConvertFilter_Yxio_OyxiXo_values
  simp only []
  rw [forRounds_eq_map (AlignLo output N) N N 0 hN, hq, List.flatMap_map, List.length_map,
    List.length_range]
  have hwholeInner : ∀ b, _ := fun b => flatMap_range_get2 input N (fun k i =>
      (List.range N).map fun j => src (0 + b * N + (k * input + i) * output + j)) kernel
    (fun k i _ _ => by simp)
  obtain ⟨w1, w2⟩ := flatMap_range_get (kernel * (input * N)) (fun b =>
      (List.range kernel).flatMap fun k => (List.range input).flatMap fun i =>
        (List.range N).map fun j => src (0 + b * N + (k * input + i) * output + j))
    (output / N) (fun b _ => (hwholeInner b).1)
  have htl : output - AlignLo output N ≤ N := by omega
  obtain ⟨t1, t2⟩ := flatMap_range_get2 input N (fun k i =>
      (List.range (output - AlignLo output N)).map
          (fun j => src (output / N * N + (k * input + i) * output + j))
        ++ List.replicate (N - (output - AlignLo output N)) 0) kernel
    (fun k i _ _ => (padded_tile_get N _ 0 _ htl hN).1)
  have hcond : AlignLo output N < output ↔ output - AlignLo output N ≠ 0 := by omega
  constructor
  · rw [List.length_append, hceil]
    show ((List.range (output / N)).flatMap _).length + _ = _
    rw [w1]
    by_cases h0 : output - AlignLo output N ≠ 0
    · rw [if_pos (hcond.2 h0), if_pos h0]
      show _ + ((List.range kernel).flatMap _).length = _
      rw [t1]; ring
    · rw [if_neg (fun h => h0 (hcond.1 h)), if_neg h0]
      simp
  · intro b k i j hb hk hi hj
    have hlt2 : (k * input + i) * N + j < kernel * (input * N) := by
      obtain ⟨_, hlt⟩ := tile_index N input k i j hi hj
      have : (k + 1) * (input * N) ≤ kernel * (input * N) := Nat.mul_le_mul_right _ hk
      rw [Nat.add_mul, Nat.one_mul] at this
      omega
    have hidx2 : ((b * kernel + k) * input + i) * N + j
        = b * (kernel * (input * N)) + ((k * input + i) * N + j) := by ring
    rw [hidx2]
    by_cases hbq : b < output / N
    · have hin : b * N + j < output := by
        have : (b + 1) * N ≤ output / N * N := Nat.mul_le_mul_right _ hbq
        rw [Nat.add_mul, Nat.one_mul] at this
        omega
      have hpos : b * (kernel * (input * N)) + ((k * input + i) * N + j)
          < ((List.range (output / N)).flatMap fun b =>
              (List.range kernel).flatMap fun k => (List.range input).flatMap fun i =>
                (List.range N).map fun j =>
                  src (0 + b * N + (k * input + i) * output + j)).length := by
        rw [w1]
        have : (b + 1) * (kernel * (input * N)) ≤ output / N * (kernel * (input * N)) :=
          Nat.mul_le_mul_right _ hbq
        rw [Nat.add_mul, Nat.one_mul] at this
        omega
      rw [List.getElem?_append_left hpos]
      show ((List.range (output / N)).flatMap _)[_]? = _
      rw [w2 b _ hbq hlt2, (hwholeInner b).2 k i j hk hi hj, if_pos hin]
      rw [List.getElem?_eq_getElem (by simpa using hj)]
      simp only [List.getElem_map, List.getElem_range]
      congr 2
      ring
    · rw [hceil] at hb
      have h0 : output - AlignLo output N ≠ 0 := by
        intro h0
        rw [if_neg (by simpa using h0)] at hb
        omega
      rw [if_pos h0] at hb
      have hbe : b = output / N := by omega
      subst hbe
      rw [if_pos (hcond.2 h0)]
      have hge : ((List.range (output / N)).flatMap fun b =>
              (List.range kernel).flatMap fun k => (List.range input).flatMap fun i =>
                (List.range N).map fun j =>
                  src (0 + b * N + (k * input + i) * output + j)).length
          ≤ output / N * (kernel * (input * N)) + ((k * input + i) * N + j) := by
        rw [w1]; omega
      rw [List.getElem?_append_right hge]
      show ((List.range kernel).flatMap _)[_ - ((List.range (output / N)).flatMap _).length]?
        = _
      rw [w1, Nat.add_sub_cancel_left, t2 k i j hk hi hj, (padded_tile_get N _ j _ htl hj).2]
      congr 1
      by_cases hc : output / N * N + j < output
      · rw [if_pos hc, if_pos (by omega)]
        congr 1
        ring
      · rw [if_neg hc, if_neg (by omega)]

/-- The batch loop of `SynetConvertImage` for equal formats copies `batch * stride` elements. -/
theorem convertImage_loop_same {α : Type} [Zero α] (conv : Option SynetImageConverterPtr)
    (channels spatial stride : Nat) (src : Nat → α) :
    ∀ (batch s : Nat) (dst : Nat → α),
      ∃ m, SynetConvertImage_loop conv true channels spatial stride stride src batch s s dst
          = some m
        ∧ ∀ j, m j = if s ≤ j ∧ j < s + batch * stride then src j else dst j := by
  intro batch
  induction batch with
  | zero =>
    intro s dst
    refine ⟨dst, rfl, fun j => ?_⟩
    rw [if_neg (by omega)]
  | succ batch ih =>
    intro s dst
    obtain ⟨m, hm, hj⟩ := ih (s + stride) (memcpy src s dst s stride)
    refine ⟨m, ?_, fun j => ?_⟩
    · rw [← hm]
      rfl
    · rw [hj j]
      have e : (batch + 1) * stride = batch * stride + stride := by ring
      unfold memcpy
      by_cases h1 : s + stride ≤ j ∧ j < s + stride + batch * stride
      · rw [if_pos h1, if_pos (by omega)]
      · rw [if_neg h1]
        by_cases h2 : s ≤ j ∧ j < s + stride
        · rw [if_pos h2, if_pos (by omega)]
          congr 1
          omega
        · rw [if_neg h2, if_neg (by omega)]

/-- The rounds of `for (; x < bound; x += N)` from `x = k0 * N` on: their number `len` is the
least one with `bound ≤ (k0 + len) * N`. -/
theorem forRounds_at (bound N stepD k0 d : Nat) (hN : 0 < N) :
    ∃ len, forRounds bound N stepD (k0 * N) d
        = (List.range len).map (fun k => (k0 * N + k * N, d + k * stepD))
      ∧ bound ≤ (k0 + len) * N ∧ (len = 0 ∨ (k0 + (len - 1)) * N < bound) := by
  refine ⟨(forRounds bound N stepD (k0 * N) d).length, ?_, ?_⟩
  · exact forLoop_eq_map bound N stepD (bound - k0 * N) (k0 * N) d
  · have h := forLoop_exit' 1 N hN Nat.one_pos bound stepD (bound - k0 * N) N (k0 * N) d k0
      (forRounds bound N stepD (k0 * N) d) rfl (Nat.one_mul N).symm rfl (by omega)
    simpa only [Nat.one_mul] using h

/-- The pixels of consecutive groups of `n` pixels each. -/
theorem groups_pixels {β : Type} (n len i0 : Nat) (f : Nat → β) :
    ((List.range len).flatMap fun k => (List.range n).map fun i => f (i0 + k * n + i))
      = (List.range (len * n)).map fun q => f (i0 + q) := by
  apply List.ext_getElem?
  intro m
  by_cases hm : m < len * n
  · have hn : 0 < n := by
      rcases Nat.eq_zero_or_pos n with h | h
      · subst h; simp at hm
      · exact h
    obtain ⟨_, h2⟩ := flatMap_range_get n
      (fun k => (List.range n).map fun i => f (i0 + k * n + i)) len (fun a _ => by simp)
    have hdm := Nat.div_add_mod m n
    have hmod := Nat.mod_lt m hn
    have hdiv : m / n < len := (Nat.div_lt_iff_lt_mul hn).2 hm
    have e : m = m / n * n + m % n := by rw [Nat.mul_comm]; exact hdm.symm
    have hr : (List.map (fun q => f (i0 + q)) (List.range (len * n)))[m]?
        = some (f (i0 + m)) := by
      rw [List.getElem?_eq_getElem (by simpa using hm)]
      simp only [List.getElem_map, List.getElem_range]
    rw [hr]
    conv_lhs => rw [e]
    rw [h2 (m / n) (m % n) hdiv hmod, List.getElem?_eq_getElem (by simpa using hmod)]
    simp only [List.getElem_map, List.getElem_range]
    congr 2
    omega
  · obtain ⟨h1, _⟩ := flatMap_range_get n
      (fun k => (List.range n).map fun i => f (i0 + k * n + i)) len (fun a _ => by simp)
    rw [List.getElem?_eq_none (by rw [h1]; omega), List.getElem?_eq_none (by simp; omega)]

/-- The three pixel loops of a tile of the 1x1 row pass, by their rounds. -/
theorem tileCalls1x1_rounds (p : ConvParam32f)
    (n1 src dstC yBeg srcC weight bias params dst dc : Nat) :
    tileCalls1x1 p n1 (n1 / 3 * 3) (n1 / 6 * 6) src dstC yBeg srcC weight bias params dst dc
      = (List.range (n1 / 6)).map (fun k =>
          { direct1x1 := true, n := 6,
            src0 := src + yBeg * p.srcW * p.srcC + (6 * k) * p.srcC,
            kernelH := 1, kernelW := 1, srcC := srcC, dstC := min DF (dstC - dc),
            weight := weight, bias := bias + dc, params := params, slope := params + dc,
            dst := dst + dc + yBeg * p.dstW * p.dstC + (6 * k) * p.dstC })
        ++ (List.range (n1 % 6 / 3)).map (fun k =>
          { direct1x1 := true, n := 3,
            src0 := src + yBeg * p.srcW * p.srcC + (n1 / 6 * 6 + 3 * k) * p.srcC,
            kernelH := 1, kernelW := 1, srcC := srcC, dstC := min DF (dstC - dc),
            weight := weight, bias := bias + dc, params := params, slope := params + dc,
            dst := dst + dc + yBeg * p.dstW * p.dstC + (n1 / 6 * 6 + 3 * k) * p.dstC })
        ++ (List.range (n1 % 3)).map (fun k =>
          { direct1x1 := true, n := 1,
            src0 := src + yBeg * p.srcW * p.srcC + (n1 / 3 * 3 + k) * p.srcC,
            kernelH := 1, kernelW := 1, srcC := srcC, dstC := min DF (dstC - dc),
            weight := weight, bias := bias + dc, params := params, slope := params + dc,
            dst := dst + dc + yBeg * p.dstW * p.dstC + (n1 / 3 * 3 + k) * p.dstC }) := by
  have h6 : forRounds (n1 / 6 * 6) 6 (6 * p.dstC) 0 (dst + dc + yBeg * p.dstW * p.dstC)
      = (List.range (n1 / 6)).map
          (fun k => (k * 6, dst + dc + yBeg * p.dstW * p.dstC + k * (6 * p.dstC))) := by
    rw [forRounds_eq_map _ _ _ _ (by decide)]
    congr 2
    omega
  obtain ⟨len3, e3, b3, c3⟩ := forRounds_at (n1 / 3 * 3) 3 (3 * p.dstC) (2 * (n1 / 6))
    (dst + dc + yBeg * p.dstW * p.dstC + n1 / 6 * (6 * p.dstC)) (by decide)
  have hlen3 : len3 = n1 % 6 / 3 := by omega
  subst hlen3
  obtain ⟨len1, e1, b1, c1⟩ := forRounds_at n1 1 p.dstC (n1 / 3 * 3)
    (dst + dc + yBeg * p.dstW * p.dstC + n1 / 6 * (6 * p.dstC) + n1 % 6 / 3 * (3 * p.dstC))
    Nat.one_pos
  have hlen1 : len1 = n1 % 3 := by omega
  subst hlen1
  have ex3 : n1 / 6 * 6 = 2 * (n1 / 6) * 3 := by omega
  have ex1 : n1 / 6 * 6 + n1 % 6 / 3 * 3 = n1 / 3 * 3 * 1 := by omega
  unfold tileCalls1x1
  simp only []
  rw [h6]
  simp only [List.length_map, List.length_range]
  rw [ex3, e3]
  simp only [List.length_map, List.length_range]
  rw [← ex3, ex1, e1]
  simp only [List.map_map]
  congr 1
  congr 1
  · apply List.map_congr_left
    intro k _
    simp only [Function.comp]
    congr 1 <;> ring
  · apply List.map_congr_left
    intro k _
    simp only [Function.comp]
    congr 1 <;> ring
  · apply List.map_congr_left
    intro k _
    simp only [Function.comp]
    congr 1
    · ring
    · rw [show (n1 / 3 * 3 + k) * p.dstC
          = (n1 / 6 * 6 + n1 % 6 / 3 * 3) * p.dstC + k * p.dstC by rw [ex1]; ring]
      ring

/-- The pixels of the calls of a tile of the 1x1 row pass, in program order: source and
destination address of each. -/
theorem tileCalls1x1_pixels (p : ConvParam32f)
    (n1 src dstC yBeg srcC weight bias params dst dc : Nat) :
    ((tileCalls1x1 p n1 (n1 / 3 * 3) (n1 / 6 * 6) src dstC yBeg srcC weight bias params dst
        dc).flatMap fun c => (List.range c.n).map fun i =>
          (c.src0 + i * p.srcC, c.dst + i * p.dstC))
      = (List.range n1).map fun q =>
          (src + yBeg * p.srcW * p.srcC + q * p.srcC,
            dst + dc + yBeg * p.dstW * p.dstC + q * p.dstC) := by
  have hsplit : n1 = n1 / 6 * 6 + (n1 % 6 / 3 * 3 + n1 % 3 * 1) := by omega
  have hn3 : n1 / 3 * 3 = n1 / 6 * 6 + n1 % 6 / 3 * 3 := by omega
  rw [tileCalls1x1_rounds]
  simp only [List.flatMap_append, List.flatMap_map]
  conv_rhs => rw [hsplit, List.range_add, List.range_add]
  simp only [List.map_append, List.map_map]
  have g6 := groups_pixels 6 (n1 / 6) 0 (fun q =>
    (src + yBeg * p.srcW * p.srcC + q * p.srcC, dst + dc + yBeg * p.dstW * p.dstC + q * p.dstC))
  have g3 := groups_pixels 3 (n1 % 6 / 3) (n1 / 6 * 6) (fun q =>
    (src + yBeg * p.srcW * p.srcC + q * p.srcC, dst + dc + yBeg * p.dstW * p.dstC + q * p.dstC))
  have g1 := groups_pixels 1 (n1 % 3) (n1 / 3 * 3) (fun q =>
    (src + yBeg * p.srcW * p.srcC + q * p.srcC, dst + dc + yBeg * p.dstW * p.dstC + q * p.dstC))
  rw [List.append_assoc]
  congr 1
  · rw [← List.map_congr_left (f := fun q =>
        (src + yBeg * p.srcW * p.srcC + (0 + q) * p.srcC,
          dst + dc + yBeg * p.dstW * p.dstC + (0 + q) * p.dstC))
      (fun q _ => by simp only [Nat.zero_add]), ← g6]
    apply List.flatMap_congr
    intro k _
    apply List.map_congr_left
    intro i _
    show (_, _) = (_, _)
    congr 1 <;> ring
  · congr 1
    · rw [show (List.map ((fun q => (src + yBeg * p.srcW * p.srcC + q * p.srcC,
            dst + dc + yBeg * p.dstW * p.dstC + q * p.dstC)) ∘ fun x => n1 / 6 * 6 + x)
          (List.range (n1 % 6 / 3 * 3)))
          = (List.range (n1 % 6 / 3 * 3)).map (fun q =>
              (src + yBeg * p.srcW * p.srcC + (n1 / 6 * 6 + q) * p.srcC,
                dst + dc + yBeg * p.dstW * p.dstC + (n1 / 6 * 6 + q) * p.dstC)) from rfl, ← g3]
      apply List.flatMap_congr
      intro k _
      apply List.map_congr_left
      intro i _
      show (_, _) = (_, _)
      congr 1 <;> ring
    · have hc : (List.map ((fun q => (src + yBeg * p.srcW * p.srcC + q * p.srcC,
            dst + dc + yBeg * p.dstW * p.dstC + q * p.dstC))
              ∘ (fun x => n1 / 6 * 6 + x) ∘ fun x => n1 % 6 / 3 * 3 + x)
          (List.range (n1 % 3 * 1)))
          = (List.range (n1 % 3 * 1)).map (fun q =>
              (src + yBeg * p.srcW * p.srcC + (n1 / 3 * 3 + q) * p.srcC,
                dst + dc + yBeg * p.dstW * p.dstC + (n1 / 3 * 3 + q) * p.dstC)) := by
        apply List.map_congr_left
        intro q _
        simp only [Function.comp]
        rw [hn3, Nat.add_assoc (n1 / 6 * 6)]
      rw [hc, ← g1]
      apply List.flatMap_congr
      intro k _
      apply List.map_congr_left
      intro i _
      show (_, _) = (_, _)
      congr 1 <;> ring

/-- Every store of a row pass on the domain of the engine goes to an element of the rows and
channels of the pass. -/
theorem pass_store_box {p : ConvParam32f} (h : p.InDomain) (direct1x1 : Bool)
    (h1 : direct1x1 = true → p.Is1x1 = true)
    (src dstC yBeg yEnd srcC weight bias params dst : Nat)
    (hy : yBeg ≤ yEnd) (hE : yEnd ≤ p.dstH) (hD : dst + dstC ≤ p.dstC) (cs : List MicroCall)
    (hcs : passCalls direct1x1 p src dstC yBeg yEnd srcC weight bias params dst = some cs)
    (c : MicroCall) (hc : c ∈ cs) (st : Nat × Nat × Nat) (hst : st ∈ c.stores p) :
    Box p.dstC (yBeg * p.dstW) (yEnd * p.dstW) dst (dst + dstC) st.2.2 := by
  obtain ⟨k, P, hk, hP0, hP1, hcomp⟩ := pass_mem_computes h direct1x1 h1 src dstC yBeg yEnd
    srcC weight bias params dst hy hE cs hcs c hc
  obtain ⟨-, -, -, hdC, -, -, -, hdst, -⟩ := hcomp
  unfold MicroCall.stores at hst
  rw [stored_eq, hdC, hdst] at hst
  simp only [List.mem_flatMap, List.mem_map, List.mem_range] at hst
  obtain ⟨i, hi, l, hl, e⟩ := hst
  have hl' : l < dstC - DF * k := Nat.lt_of_lt_of_le hl (Nat.min_le_right _ _)
  have hidx : st.2.2 = (P + i) * p.dstC + (dst + DF * k + l) := by
    rw [← e]
    show dst + DF * k + P * p.dstC + i * p.dstC + l = _
    ring
  have hlt : dst + DF * k + l < p.dstC := by omega
  obtain ⟨e1, e2⟩ := div_row (P + i) p.dstC (dst + DF * k + l) hlt
  unfold Box
  rw [hidx, e1, e2]
  omega

theorem OncePer.nil_once (S : Nat → Prop) (h : ∀ j, ¬ S j) : OncePer [] S :=
  fun j => ⟨fun hj => absurd hj (h j), fun _ => rfl⟩

theorem OncePer.append_once {l1 l2 : List Nat} {A B S : Nat → Prop} (h1 : OncePer l1 A)
    (h2 : OncePer l2 B) (hdis : ∀ j, A j → ¬ B j) (hS : ∀ j, S j ↔ A j ∨ B j) :
    OncePer (l1 ++ l2) S := by
  intro j
  rw [List.count_append]
  constructor
  · intro hj
    rcases (hS j).1 hj with a | a
    · rw [(h1 j).1 a, (h2 j).2 (hdis j a)]
    · rw [(h2 j).1 a, (h1 j).2 (fun b => hdis j b a)]
  · intro hj
    rw [(h1 j).2 (fun a => hj ((hS j).2 (Or.inl a))),
      (h2 j).2 (fun a => hj ((hS j).2 (Or.inr a)))]

theorem OncePer.congr_once {l : List Nat} {S S' : Nat → Prop} (h : OncePer l S)
    (hS : ∀ j, S' j ↔ S j) : OncePer l S' :=
  fun j => ⟨fun hj => (h j).1 ((hS j).1 hj), fun hj => (h j).2 (fun a => hj ((hS j).2 a))⟩

/-- Consecutive indices from `base` on, each once. -/
theorem oncePer_interval (base : Nat) :
    ∀ m, OncePer ((List.range m).map fun l => base + l) (fun j => base ≤ j ∧ j < base + m) := by
  intro m
  induction m with
  | zero => exact OncePer.nil_once _ (fun j hj => by omega)
  | succ m ih =>
    rw [List.range_succ, List.map_append]
    refine OncePer.append_once ih (B := fun j => j = base + m) ?_ (fun j hj => by omega)
      (fun j => by omega)
    intro j
    simp only [List.map_cons, List.map_nil, List.count_cons, List.count_nil, Nat.zero_add,
      beq_iff_eq]
    constructor
    · intro hj
      rw [if_pos hj.symm]
    · intro hj
      rw [if_neg (fun e => hj e.symm)]

/-- The stores of a call that computes the pixels from `P0` on of a tile: every element of
these pixels and of the channels of the tile, once. -/
theorem oncePer_call (p : ConvParam32f) (t : TileCtx) (P0 : Nat) (c : MicroCall)
    (hc : c.Computes p t P0) (hD : t.d0 + t.dC ≤ p.dstC) :
    OncePer ((c.stores p).map fun st => st.2.2)
      (Box p.dstC P0 (P0 + c.n) t.d0 (t.d0 + t.dC)) := by
  obtain ⟨-, -, -, hdC, -, -, -, hdst, -⟩ := hc
  unfold MicroCall.stores
  rw [stored_eq, hdC, hdst, List.map_flatMap]
  generalize c.n = n
  induction n with
  | zero => exact OncePer.nil_once _ (fun j => box_empty_pix _ _ _ _ j)
  | succ n ih =>
    rw [List.range_succ, List.flatMap_append]
    refine OncePer.append_once ih (B := Box p.dstC (P0 + n) (P0 + n + 1) t.d0 (t.d0 + t.dC)) ?_
      (fun j hj => box_disjoint_pix hj)
      (box_union_pix p.dstC P0 (P0 + n) (P0 + (n + 1)) t.d0 (t.d0 + t.dC) (by omega) (by omega))
    simp only [List.flatMap_cons, List.flatMap_nil, List.append_nil, List.map_map]
    have := oncePer_interval (t.d0 + (P0 + n) * p.dstC) t.dC
    refine OncePer.congr_once ?_ (fun j => box_iff_interval p.dstC (P0 + n) t.d0 t.dC j hD)
    convert this using 2
    funext l
    show t.d0 + P0 * p.dstC + n * p.dstC + l = t.d0 + (P0 + n) * p.dstC + l
    ring

/-- The stores of calls that compute the pixels `[P0, P1)` of a tile: every element of these
pixels and of the channels of the tile, once. -/
theorem oncePer_tiled (p : ConvParam32f) (t : TileCtx) (hD : t.d0 + t.dC ≤ p.dstC)
    (cs : List MicroCall) (P0 P1 : Nat) (h : Tiled p t cs P0 P1) :
    OncePer (storeIndices p cs) (Box p.dstC P0 P1 t.d0 (t.d0 + t.dC)) := by
  induction cs generalizing P0 with
  | nil =>
    have : P0 = P1 := h
    subst this
    exact OncePer.nil_once _ (fun j => box_empty_pix _ _ _ _ j)
  | cons c cs ih =>
    obtain ⟨hc, hcs⟩ := h
    have hle := tiled_le p t cs _ _ hcs
    exact OncePer.append_once (oncePer_call p t P0 c hc hD) (ih (P0 + c.n) hcs)
      (fun j hj => box_disjoint_pix hj)
      (box_union_pix p.dstC P0 (P0 + c.n) P1 t.d0 (t.d0 + t.dC) (Nat.le_add_right P0 c.n) hle)

/-- The pixel pointers of calls that compute the pixels `[P0, P1)` of a tile: one per pixel,
in the order of the pixels. -/
theorem pixelPointers_tiled (p : ConvParam32f) (t : TileCtx)
    (cs : List MicroCall) (P0 P1 : Nat) (h : Tiled p t cs P0 P1) :
    pixelPointers p cs = (List.range (P1 - P0)).map fun q => t.d0 + (P0 + q) * p.dstC := by
  induction cs generalizing P0 with
  | nil =>
    have : P0 = P1 := h
    subst this
    simp [pixelPointers]
  | cons c cs ih =>
    obtain ⟨hc, hcs⟩ := h
    have hle := tiled_le p t cs _ _ hcs
    have e : P1 - P0 = c.n + (P1 - (P0 + c.n)) := by omega
    have hrest := ih (P0 + c.n) hcs
    unfold pixelPointers at hrest ⊢
    rw [List.flatMap_cons, hrest, e, List.range_add, List.map_append, List.map_map]
    obtain ⟨-, -, -, -, -, -, -, hdst, -⟩ := hc
    congr 1
    · apply List.map_congr_left
      intro i _
      rw [hdst]; ring
    · apply List.map_congr_left
      intro q _
      simp only [Function.comp]
      ring

theorem storeIndices_append (p : ConvParam32f) (a b : List MicroCall) :
    storeIndices p (a ++ b) = storeIndices p a ++ storeIndices p b := by
  unfold storeIndices
  rw [List.flatMap_append]

/-- The loop `for (dc = 0; dc < dstC; dc += DF)` of a row pass: when the calls of every tile
store every element of the box of the tile once, the calls of the loop store every element of
the channels of the pass once. -/
theorem oncePer_channel_loop (p : ConvParam32f) (P0 P1 dst dstC step weight : Nat)
    (g : Nat × Nat → List MicroCall)
    (hg : ∀ k, DF * k < dstC → OncePer (storeIndices p (g (DF * k, weight + k * step)))
      (Box p.dstC P0 P1 (dst + DF * k) (dst + DF * k + min DF (dstC - DF * k)))) :
    ∀ fuel k0, dstC ≤ DF * k0 + fuel →
      OncePer (storeIndices p
          ((forLoop fuel dstC DF step (DF * k0) (weight + k0 * step)).flatMap g))
        (Box p.dstC P0 P1 (dst + DF * k0) (dst + dstC)) := by
  intro fuel
  induction fuel with
  | zero =>
    intro k0 h0
    refine OncePer.nil_once _ (fun j hj => ?_)
    unfold Box at hj
    simp only [DF] at h0 hj
    omega
  | succ fuel ih =>
    intro k0 h0
    rw [forLoop_succ]
    by_cases hlt : DF * k0 < dstC
    · rw [if_pos hlt]
      have e1 : DF * k0 + DF = DF * (k0 + 1) := by ring
      have e2 : weight + k0 * step + step = weight + (k0 + 1) * step := by ring
      rw [e1, e2, List.flatMap_cons, storeIndices_append]
      refine OncePer.append_once (hg k0 hlt) (ih (k0 + 1) (by simp only [DF] at h0 hlt ⊢; omega))
        (fun j hj => ?_) (fun j => ?_)
      · unfold Box at hj ⊢
        simp only [DF] at hj ⊢
        omega
      · unfold Box
        simp only [DF] at hlt ⊢
        omega
    · rw [if_neg hlt]
      refine OncePer.nil_once _ (fun j hj => ?_)
      unfold Box at hj
      simp only [DF] at hlt hj
      omega

/-- The pixels the column loops of a row emit and the pointer they leave depend on the region
bounds and the pointer the row starts at only. -/
theorem rowColumns_pixels_indep (p : ConvParam32f) (b : RowBoundsExact)
    (kH s w sC dC bi pa sl kH' s' w' sC' dC' bi' pa' sl' d : Nat) :
    pixelPointers p (rowColumnsExact p b kH s w sC dC bi pa sl d).1
        = pixelPointers p (rowColumnsExact p b kH' s' w' sC' dC' bi' pa' sl' d).1
      ∧ (rowColumnsExact p b kH s w sC dC bi pa sl d).2
        = (rowColumnsExact p b kH' s' w' sC' dC' bi' pa' sl' d).2 := by
  simp only [rowColumnsExact, pixelPointers, List.flatMap_append, List.flatMap_map]
  trivial

/-- On the domain of the engine the five column loops of a row emit exactly `dstW` pixels, at
consecutive pixel pointers from the pointer the row starts at, and leave the pointer at the
start of the next row. -/
theorem rowColumns_pixels {p : ConvParam32f} (h : p.InDomain) (b : RowBoundsExact)
    (hb : rowBoundsExact p = some b) (kH s w sC dC bi pa sl d : Nat) :
    pixelPointers p (rowColumnsExact p b kH s w sC dC bi pa sl d).1
        = (List.range p.dstW).map (fun x => d + x * p.dstC)
      ∧ (rowColumnsExact p b kH s w sC dC bi pa sl d).2 = d + p.dstW * p.dstC := by
  have hT := rowColumns_tiled h b hb
    { src := 0, weight := 0, srcC := sC, dC := dC, bias := bi, params := pa, slope := sl,
      d0 := d } 0 _ _ _ rfl rfl rfl
  simp only [Nat.zero_mul, Nat.add_zero, Nat.zero_add] at hT
  obtain ⟨hT1, hT2⟩ := hT
  obtain ⟨i1, i2⟩ := rowColumns_pixels_indep p b kH s w sC dC bi pa sl
    (winCnt p.kernelY p.srcH p.padY 0) (winOrg p.padY 0 * p.srcW * p.srcC)
    (winLo p.padY 0 * p.kernelX * sC * DF) sC dC bi pa sl d
  have hP := pixelPointers_tiled p _ _ _ _ hT1
  simp only [Nat.sub_zero, Nat.zero_add] at hP
  refine ⟨?_, ?_⟩
  · rw [i1]; exact hP
  · rw [i2]; exact hT2

/-- The rounds of a loop with step `step` below `bound`: round `r` runs exactly when
`r * step < bound`. -/
theorem ceil_lt (bound step r : Nat) (hs : 0 < step) :
    r < (bound + step - 1) / step ↔ r * step < bound := by
  rw [Nat.lt_iff_add_one_le, Nat.le_div_iff_mul_le hs, Nat.add_mul, Nat.one_mul]
  omega

theorem range_sub_succ {β : Type} (n r : Nat) (h : r < n) (f : Nat → β) :
    (List.range (n - r)).map (fun i => f (r + i))
      = f r :: (List.range (n - (r + 1))).map (fun i => f (r + 1 + i)) := by
  obtain ⟨m, hm⟩ : ∃ m, n - r = m + 1 := ⟨n - r - 1, by omega⟩
  have hm' : n - (r + 1) = m := by omega
  rw [hm, hm', List.range_succ_eq_map, List.map_cons, List.map_map]
  congr 1
  apply List.map_congr_left
  intro i _
  simp only [Function.comp, Nat.succ_eq_add_one]
  congr 1
  omega

/-- The loop over row blocks is over once `yBeg` has reached `p.dstH`. -/
theorem driverRowsOf_done {β : Type} (p : ConvParam32f) (a : AlgParam)
    (pass : MacroBlock → Nat → Nat → Option (List β)) (dc macroD sc macroC weight params : Nat)
    (fuel yBeg : Nat) (h : ¬ yBeg < p.dstH) :
    driverRowsOf p a pass dc macroD sc macroC weight params fuel yBeg = some [] := by
  cases fuel <;> simp [driverRowsOf, h]

/-- The loop over source-channel blocks is over once `sc` has reached `p.srcC`. -/
theorem driverChannelsOf_done {β : Type} (direct1x1 : Bool) (p : ConvParam32f) (a : AlgParam)
    (pass : MacroBlock → Nat → Nat → Option (List β)) (dc macroD params fuel sc weight : Nat)
    (h : ¬ sc < p.srcC) :
    driverChannelsOf direct1x1 p a pass dc macroD params fuel sc weight = some ([], weight) := by
  cases fuel <;> simp [driverChannelsOf, h]

/-- Both row passes return on the region domain, for a block of rows that starts at a row of
the destination. -/
theorem passCalls_returns (direct1x1 : Bool) {p : ConvParam32f} (h : p.InRegionDomain)
    (src dstC yBeg yEnd srcC weight bias params dst : Nat) (hy : yBeg * p.strideY < sizeMod) :
    ∃ cs, passCalls direct1x1 p src dstC yBeg yEnd srcC weight bias params dst = some cs := by
  cases direct1x1 with
  | false =>
    obtain ⟨b, hb, -⟩ := h.rowBounds_region
    simp only [passCalls, Bool.false_eq_true, if_false]
    rw [rowPassCalls_eq_exact h _ _ _ _ _ _ _ _ _ hy]
    simp only [rowPassCallsExact, hb, Option.map_some']
    exact ⟨_, rfl⟩
  | true =>
    exact ⟨(forRounds dstC DF (srcC * DF) 0 weight).flatMap fun dw =>
        tileCalls1x1 p (sz (((yEnd : Int) - yBeg) * p.dstW))
          (sz (((yEnd : Int) - yBeg) * p.dstW) / 3 * 3)
          (sz (((yEnd : Int) - yBeg) * p.dstW) / 6 * 6)
          src dstC yBeg srcC dw.2 bias params dst dw.1, rfl⟩

/-- The loop over row blocks of a driver returns for `0 < a.macroH`. -/
theorem driverRows_returns (direct1x1 : Bool) {p : ConvParam32f} (h : p.InRegionDomain)
    (a : AlgParam) (hH : 0 < a.macroH) (term : TermType)
    (src macroD macroC weight bias params dst : Nat) :
    ∀ fuel yBeg, p.dstH ≤ yBeg + fuel →
      ∃ cs, driverRows direct1x1 p a term src macroD macroC weight bias params dst fuel yBeg
        = some cs := by
  intro fuel
  induction fuel with
  | zero =>
    intro yBeg h0
    exact ⟨[], by simp [driverRows, show ¬ yBeg < p.dstH by omega]⟩
  | succ fuel ih =>
    intro yBeg h0
    by_cases hlt : yBeg < p.dstH
    · obtain ⟨cs, hcs⟩ := passCalls_returns direct1x1 h src macroD yBeg
        (min (yBeg + a.macroH) p.dstH) macroC weight bias params dst
        (valid_rows p h.valid yBeg hlt)
      obtain ⟨rest, hrest⟩ := ih (min (yBeg + a.macroH) p.dstH) (by omega)
      exact ⟨cs.map (fun c => (term, c)) ++ rest,
        by simp only [driverRows, hlt, if_true, hcs, hrest]⟩
    · exact ⟨[], by simp [driverRows, hlt]⟩

/-- The loop over source-channel blocks of a driver returns for `0 < a.macroC`, `0 < a.macroH`
and `0 < a.microD`. -/
theorem driverChannels_returns (direct1x1 : Bool) {p : ConvParam32f}
    (h : p.InRegionDomain) (a : AlgParam) (hC : 0 < a.macroC) (hH : 0 < a.macroH) (hm : 0 < a.microD)
    (macroD bias params dst dc : Nat) :
    ∀ fuel sc weight, p.srcC ≤ sc + fuel →
      ∃ cw, driverChannels direct1x1 p a macroD bias params dst dc fuel sc weight = some cw := by
  intro fuel
  induction fuel with
  | zero =>
    intro sc weight h0
    exact ⟨_, driverChannels_done direct1x1 p a macroD bias params dst dc 0 sc weight
      (by omega)⟩
  | succ fuel ih =>
    intro sc weight h0
    by_cases hlt : sc < p.srcC
    · obtain ⟨cs, hcs⟩ := driverRows_returns direct1x1 h a hH
        (driverTerm p a sc (min p.srcC (sc + a.macroC) - sc)) sc macroD
        (min p.srcC (sc + a.macroC) - sc) weight (bias + dc) params (dst + dc) p.dstH 0
        (by omega)
      have hA : AlignHiAny macroD a.microD
          = some ((macroD + a.microD - 1) / a.microD * a.microD) := by
        unfold AlignHiAny
        rw [if_neg (by omega)]
      obtain ⟨rest, hrest⟩ := ih (sc + a.macroC)
        (weight + (macroD + a.microD - 1) / a.microD * a.microD
          * ((if direct1x1 then 1 else p.kernelY * p.kernelX)
            * (min p.srcC (sc + a.macroC) - sc))) (by omega)
      exact ⟨_, driverChannels_step direct1x1 p a macroD bias params dst dc fuel sc weight hlt
        cs _ hcs hA rest hrest⟩
    · exact ⟨_, driverChannels_done direct1x1 p a macroD bias params dst dc _ sc weight hlt⟩

/-- The loop over blocks of destination channels of a driver returns for positive block
sizes. -/
theorem driverBlocks_returns (direct1x1 : Bool) (type : SimdConvolutionActivationType)
    {p : ConvParam32f} (h : p.InRegionDomain) (a : AlgParam) (hD : 0 < a.macroD)
    (hC : 0 < a.macroC) (hH : 0 < a.macroH) (hm : 0 < a.microD) (bias dst : Nat) :
    ∀ fuel dc weight params, p.dstC ≤ dc + fuel →
      ∃ cs, driverBlocks direct1x1 type p a bias dst fuel dc weight params = some cs := by
  intro fuel
  induction fuel with
  | zero =>
    intro dc weight params h0
    exact ⟨_, driverBlocks_done direct1x1 type p a bias dst 0 dc weight params (by omega)⟩
  | succ fuel ih =>
    intro dc weight params h0
    by_cases hlt : dc < p.dstC
    · obtain ⟨cw, hcw⟩ := driverChannels_returns direct1x1 h a hC hH hm
        (min p.dstC (dc + a.macroD) - dc) bias params dst dc p.srcC 0 weight (by omega)
      obtain ⟨rest, hrest⟩ := ih (dc + a.macroD) cw.2
        (if type = SimdConvolutionActivationType.Prelu
          then params + (min p.dstC (dc + a.macroD) - dc) else params) (by omega)
      exact ⟨_, driverBlocks_step direct1x1 type p a bias dst fuel dc weight params hlt cw hcw
        rest hrest⟩
    · exact ⟨_, driverBlocks_done direct1x1 type p a bias dst _ dc weight params hlt⟩

/-- Parameters of a 1x1 convolution that pass `Valid()` and whose source height and width are
values of `size_t` lie in the domain of the engine. -/
theorem inDomain_of_is1x1 (p : ConvParam32f) (h1 : p.Is1x1 = true) (hv : p.Valid = some true)
    (hH : p.srcH < sizeMod) (hW : p.srcW < sizeMod) : p.InDomain := by
  obtain ⟨⟨hkY, hkX⟩, ⟨hdY, hdX⟩, ⟨hsY, hsX⟩, hpY, hpX, hpH, hpW⟩ := (is1x1_iff p).1 h1
  have hv' := hv
  unfold ConvParam32f.Valid at hv'
  rw [if_neg (by omega)] at hv'
  by_cases g1 : p.dstH = ConvParam32f.shapeRhs p.srcH p.padY p.padH p.dilationY p.kernelY
      p.strideY ∧ 0 < p.dstH
  · rw [if_pos g1, if_neg (by omega)] at hv'
    simp only [Option.some.injEq, Bool.and_eq_true, decide_eq_true_eq] at hv'
    obtain ⟨⟨⟨⟨⟨hw, hw0⟩, -⟩, -⟩, -⟩, -⟩ := hv'
    have hh := g1.1
    have hh0 := g1.2
    unfold ConvParam32f.shapeRhs at hh hw
    rw [hkY, hdY, hpY, hpH, hsY] at hh
    rw [hkX, hdX, hpX, hpW, hsX] at hw
    have hz : (wrap (((0 : Nat) : Int) + ((0 : Nat) : Int) + ((0 : Nat) : Int)
        - (((1 : Nat) : Int) * (((1 : Nat) : Int) - 1) + 1)) / 1 + 1) % sizeMod = 0 := by
      decide
    have hsrcH : 1 ≤ p.srcH := by
      rcases Nat.eq_zero_or_pos p.srcH with h0 | h0
      · rw [h0, hz] at hh
        omega
      · exact h0
    have hsrcW : 1 ≤ p.srcW := by
      rcases Nat.eq_zero_or_pos p.srcW with h0 | h0
      · rw [h0, hz] at hw
        omega
      · exact h0
    exact ⟨hv, hdY, hdX, by omega, by omega, by omega, by omega, by omega, by omega, by omega,
      by omega, by omega, by omega, by rw [hsX]; decide, by rw [hkY]; decide,
      by rw [hkX]; decide⟩
  · rw [if_neg g1] at hv'
    simp at hv'

/-- One round of the loop over source-channel blocks whose remaining rounds do not return. -/
theorem driverChannels_step_none (direct1x1 : Bool) (p : ConvParam32f) (a : AlgParam)
    (macroD bias params dst dc fuel sc weight : Nat) (hlt : sc < p.srcC)
    (cs : List (TermType × MicroCall)) (aD : Nat)
    (hrows : driverRows direct1x1 p a (driverTerm p a sc (min p.srcC (sc + a.macroC) - sc)) sc
      macroD (min p.srcC (sc + a.macroC) - sc) weight (bias + dc) params (dst + dc) p.dstH 0
        = some cs)
    (hA : AlignHiAny macroD a.microD = some aD)
    (hrest : driverChannels direct1x1 p a macroD bias params dst dc fuel (sc + a.macroC)
      (weight + aD * ((if direct1x1 then 1 else p.kernelY * p.kernelX)
        * (min p.srcC (sc + a.macroC) - sc))) = none) :
    driverChannels direct1x1 p a macroD bias params dst dc (fuel + 1) sc weight = none := by
  simp only [driverChannels, hlt, if_true, hrows, hA, hrest]

theorem storeAll_cons {α : Type} (w : Nat × α) (ws : List (Nat × α)) (dst : Nat → α) :
    storeAll (w :: ws) dst = storeAll ws (Function.update dst w.1 w.2) := rfl

theorem storeAll_notMem {α : Type} (ws : List (Nat × α)) (j : Nat) :
    ∀ dst : Nat → α, (∀ w ∈ ws, w.1 ≠ j) → storeAll ws dst j = dst j := by
  induction ws with
  | nil => intro dst _; rfl
  | cons w ws ih =>
    intro dst h
    rw [storeAll_cons, ih _ (fun w' hw' => h w' (List.mem_cons_of_mem _ hw'))]
    exact Function.update_noteq (Ne.symm (h w (List.mem_cons_self _ _))) _ _

theorem storeAll_mem {α : Type} (g : Nat → α) (ws : List (Nat × α)) (j : Nat) :
    ∀ dst : Nat → α, (∀ w ∈ ws, w.2 = g w.1) → (∃ w ∈ ws, w.1 = j) →
      storeAll ws dst j = g j := by
  induction ws with
  | nil => intro dst _ ⟨w, hw, _⟩; cases hw
  | cons w ws ih =>
    intro dst hg hj
    rw [storeAll_cons]
    by_cases hin : ∃ w' ∈ ws, w'.1 = j
    · exact ih _ (fun w' hw' => hg w' (List.mem_cons_of_mem _ hw')) hin
    · have hw : w.1 = j := by
        obtain ⟨w', hw', e⟩ := hj
        rcases List.mem_cons.1 hw' with rfl | h'
        · exact e
        · exact absurd ⟨w', h', e⟩ hin
      rw [storeAll_notMem ws j _ (fun w' hw' e => hin ⟨w', hw', e⟩), ← hw,
        Function.update_same]
      exact hg w (List.mem_cons_self _ _)

/-- Stores that cover `[lo, hi)` with `g` leave `g` there and nothing else changed. -/
theorem storeAll_covers {α : Type} (ws : List (Nat × α)) (lo hi : Nat) (g : Nat → α)
    (h : Covers ws lo hi g) (dst : Nat → α) (j : Nat) :
    storeAll ws dst j = if lo ≤ j ∧ j < hi then g j else dst j := by
  split_ifs with hj
  · exact storeAll_mem g ws j dst (fun w hw => (h.1 w hw).2.2) (h.2 j hj.1 hj.2)
  · refine storeAll_notMem ws j dst (fun w hw e => hj ?_)
    have := h.1 w hw
    rw [e] at this
    exact ⟨this.1, this.2.1⟩

theorem Covers.nil_covers {α : Type} (lo : Nat) (g : Nat → α) :
    Covers ([] : List (Nat × α)) lo lo g := by
  refine ⟨fun w hw => ?_, fun j h1 h2 => ?_⟩
  · cases hw
  · omega

theorem Covers.append_covers {α : Type} {a b : List (Nat × α)} {lo mid hi : Nat} {g : Nat → α}
    (ha : Covers a lo mid g) (hb : Covers b mid hi g) (h1 : lo ≤ mid) (h2 : mid ≤ hi) :
    Covers (a ++ b) lo hi g := by
  refine ⟨fun w hw => ?_, fun j hl hh => ?_⟩
  · rcases List.mem_append.1 hw with h | h
    · have := ha.1 w h
      exact ⟨this.1, by omega, this.2.2⟩
    · have := hb.1 w h
      exact ⟨by omega, this.2.1, this.2.2⟩
  · by_cases hj : j < mid
    · obtain ⟨w, hw, e⟩ := ha.2 j hl hj
      exact ⟨w, List.mem_append_left _ hw, e⟩
    · obtain ⟨w, hw, e⟩ := hb.2 j (by omega) hh
      exact ⟨w, List.mem_append_right _ hw, e⟩

theorem Covers.congr_covers {α : Type} {ws : List (Nat × α)} {lo hi : Nat} {g : Nat → α}
    (h : Covers ws lo hi g) (g' : Nat → α) (hg : ∀ j, lo ≤ j → j < hi → g j = g' j) :
    Covers ws lo hi g' :=
  ⟨fun w hw => ⟨(h.1 w hw).1, (h.1 w hw).2.1,
      (h.1 w hw).2.2.trans (hg _ (h.1 w hw).1 (h.1 w hw).2.1)⟩, h.2⟩

theorem Covers.cast {α : Type} {ws : List (Nat × α)} {lo hi lo' hi' : Nat} {g : Nat → α}
    (h : Covers ws lo hi g) (e1 : lo = lo') (e2 : hi = hi') : Covers ws lo' hi' g := by
  subst e1 e2
  exact h

/-- The lanes of a vector store at `o`, each with its own value. -/
theorem covers_lanes {α : Type} (n o : Nat) (v g : Nat → α) (hv : ∀ l, l < n → v l = g (o + l)) :
    Covers ((List.range n).map fun l => (o + l, v l)) o (o + n) g := by
  refine ⟨fun w hw => ?_, fun j hl hh => ?_⟩
  · obtain ⟨l, hl, rfl⟩ := List.mem_map.1 hw
    have hl' := List.mem_range.1 hl
    exact ⟨by omega, by omega, hv l hl'⟩
  · exact ⟨(o + (j - o), v (j - o)), List.mem_map.2 ⟨j - o, List.mem_range.2 (by omega), rfl⟩,
      by show o + (j - o) = j; omega⟩

/-- Consecutive blocks of `W` addresses. -/
theorem covers_flatMap_range {α : Type} (W lo : Nat) (g : Nat → α)
    (body : Nat → List (Nat × α)) :
    ∀ n, (∀ k, k < n → Covers (body k) (lo + k * W) (lo + (k + 1) * W) g) →
      Covers ((List.range n).flatMap body) lo (lo + n * W) g := by
  intro n
  induction n with
  | zero =>
    intro _
    simpa using Covers.nil_covers lo g
  | succ n ih =>
    intro h
    rw [List.range_succ, List.flatMap_append]
    refine Covers.append_covers (ih fun k hk => h k (by omega)) ?_ (Nat.le_add_right _ _)
      (by rw [Nat.succ_mul]; omega)
    simpa using h n (Nat.lt_succ_self n)

/-- The rounds of `for (; x < bound; x += N)` from `x = k0 * N` up to a multiple `bound` of
`N`, each covering the `N` addresses from `base + x`. -/
theorem covers_rounds {α : Type} (bound N k0 base : Nat) (hN : 0 < N) (hb : bound % N = 0)
    (hk : k0 * N ≤ bound) (g : Nat → α) (body : Nat × Nat → List (Nat × α))
    (hbody : ∀ x, k0 * N ≤ x → x + N ≤ bound → x % N = 0 →
      Covers (body (x, 0)) (base + x) (base + x + N) g) :
    Covers ((forRounds bound N 0 (k0 * N) 0).flatMap body) (base + k0 * N) (base + bound) g
      ∧ k0 * N + (forRounds bound N 0 (k0 * N) 0).length * N = bound := by
  obtain ⟨len, hl, h1, h2⟩ := forRounds_at bound N 0 k0 0 hN
  have hlen : k0 * N + len * N = bound := by
    obtain ⟨q, hq⟩ : ∃ q, bound = q * N := ⟨bound / N, by
      have := Nat.div_add_mod bound N
      rw [hb, Nat.add_zero, Nat.mul_comm] at this
      exact this.symm⟩
    subst hq
    have e1 : q ≤ k0 + len := Nat.le_of_mul_le_mul_right h1 hN
    have e2 : k0 ≤ q := Nat.le_of_mul_le_mul_right hk hN
    have e3 : k0 + len ≤ q := by
      rcases h2 with h0 | hlt
      · omega
      · have := Nat.lt_of_mul_lt_mul_right hlt
        omega
    have : k0 + len = q := by omega
    rw [← this]; ring
  refine ⟨?_, by rw [hl, List.length_map, List.length_range]; exact hlen⟩
  rw [hl, List.flatMap_map]
  have key := covers_flatMap_range N (base + k0 * N) g
    (fun k => body (k0 * N + k * N, 0 + k * 0)) len (fun k hk' => by
      have hmul : (k + 1) * N ≤ len * N := Nat.mul_le_mul_right N hk'
      have hx := hbody (k0 * N + k * N) (by omega) (by rw [Nat.succ_mul] at hmul; omega)
        (by rw [← Nat.add_mul]; exact Nat.mul_mod_left _ _)
      simp only [Nat.mul_zero, Nat.add_zero]
      exact hx.cast (by ring) (by ring))
  exact key.cast rfl (by omega)

theorem flatMap_singleton_map {β γ : Type} (f : β → γ) (l : List β) :
    l.map f = l.flatMap fun x => [f x] := by
  induction l with
  | nil => rfl
  | cons x l ih => simp [ih]

/-- The body of a round of four vectors. -/
theorem covers_quad {α : Type} {v0 v1 v2 v3 : List (Nat × α)} {o : Nat} {g : Nat → α}
    (h0 : Covers v0 (o + F * 0) (o + F * 0 + F) g) (h1 : Covers v1 (o + F * 1) (o + F * 1 + F) g)
    (h2 : Covers v2 (o + F * 2) (o + F * 2 + F) g)
    (h3 : Covers v3 (o + F * 3) (o + F * 3 + F) g) :
    Covers (v0 ++ v1 ++ v2 ++ v3) o (o + QF) g := by
  have g0 : Covers v0 o (o + 8) g := h0
  have g1 : Covers v1 (o + 8) (o + 16) g := h1
  have g2 : Covers v2 (o + 16) (o + 24) g := h2
  have g3 : Covers v3 (o + 24) (o + 32) g := h3
  show Covers (v0 ++ v1 ++ v2 ++ v3) o (o + 32) g
  exact ((g0.append_covers g1 (by omega) (by omega)).append_covers g2 (by omega) (by omega)).append_covers g3
    (by omega) (by omega)

/-- The three loops that the layers of `SimdAvx1Synet.cpp` run over a row of `n` elements:
rounds of four vectors up to `AlignLo(n, QF)`, rounds of one vector up to `AlignLo(n, F)`, both
only if the latter is not 0, and scalar rounds up to `n`. -/
theorem covers_row {α : Type} (n base : Nat) (g : Nat → α)
    (quad single : Nat × Nat → List (Nat × α)) (scalar : Nat × Nat → Nat × α)
    (hq : ∀ x, x + QF ≤ n → Covers (quad (x, 0)) (base + x) (base + x + QF) g)
    (hs : ∀ x, x + F ≤ n → Covers (single (x, 0)) (base + x) (base + x + F) g)
    (h1 : ∀ x, x < n → scalar (x, 0) = (base + x, g (base + x))) :
    Covers
      (((if AlignLo n F ≠ 0 then forRounds (AlignLo n QF) QF 0 0 0 else []).flatMap quad)
        ++ ((if AlignLo n F ≠ 0 then
              forRounds (AlignLo n F) F 0
                ((if AlignLo n F ≠ 0 then forRounds (AlignLo n QF) QF 0 0 0 else []).length
                  * QF) 0
            else []).flatMap single)
        ++ (forRounds n 1 0
              ((if AlignLo n F ≠ 0 then forRounds (AlignLo n QF) QF 0 0 0 else []).length * QF
                + (if AlignLo n F ≠ 0 then
                    forRounds (AlignLo n F) F 0
                      ((if AlignLo n F ≠ 0 then forRounds (AlignLo n QF) QF 0 0 0
                        else []).length * QF) 0
                  else []).length * F) 0).map scalar)
      base (base + n) g := by
  have hA : AlignLo n QF ≤ AlignLo n F ∧ AlignLo n F ≤ n ∧ AlignLo n QF % QF = 0
      ∧ AlignLo n F % F = 0 ∧ AlignLo n QF % F = 0 := by
    unfold AlignLo
    simp only [QF, F]
    omega
  obtain ⟨a1, a2, a3, a4, a5⟩ := hA
  -- the scalar loop from any start
  have hscal : ∀ k0, k0 ≤ n →
      Covers ((forRounds n 1 0 k0 0).map scalar) (base + k0) (base + n) g := by
    intro k0 hk0
    have := (covers_rounds n 1 k0 base Nat.one_pos (Nat.mod_one n) (by omega) g
      (fun x => [scalar x]) (fun x _ hx _ => by
        show Covers [scalar (x, 0)] _ _ g
        rw [h1 x (by omega)]
        have := covers_lanes 1 (base + x) (fun _ => g (base + x)) g (fun l hl => by
          have : l = 0 := by omega
          subst this; rfl)
        simpa using this)).1
    rw [Nat.mul_one] at this
    rw [flatMap_singleton_map]
    exact this
  by_cases hp : AlignLo n F = 0
  · simp only [hp, ne_eq, not_true_eq_false, if_false, List.flatMap_nil, List.length_nil,
      Nat.zero_mul, Nat.add_zero, List.nil_append]
    simpa using hscal 0 (Nat.zero_le n)
  · simp only [ne_eq, hp, not_false_eq_true, if_true]
    obtain ⟨c1, e1⟩ := covers_rounds (AlignLo n QF) QF 0 base (by decide) a3 (by omega) g quad
      (fun x _ hx _ => hq x (by omega))
    rw [Nat.zero_mul] at c1 e1
    rw [Nat.zero_add] at e1
    rw [e1]
    obtain ⟨c2, e2⟩ := covers_rounds (AlignLo n F) F (AlignLo n QF / F) base (by decide) a4
      (by rw [Nat.div_mul_cancel (Nat.dvd_of_mod_eq_zero a5)]; exact a1) g single
      (fun x _ hx _ => hs x (by omega))
    rw [Nat.div_mul_cancel (Nat.dvd_of_mod_eq_zero a5)] at c2 e2
    rw [e2]
    exact (c1.append_covers c2 (by omega) (by omega)).append_covers (hscal _ a2) (by omega) (by omega)
/-- The three scalar stores of a round of the tail loop. -/
theorem covers_three {α : Type} (x : Nat) (g : Nat → α) :
    Covers [(x + 0, g (x + 0)), (x + 1, g (x + 1)), (x + 2, g (x + 2))] (0 + x) (0 + x + 3)
      g := by
  refine ⟨fun w hw => ?_, fun j h1 h2 => ?_⟩
  · simp only [List.mem_cons, List.mem_singleton, List.not_mem_nil, or_false] at hw
    rcases hw with rfl | rfl | rfl
    · exact ⟨by show 0 + x ≤ x + 0; omega, by show x + 0 < 0 + x + 3; omega, rfl⟩
    · exact ⟨by show 0 + x ≤ x + 1; omega, by show x + 1 < 0 + x + 3; omega, rfl⟩
    · exact ⟨by show 0 + x ≤ x + 2; omega, by show x + 2 < 0 + x + 3; omega, rfl⟩
  · have hj : j = x + 0 ∨ j = x + 1 ∨ j = x + 2 := by omega
    rcases hj with rfl | rfl | rfl
    · exact ⟨_, List.mem_cons_self _ _, rfl⟩
    · exact ⟨_, List.mem_cons_of_mem _ (List.mem_cons_self _ _), rfl⟩
    · exact ⟨_, List.mem_cons_of_mem _ (List.mem_cons_of_mem _ (List.mem_cons_self _ _)), rfl⟩

/-- The two loops of `SynetScaleLayerForwardNhwc3`. -/
theorem covers_nhwc3_loops {α : Type} (spatial : Nat) (g : Nat → α)
    (vec scal : Nat × Nat → List (Nat × α))
    (hv : ∀ x, x % 24 = 0 → Covers (vec (x, 0)) (0 + x) (0 + x + 24) g)
    (hs : ∀ x, x % 3 = 0 → Covers (scal (x, 0)) (0 + x) (0 + x + 3) g) :
    Covers
      (((if AlignLo spatial F * 3 ≠ 0 then forRounds (AlignLo spatial F * 3) (F * 3) 0 0 0
          else []).flatMap vec)
        ++ (forRounds (spatial * 3) 3 0
            ((if AlignLo spatial F * 3 ≠ 0 then forRounds (AlignLo spatial F * 3) (F * 3) 0 0 0
              else []).length * (F * 3)) 0).flatMap scal)
      0 (spatial * 3) g := by
  have hA : AlignLo spatial F * 3 ≤ spatial * 3 ∧ AlignLo spatial F * 3 % 24 = 0 := by
    unfold AlignLo
    simp only [F]
    omega
  obtain ⟨a1, a2⟩ := hA
  have hscal : ∀ k0, k0 * 3 ≤ spatial * 3 →
      Covers ((forRounds (spatial * 3) 3 0 (k0 * 3) 0).flatMap scal) (0 + k0 * 3)
        (0 + spatial * 3) g := fun k0 hk0 =>
    (covers_rounds (spatial * 3) 3 k0 0 (by decide) (Nat.mul_mod_left _ _) hk0 g scal
      (fun x _ _ hx => hs x hx)).1
  by_cases hp : AlignLo spatial F * 3 = 0
  · simp only [hp, ne_eq, not_true_eq_false, if_false, List.flatMap_nil, List.length_nil,
      Nat.zero_mul, List.nil_append]
    have := hscal 0 (by omega)
    simpa using this
  · simp only [ne_eq, hp, not_false_eq_true, if_true]
    obtain ⟨c1, e1⟩ := covers_rounds (AlignLo spatial F * 3) (F * 3) 0 0 (by decide) a2
      (by omega) g vec (fun x _ _ hx => hv x hx)
    rw [Nat.zero_mul] at c1 e1
    rw [Nat.zero_add] at e1
    rw [e1]
    have c2 := hscal (AlignLo spatial F) a1
    have := c1.append_covers c2 (by omega) (by omega)
    simpa using this

theorem rounds_guard (K N : Nat) (hN : 0 < N) :
    (if K / N * N ≠ 0 then forRounds (K / N * N) N 0 0 0 else [])
      = (List.range (K / N)).map fun r => (r * N, 0) := by
  have h := forRounds_eq_map (K / N * N) N 0 0 hN
  have e : (K / N * N + N - 1) / N = K / N := by
    have e0 : (N - 1) / N = 0 := Nat.div_eq_of_lt (Nat.sub_lt hN Nat.one_pos)
    rw [Nat.add_sub_assoc hN, Nat.mul_comm, Nat.mul_add_div hN, e0, Nat.add_zero]
  rw [e] at h
  split_ifs with h0
  · rw [h]
    simp
  · rw [not_not] at h0
    have : K / N = 0 := by
      rcases Nat.mul_eq_zero.1 h0 with h' | h'
      · exact h'
      · omega
    rw [this]
    rfl

theorem rounds_from (K N n0 : Nat) (hN : 0 < N) (h : n0 ≤ K / N) :
    forRounds (K / N * N) N 0 (n0 * N) 0
      = (List.range (K / N - n0)).map fun r => (n0 * N + r * N, 0) := by
  obtain ⟨len, hl, h1, h2⟩ := forRounds_at (K / N * N) N 0 n0 0 hN
  have e1 : K / N ≤ n0 + len := Nat.le_of_mul_le_mul_right h1 hN
  have e3 : n0 + len ≤ K / N := by
    rcases h2 with h0 | hlt
    · omega
    · have := Nat.lt_of_mul_lt_mul_right hlt
      omega
  have : len = K / N - n0 := by omega
  rw [hl, this]
  simp

theorem forRounds_mem (bound N : Nat) (hb : bound % N = 0) (xd : Nat × Nat)
    (h : xd ∈ forRounds bound N 0 0 0) : xd.1 % N = 0 ∧ xd.1 + N ≤ bound := by
  obtain ⟨k, e1, -, e3⟩ := forLoop_mem bound N 0 xd _ 0 0 h
  rw [Nat.zero_add] at e1
  refine ⟨by rw [e1]; exact Nat.mul_mod_left _ _, ?_⟩
  obtain ⟨q, hq⟩ : ∃ q, bound = q * N := ⟨bound / N, by
    have := Nat.div_add_mod bound N
    rw [hb, Nat.add_zero, Nat.mul_comm] at this
    exact this.symm⟩
  rw [e1, hq] at e3 ⊢
  have : k < q := Nat.lt_of_mul_lt_mul_right e3
  calc k * N + N = (k + 1) * N := by ring
    _ ≤ q * N := Nat.mul_le_mul_right N this

theorem loads1_inBounds (row K count : Nat) (h8 : 8 ≤ K) (hrow : row < count)
    (ld : Avx.Load) (h : ld ∈ Avx.SynetInnerProductLayerForward1_loads row K) :
    Avx.Load.InBounds count K ld := by
  unfold Avx.SynetInnerProductLayerForward1_loads at h
  simp only [] at h
  rw [rounds_guard K 32 (by decide), List.length_map, List.length_range,
    show K / 32 * 32 = K / 32 * 4 * 8 by omega,
    rounds_from K 8 (K / 32 * 4) (by decide) (by omega)] at h
  have hF : F = 8 := rfl
  simp only [List.mem_append, List.mem_flatMap, List.mem_map, List.mem_range, List.mem_cons,
    List.mem_singleton, List.not_mem_nil, or_false, hF] at h
  rcases h with (⟨kd, ⟨r, hr, rfl⟩, h⟩ | ⟨kd, ⟨r, hr, rfl⟩, h⟩) | h
  · rcases h with rfl | rfl | rfl | rfl | rfl | rfl | rfl | rfl <;>
      simp only [Avx.Load.InBounds] <;> omega
  · rcases h with rfl | rfl <;> simp only [Avx.Load.InBounds] <;> omega
  · split_ifs at h with hK
    · simp only [List.mem_cons, List.mem_singleton, List.not_mem_nil, or_false] at h
      rcases h with rfl | rfl <;> simp only [Avx.Load.InBounds] <;> omega
    · cases h

theorem loads4_inBounds (row K count : Nat) (h8 : 8 ≤ K) (hrow : row + 4 ≤ count)
    (ld : Avx.Load) (h : ld ∈ Avx.SynetInnerProductLayerForward4_loads row K) :
    Avx.Load.InBounds count K ld := by
  unfold Avx.SynetInnerProductLayerForward4_loads at h
  simp only [] at h
  rw [rounds_guard K 16 (by decide), List.length_map, List.length_range,
    show K / 16 * 16 = K / 16 * 2 * 8 by omega,
    rounds_from K 8 (K / 16 * 2) (by decide) (by omega)] at h
  have hF : F = 8 := rfl
  simp only [List.mem_append, List.mem_flatMap, List.mem_map, List.mem_range, List.mem_cons,
    List.mem_singleton, List.not_mem_nil, or_false, hF] at h
  rcases h with (⟨kd, ⟨r, hr, rfl⟩, h⟩ | ⟨kd, ⟨r, hr, rfl⟩, h⟩) | h
  · rcases h with (rfl | rfl) | ⟨q, hq, rfl | rfl⟩ <;>
      simp only [Avx.Load.InBounds] <;> omega
  · rcases h with rfl | ⟨q, hq, rfl⟩ <;> simp only [Avx.Load.InBounds] <;> omega
  · split_ifs at h with hK
    · simp only [List.mem_cons, List.mem_map, List.mem_range] at h
      rcases h with rfl | ⟨q, hq, rfl⟩ <;> simp only [Avx.Load.InBounds] <;> omega
    · cases h

theorem loads_inBounds (count size : Nat) (h8 : 8 ≤ size) (ld : Avx.Load)
    (h : ld ∈ Avx.SynetInnerProductLayerForward_loads count size) :
    Avx.Load.InBounds count size ld := by
  unfold Avx.SynetInnerProductLayerForward_loads at h
  simp only [List.mem_append, List.mem_flatMap] at h
  have a1 : AlignLo count 4 ≤ count := Nat.div_mul_le_self count 4
  rcases h with ⟨id, hid, h⟩ | ⟨id, hid, h⟩
  · have := forRounds_mem (AlignLo count 4) 4 (Nat.mul_mod_left _ _) id hid
    exact loads4_inBounds id.1 size count h8 (by omega) ld h
  · obtain ⟨k, -, -, e3⟩ := forLoop_mem count 1 0 id _ _ 0 hid
    exact loads1_inBounds id.1 size count h8 e3 ld h

/-- For a `size` from 1 to 7 the tail load of the first output starts before the source. -/
theorem loads_before_origin (count size : Nat) (hc : 1 ≤ count) (h1 : 1 ≤ size)
    (h7 : size ≤ 7) :
    Avx.Load.src ((size : Int) - 8) ∈ Avx.SynetInnerProductLayerForward_loads count size := by
  unfold Avx.SynetInnerProductLayerForward_loads
  simp only []
  have hK : size / 8 * 8 < size := by omega
  by_cases h4 : 4 ≤ count
  · apply List.mem_append_left
    refine List.mem_flatMap.2 ⟨(0, 0), ?_, ?_⟩
    · rw [forRounds_eq_map (AlignLo count 4) 4 0 0 (by decide)]
      refine List.mem_map.2 ⟨0, List.mem_range.2 ?_, rfl⟩
      unfold AlignLo
      omega
    · unfold Avx.SynetInnerProductLayerForward4_loads
      simp only []
      apply List.mem_append_right
      rw [if_pos hK]
      exact List.mem_cons_self _ _
  · apply List.mem_append_right
    have e0 : AlignLo count 4 = 0 := by unfold AlignLo; omega
    rw [e0]
    refine List.mem_flatMap.2 ⟨(0, 0), ?_, ?_⟩
    · show (0, 0) ∈ forRounds count 1 0 (([] : List (Nat × Nat)).length * 4) 0
      rw [List.length_nil, Nat.zero_mul, forRounds_eq_map count 1 0 0 Nat.one_pos]
      exact List.mem_map.2 ⟨0, List.mem_range.2 (by omega), rfl⟩
    · unfold Avx.SynetInnerProductLayerForward1_loads
      simp only []
      apply List.mem_append_right
      rw [if_pos hK]
      exact List.mem_cons_self _ _

/-- An element of a concatenation of blocks of which those before block `a` have the length
`B`. -/
theorem flatMap_range_get_prefix {α : Type} (B : Nat) (f : Nat → List α) (a b : Nat)
    (hpre : ∀ a', a' < a → (f a').length = B) (hb : b < (f a).length) :
    ∀ A, a < A → ((List.range A).flatMap f)[a * B + b]? = (f a)[b]? := by
  intro A
  induction A with
  | zero => intro h; exact absurd h (Nat.not_lt_zero _)
  | succ A ih =>
    intro hA
    rw [List.range_succ, List.flatMap_append]
    simp only [List.flatMap_cons, List.flatMap_nil, List.append_nil]
    by_cases ha : a < A
    · have h1 := ih ha
      have hlt : a * B + b < ((List.range A).flatMap f).length := by
        rw [List.getElem?_eq_getElem hb] at h1
        exact (List.getElem?_eq_some_iff.1 h1).1
      rw [List.getElem?_append_left hlt, h1]
    · have e : a = A := by omega
      subst e
      have hl := (flatMap_range_get B f a hpre).1
      rw [List.getElem?_append_right (by rw [hl]; omega), hl, Nat.add_sub_cancel_left]

/-- A row made of whole tiles of `N` elements, `stride` apart in the source, and a shorter
last tile: `total` elements, the one at `c` from tile `c / N`, lane `c % N`. -/
theorem whole_tail_get {α : Type} (N total stride d0 : Nat) (hN : 0 < N) (g : Nat → α) :
    (((forRounds (AlignLo total N) N stride 0 d0).flatMap fun cp =>
          (List.range N).map fun i => g (cp.2 + i))
        ++ (if total - AlignLo total N ≠ 0 then
              (List.range (total - AlignLo total N)).map fun i =>
                g (d0 + (forRounds (AlignLo total N) N stride 0 d0).length * stride + i)
            else [])).length = total
      ∧ ∀ c, c < total →
        (((forRounds (AlignLo total N) N stride 0 d0).flatMap fun cp =>
            (List.range N).map fun i => g (cp.2 + i))
          ++ (if total - AlignLo total N ≠ 0 then
                (List.range (total - AlignLo total N)).map fun i =>
                  g (d0 + (forRounds (AlignLo total N) N stride 0 d0).length * stride + i)
              else []))[c]? = some (g (d0 + c / N * stride + c % N)) := by
  obtain ⟨hq, -, hle, htail⟩ := tiles_count total N hN
  have hdm := Nat.div_add_mod total N
  have hmod := Nat.mod_lt total hN
  have hA : AlignLo total N = total / N * N := rfl
  rw [forRounds_eq_map (AlignLo total N) N stride d0 hN, hq, List.flatMap_map, List.length_map,
    List.length_range]
  obtain ⟨w1, w2⟩ := flatMap_range_get N
    (fun k => (List.range N).map fun i => g (d0 + k * stride + i)) (total / N)
    (fun a _ => by simp)
  have hcomm : N * (total / N) = total / N * N := Nat.mul_comm _ _
  constructor
  · rw [List.length_append]
    show ((List.range (total / N)).flatMap fun k =>
      (List.range N).map fun i => g (d0 + k * stride + i)).length + _ = total
    rw [w1]
    split_ifs with ht
    · rw [List.length_map, List.length_range]; omega
    · rw [List.length_nil]; omega
  · intro c hc
    have hcdm := Nat.div_add_mod c N
    have hcm := Nat.mod_lt c hN
    have hcc : N * (c / N) = c / N * N := Nat.mul_comm _ _
    by_cases hw : c < total / N * N
    · have hk : c / N < total / N := (Nat.div_lt_iff_lt_mul hN).2 hw
      rw [List.getElem?_append_left (by
        show c < ((List.range (total / N)).flatMap fun k =>
          (List.range N).map fun i => g (d0 + k * stride + i)).length
        rw [w1]; exact hw)]
      have e : c = c / N * N + c % N := by omega
      have h2 := w2 (c / N) (c % N) hk hcm
      rw [← e] at h2
      show ((List.range (total / N)).flatMap fun k =>
        (List.range N).map fun i => g (d0 + k * stride + i))[c]? = _
      rw [h2]
      simp [hcm]
    · have hl : ((List.range (total / N)).flatMap fun k =>
          (List.range N).map fun i => g (d0 + k * stride + i)).length = total / N * N := w1
      have hcd : c / N = total / N := by
        apply Nat.div_eq_of_lt_le
        · omega
        · rw [Nat.add_mul, Nat.one_mul]; omega
      have hcr : c % N = c - total / N * N := by
        rw [← hcd]; omega
      have ht : total - AlignLo total N ≠ 0 := by rw [hA]; omega
      rw [List.getElem?_append_right (by
        show ((List.range (total / N)).flatMap fun k =>
          (List.range N).map fun i => g (d0 + k * stride + i)).length ≤ c
        rw [hl]; omega), if_pos ht]
      show ((List.range (total - AlignLo total N)).map fun i =>
        g (d0 + total / N * stride + i))[c - ((List.range (total / N)).flatMap fun k =>
          (List.range N).map fun i => g (d0 + k * stride + i)).length]? = _
      rw [hl, List.getElem?_map, List.getElem?_range (by rw [hA]; omega), hcd, hcr]
      rfl
/-- The values `SynetConvertImage_ChwXc_Chw<N>` writes: the one at `(b*N + i)*spatial + s`, for
a channel `b*N + i` that exists, comes from `src[(b*spatial + s)*N + i]`. -/
theorem chwXc_chw_values {α : Type} (N channels spatial : Nat) (src : Nat → α) (hN : 0 < N)
    (b i s : Nat) (hc : b * N + i < channels) (hi : i < N) (hs : s < spatial) :
    (SynetConvertImage_ChwXc_Chw_values N channels spatial src)[(b * N + i) * spatial + s]?
      = some (src ((b * spatial + s) * N + i)) := by
  unfold SynetConvertImage_ChwXc_Chw_values
  rw [forRounds_eq_map channels N (N * spatial) 0 hN, List.flatMap_map]
  have hin : ∀ k, _ := fun k => flatMap_range_get spatial
    (fun i => (List.range spatial).map fun s => src (0 + k * (N * spatial) + i + s * N))
    (min channels (k * N + N) - k * N) (fun a _ => by simp)
  have hidx : (b * N + i) * spatial + s = b * (N * spatial) + (i * spatial + s) := by ring
  have hn : i < min channels (b * N + N) - b * N := by omega
  have hb : i * spatial + s < (min channels (b * N + N) - b * N) * spatial := by
    have : (i + 1) * spatial ≤ (min channels (b * N + N) - b * N) * spatial :=
      Nat.mul_le_mul_right _ hn
    rw [Nat.add_mul, Nat.one_mul] at this
    omega
  rw [hidx]
  have key := flatMap_range_get_prefix (N * spatial)
    (fun k => (List.range (min channels (k * N + N) - k * N)).flatMap fun i =>
      (List.range spatial).map fun s => src (0 + k * (N * spatial) + i + s * N))
    b (i * spatial + s)
    (fun a' ha' => by
      have h1 : (a' + 1) * N ≤ b * N := Nat.mul_le_mul_right _ ha'
      rw [Nat.add_mul, Nat.one_mul] at h1
      rw [(hin a').1, show min channels (a' * N + N) - a' * N = N by omega])
    (by rw [(hin b).1]; exact hb)
    ((channels + N - 1) / N) ((ceil_lt channels N b hN).2 (by omega))
  show ((List.range ((channels + N - 1) / N)).flatMap fun k =>
    (List.range (min channels (k * N + N) - k * N)).flatMap fun i =>
      (List.range spatial).map fun s => src (0 + k * (N * spatial) + i + s * N))[
        b * (N * spatial) + (i * spatial + s)]? = _
  rw [key, (hin b).2 i s hn hs]
  simp only [List.getElem?_map, List.getElem?_range hs, Option.map_some']
  congr 2
  ring

/-- The values `SynetConvertImage_ChwXc_Hwc<N>` writes: the one at `s*channels + c` comes from
`src[((c / N)*spatial + s)*N + c % N]`. -/
theorem chwXc_hwc_values {α : Type} (N channels spatial : Nat) (src : Nat → α) (hN : 0 < N)
    (s c : Nat) (hs : s < spatial) (hc : c < channels) :
    (SynetConvertImage_ChwXc_Hwc_values N channels spatial src)[s * channels + c]?
      = some (src ((c / N * spatial + s) * N + c % N)) := by
  unfold SynetConvertImage_ChwXc_Hwc_values
  simp only []
  have hrow := fun s => whole_tail_get N channels (N * spatial) (s * N) hN src
  rw [(flatMap_range_get channels _ spatial (fun a _ => (hrow a).1)).2 s c hs hc,
    (hrow s).2 c hc]
  congr 2
  ring

/-- The values `SynetConvertFilter_OyxiXo_Oiyx<N>` writes: the one at
`((b*N + j)*input + i)*kernel + k`, for an output channel `b*N + j` that exists, comes from
`src[((b*kernel + k)*input + i)*N + j]`. -/
theorem oyxiXo_oiyx_values {α : Type} (N output input kernel : Nat) (src : Nat → α)
    (hN : 0 < N) (b j i k : Nat) (ho : b * N + j < output) (hj : j < N) (hi : i < input)
    (hk : k < kernel) :
    (SynetConvertFilter_OyxiXo_Oiyx_values N output input kernel src)[
        ((b * N + j) * input + i) * kernel + k]?
      = some (src (((b * kernel + k) * input + i) * N + j)) := by
  unfold SynetConvertFilter_OyxiXo_Oiyx_values
  rw [forRounds_eq_map output N (N * kernel * input) 0 hN, List.flatMap_map]
  have hin : ∀ b', _ := fun b' => flatMap_range_get2 input kernel
    (fun j i => (List.range kernel).map fun k =>
      src (0 + b' * (N * kernel * input) + ((k * input + i) * N + j)))
    (min output (b' * N + N) - b' * N) (fun a b _ _ => by simp)
  have hidx : ((b * N + j) * input + i) * kernel + k
      = b * (N * (input * kernel)) + ((j * input + i) * kernel + k) := by ring
  have hn : j < min output (b * N + N) - b * N := by omega
  have hik : i * kernel + k < input * kernel := (tile_index kernel input 0 i k hi hk).2
  have hb : (j * input + i) * kernel + k
      < (min output (b * N + N) - b * N) * (input * kernel) := by
    have h1 : (j + 1) * (input * kernel) ≤ (min output (b * N + N) - b * N) * (input * kernel) :=
      Nat.mul_le_mul_right _ hn
    have h2 : (j * input + i) * kernel + k = j * (input * kernel) + (i * kernel + k) := by ring
    rw [Nat.add_mul, Nat.one_mul] at h1
    omega
  rw [hidx]
  have key := flatMap_range_get_prefix (N * (input * kernel))
    (fun b' => (List.range (min output (b' * N + N) - b' * N)).flatMap fun j =>
      (List.range input).flatMap fun i => (List.range kernel).map fun k =>
        src (0 + b' * (N * kernel * input) + ((k * input + i) * N + j)))
    b ((j * input + i) * kernel + k)
    (fun a' ha' => by
      have h1 : (a' + 1) * N ≤ b * N := Nat.mul_le_mul_right _ ha'
      rw [Nat.add_mul, Nat.one_mul] at h1
      rw [(hin a').1, show min output (a' * N + N) - a' * N = N by omega])
    (by rw [(hin b).1]; exact hb)
    ((output + N - 1) / N) ((ceil_lt output N b hN).2 (by omega))
  show ((List.range ((output + N - 1) / N)).flatMap fun b' =>
    (List.range (min output (b' * N + N) - b' * N)).flatMap fun j =>
      (List.range input).flatMap fun i => (List.range kernel).map fun k =>
        src (0 + b' * (N * kernel * input) + ((k * input + i) * N + j)))[
          b * (N * (input * kernel)) + ((j * input + i) * kernel + k)]? = _
  rw [key, (hin b).2 j i k hn hi hk]
  simp only [List.getElem?_map, List.getElem?_range hk, Option.map_some']
  congr 2
  ring

/-- The values `SynetConvertFilter_OyxiXo_Yxio<N>` writes: the one at
`(k*input + i)*output + o` comes from `src[(((o / N)*kernel + k)*input + i)*N + o % N]`. -/
theorem oyxiXo_yxio_values {α : Type} (N output input kernel : Nat) (src : Nat → α)
    (hN : 0 < N) (k i o : Nat) (hk : k < kernel) (hi : i < input) (ho : o < output) :
    (SynetConvertFilter_OyxiXo_Yxio_values N output input kernel src)[
        (k * input + i) * output + o]?
      = some (src (((o / N * kernel + k) * input + i) * N + o % N)) := by
  unfold SynetConvertFilter_OyxiXo_Yxio_values
  simp only []
  have hle : AlignLo output N ≤ output := Nat.div_mul_le_self _ _
  have hcond : ∀ (X : List α), (if AlignLo output N < output then X else [])
      = (if output - AlignLo output N ≠ 0 then X else []) := by
    intro X
    by_cases h : AlignLo output N < output
    · rw [if_pos h, if_pos (by omega)]
    · rw [if_neg h, if_neg (by omega)]
  simp only [hcond]
  have hrow := fun k i => whole_tail_get N output (kernel * input * N) ((k * input + i) * N)
    hN src
  rw [(flatMap_range_get2 input output _ kernel (fun a b _ _ => (hrow a b).1)).2 k i o hk hi
    ho, (hrow k i).2 o ho]
  congr 2
  ring

/-- The values `SynetConvertFilter_Oiyx_Yxio` writes: `kernel * (input * output)` of them, the
one at `(k*input + i)*output + o` comes from `src[(o*input + i)*kernel + k]`. -/
theorem oiyx_yxio_values {α : Type} (output input kernel : Nat) (src : Nat → α) :
    (SynetConvertFilter_Oiyx_Yxio_values output input kernel src).length
        = kernel * (input * output)
      ∧ ∀ k i o, k < kernel → i < input → o < output →
        (SynetConvertFilter_Oiyx_Yxio_values output input kernel src)[
            (k * input + i) * output + o]?
          = some (src ((o * input + i) * kernel + k)) := by
  unfold SynetConvertFilter_Oiyx_Yxio_values
  simp only []
  obtain ⟨h1, h2⟩ := flatMap_range_get2 input output
    (fun k i => (List.range output).map fun o => src (k + i * kernel + o * (input * kernel)))
    kernel (fun a b _ _ => by simp)
  refine ⟨h1, fun k i o hk hi ho => ?_⟩
  rw [h2 k i o hk hi ho]
  simp only [List.getElem?_map, List.getElem?_range ho, Option.map_some']
  congr 2
  ring

/-- Division with remainder of a flat index by the inner dimension. -/
theorem flat_split (outer inner j : Nat) (hj : j < outer * inner) :
    j / inner < outer ∧ j % inner < inner ∧ j = j / inner * inner + j % inner := by
  have hpos : 0 < inner := by
    rcases Nat.eq_zero_or_pos inner with h | h
    · rw [h, Nat.mul_zero] at hj; exact absurd hj (Nat.not_lt_zero _)
    · exact h
  refine ⟨(Nat.div_lt_iff_lt_mul hpos).2 hj, Nat.mod_lt _ hpos, ?_⟩
  have := Nat.div_add_mod j inner
  rw [Nat.mul_comm] at this
  omega

/-- The rounds of a loop `for (x = 0; x < AlignLo(X, N); x += N)`, with their count. -/
theorem rounds_aligned (X N : Nat) (hN : 0 < N) :
    forRounds (AlignLo X N) N 1 0 0 = (List.range (X / N)).map fun k => (k * N, k) := by
  rw [forRounds_eq_map _ _ _ _ hN]
  have e : (AlignLo X N + N - 1) / N = X / N := by
    unfold AlignLo
    rw [Nat.add_sub_assoc hN, Nat.add_comm, Nat.add_mul_div_right _ _ hN,
      Nat.div_eq_of_lt (Nat.sub_lt hN Nat.one_pos), Nat.zero_add]
  rw [e]
  apply List.map_congr_left
  intro k _
  simp

/-- The rounds of a loop `for (; x < bound; ++x)` that starts from `x0`, with their count. -/
theorem rounds_unit (bound x0 : Nat) :
    forRounds bound 1 1 x0 0 = (List.range (bound - x0)).map fun m => (x0 + m, m) := by
  obtain ⟨len, h, h1, h2⟩ := forRounds_at bound 1 1 x0 0 Nat.one_pos
  rw [Nat.mul_one] at h
  rw [h]
  have e : len = bound - x0 := by
    rcases h2 with h2 | h2
    · omega
    · omega
  rw [e]
  apply List.map_congr_left
  intro k _
  simp

/-- The rounds of a loop `for (; x < AlignLo(X, N); x += N)` that starts from `k0 * N`. -/
theorem rounds_aligned_from (X N k0 : Nat) (hN : 0 < N) :
    forRounds (AlignLo X N) N 1 (k0 * N) 0
      = (List.range (X / N - k0)).map fun m => (k0 * N + m * N, m) := by
  obtain ⟨len, h, h1, h2⟩ := forRounds_at (AlignLo X N) N 1 k0 0 hN
  rw [h]
  have e : len = X / N - k0 := by
    unfold AlignLo at h1 h2
    have a1 : X / N ≤ k0 + len := Nat.le_of_mul_le_mul_right h1 hN
    rcases h2 with h2 | h2
    · omega
    · have a2 : k0 + (len - 1) < X / N := Nat.lt_of_mul_lt_mul_right h2
      omega
  rw [e]
  apply List.map_congr_left
  intro k _
  simp

/-- Stores that write, at every address below the length of a list of values, the value the
list has there, and nothing else, give the memory that writing the list from address 0 on
gives. -/
theorem storeAll_eq_storeSeq {α : Type} (ws : List (Nat × α)) (vals : List α)
    (hA : ∀ w ∈ ws, vals[w.1]? = some w.2)
    (hB : ∀ j, j < vals.length → ∃ w ∈ ws, w.1 = j) (dst : Nat → α) :
    storeAll ws dst = storeSeq vals 0 dst := by
  funext j
  have hS := storeSeq_values vals dst vals.length rfl
  by_cases hj : j < vals.length
  · refine storeAll_mem (fun j => storeSeq vals 0 dst j) ws j dst ?_ (hB j hj)
    intro w hw
    exact (hS.1 w.1 w.2 (hA w hw)).symm
  · rw [hS.2 j (by omega)]
    refine storeAll_notMem ws j dst ?_
    intro w hw e
    have h := hA w hw
    rw [e] at h
    have := List.getElem?_eq_none (Nat.le_of_not_lt hj)
    rw [this] at h
    cases h

/-- An element of a list of values, with the address and the value in another form. -/
theorem elem_cast {α : Type} {vals : List α} {a a' : Nat} {v v' : α}
    (h : vals[a']? = some v') (ha : a = a') (hv : v = v') : vals[a]? = some v := by
  rw [ha, hv]; exact h

/-- The rounds of a loop `for (; x < AlignLo(X, 4); x += 4)` that starts where a loop with
step 16 stopped. -/
theorem rounds_singles (X : Nat) :
    forRounds (AlignLo X 4) 4 1 (X / 16 * 16) 0
      = (List.range (X / 4 - X / 16 * 4)).map fun m => (X / 16 * 16 + m * 4, m) := by
  have e : X / 16 * 16 = X / 16 * 4 * 4 := by omega
  rw [e]
  exact rounds_aligned_from X 4 (X / 16 * 4) (by decide)

/-- A counter, as a round of a loop with step `N` and a position in the round. -/
theorem split_by (N s : Nat) (hN : 0 < N) : ∃ k r, r < N ∧ s = k * N + r :=
  ⟨s / N, s % N, Nat.mod_lt _ hN, (Nat.div_add_mod' s N).symm⟩

/-- A counter not below `a`, as `a` plus the rounds of a loop that starts from `a`. -/
theorem split_from (a s : Nat) (h : ¬ s < a) : ∃ m, s = a + m :=
  ⟨s - a, by omega⟩

/-- An element of a list of values that is a source value under a condition. -/
theorem elem_pos {α : Type} [Zero α] {vals : List α} {a a' : Nat} {v x : α} {c : Prop}
    [Decidable c] (h : vals[a']? = some (if c then x else 0)) (hc : c) (ha : a = a')
    (hv : v = x) : vals[a]? = some v := by
  rw [ha, hv, h, if_pos hc]

/-- An element of a list of values that is 0 when a condition fails. -/
theorem elem_neg {α : Type} [Zero α] {vals : List α} {a a' : Nat} {x : α} {c : Prop}
    [Decidable c] (h : vals[a']? = some (if c then x else 0)) (hc : ¬ c) (ha : a = a') :
    vals[a]? = some 0 := by
  rw [ha, h, if_neg hc]

/-- The distance `dst` moves over the values of a tail. -/
theorem ite_tail (t : Nat) : (if t ≠ 0 then t * 1 else 0) = t := by
  split_ifs <;> omega

/-- A size, as whole groups of four tiles, whole tiles and a tail. -/
theorem split16 (n : Nat) : ∃ a u t, u < 4 ∧ t < 4 ∧ n = a * 16 + u * 4 + t :=
  ⟨n / 16, n / 4 - n / 16 * 4, n - n / 4 * 4, by omega, by omega, by omega⟩

/-- The number of values the first `m` rounds of a loop over tiles of `N` write, when a round
writes `B` values for each of its `Min(total, x + N) - x` positions. -/
theorem prefix_blocks_length {α : Type} (N total B : Nat) (f : Nat → List α)
    (hf : ∀ k, (f k).length = (min total (k * N + N) - k * N) * B) :
    ∀ m, ((List.range m).flatMap f).length = min total (m * N) * B := by
  intro m
  induction m with
  | zero => simp
  | succ m ih =>
    rw [List.range_succ, List.flatMap_append, List.length_append, ih]
    simp only [List.flatMap_cons, List.flatMap_nil, List.append_nil]
    rw [hf m, ← Nat.add_mul, Nat.add_mul m 1 N, Nat.one_mul]
    congr 1
    omega

/-- The number of values a loop over tiles of `N` writes. -/
theorem blocks_length {α : Type} (N total B stepD : Nat) (hN : 0 < N) (f : Nat × Nat → List α)
    (hf : ∀ k, (f (k * N, 0 + k * stepD)).length = (min total (k * N + N) - k * N) * B) :
    ((forRounds total N stepD 0 0).flatMap f).length = total * B := by
  rw [forRounds_eq_map total N stepD 0 hN, List.flatMap_map]
  rw [prefix_blocks_length N total B (fun k => f (k * N, 0 + k * stepD)) hf]
  congr 1
  have h : total ≤ (total + N - 1) / N * N := by
    have h1 := Nat.div_add_mod (total + N - 1) N
    have h2 := Nat.mod_lt (total + N - 1) hN
    rw [Nat.mul_comm] at h1
    omega
  omega

/-- `SynetConvertImage_ChwXc_Chw<N>` writes `channels * spatial` values. -/
theorem chwXc_chw_length {α : Type} (N channels spatial : Nat) (src : Nat → α) (hN : 0 < N) :
    (SynetConvertImage_ChwXc_Chw_values N channels spatial src).length = channels * spatial := by
  unfold SynetConvertImage_ChwXc_Chw_values
  refine blocks_length N channels spatial (N * spatial) hN _ ?_
  intro k
  exact (flatMap_range_get spatial _ _ (fun a _ => by simp)).1

/-- `SynetConvertImage_ChwXc_Hwc<N>` writes `spatial * channels` values. -/
theorem chwXc_hwc_length {α : Type} (N channels spatial : Nat) (src : Nat → α) (hN : 0 < N) :
    (SynetConvertImage_ChwXc_Hwc_values N channels spatial src).length = spatial * channels := by
  unfold SynetConvertImage_ChwXc_Hwc_values
  simp only []
  have hrow := fun s => whole_tail_get N channels (N * spatial) (s * N) hN src
  exact (flatMap_range_get channels _ spatial (fun a _ => (hrow a).1)).1

/-- `SynetConvertFilter_OyxiXo_Oiyx<N>` writes `output * (input * kernel)` values. -/
theorem oyxiXo_oiyx_length {α : Type} (N output input kernel : Nat) (src : Nat → α)
    (hN : 0 < N) :
    (SynetConvertFilter_OyxiXo_Oiyx_values N output input kernel src).length
      = output * (input * kernel) := by
  unfold SynetConvertFilter_OyxiXo_Oiyx_values
  refine blocks_length N output (input * kernel) (N * kernel * input) hN _ ?_
  intro k
  exact (flatMap_range_get2 input kernel _ _ (fun a b _ _ => by simp)).1

/-- `SynetConvertFilter_OyxiXo_Yxio<N>` writes `kernel * (input * output)` values. -/
theorem oyxiXo_yxio_length {α : Type} (N output input kernel : Nat) (src : Nat → α)
    (hN : 0 < N) :
    (SynetConvertFilter_OyxiXo_Yxio_values N output input kernel src).length
      = kernel * (input * output) := by
  unfold SynetConvertFilter_OyxiXo_Yxio_values
  simp only []
  have hrow := fun z => whole_tail_get N output (kernel * input * N) z hN src
  refine (flatMap_range_get2 input output _ _ (fun a b _ _ => ?_)).1
  have h := (hrow ((a * input + b) * N)).1
  by_cases ht : AlignLo output N < output
  · have ht2 : output - AlignLo output N ≠ 0 := by omega
    rw [if_pos ht2] at h
    rw [if_pos ht]
    exact h
  · have ht2 : ¬ (output - AlignLo output N ≠ 0) := by omega
    rw [if_neg ht2] at h
    rw [if_neg ht]
    exact h

/-- The values `SynetConvertImage_ChwXc_Hwc<N>` writes, by tile and lane of the channel. -/
theorem chwXc_hwc_elem {α : Type} (N channels spatial : Nat) (src : Nat → α) (hN : 0 < N)
    (s b i : Nat) (hs : s < spatial) (hi : i < N) (hc : b * N + i < channels) :
    (SynetConvertImage_ChwXc_Hwc_values N channels spatial src)[s * channels + (b * N + i)]?
      = some (src ((b * spatial + s) * N + i)) := by
  rw [chwXc_hwc_values N channels spatial src hN s (b * N + i) hs hc]
  have e1 : (b * N + i) / N = b := by
    rw [Nat.add_comm, Nat.add_mul_div_right _ _ hN, Nat.div_eq_of_lt hi, Nat.zero_add]
  have e2 : (b * N + i) % N = i := by
    rw [Nat.add_comm, Nat.add_mul_mod_self_right, Nat.mod_eq_of_lt hi]
  rw [e1, e2]

/-- The values `SynetConvertFilter_OyxiXo_Yxio<N>` writes, by tile and lane of the output
channel. -/
theorem oyxiXo_yxio_elem {α : Type} (N output input kernel : Nat) (src : Nat → α)
    (hN : 0 < N) (k i b j : Nat) (hk : k < kernel) (hi : i < input) (hj : j < N)
    (ho : b * N + j < output) :
    (SynetConvertFilter_OyxiXo_Yxio_values N output input kernel src)[
        (k * input + i) * output + (b * N + j)]?
      = some (src (((b * kernel + k) * input + i) * N + j)) := by
  rw [oyxiXo_yxio_values N output input kernel src hN k i (b * N + j) hk hi ho]
  have e1 : (b * N + j) / N = b := by
    rw [Nat.add_comm, Nat.add_mul_div_right _ _ hN, Nat.div_eq_of_lt hj, Nat.zero_add]
  have e2 : (b * N + j) % N = j := by
    rw [Nat.add_comm, Nat.add_mul_mod_self_right, Nat.mod_eq_of_lt hj]
  rw [e1, e2]

/-- Two lists of values with the same length and the same elements are equal. -/
theorem list_eq_of_elems {α : Type} (l1 l2 : List α) (hlen : l1.length = l2.length)
    (h : ∀ j, j < l1.length → l1[j]? = l2[j]?) : l1 = l2 := by
  apply List.ext_getElem?
  intro j
  by_cases hj : j < l1.length
  · exact h j hj
  · rw [List.getElem?_eq_none (Nat.le_of_not_lt hj),
      List.getElem?_eq_none (by rw [← hlen]; exact Nat.le_of_not_lt hj)]

/-- A row and a column of a grid, as a position below its size. -/
theorem flat_lt (k i K I : Nat) (hk : k < K) (hi : i < I) : k * I + i < K * I := by
  have h : (k + 1) * I ≤ K * I := Nat.mul_le_mul_right _ hk
  rw [Nat.add_mul, Nat.one_mul] at h
  omega

/-- A position below the size of a grid, as a row and a column. -/
theorem grid_split (K I p : Nat) (hp : p < K * I) :
    ∃ k i, k < K ∧ i < I ∧ p = k * I + i := by
  obtain ⟨h1, h2, h3⟩ := flat_split K I p hp
  exact ⟨_, _, h1, h2, h3⟩

/-- The values `SynetConvertFilter_Yxio_OyxiXo<N>` writes, by the position `k*input + i`. -/
theorem yxio_oyxiXo_pos {α : Type} [Zero α] (N output input kernel : Nat) (src : Nat → α)
    (hN : 0 < N) (b p j : Nat) (hb : b < (output + N - 1) / N) (hp : p < kernel * input)
    (hj : j < N) :
    (SynetConvertFilter_Yxio_OyxiXo_values N output input kernel src)[
        (b * (kernel * input) + p) * N + j]?
      = some (if b * N + j < output then src (p * output + (b * N + j)) else 0) := by
  obtain ⟨k, i, hk, hi, rfl⟩ := grid_split kernel input p hp
  have h := (yxio_oyxiXo_values N output input kernel src hN).2 b k i j hb hk hi hj
  have e : (b * (kernel * input) + (k * input + i)) * N + j
      = ((b * kernel + k) * input + i) * N + j := by ring
  rw [e]
  exact h

/-- The values `SynetConvertFilter_OyxiXo_Yxio<N>` writes, by the position `k*input + i`. -/
theorem oyxiXo_yxio_pos {α : Type} (N output input kernel : Nat) (src : Nat → α)
    (hN : 0 < N) (p b j : Nat) (hp : p < kernel * input) (hj : j < N)
    (ho : b * N + j < output) :
    (SynetConvertFilter_OyxiXo_Yxio_values N output input kernel src)[
        p * output + (b * N + j)]?
      = some (src ((b * (kernel * input) + p) * N + j)) := by
  obtain ⟨k, i, hk, hi, rfl⟩ := grid_split kernel input p hp
  have h := oyxiXo_yxio_elem N output input kernel src hN k i b j hk hi hj ho
  have e : (b * (kernel * input) + (k * input + i)) * N + j
      = ((b * kernel + k) * input + i) * N + j := by ring
  rw [e]
  exact h

/-- Every store of the NEON `Chw_Hwc` routine writes the value the base routine has there. -/
theorem neon_chw_hwc_sound {α : Type} [Zero α] (channels spatial : Nat) (src : Nat → α) :
    ∀ w ∈ Neon.SynetConvertImage_Chw_Hwc_stores channels spatial src,
      (SynetConvertImage_Chw_Hwc_values channels spatial src)[w.1]? = some w.2 := by
  intro w hw
  have hb := (chw_hwc_values channels spatial src).2
  simp only [Neon.SynetConvertImage_Chw_Hwc_stores, Neon.Transpose4x4,
    rounds_aligned _ 4 (by decide), rounds_unit,
    List.length_map, List.length_range, List.mem_append, List.mem_flatMap, List.mem_map,
    List.mem_range, exists_exists_and_eq_and, List.mem_cons, List.mem_singleton,
    List.not_mem_nil, or_false] at hw
  rcases hw with ⟨k, hk, ⟨q, hq, r, hr, c, hc, rfl⟩ | ⟨m, hm, rfl | rfl | rfl | rfl⟩⟩
    | ⟨m, hm, c, hc, rfl⟩
  · exact elem_cast (hb (k * 4 + r) (q * 4 + c) (by omega) (by omega)) (by simp only; ring)
      (congrArg src (by ring))
  · exact elem_cast (hb (k * 4 + 0) (channels / 4 * 4 + m) (by omega) (by omega))
      (by simp only; ring) (congrArg src (by ring))
  · exact elem_cast (hb (k * 4 + 1) (channels / 4 * 4 + m) (by omega) (by omega))
      (by simp only; ring) (congrArg src (by ring))
  · exact elem_cast (hb (k * 4 + 2) (channels / 4 * 4 + m) (by omega) (by omega))
      (by simp only; ring) (congrArg src (by ring))
  · exact elem_cast (hb (k * 4 + 3) (channels / 4 * 4 + m) (by omega) (by omega))
      (by simp only; ring) (congrArg src (by ring))
  · exact elem_cast (hb (spatial / 4 * 4 + m) c (by omega) hc) (by simp only; ring)
      (congrArg src (by ring))

/-- The NEON `Chw_Hwc` routine writes every element of the destination. -/
theorem neon_chw_hwc_complete {α : Type} [Zero α] (channels spatial : Nat) (src : Nat → α)
    (s c : Nat) (hs : s < spatial) (hc : c < channels) :
    (s * channels + c, src (c * spatial + s))
      ∈ Neon.SynetConvertImage_Chw_Hwc_stores channels spatial src := by
  simp only [Neon.SynetConvertImage_Chw_Hwc_stores, Neon.Transpose4x4,
    rounds_aligned _ 4 (by decide), rounds_unit,
    List.length_map, List.length_range, List.mem_append, List.mem_flatMap, List.mem_map,
    List.mem_range, exists_exists_and_eq_and, List.mem_cons, List.mem_singleton,
    List.not_mem_nil, or_false]
  by_cases h1 : s < spatial / 4 * 4
  · obtain ⟨ks, rs, hrs, rfl⟩ := split_by 4 s (by decide)
    by_cases h2 : c < channels / 4 * 4
    · obtain ⟨kc, rc, hrc, rfl⟩ := split_by 4 c (by decide)
      exact Or.inl ⟨ks, by omega, Or.inl ⟨kc, by omega, rs, hrs, rc, hrc,
        Prod.ext (by simp only; ring) (congrArg src (by ring))⟩⟩
    · obtain ⟨m, rfl⟩ := split_from _ c h2
      refine Or.inl ⟨ks, by omega, Or.inr ⟨m, by omega, ?_⟩⟩
      interval_cases rs
      · exact Or.inl (Prod.ext (by simp only; ring) (congrArg src (by ring)))
      · exact Or.inr (Or.inl (Prod.ext (by simp only; ring) (congrArg src (by ring))))
      · exact Or.inr (Or.inr (Or.inl (Prod.ext (by simp only; ring) (congrArg src (by ring)))))
      · exact Or.inr (Or.inr (Or.inr (Prod.ext (by simp only; ring) (congrArg src (by ring)))))
  · obtain ⟨m, rfl⟩ := split_from _ s h1
    exact Or.inr ⟨m, by omega, c, hc, Prod.ext (by simp only; ring) (congrArg src (by ring))⟩

/-- The NEON `Chw_Hwc` routine gives the memory the base routine gives. -/
theorem neon_chw_hwc_eq {α : Type} [Zero α] (channels spatial : Nat) (src dst : Nat → α) :
    Neon.SynetConvertImage_Chw_Hwc channels spatial src dst
      = SynetConvertImage_Chw_Hwc channels spatial src dst := by
  refine storeAll_eq_storeSeq _ _ (neon_chw_hwc_sound channels spatial src) ?_ dst
  intro j hj
  rw [(chw_hwc_values channels spatial src).1] at hj
  obtain ⟨h1, h2, h3⟩ := flat_split spatial channels j hj
  refine ⟨_, neon_chw_hwc_complete channels spatial src _ _ h1 h2, ?_⟩
  exact h3.symm

/-- Every store of the NEON `Chw_Chw4c` routine writes the value the base routine has there. -/
theorem neon_chw_chw4c_sound {α : Type} [Zero α] (channels spatial : Nat) (src : Nat → α) :
    ∀ w ∈ Neon.SynetConvertImage_Chw_Chw4c_stores channels spatial src,
      (SynetConvertImage_Chw_ChwXc_values 4 channels spatial src)[w.1]? = some w.2 := by
  intro w hw
  have hb := (chw_chwXc_values 4 channels spatial src (by decide)).2
  obtain ⟨c4, ct, hct, rfl⟩ := split_by 4 channels (by decide)
  obtain ⟨s4, st, hst, rfl⟩ := split_by 4 spatial (by decide)
  have e1 : (c4 * 4 + ct) / 4 = c4 := by omega
  have e2 : (s4 * 4 + st) / 4 = s4 := by omega
  have e3 : c4 * 4 + ct - c4 * 4 = ct := by omega
  have e4 : s4 * 4 + st - s4 * 4 = st := by omega
  simp only [Neon.SynetConvertImage_Chw_Chw4c_stores, Neon.Transpose4x4, Neon.F,
    Nat.reduceMul, rounds_aligned _ 4 (by decide), rounds_unit,
    List.length_map, List.length_range, List.mem_append, List.mem_flatMap, List.mem_map,
    List.mem_range, exists_exists_and_eq_and, List.mem_cons, List.mem_singleton,
    List.not_mem_nil, or_false, List.mem_ite_nil_right] at hw
  simp only [AlignLo, e1, e2, e3, e4, Nat.sub_zero] at hw
  rcases hw with ⟨a, ha, ⟨q, hq, r, hr, l, hl, rfl⟩ | ⟨m, hm, rfl | rfl | rfl | rfl⟩⟩
    | ⟨ht, s, hs, ⟨i, hi, rfl⟩ | ⟨i, hi, rfl⟩⟩
  · exact elem_pos (hb a (q * 4 + r) l (by omega) (by omega) hl) (by omega)
      (by simp only; ring) (congrArg src (by ring))
  · exact elem_pos (hb a (s4 * 4 + m) 0 (by omega) (by omega) (by decide)) (by omega)
      (by simp only; ring) (congrArg src (by ring))
  · exact elem_pos (hb a (s4 * 4 + m) 1 (by omega) (by omega) (by decide)) (by omega)
      (by simp only; ring) (congrArg src (by ring))
  · exact elem_pos (hb a (s4 * 4 + m) 2 (by omega) (by omega) (by decide)) (by omega)
      (by simp only; ring) (congrArg src (by ring))
  · exact elem_pos (hb a (s4 * 4 + m) 3 (by omega) (by omega) (by decide)) (by omega)
      (by simp only; ring) (congrArg src (by ring))
  · exact elem_pos (hb c4 s i (by omega) hs (by omega)) (by omega)
      (by simp only; ring) (congrArg src (by ring))
  · exact elem_neg (hb c4 s (ct + i) (by omega) hs (by omega)) (by omega)
      (by simp only; ring)

/-- The NEON `Chw_Chw4c` routine writes every element of the destination. -/
theorem neon_chw_chw4c_complete {α : Type} [Zero α] (channels spatial : Nat) (src : Nat → α)
    (b s i : Nat) (hb : b < (channels + 4 - 1) / 4) (hs : s < spatial) (hi : i < 4) :
    ∃ v, ((b * spatial + s) * 4 + i, v)
      ∈ Neon.SynetConvertImage_Chw_Chw4c_stores channels spatial src := by
  obtain ⟨c4, ct, hct, rfl⟩ := split_by 4 channels (by decide)
  obtain ⟨s4, st, hst, rfl⟩ := split_by 4 spatial (by decide)
  have e1 : (c4 * 4 + ct) / 4 = c4 := by omega
  have e2 : (s4 * 4 + st) / 4 = s4 := by omega
  have e3 : c4 * 4 + ct - c4 * 4 = ct := by omega
  have e4 : s4 * 4 + st - s4 * 4 = st := by omega
  simp only [Neon.SynetConvertImage_Chw_Chw4c_stores, Neon.Transpose4x4, Neon.F,
    Nat.reduceMul, rounds_aligned _ 4 (by decide), rounds_unit,
    List.length_map, List.length_range, List.mem_append, List.mem_flatMap, List.mem_map,
    List.mem_range, exists_exists_and_eq_and, List.mem_cons, List.mem_singleton,
    List.not_mem_nil, or_false, List.mem_ite_nil_right]
  simp only [AlignLo, e1, e2, e3, e4, Nat.sub_zero]
  by_cases h1 : b < c4
  · by_cases h2 : s < s4 * 4
    · obtain ⟨q, r, hr, rfl⟩ := split_by 4 s (by decide)
      exact ⟨_, Or.inl ⟨b, h1, Or.inl ⟨q, by omega, r, hr, i, hi,
        Prod.ext (by simp only; ring) rfl⟩⟩⟩
    · obtain ⟨m, rfl⟩ := split_from _ s h2
      interval_cases i
      · exact ⟨_, Or.inl ⟨b, h1, Or.inr ⟨m, by omega,
          Or.inl (Prod.ext (by simp only; ring) rfl)⟩⟩⟩
      · exact ⟨_, Or.inl ⟨b, h1, Or.inr ⟨m, by omega,
          Or.inr (Or.inl (Prod.ext (by simp only; ring) rfl))⟩⟩⟩
      · exact ⟨_, Or.inl ⟨b, h1, Or.inr ⟨m, by omega,
          Or.inr (Or.inr (Or.inl (Prod.ext (by simp only; ring) rfl)))⟩⟩⟩
      · exact ⟨_, Or.inl ⟨b, h1, Or.inr ⟨m, by omega,
          Or.inr (Or.inr (Or.inr (Prod.ext (by simp only; ring) rfl)))⟩⟩⟩
  · have hbc : b = c4 := by omega
    subst hbc
    by_cases h2 : i < ct
    · exact ⟨_, Or.inr ⟨by omega, s, hs, Or.inl ⟨i, h2,
        Prod.ext (by simp only; ring) rfl⟩⟩⟩
    · obtain ⟨m, rfl⟩ := split_from _ i h2
      exact ⟨_, Or.inr ⟨by omega, s, hs, Or.inr ⟨m, by omega,
        Prod.ext (by simp only; ring) rfl⟩⟩⟩

/-- The NEON `Chw_Chw4c` routine gives the memory the base routine gives for `N = 4`. -/
theorem neon_chw_chw4c_eq {α : Type} [Zero α] (channels spatial : Nat) (src dst : Nat → α) :
    Neon.SynetConvertImage_Chw_Chw4c channels spatial src dst
      = SynetConvertImage_Chw_ChwXc 4 channels spatial src dst := by
  refine storeAll_eq_storeSeq _ _ (neon_chw_chw4c_sound channels spatial src) ?_ dst
  intro j hj
  rw [(chw_chwXc_values 4 channels spatial src (by decide)).1, ← Nat.mul_assoc] at hj
  obtain ⟨h1, h2, h3⟩ := flat_split _ 4 j hj
  obtain ⟨h4, h5, h6⟩ := flat_split _ spatial (j / 4) h1
  obtain ⟨v, hv⟩ := neon_chw_chw4c_complete channels spatial src _ _ _ h4 h5 h2
  refine ⟨_, hv, ?_⟩
  simp only
  rw [← h6]
  exact h3.symm

/-- Every store of the NEON `Hwc_Chw4c` routine writes the value the base routine has there. -/
theorem neon_hwc_chw4c_sound {α : Type} [Zero α] (channels spatial : Nat) (src : Nat → α) :
    ∀ w ∈ Neon.SynetConvertImage_Hwc_Chw4c_stores channels spatial src,
      (SynetConvertImage_Hwc_ChwXc_values 4 channels spatial src)[w.1]? = some w.2 := by
  intro w hw
  have hb := (hwc_chwXc_values 4 channels spatial src (by decide)).2
  obtain ⟨c16, cu, ct, hcu, hct, rfl⟩ := split16 channels
  obtain ⟨s4, st, hst, rfl⟩ := split_by 4 spatial (by decide)
  have e1 : (c16 * 16 + cu * 4 + ct) / 16 = c16 := by omega
  have e2 : (c16 * 16 + cu * 4 + ct) / 4 = c16 * 4 + cu := by omega
  have e3 : c16 * 4 + cu - c16 * 4 = cu := by omega
  have e4 : c16 * 16 + cu * 4 + ct - (c16 * 4 + cu) * 4 = ct := by omega
  have e5 : (s4 * 4 + st) / 4 = s4 := by omega
  have e6 : s4 * 4 + st - s4 * 4 = st := by omega
  simp only [Neon.SynetConvertImage_Hwc_Chw4c_stores, Neon.Transpose4x4xF, Neon.Copy, Neon.F,
    Nat.reduceMul, rounds_aligned _ 4 (by decide), rounds_aligned _ 16 (by decide),
    rounds_singles, rounds_unit,
    List.length_map, List.length_range, List.mem_append, List.mem_flatMap, List.mem_map,
    List.mem_range, exists_exists_and_eq_and, List.mem_cons, List.mem_singleton,
    List.not_mem_nil, or_false, List.mem_ite_nil_right] at hw
  simp only [AlignLo, e1, e2, e3, e4, e5, e6, Nat.sub_zero] at hw
  rcases hw with (⟨a, ha, ⟨q, hq, r, hr, c, hc, l, hl, rfl⟩
      | ⟨m, hm, ((⟨l, hl, rfl⟩ | ⟨l, hl, rfl⟩) | ⟨l, hl, rfl⟩) | ⟨l, hl, rfl⟩⟩⟩
      | ⟨a, ha, s, hs, l, hl, rfl⟩)
    | ⟨ht, s, hs, ⟨i, hi, rfl⟩ | ⟨i, hi, rfl⟩⟩
  · exact elem_pos (hb (a * 4 + r) (q * 4 + c) l (by omega) (by omega) hl) (by omega)
      (by simp only; ring) (congrArg src (by ring))
  · exact elem_pos (hb (a * 4 + 0) (s4 * 4 + m) l (by omega) (by omega) hl) (by omega)
      (by simp only; ring) (congrArg src (by ring))
  · exact elem_pos (hb (a * 4 + 1) (s4 * 4 + m) l (by omega) (by omega) hl) (by omega)
      (by simp only; ring) (congrArg src (by ring))
  · exact elem_pos (hb (a * 4 + 2) (s4 * 4 + m) l (by omega) (by omega) hl) (by omega)
      (by simp only; ring) (congrArg src (by ring))
  · exact elem_pos (hb (a * 4 + 3) (s4 * 4 + m) l (by omega) (by omega) hl) (by omega)
      (by simp only; ring) (congrArg src (by ring))
  · exact elem_pos (hb (c16 * 4 + a) s l (by omega) hs hl) (by omega)
      (by simp only; ring) (congrArg src (by ring))
  · exact elem_pos (hb (c16 * 4 + cu) s i (by omega) hs (by omega)) (by omega)
      (by simp only; ring) (congrArg src (by ring))
  · exact elem_neg (hb (c16 * 4 + cu) s (ct + i) (by omega) hs (by omega)) (by omega)
      (by simp only; ring)

/-- The NEON `Hwc_Chw4c` routine writes every element of the destination. -/
theorem neon_hwc_chw4c_complete {α : Type} [Zero α] (channels spatial : Nat) (src : Nat → α)
    (b s i : Nat) (hb : b < (channels + 4 - 1) / 4) (hs : s < spatial) (hi : i < 4) :
    ∃ v, ((b * spatial + s) * 4 + i, v)
      ∈ Neon.SynetConvertImage_Hwc_Chw4c_stores channels spatial src := by
  obtain ⟨c16, cu, ct, hcu, hct, rfl⟩ := split16 channels
  obtain ⟨s4, st, hst, rfl⟩ := split_by 4 spatial (by decide)
  have e1 : (c16 * 16 + cu * 4 + ct) / 16 = c16 := by omega
  have e2 : (c16 * 16 + cu * 4 + ct) / 4 = c16 * 4 + cu := by omega
  have e3 : c16 * 4 + cu - c16 * 4 = cu := by omega
  have e4 : c16 * 16 + cu * 4 + ct - (c16 * 4 + cu) * 4 = ct := by omega
  have e5 : (s4 * 4 + st) / 4 = s4 := by omega
  have e6 : s4 * 4 + st - s4 * 4 = st := by omega
  simp only [Neon.SynetConvertImage_Hwc_Chw4c_stores, Neon.Transpose4x4xF, Neon.Copy, Neon.F,
    Nat.reduceMul, rounds_aligned _ 4 (by decide), rounds_aligned _ 16 (by decide),
    rounds_singles, rounds_unit,
    List.length_map, List.length_range, List.mem_append, List.mem_flatMap, List.mem_map,
    List.mem_range, exists_exists_and_eq_and, List.mem_cons, List.mem_singleton,
    List.not_mem_nil, or_false, List.mem_ite_nil_right]
  simp only [AlignLo, e1, e2, e3, e4, e5, e6, Nat.sub_zero]
  by_cases h1 : b < c16 * 4
  · obtain ⟨a, r, hr, rfl⟩ := split_by 4 b (by decide)
    by_cases h2 : s < s4 * 4
    · obtain ⟨q, c, hc, rfl⟩ := split_by 4 s (by decide)
      exact ⟨_, Or.inl (Or.inl ⟨a, by omega, Or.inl ⟨q, by omega, r, hr, c, hc, i, hi,
        Prod.ext (by simp only; ring) rfl⟩⟩)⟩
    · obtain ⟨m, rfl⟩ := split_from _ s h2
      interval_cases r
      · exact ⟨_, Or.inl (Or.inl ⟨a, by omega, Or.inr ⟨m, by omega,
          Or.inl (Or.inl (Or.inl ⟨i, hi, Prod.ext (by simp only; ring) rfl⟩))⟩⟩)⟩
      · exact ⟨_, Or.inl (Or.inl ⟨a, by omega, Or.inr ⟨m, by omega,
          Or.inl (Or.inl (Or.inr ⟨i, hi, Prod.ext (by simp only; ring) rfl⟩))⟩⟩)⟩
      · exact ⟨_, Or.inl (Or.inl ⟨a, by omega, Or.inr ⟨m, by omega,
          Or.inl (Or.inr ⟨i, hi, Prod.ext (by simp only; ring) rfl⟩)⟩⟩)⟩
      · exact ⟨_, Or.inl (Or.inl ⟨a, by omega, Or.inr ⟨m, by omega,
          Or.inr ⟨i, hi, Prod.ext (by simp only; ring) rfl⟩⟩⟩)⟩
  · obtain ⟨a, rfl⟩ := split_from _ b h1
    by_cases h2 : a < cu
    · exact ⟨_, Or.inl (Or.inr ⟨a, h2, s, hs, i, hi, Prod.ext (by simp only; ring) rfl⟩)⟩
    · have ha : a = cu := by omega
      subst ha
      by_cases h3 : i < ct
      · exact ⟨_, Or.inr ⟨by omega, s, hs, Or.inl ⟨i, h3,
          Prod.ext (by simp only; ring) rfl⟩⟩⟩
      · obtain ⟨m, rfl⟩ := split_from _ i h3
        exact ⟨_, Or.inr ⟨by omega, s, hs, Or.inr ⟨m, by omega,
          Prod.ext (by simp only; ring) rfl⟩⟩⟩

/-- The NEON `Hwc_Chw4c` routine gives the memory the base routine gives for `N = 4`. -/
theorem neon_hwc_chw4c_eq {α : Type} [Zero α] (channels spatial : Nat) (src dst : Nat → α) :
    Neon.SynetConvertImage_Hwc_Chw4c channels spatial src dst
      = SynetConvertImage_Hwc_ChwXc 4 channels spatial src dst := by
  refine storeAll_eq_storeSeq _ _ (neon_hwc_chw4c_sound channels spatial src) ?_ dst
  intro j hj
  rw [(hwc_chwXc_values 4 channels spatial src (by decide)).1, ← Nat.mul_assoc] at hj
  obtain ⟨h1, h2, h3⟩ := flat_split _ 4 j hj
  obtain ⟨h4, h5, h6⟩ := flat_split _ spatial (j / 4) h1
  obtain ⟨v, hv⟩ := neon_hwc_chw4c_complete channels spatial src _ _ _ h4 h5 h2
  refine ⟨_, hv, ?_⟩
  simp only
  rw [← h6]
  exact h3.symm

/-- Every store of the NEON `Chw4c_Chw` routine writes the value the base routine has there. -/
theorem neon_chw4c_chw_sound {α : Type} [Zero α] (channels spatial : Nat) (src : Nat → α) :
    ∀ w ∈ Neon.SynetConvertImage_Chw4c_Chw_stores channels spatial src,
      (SynetConvertImage_ChwXc_Chw_values 4 channels spatial src)[w.1]? = some w.2 := by
  intro w hw
  have hb := chwXc_chw_values 4 channels spatial src (by decide)
  obtain ⟨c4, ct, hct, rfl⟩ := split_by 4 channels (by decide)
  obtain ⟨s4, st, hst, rfl⟩ := split_by 4 spatial (by decide)
  have e1 : (c4 * 4 + ct) / 4 = c4 := by omega
  have e2 : (s4 * 4 + st) / 4 = s4 := by omega
  have e3 : c4 * 4 + ct - c4 * 4 = ct := by omega
  have e4 : s4 * 4 + st - s4 * 4 = st := by omega
  simp only [Neon.SynetConvertImage_Chw4c_Chw_stores, Neon.Transpose4x4, Neon.F,
    Nat.reduceMul, rounds_aligned _ 4 (by decide), rounds_unit,
    List.length_map, List.length_range, List.mem_append, List.mem_flatMap, List.mem_map,
    List.mem_range, exists_exists_and_eq_and, List.mem_cons, List.mem_singleton,
    List.not_mem_nil, or_false, List.mem_ite_nil_right] at hw
  simp only [AlignLo, e1, e2, e3, e4, Nat.sub_zero] at hw
  rcases hw with ⟨a, ha, ⟨q, hq, r, hr, c, hc, rfl⟩ | ⟨m, hm, rfl | rfl | rfl | rfl⟩⟩
    | ⟨ht, i, hi, s, hs, rfl⟩
  · exact elem_cast (hb a r (q * 4 + c) (by omega) hr (by omega))
      (by simp only; ring) (congrArg src (by ring))
  · exact elem_cast (hb a 0 (s4 * 4 + m) (by omega) (by decide) (by omega))
      (by simp only; ring) (congrArg src (by ring))
  · exact elem_cast (hb a 1 (s4 * 4 + m) (by omega) (by decide) (by omega))
      (by simp only; ring) (congrArg src (by ring))
  · exact elem_cast (hb a 2 (s4 * 4 + m) (by omega) (by decide) (by omega))
      (by simp only; ring) (congrArg src (by ring))
  · exact elem_cast (hb a 3 (s4 * 4 + m) (by omega) (by decide) (by omega))
      (by simp only; ring) (congrArg src (by ring))
  · exact elem_cast (hb c4 i s (by omega) (by omega) hs)
      (by simp only; ring) (congrArg src (by ring))

/-- The NEON `Chw4c_Chw` routine writes every element of the destination. -/
theorem neon_chw4c_chw_complete {α : Type} [Zero α] (channels spatial : Nat) (src : Nat → α)
    (c s : Nat) (hc : c < channels) (hs : s < spatial) :
    ∃ v, (c * spatial + s, v)
      ∈ Neon.SynetConvertImage_Chw4c_Chw_stores channels spatial src := by
  obtain ⟨c4, ct, hct, rfl⟩ := split_by 4 channels (by decide)
  obtain ⟨s4, st, hst, rfl⟩ := split_by 4 spatial (by decide)
  have e1 : (c4 * 4 + ct) / 4 = c4 := by omega
  have e2 : (s4 * 4 + st) / 4 = s4 := by omega
  have e3 : c4 * 4 + ct - c4 * 4 = ct := by omega
  have e4 : s4 * 4 + st - s4 * 4 = st := by omega
  simp only [Neon.SynetConvertImage_Chw4c_Chw_stores, Neon.Transpose4x4, Neon.F,
    Nat.reduceMul, rounds_aligned _ 4 (by decide), rounds_unit,
    List.length_map, List.length_range, List.mem_append, List.mem_flatMap, List.mem_map,
    List.mem_range, exists_exists_and_eq_and, List.mem_cons, List.mem_singleton,
    List.not_mem_nil, or_false, List.mem_ite_nil_right]
  simp only [AlignLo, e1, e2, e3, e4, Nat.sub_zero]
  obtain ⟨b, i, hi, rfl⟩ := split_by 4 c (by decide)
  by_cases h1 : b < c4
  · by_cases h2 : s < s4 * 4
    · obtain ⟨q, r, hr, rfl⟩ := split_by 4 s (by decide)
      exact ⟨_, Or.inl ⟨b, h1, Or.inl ⟨q, by omega, i, hi, r, hr,
        Prod.ext (by simp only; ring) rfl⟩⟩⟩
    · obtain ⟨m, rfl⟩ := split_from _ s h2
      interval_cases i
      · exact ⟨_, Or.inl ⟨b, h1, Or.inr ⟨m, by omega,
          Or.inl (Prod.ext (by simp only; ring) rfl)⟩⟩⟩
      · exact ⟨_, Or.inl ⟨b, h1, Or.inr ⟨m, by omega,
          Or.inr (Or.inl (Prod.ext (by simp only; ring) rfl))⟩⟩⟩
      · exact ⟨_, Or.inl ⟨b, h1, Or.inr ⟨m, by omega,
          Or.inr (Or.inr (Or.inl (Prod.ext (by simp only; ring) rfl)))⟩⟩⟩
      · exact ⟨_, Or.inl ⟨b, h1, Or.inr ⟨m, by omega,
          Or.inr (Or.inr (Or.inr (Prod.ext (by simp only; ring) rfl)))⟩⟩⟩
  · have hbc : b = c4 := by omega
    subst hbc
    exact ⟨_, Or.inr ⟨by omega, i, by omega, s, hs, Prod.ext (by simp only; ring) rfl⟩⟩

/-- The NEON `Chw4c_Chw` routine gives the memory the base routine gives for `N = 4`. -/
theorem neon_chw4c_chw_eq {α : Type} [Zero α] (channels spatial : Nat) (src dst : Nat → α) :
    Neon.SynetConvertImage_Chw4c_Chw channels spatial src dst
      = SynetConvertImage_ChwXc_Chw 4 channels spatial src dst := by
  refine storeAll_eq_storeSeq _ _ (neon_chw4c_chw_sound channels spatial src) ?_ dst
  intro j hj
  rw [chwXc_chw_length 4 channels spatial src (by decide)] at hj
  obtain ⟨h1, h2, h3⟩ := flat_split _ spatial j hj
  obtain ⟨v, hv⟩ := neon_chw4c_chw_complete channels spatial src _ _ h1 h2
  exact ⟨_, hv, h3.symm⟩

/-- Every store of the NEON `Chw4c_Hwc` routine writes the value the base routine has there. -/
theorem neon_chw4c_hwc_sound {α : Type} [Zero α] (channels spatial : Nat) (src : Nat → α) :
    ∀ w ∈ Neon.SynetConvertImage_Chw4c_Hwc_stores channels spatial src,
      (SynetConvertImage_ChwXc_Hwc_values 4 channels spatial src)[w.1]? = some w.2 := by
  intro w hw
  have hb := chwXc_hwc_elem 4 channels spatial src (by decide)
  obtain ⟨c16, cu, ct, hcu, hct, rfl⟩ := split16 channels
  obtain ⟨s4, st, hst, rfl⟩ := split_by 4 spatial (by decide)
  have e1 : (c16 * 16 + cu * 4 + ct) / 16 = c16 := by omega
  have e2 : (c16 * 16 + cu * 4 + ct) / 4 = c16 * 4 + cu := by omega
  have e3 : c16 * 4 + cu - c16 * 4 = cu := by omega
  have e4 : c16 * 16 + cu * 4 + ct - (c16 * 4 + cu) * 4 = ct := by omega
  have e5 : (s4 * 4 + st) / 4 = s4 := by omega
  have e6 : s4 * 4 + st - s4 * 4 = st := by omega
  simp only [Neon.SynetConvertImage_Chw4c_Hwc_stores, Neon.Transpose4x4xF, Neon.Copy, Neon.F,
    Nat.reduceMul, rounds_aligned _ 4 (by decide), rounds_aligned _ 16 (by decide),
    rounds_singles, rounds_unit,
    List.length_map, List.length_range, List.mem_append, List.mem_flatMap, List.mem_map,
    List.mem_range, exists_exists_and_eq_and, List.mem_cons, List.mem_singleton,
    List.not_mem_nil, or_false, List.mem_ite_nil_right] at hw
  simp only [AlignLo, e1, e2, e3, e4, e5, e6, Nat.sub_zero, ite_tail] at hw
  rcases hw with ⟨a, ha, (⟨q, hq, r, hr, c, hc, l, hl, rfl⟩
      | ⟨m, hm, ((⟨l, hl, rfl⟩ | ⟨l, hl, rfl⟩) | ⟨l, hl, rfl⟩) | ⟨l, hl, rfl⟩⟩)
      | ⟨ht, i, hi, rfl | rfl | rfl | rfl⟩⟩
    | ⟨m, hm, ⟨q, hq, l, hl, rfl⟩ | ⟨ht, i, hi, rfl⟩⟩
  · exact elem_cast (hb (a * 4 + r) (q * 4 + c) l (by omega) hl (by omega))
      (by simp only; ring) (congrArg src (by ring))
  · exact elem_cast (hb (a * 4 + 0) (c16 * 4 + m) l (by omega) hl (by omega))
      (by simp only; ring) (congrArg src (by ring))
  · exact elem_cast (hb (a * 4 + 1) (c16 * 4 + m) l (by omega) hl (by omega))
      (by simp only; ring) (congrArg src (by ring))
  · exact elem_cast (hb (a * 4 + 2) (c16 * 4 + m) l (by omega) hl (by omega))
      (by simp only; ring) (congrArg src (by ring))
  · exact elem_cast (hb (a * 4 + 3) (c16 * 4 + m) l (by omega) hl (by omega))
      (by simp only; ring) (congrArg src (by ring))
  · exact elem_cast (hb (a * 4 + 0) (c16 * 4 + cu) i (by omega) (by omega) (by omega))
      (by simp only; ring) (congrArg src (by ring))
  · exact elem_cast (hb (a * 4 + 1) (c16 * 4 + cu) i (by omega) (by omega) (by omega))
      (by simp only; ring) (congrArg src (by ring))
  · exact elem_cast (hb (a * 4 + 2) (c16 * 4 + cu) i (by omega) (by omega) (by omega))
      (by simp only; ring) (congrArg src (by ring))
  · exact elem_cast (hb (a * 4 + 3) (c16 * 4 + cu) i (by omega) (by omega) (by omega))
      (by simp only; ring) (congrArg src (by ring))
  · exact elem_cast (hb (s4 * 4 + m) q l (by omega) hl (by omega))
      (by simp only; ring) (congrArg src (by ring))
  · exact elem_cast (hb (s4 * 4 + m) (c16 * 4 + cu) i (by omega) (by omega) (by omega))
      (by simp only; ring) (congrArg src (by ring))

/-- The NEON `Chw4c_Hwc` routine writes every element of the destination. -/
theorem neon_chw4c_hwc_complete {α : Type} [Zero α] (channels spatial : Nat) (src : Nat → α)
    (s c : Nat) (hs : s < spatial) (hc : c < channels) :
    ∃ v, (s * channels + c, v)
      ∈ Neon.SynetConvertImage_Chw4c_Hwc_stores channels spatial src := by
  obtain ⟨c16, cu, ct, hcu, hct, rfl⟩ := split16 channels
  obtain ⟨s4, st, hst, rfl⟩ := split_by 4 spatial (by decide)
  have e1 : (c16 * 16 + cu * 4 + ct) / 16 = c16 := by omega
  have e2 : (c16 * 16 + cu * 4 + ct) / 4 = c16 * 4 + cu := by omega
  have e3 : c16 * 4 + cu - c16 * 4 = cu := by omega
  have e4 : c16 * 16 + cu * 4 + ct - (c16 * 4 + cu) * 4 = ct := by omega
  have e5 : (s4 * 4 + st) / 4 = s4 := by omega
  have e6 : s4 * 4 + st - s4 * 4 = st := by omega
  simp only [Neon.SynetConvertImage_Chw4c_Hwc_stores, Neon.Transpose4x4xF, Neon.Copy, Neon.F,
    Nat.reduceMul, rounds_aligned _ 4 (by decide), rounds_aligned _ 16 (by decide),
    rounds_singles, rounds_unit,
    List.length_map, List.length_range, List.mem_append, List.mem_flatMap, List.mem_map,
    List.mem_range, exists_exists_and_eq_and, List.mem_cons, List.mem_singleton,
    List.not_mem_nil, or_false, List.mem_ite_nil_right]
  simp only [AlignLo, e1, e2, e3, e4, e5, e6, Nat.sub_zero, ite_tail]
  obtain ⟨b, l, hl, rfl⟩ := split_by 4 c (by decide)
  by_cases h1 : s < s4 * 4
  · obtain ⟨a, r, hr, rfl⟩ := split_by 4 s (by decide)
    by_cases h2 : b < c16 * 4
    · obtain ⟨q, c, hc4, rfl⟩ := split_by 4 b (by decide)
      exact ⟨_, Or.inl ⟨a, by omega, Or.inl (Or.inl ⟨q, by omega, r, hr, c, hc4, l, hl,
        Prod.ext (by simp only; ring) rfl⟩)⟩⟩
    · obtain ⟨m, rfl⟩ := split_from _ b h2
      by_cases h3 : m < cu
      · interval_cases r
        · exact ⟨_, Or.inl ⟨a, by omega, Or.inl (Or.inr ⟨m, h3,
            Or.inl (Or.inl (Or.inl ⟨l, hl, Prod.ext (by simp only; ring) rfl⟩))⟩)⟩⟩
        · exact ⟨_, Or.inl ⟨a, by omega, Or.inl (Or.inr ⟨m, h3,
            Or.inl (Or.inl (Or.inr ⟨l, hl, Prod.ext (by simp only; ring) rfl⟩))⟩)⟩⟩
        · exact ⟨_, Or.inl ⟨a, by omega, Or.inl (Or.inr ⟨m, h3,
            Or.inl (Or.inr ⟨l, hl, Prod.ext (by simp only; ring) rfl⟩)⟩)⟩⟩
        · exact ⟨_, Or.inl ⟨a, by omega, Or.inl (Or.inr ⟨m, h3,
            Or.inr ⟨l, hl, Prod.ext (by simp only; ring) rfl⟩⟩)⟩⟩
      · have hm : m = cu := by omega
        subst hm
        interval_cases r
        · exact ⟨_, Or.inl ⟨a, by omega, Or.inr ⟨by omega, l, by omega,
            Or.inl (Prod.ext (by simp only; ring) rfl)⟩⟩⟩
        · exact ⟨_, Or.inl ⟨a, by omega, Or.inr ⟨by omega, l, by omega,
            Or.inr (Or.inl (Prod.ext (by simp only; ring) rfl))⟩⟩⟩
        · exact ⟨_, Or.inl ⟨a, by omega, Or.inr ⟨by omega, l, by omega,
            Or.inr (Or.inr (Or.inl (Prod.ext (by simp only; ring) rfl)))⟩⟩⟩
        · exact ⟨_, Or.inl ⟨a, by omega, Or.inr ⟨by omega, l, by omega,
            Or.inr (Or.inr (Or.inr (Prod.ext (by simp only; ring) rfl)))⟩⟩⟩
  · obtain ⟨m, rfl⟩ := split_from _ s h1
    by_cases h2 : b < c16 * 4 + cu
    · exact ⟨_, Or.inr ⟨m, by omega, Or.inl ⟨b, h2, l, hl,
        Prod.ext (by simp only; ring) rfl⟩⟩⟩
    · have hbc : b = c16 * 4 + cu := by omega
      subst hbc
      exact ⟨_, Or.inr ⟨m, by omega, Or.inr ⟨by omega, l, by omega,
        Prod.ext (by simp only; ring) rfl⟩⟩⟩

/-- The NEON `Chw4c_Hwc` routine gives the memory the base routine gives for `N = 4`. -/
theorem neon_chw4c_hwc_eq {α : Type} [Zero α] (channels spatial : Nat) (src dst : Nat → α) :
    Neon.SynetConvertImage_Chw4c_Hwc channels spatial src dst
      = SynetConvertImage_ChwXc_Hwc 4 channels spatial src dst := by
  refine storeAll_eq_storeSeq _ _ (neon_chw4c_hwc_sound channels spatial src) ?_ dst
  intro j hj
  rw [chwXc_hwc_length 4 channels spatial src (by decide)] at hj
  obtain ⟨h1, h2, h3⟩ := flat_split _ channels j hj
  obtain ⟨v, hv⟩ := neon_chw4c_hwc_complete channels spatial src _ _ h1 h2
  exact ⟨_, hv, h3.symm⟩

/-- Every store of the loops of the NEON `Oiyx_Yxio` routine writes the value the base routine
has there. -/
theorem neon_oiyx_yxio_sound {α : Type} [Zero α] (output input kernel : Nat) (src : Nat → α)
    (hk : ¬ kernel = 1) :
    ∀ w ∈ Neon.SynetConvertFilter_Oiyx_Yxio_stores output input kernel src,
      (SynetConvertFilter_Oiyx_Yxio_values output input kernel src)[w.1]? = some w.2 := by
  intro w hw
  have hb := (oiyx_yxio_values output input kernel src).2
  obtain ⟨o4, ot, hot, rfl⟩ := split_by 4 output (by decide)
  obtain ⟨k4, kt, hkt, rfl⟩ := split_by 4 kernel (by decide)
  have e1 : (o4 * 4 + ot) / 4 = o4 := by omega
  have e2 : (k4 * 4 + kt) / 4 = k4 := by omega
  have e3 : o4 * 4 + ot - o4 * 4 = ot := by omega
  have e4 : k4 * 4 + kt - k4 * 4 = kt := by omega
  simp only [Neon.SynetConvertFilter_Oiyx_Yxio_stores, if_neg hk, Neon.Transpose4x4, Neon.F,
    Nat.reduceMul, rounds_aligned _ 4 (by decide), rounds_unit,
    List.length_map, List.length_range, List.mem_append, List.mem_flatMap, List.mem_map,
    List.mem_range, exists_exists_and_eq_and, List.mem_cons, List.mem_singleton,
    List.not_mem_nil, or_false, List.mem_ite_nil_right] at hw
  simp only [AlignLo, e1, e2, e3, e4, Nat.sub_zero] at hw
  rcases hw with ⟨i, hi, ⟨kq, hkq, ⟨oq, hoq, r, hr, c, hc, rfl⟩
      | ⟨m, hm, rfl | rfl | rfl | rfl⟩⟩ | ⟨km, hkm, o, ho, rfl⟩⟩
  · exact elem_cast (hb (kq * 4 + r) i (oq * 4 + c) (by omega) hi (by omega))
      (by simp only; ring) (congrArg src (by ring))
  · exact elem_cast (hb (kq * 4 + 0) i (o4 * 4 + m) (by omega) hi (by omega))
      (by simp only; ring) (congrArg src (by ring))
  · exact elem_cast (hb (kq * 4 + 1) i (o4 * 4 + m) (by omega) hi (by omega))
      (by simp only; ring) (congrArg src (by ring))
  · exact elem_cast (hb (kq * 4 + 2) i (o4 * 4 + m) (by omega) hi (by omega))
      (by simp only; ring) (congrArg src (by ring))
  · exact elem_cast (hb (kq * 4 + 3) i (o4 * 4 + m) (by omega) hi (by omega))
      (by simp only; ring) (congrArg src (by ring))
  · exact elem_cast (hb (k4 * 4 + km) i o (by omega) hi ho)
      (by simp only; ring) (congrArg src (by ring))

/-- The loops of the NEON `Oiyx_Yxio` routine write every element of the destination. -/
theorem neon_oiyx_yxio_complete {α : Type} [Zero α] (output input kernel : Nat)
    (src : Nat → α) (hk : ¬ kernel = 1) (k i o : Nat) (hk1 : k < kernel) (hi : i < input)
    (ho : o < output) :
    ∃ v, ((k * input + i) * output + o, v)
      ∈ Neon.SynetConvertFilter_Oiyx_Yxio_stores output input kernel src := by
  obtain ⟨o4, ot, hot, rfl⟩ := split_by 4 output (by decide)
  obtain ⟨k4, kt, hkt, rfl⟩ := split_by 4 kernel (by decide)
  have e1 : (o4 * 4 + ot) / 4 = o4 := by omega
  have e2 : (k4 * 4 + kt) / 4 = k4 := by omega
  have e3 : o4 * 4 + ot - o4 * 4 = ot := by omega
  have e4 : k4 * 4 + kt - k4 * 4 = kt := by omega
  simp only [Neon.SynetConvertFilter_Oiyx_Yxio_stores, if_neg hk, Neon.Transpose4x4, Neon.F,
    Nat.reduceMul, rounds_aligned _ 4 (by decide), rounds_unit,
    List.length_map, List.length_range, List.mem_append, List.mem_flatMap, List.mem_map,
    List.mem_range, exists_exists_and_eq_and, List.mem_cons, List.mem_singleton,
    List.not_mem_nil, or_false, List.mem_ite_nil_right]
  simp only [AlignLo, e1, e2, e3, e4, Nat.sub_zero]
  by_cases h1 : k < k4 * 4
  · obtain ⟨kq, r, hr, rfl⟩ := split_by 4 k (by decide)
    by_cases h2 : o < o4 * 4
    · obtain ⟨oq, c, hc, rfl⟩ := split_by 4 o (by decide)
      exact ⟨_, i, hi, Or.inl ⟨kq, by omega, Or.inl ⟨oq, by omega, r, hr, c, hc,
        Prod.ext (by simp only; ring) rfl⟩⟩⟩
    · obtain ⟨m, rfl⟩ := split_from _ o h2
      interval_cases r
      · exact ⟨_, i, hi, Or.inl ⟨kq, by omega, Or.inr ⟨m, by omega,
          Or.inl (Prod.ext (by simp only; ring) rfl)⟩⟩⟩
      · exact ⟨_, i, hi, Or.inl ⟨kq, by omega, Or.inr ⟨m, by omega,
          Or.inr (Or.inl (Prod.ext (by simp only; ring) rfl))⟩⟩⟩
      · exact ⟨_, i, hi, Or.inl ⟨kq, by omega, Or.inr ⟨m, by omega,
          Or.inr (Or.inr (Or.inl (Prod.ext (by simp only; ring) rfl)))⟩⟩⟩
      · exact ⟨_, i, hi, Or.inl ⟨kq, by omega, Or.inr ⟨m, by omega,
          Or.inr (Or.inr (Or.inr (Prod.ext (by simp only; ring) rfl)))⟩⟩⟩
  · obtain ⟨km, rfl⟩ := split_from _ k h1
    exact ⟨_, i, hi, Or.inr ⟨km, by omega, o, ho, Prod.ext (by simp only; ring) rfl⟩⟩

/-- For `kernel == 1` the base `Oiyx_Yxio` routine writes the values of the base `Chw_Hwc`
routine for `output` channels and `input` positions. -/
theorem oiyx_yxio_kernel1 {α : Type} [Zero α] (output input : Nat) (src : Nat → α) :
    SynetConvertFilter_Oiyx_Yxio_values output input 1 src
      = SynetConvertImage_Chw_Hwc_values output input src := by
  have hf := oiyx_yxio_values output input 1 src
  have hg := chw_hwc_values output input src
  refine list_eq_of_elems _ _ (by rw [hf.1, hg.1, Nat.one_mul]) ?_
  intro j hj
  rw [hf.1, Nat.one_mul] at hj
  obtain ⟨s, c, hs, hc, rfl⟩ := grid_split input output j hj
  rw [hg.2 s c hs hc]
  exact elem_cast (hf.2 0 s c (by decide) hs hc) (by ring) (congrArg src (by ring))

/-- The NEON `Oiyx_Yxio` routine gives the memory the base routine gives. -/
theorem neon_oiyx_yxio_eq {α : Type} [Zero α] (output input kernel : Nat)
    (src dst : Nat → α) :
    Neon.SynetConvertFilter_Oiyx_Yxio output input kernel src dst
      = SynetConvertFilter_Oiyx_Yxio output input kernel src dst := by
  by_cases hk : kernel = 1
  · subst hk
    have h := neon_chw_hwc_eq output input src dst
    unfold Neon.SynetConvertImage_Chw_Hwc SynetConvertImage_Chw_Hwc at h
    unfold Neon.SynetConvertFilter_Oiyx_Yxio SynetConvertFilter_Oiyx_Yxio
    rw [oiyx_yxio_kernel1]
    simp only [Neon.SynetConvertFilter_Oiyx_Yxio_stores, if_true]
    exact h
  · refine storeAll_eq_storeSeq _ _ (neon_oiyx_yxio_sound output input kernel src hk) ?_ dst
    intro j hj
    rw [(oiyx_yxio_values output input kernel src).1, ← Nat.mul_assoc] at hj
    obtain ⟨p, o, hp, ho, rfl⟩ := grid_split _ output j hj
    obtain ⟨k, i, hk1, hi, rfl⟩ := grid_split kernel input p hp
    obtain ⟨v, hv⟩ := neon_oiyx_yxio_complete output input kernel src hk k i o hk1 hi ho
    exact ⟨_, hv, rfl⟩

/-- For one output channel the base `Oiyx_Yxio` routine writes the values of the base
`Chw_Hwc` routine for `input` channels and `kernel` positions. -/
theorem oiyx_yxio_output1 {α : Type} [Zero α] (input kernel : Nat) (src : Nat → α) :
    SynetConvertFilter_Oiyx_Yxio_values 1 input kernel src
      = SynetConvertImage_Chw_Hwc_values input kernel src := by
  have hf := oiyx_yxio_values 1 input kernel src
  have hg := chw_hwc_values input kernel src
  refine list_eq_of_elems _ _ (by rw [hf.1, hg.1, Nat.mul_one]) ?_
  intro j hj
  rw [hf.1, Nat.mul_one] at hj
  obtain ⟨s, c, hs, hc, rfl⟩ := grid_split kernel input j hj
  rw [hg.2 s c hs hc]
  exact elem_cast (hf.2 s c 0 hs hc (by decide)) (by ring) (congrArg src (by ring))

/-- The NEON `Yxio_Oiyx` routine gives the memory the base routine gives. -/
theorem neon_yxio_oiyx_eq {α : Type} [Zero α] (output input kernel : Nat)
    (src dst : Nat → α) :
    Neon.SynetConvertFilter_Yxio_Oiyx output input kernel src dst
      = SynetConvertFilter_Yxio_Oiyx output input kernel src dst := by
  unfold Neon.SynetConvertFilter_Yxio_Oiyx SynetConvertFilter_Yxio_Oiyx
  by_cases hk : kernel = 1
  · subst hk
    have h := neon_chw_hwc_eq input output src dst
    unfold Neon.SynetConvertImage_Chw_Hwc SynetConvertImage_Chw_Hwc at h
    unfold SynetConvertFilter_Oiyx_Yxio
    rw [oiyx_yxio_output1]
    simp only [Neon.SynetConvertFilter_Yxio_Oiyx_stores, if_true]
    exact h
  · simp only [Neon.SynetConvertFilter_Yxio_Oiyx_stores, if_neg hk]
    exact neon_oiyx_yxio_eq kernel input output src dst

/-- Every store of the loops of the NEON `Oiyx_Oyxi4o` routine writes the value the base
routine has there. -/
theorem neon_oiyx_oyxi4o_sound {α : Type} [Zero α] (output input kernel : Nat)
    (src : Nat → α) (hk : ¬ kernel = 1) :
    ∀ w ∈ Neon.SynetConvertFilter_Oiyx_Oyxi4o_stores output input kernel src,
      (SynetConvertFilter_Oiyx_OyxiXo_values 4 output input kernel src)[w.1]? = some w.2 := by
  intro w hw
  have hb := (oiyx_oyxiXo_values 4 output input kernel src (by decide)).2
  obtain ⟨o4, ot, hot, rfl⟩ := split_by 4 output (by decide)
  obtain ⟨k4, kt, hkt, rfl⟩ := split_by 4 kernel (by decide)
  have e1 : (o4 * 4 + ot) / 4 = o4 := by omega
  have e2 : (k4 * 4 + kt) / 4 = k4 := by omega
  have e3 : o4 * 4 + ot - o4 * 4 = ot := by omega
  have e4 : k4 * 4 + kt - k4 * 4 = kt := by omega
  simp only [Neon.SynetConvertFilter_Oiyx_Oyxi4o_stores, if_neg hk, Neon.Transpose4x4, Neon.F,
    Nat.reduceMul, rounds_aligned _ 4 (by decide), rounds_unit,
    List.length_map, List.length_range, List.mem_append, List.mem_flatMap, List.mem_map,
    List.mem_range, exists_exists_and_eq_and, List.mem_cons, List.mem_singleton,
    List.not_mem_nil, or_false, List.mem_ite_nil_right] at hw
  simp only [AlignLo, e1, e2, e3, e4, Nat.sub_zero] at hw
  rcases hw with ⟨a, ha, i, hi, ⟨kq, hkq, r, hr, j, hj, rfl⟩ | ⟨km, hkm, j, hj, rfl⟩⟩
    | ⟨ht, i, hi, k, hk1, ⟨j, hj, rfl⟩ | ⟨m, hm, rfl⟩⟩
  · exact elem_pos (hb a (kq * 4 + r) i j (by omega) (by omega) hi hj) (by omega)
      (by simp only; ring) (congrArg src (by ring))
  · exact elem_pos (hb a (k4 * 4 + km) i j (by omega) (by omega) hi hj) (by omega)
      (by simp only; ring) (congrArg src (by ring))
  · exact elem_pos (hb o4 k i j (by omega) hk1 hi (by omega)) (by omega)
      (by simp only; ring) (congrArg src (by ring))
  · exact elem_neg (hb o4 k i (ot + m) (by omega) hk1 hi (by omega)) (by omega)
      (by simp only; ring)

/-- The loops of the NEON `Oiyx_Oyxi4o` routine write every element of the destination. -/
theorem neon_oiyx_oyxi4o_complete {α : Type} [Zero α] (output input kernel : Nat)
    (src : Nat → α) (hk : ¬ kernel = 1) (b k i j : Nat) (hb : b < (output + 4 - 1) / 4)
    (hk1 : k < kernel) (hi : i < input) (hj : j < 4) :
    ∃ v, (((b * kernel + k) * input + i) * 4 + j, v)
      ∈ Neon.SynetConvertFilter_Oiyx_Oyxi4o_stores output input kernel src := by
  obtain ⟨o4, ot, hot, rfl⟩ := split_by 4 output (by decide)
  obtain ⟨k4, kt, hkt, rfl⟩ := split_by 4 kernel (by decide)
  have e1 : (o4 * 4 + ot) / 4 = o4 := by omega
  have e2 : (k4 * 4 + kt) / 4 = k4 := by omega
  have e3 : o4 * 4 + ot - o4 * 4 = ot := by omega
  have e4 : k4 * 4 + kt - k4 * 4 = kt := by omega
  simp only [Neon.SynetConvertFilter_Oiyx_Oyxi4o_stores, if_neg hk, Neon.Transpose4x4, Neon.F,
    Nat.reduceMul, rounds_aligned _ 4 (by decide), rounds_unit,
    List.length_map, List.length_range, List.mem_append, List.mem_flatMap, List.mem_map,
    List.mem_range, exists_exists_and_eq_and, List.mem_cons, List.mem_singleton,
    List.not_mem_nil, or_false, List.mem_ite_nil_right]
  simp only [AlignLo, e1, e2, e3, e4, Nat.sub_zero]
  by_cases h1 : b < o4
  · by_cases h2 : k < k4 * 4
    · obtain ⟨kq, r, hr, rfl⟩ := split_by 4 k (by decide)
      exact ⟨_, Or.inl ⟨b, h1, i, hi, Or.inl ⟨kq, by omega, r, hr, j, hj,
        Prod.ext (by simp only; ring) rfl⟩⟩⟩
    · obtain ⟨km, rfl⟩ := split_from _ k h2
      exact ⟨_, Or.inl ⟨b, h1, i, hi, Or.inr ⟨km, by omega, j, hj,
        Prod.ext (by simp only; ring) rfl⟩⟩⟩
  · have hbo : b = o4 := by omega
    subst hbo
    by_cases h2 : j < ot
    · exact ⟨_, Or.inr ⟨by omega, i, hi, k, hk1, Or.inl ⟨j, h2,
        Prod.ext (by simp only; ring) rfl⟩⟩⟩
    · obtain ⟨m, rfl⟩ := split_from _ j h2
      exact ⟨_, Or.inr ⟨by omega, i, hi, k, hk1, Or.inr ⟨m, by omega,
        Prod.ext (by simp only; ring) rfl⟩⟩⟩

/-- For `kernel == 1` the base `Oiyx_OyxiXo<N>` routine writes the values of the base
`Chw_ChwXc<N>` routine for `output` channels and `input` positions. -/
theorem oiyx_oyxiXo_kernel1 {α : Type} [Zero α] (N output input : Nat) (src : Nat → α)
    (hN : 0 < N) :
    SynetConvertFilter_Oiyx_OyxiXo_values N output input 1 src
      = SynetConvertImage_Chw_ChwXc_values N output input src := by
  have hf := oiyx_oyxiXo_values N output input 1 src hN
  have hg := chw_chwXc_values N output input src hN
  refine list_eq_of_elems _ _ (by rw [hf.1, hg.1, Nat.one_mul]) ?_
  intro j hj
  rw [hf.1, Nat.one_mul, ← Nat.mul_assoc] at hj
  obtain ⟨p, i, hp, hi, rfl⟩ := grid_split _ N j hj
  obtain ⟨b, s, hb, hs, rfl⟩ := grid_split _ input p hp
  rw [hg.2 b s i hb hs hi]
  have h := hf.2 b 0 s i hb (by decide) hs hi
  have ea : (b * input + s) * N + i = ((b * 1 + 0) * input + s) * N + i := by ring
  have es : ((b * N + i) * input + s) * 1 + 0 = (b * N + i) * input + s := by ring
  rw [ea, h, es]

/-- The NEON `Oiyx_Oyxi4o` routine gives the memory the base routine gives for `N = 4`. -/
theorem neon_oiyx_oyxi4o_eq {α : Type} [Zero α] (output input kernel : Nat)
    (src dst : Nat → α) :
    Neon.SynetConvertFilter_Oiyx_Oyxi4o output input kernel src dst
      = SynetConvertFilter_Oiyx_OyxiXo 4 output input kernel src dst := by
  by_cases hk : kernel = 1
  · subst hk
    have h := neon_chw_chw4c_eq output input src dst
    unfold Neon.SynetConvertImage_Chw_Chw4c SynetConvertImage_Chw_ChwXc at h
    unfold Neon.SynetConvertFilter_Oiyx_Oyxi4o SynetConvertFilter_Oiyx_OyxiXo
    rw [oiyx_oyxiXo_kernel1 4 output input src (by decide)]
    simp only [Neon.SynetConvertFilter_Oiyx_Oyxi4o_stores, if_true]
    exact h
  · refine storeAll_eq_storeSeq _ _ (neon_oiyx_oyxi4o_sound output input kernel src hk) ?_ dst
    intro j hj
    rw [(oiyx_oyxiXo_values 4 output input kernel src (by decide)).1, ← Nat.mul_assoc,
      ← Nat.mul_assoc] at hj
    obtain ⟨p, l, hp, hl, rfl⟩ := grid_split _ 4 j hj
    obtain ⟨q, i, hq, hi, rfl⟩ := grid_split _ input p hp
    obtain ⟨b, k, hb, hk1, rfl⟩ := grid_split _ kernel q hq
    obtain ⟨v, hv⟩ := neon_oiyx_oyxi4o_complete output input kernel src hk b k i l hb hk1 hi hl
    exact ⟨_, hv, rfl⟩

/-- Every store of the loops of the NEON `Oyxi4o_Oiyx` routine writes the value the base
routine has there. -/
theorem neon_oyxi4o_oiyx_sound {α : Type} [Zero α] (output input kernel : Nat)
    (src : Nat → α) (hk : ¬ kernel = 1) :
    ∀ w ∈ Neon.SynetConvertFilter_Oyxi4o_Oiyx_stores output input kernel src,
      (SynetConvertFilter_OyxiXo_Oiyx_values 4 output input kernel src)[w.1]? = some w.2 := by
  intro w hw
  have hb := oyxiXo_oiyx_values 4 output input kernel src (by decide)
  obtain ⟨o4, ot, hot, rfl⟩ := split_by 4 output (by decide)
  obtain ⟨k4, kt, hkt, rfl⟩ := split_by 4 kernel (by decide)
  have e1 : (o4 * 4 + ot) / 4 = o4 := by omega
  have e2 : (k4 * 4 + kt) / 4 = k4 := by omega
  have e3 : o4 * 4 + ot - o4 * 4 = ot := by omega
  have e4 : k4 * 4 + kt - k4 * 4 = kt := by omega
  simp only [Neon.SynetConvertFilter_Oyxi4o_Oiyx_stores, if_neg hk, Neon.Transpose4x4, Neon.F,
    Nat.reduceMul, rounds_aligned _ 4 (by decide), rounds_unit,
    List.length_map, List.length_range, List.mem_append, List.mem_flatMap, List.mem_map,
    List.mem_range, exists_exists_and_eq_and, List.mem_cons, List.mem_singleton,
    List.not_mem_nil, or_false, List.mem_ite_nil_right] at hw
  simp only [AlignLo, e1, e2, e3, e4, Nat.sub_zero] at hw
  rcases hw with ⟨a, ha, i, hi, ⟨kq, hkq, r, hr, c, hc, rfl⟩
      | ⟨km, hkm, rfl | rfl | rfl | rfl⟩⟩
    | ⟨ht, j, hj, i, hi, k, hk1, rfl⟩
  · exact elem_cast (hb a r i (kq * 4 + c) (by omega) hr hi (by omega))
      (by simp only; ring) (congrArg src (by ring))
  · exact elem_cast (hb a 0 i (k4 * 4 + km) (by omega) (by decide) hi (by omega))
      (by simp only; ring) (congrArg src (by ring))
  · exact elem_cast (hb a 1 i (k4 * 4 + km) (by omega) (by decide) hi (by omega))
      (by simp only; ring) (congrArg src (by ring))
  · exact elem_cast (hb a 2 i (k4 * 4 + km) (by omega) (by decide) hi (by omega))
      (by simp only; ring) (congrArg src (by ring))
  · exact elem_cast (hb a 3 i (k4 * 4 + km) (by omega) (by decide) hi (by omega))
      (by simp only; ring) (congrArg src (by ring))
  · exact elem_cast (hb o4 j i k (by omega) (by omega) hi hk1)
      (by simp only; ring) (congrArg src (by ring))

/-- The loops of the NEON `Oyxi4o_Oiyx` routine write every element of the destination. -/
theorem neon_oyxi4o_oiyx_complete {α : Type} [Zero α] (output input kernel : Nat)
    (src : Nat → α) (hk : ¬ kernel = 1) (o i k : Nat) (ho : o < output) (hi : i < input)
    (hk1 : k < kernel) :
    ∃ v, ((o * input + i) * kernel + k, v)
      ∈ Neon.SynetConvertFilter_Oyxi4o_Oiyx_stores output input kernel src := by
  obtain ⟨o4, ot, hot, rfl⟩ := split_by 4 output (by decide)
  obtain ⟨k4, kt, hkt, rfl⟩ := split_by 4 kernel (by decide)
  have e1 : (o4 * 4 + ot) / 4 = o4 := by omega
  have e2 : (k4 * 4 + kt) / 4 = k4 := by omega
  have e3 : o4 * 4 + ot - o4 * 4 = ot := by omega
  have e4 : k4 * 4 + kt - k4 * 4 = kt := by omega
  simp only [Neon.SynetConvertFilter_Oyxi4o_Oiyx_stores, if_neg hk, Neon.Transpose4x4, Neon.F,
    Nat.reduceMul, rounds_aligned _ 4 (by decide), rounds_unit,
    List.length_map, List.length_range, List.mem_append, List.mem_flatMap, List.mem_map,
    List.mem_range, exists_exists_and_eq_and, List.mem_cons, List.mem_singleton,
    List.not_mem_nil, or_false, List.mem_ite_nil_right]
  simp only [AlignLo, e1, e2, e3, e4, Nat.sub_zero]
  obtain ⟨b, j, hj, rfl⟩ := split_by 4 o (by decide)
  by_cases h1 : b < o4
  · by_cases h2 : k < k4 * 4
    · obtain ⟨kq, c, hc, rfl⟩ := split_by 4 k (by decide)
      exact ⟨_, Or.inl ⟨b, h1, i, hi, Or.inl ⟨kq, by omega, j, hj, c, hc,
        Prod.ext (by simp only; ring) rfl⟩⟩⟩
    · obtain ⟨km, rfl⟩ := split_from _ k h2
      interval_cases j
      · exact ⟨_, Or.inl ⟨b, h1, i, hi, Or.inr ⟨km, by omega,
          Or.inl (Prod.ext (by simp only; ring) rfl)⟩⟩⟩
      · exact ⟨_, Or.inl ⟨b, h1, i, hi, Or.inr ⟨km, by omega,
          Or.inr (Or.inl (Prod.ext (by simp only; ring) rfl))⟩⟩⟩
      · exact ⟨_, Or.inl ⟨b, h1, i, hi, Or.inr ⟨km, by omega,
          Or.inr (Or.inr (Or.inl (Prod.ext (by simp only; ring) rfl)))⟩⟩⟩
      · exact ⟨_, Or.inl ⟨b, h1, i, hi, Or.inr ⟨km, by omega,
          Or.inr (Or.inr (Or.inr (Prod.ext (by simp only; ring) rfl)))⟩⟩⟩
  · have hbo : b = o4 := by omega
    subst hbo
    exact ⟨_, Or.inr ⟨by omega, j, by omega, i, hi, k, hk1,
      Prod.ext (by simp only; ring) rfl⟩⟩

/-- For `kernel == 1` the base `OyxiXo_Oiyx<N>` routine writes the values of the base
`ChwXc_Chw<N>` routine for `output` channels and `input` positions. -/
theorem oyxiXo_oiyx_kernel1 {α : Type} (N output input : Nat) (src : Nat → α)
    (hN : 0 < N) :
    SynetConvertFilter_OyxiXo_Oiyx_values N output input 1 src
      = SynetConvertImage_ChwXc_Chw_values N output input src := by
  have hl1 := oyxiXo_oiyx_length N output input 1 src hN
  have hl2 := chwXc_chw_length N output input src hN
  refine list_eq_of_elems _ _ (by rw [hl1, hl2, Nat.mul_one]) ?_
  intro j hj
  rw [hl1, Nat.mul_one] at hj
  obtain ⟨c, s, hc, hs, rfl⟩ := grid_split output input j hj
  obtain ⟨b, i, hi, rfl⟩ := split_by N c hN
  rw [chwXc_chw_values N output input src hN b i s hc hi hs]
  have h := oyxiXo_oiyx_values N output input 1 src hN b i s 0 hc hi hs (by decide)
  have ea : (b * N + i) * input + s = ((b * N + i) * input + s) * 1 + 0 := by ring
  have es : ((b * 1 + 0) * input + s) * N + i = (b * input + s) * N + i := by ring
  rw [ea, h, es]

/-- The NEON `Oyxi4o_Oiyx` routine gives the memory the base routine gives for `N = 4`. -/
theorem neon_oyxi4o_oiyx_eq {α : Type} [Zero α] (output input kernel : Nat)
    (src dst : Nat → α) :
    Neon.SynetConvertFilter_Oyxi4o_Oiyx output input kernel src dst
      = SynetConvertFilter_OyxiXo_Oiyx 4 output input kernel src dst := by
  by_cases hk : kernel = 1
  · subst hk
    have h := neon_chw4c_chw_eq output input src dst
    unfold Neon.SynetConvertImage_Chw4c_Chw SynetConvertImage_ChwXc_Chw at h
    unfold Neon.SynetConvertFilter_Oyxi4o_Oiyx SynetConvertFilter_OyxiXo_Oiyx
    rw [oyxiXo_oiyx_kernel1 4 output input src (by decide)]
    simp only [Neon.SynetConvertFilter_Oyxi4o_Oiyx_stores, if_true]
    exact h
  · refine storeAll_eq_storeSeq _ _ (neon_oyxi4o_oiyx_sound output input kernel src hk) ?_ dst
    intro j hj
    rw [oyxiXo_oiyx_length 4 output input kernel src (by decide), ← Nat.mul_assoc] at hj
    obtain ⟨p, k, hp, hk1, rfl⟩ := grid_split _ kernel j hj
    obtain ⟨o, i, ho, hi, rfl⟩ := grid_split output input p hp
    obtain ⟨v, hv⟩ := neon_oyxi4o_oiyx_complete output input kernel src hk o i k ho hi hk1
    exact ⟨_, hv, rfl⟩

/-- Every store of the NEON `Yxio_Oyxi4o` routine writes the value the base routine has
there. -/
theorem neon_yxio_oyxi4o_sound {α : Type} [Zero α] (output input kernel : Nat)
    (src : Nat → α) :
    ∀ w ∈ Neon.SynetConvertFilter_Yxio_Oyxi4o_stores output input kernel src,
      (SynetConvertFilter_Yxio_OyxiXo_values 4 output input kernel src)[w.1]? = some w.2 := by
  intro w hw
  have hb := yxio_oyxiXo_pos 4 output input kernel src (by decide)
  have hflat := fun k i => flat_lt k i kernel input
  obtain ⟨c16, cu, ct, hcu, hct, rfl⟩ := split16 output
  have e1 : (c16 * 16 + cu * 4 + ct) / 16 = c16 := by omega
  have e2 : (c16 * 16 + cu * 4 + ct) / 4 = c16 * 4 + cu := by omega
  have e3 : c16 * 4 + cu - c16 * 4 = cu := by omega
  have e4 : c16 * 16 + cu * 4 + ct - (c16 * 4 + cu) * 4 = ct := by omega
  simp only [Neon.SynetConvertFilter_Yxio_Oyxi4o_stores, Neon.Transpose4x4xF, Neon.Copy,
    Neon.F, Nat.reduceMul, rounds_aligned _ 4 (by decide), rounds_aligned _ 16 (by decide),
    rounds_singles, rounds_unit,
    List.length_map, List.length_range, List.mem_append, List.mem_flatMap, List.mem_map,
    List.mem_range, exists_exists_and_eq_and, List.mem_cons, List.mem_singleton,
    List.not_mem_nil, or_false, List.mem_ite_nil_right] at hw
  generalize hki : kernel * input = ki at hw hb hflat
  obtain ⟨s4, st, hst, rfl⟩ := split_by 4 ki (by decide)
  have e5 : (s4 * 4 + st) / 4 = s4 := by omega
  have e6 : s4 * 4 + st - s4 * 4 = st := by omega
  have e7 : ct + (4 - ct * 1) = 4 := by omega
  simp only [AlignLo, e1, e2, e3, e4, e5, e6, e7, Nat.sub_zero] at hw
  rcases hw with (⟨a, ha, ⟨q, hq, r, hr, c, hc, l, hl, rfl⟩
      | ⟨m, hm, ((⟨l, hl, rfl⟩ | ⟨l, hl, rfl⟩) | ⟨l, hl, rfl⟩) | ⟨l, hl, rfl⟩⟩⟩
      | ⟨a, ha, s, hs, l, hl, rfl⟩)
    | ⟨ht, k, hk, i, hi, ⟨j, hj, rfl⟩ | ⟨j, hj, rfl⟩⟩
  · exact elem_pos (hb (a * 4 + r) (q * 4 + c) l (by omega) (by omega) hl) (by omega)
      (by simp only; ring) (congrArg src (by ring))
  · exact elem_pos (hb (a * 4 + 0) (s4 * 4 + m) l (by omega) (by omega) hl) (by omega)
      (by simp only; ring) (congrArg src (by ring))
  · exact elem_pos (hb (a * 4 + 1) (s4 * 4 + m) l (by omega) (by omega) hl) (by omega)
      (by simp only; ring) (congrArg src (by ring))
  · exact elem_pos (hb (a * 4 + 2) (s4 * 4 + m) l (by omega) (by omega) hl) (by omega)
      (by simp only; ring) (congrArg src (by ring))
  · exact elem_pos (hb (a * 4 + 3) (s4 * 4 + m) l (by omega) (by omega) hl) (by omega)
      (by simp only; ring) (congrArg src (by ring))
  · exact elem_pos (hb (c16 * 4 + a) s l (by omega) hs hl) (by omega)
      (by simp only; ring) (congrArg src (by ring))
  · exact elem_pos (hb (c16 * 4 + cu) (k * input + i) j (by omega) (hflat k i hk hi)
      (by omega)) (by omega) (by simp only; ring) (congrArg src (by ring))
  · exact elem_neg (hb (c16 * 4 + cu) (k * input + i) (ct + j) (by omega) (hflat k i hk hi)
      (by omega)) (by omega) (by simp only; ring)

/-- The NEON `Yxio_Oyxi4o` routine writes every element of the destination. -/
theorem neon_yxio_oyxi4o_complete {α : Type} [Zero α] (output input kernel : Nat)
    (src : Nat → α) (b p i : Nat) (hb : b < (output + 4 - 1) / 4) (hp : p < kernel * input)
    (hi : i < 4) :
    ∃ v, ((b * (kernel * input) + p) * 4 + i, v)
      ∈ Neon.SynetConvertFilter_Yxio_Oyxi4o_stores output input kernel src := by
  obtain ⟨k, i1, hk, hi1, hpe⟩ := grid_split kernel input p hp
  obtain ⟨c16, cu, ct, hcu, hct, rfl⟩ := split16 output
  have e1 : (c16 * 16 + cu * 4 + ct) / 16 = c16 := by omega
  have e2 : (c16 * 16 + cu * 4 + ct) / 4 = c16 * 4 + cu := by omega
  have e3 : c16 * 4 + cu - c16 * 4 = cu := by omega
  have e4 : c16 * 16 + cu * 4 + ct - (c16 * 4 + cu) * 4 = ct := by omega
  simp only [Neon.SynetConvertFilter_Yxio_Oyxi4o_stores, Neon.Transpose4x4xF, Neon.Copy,
    Neon.F, Nat.reduceMul, rounds_aligned _ 4 (by decide), rounds_aligned _ 16 (by decide),
    rounds_singles, rounds_unit,
    List.length_map, List.length_range, List.mem_append, List.mem_flatMap, List.mem_map,
    List.mem_range, exists_exists_and_eq_and, List.mem_cons, List.mem_singleton,
    List.not_mem_nil, or_false, List.mem_ite_nil_right]
  generalize hki : kernel * input = ki at hp ⊢
  obtain ⟨s4, st, hst, rfl⟩ := split_by 4 ki (by decide)
  have e5 : (s4 * 4 + st) / 4 = s4 := by omega
  have e6 : s4 * 4 + st - s4 * 4 = st := by omega
  have e7 : ct + (4 - ct * 1) = 4 := by omega
  simp only [AlignLo, e1, e2, e3, e4, e5, e6, e7, Nat.sub_zero]
  by_cases h1 : b < c16 * 4
  · obtain ⟨a, r, hr, rfl⟩ := split_by 4 b (by decide)
    by_cases h2 : p < s4 * 4
    · obtain ⟨q, c, hc, rfl⟩ := split_by 4 p (by decide)
      exact ⟨_, Or.inl (Or.inl ⟨a, by omega, Or.inl ⟨q, by omega, r, hr, c, hc, i, hi,
        Prod.ext (by simp only; ring) rfl⟩⟩)⟩
    · obtain ⟨m, rfl⟩ := split_from _ p h2
      interval_cases r
      · exact ⟨_, Or.inl (Or.inl ⟨a, by omega, Or.inr ⟨m, by omega,
          Or.inl (Or.inl (Or.inl ⟨i, hi, Prod.ext (by simp only; ring) rfl⟩))⟩⟩)⟩
      · exact ⟨_, Or.inl (Or.inl ⟨a, by omega, Or.inr ⟨m, by omega,
          Or.inl (Or.inl (Or.inr ⟨i, hi, Prod.ext (by simp only; ring) rfl⟩))⟩⟩)⟩
      · exact ⟨_, Or.inl (Or.inl ⟨a, by omega, Or.inr ⟨m, by omega,
          Or.inl (Or.inr ⟨i, hi, Prod.ext (by simp only; ring) rfl⟩)⟩⟩)⟩
      · exact ⟨_, Or.inl (Or.inl ⟨a, by omega, Or.inr ⟨m, by omega,
          Or.inr ⟨i, hi, Prod.ext (by simp only; ring) rfl⟩⟩⟩)⟩
  · obtain ⟨a, rfl⟩ := split_from _ b h1
    by_cases h2 : a < cu
    · exact ⟨_, Or.inl (Or.inr ⟨a, h2, p, hp, i, hi, Prod.ext (by simp only; ring) rfl⟩)⟩
    · have ha : a = cu := by omega
      subst ha
      subst hpe
      by_cases h3 : i < ct
      · exact ⟨_, Or.inr ⟨by omega, k, hk, i1, hi1, Or.inl ⟨i, h3,
          Prod.ext (by simp only; ring) rfl⟩⟩⟩
      · obtain ⟨m, rfl⟩ := split_from _ i h3
        exact ⟨_, Or.inr ⟨by omega, k, hk, i1, hi1, Or.inr ⟨m, by omega,
          Prod.ext (by simp only; ring) rfl⟩⟩⟩

/-- The NEON `Yxio_Oyxi4o` routine gives the memory the base routine gives for `N = 4`. -/
theorem neon_yxio_oyxi4o_eq {α : Type} [Zero α] (output input kernel : Nat)
    (src dst : Nat → α) :
    Neon.SynetConvertFilter_Yxio_Oyxi4o output input kernel src dst
      = SynetConvertFilter_Yxio_OyxiXo 4 output input kernel src dst := by
  refine storeAll_eq_storeSeq _ _ (neon_yxio_oyxi4o_sound output input kernel src) ?_ dst
  intro j hj
  rw [(yxio_oyxiXo_values 4 output input kernel src (by decide)).1, ← Nat.mul_assoc,
    ← Nat.mul_assoc] at hj
  obtain ⟨q, l, hq, hl, rfl⟩ := grid_split _ 4 j hj
  rw [Nat.mul_assoc] at hq
  obtain ⟨b, p, hb, hp, rfl⟩ := grid_split _ (kernel * input) q hq
  obtain ⟨v, hv⟩ := neon_yxio_oyxi4o_complete output input kernel src b p l hb hp hl
  exact ⟨_, hv, rfl⟩

/-- Every store of the NEON `Oyxi4o_Yxio` routine writes the value the base routine has
there. -/
theorem neon_oyxi4o_yxio_sound {α : Type} [Zero α] (output input kernel : Nat)
    (src : Nat → α) :
    ∀ w ∈ Neon.SynetConvertFilter_Oyxi4o_Yxio_stores output input kernel src,
      (SynetConvertFilter_OyxiXo_Yxio_values 4 output input kernel src)[w.1]? = some w.2 := by
  intro w hw
  have hb := oyxiXo_yxio_pos 4 output input kernel src (by decide)
  obtain ⟨c16, cu, ct, hcu, hct, rfl⟩ := split16 output
  have e1 : (c16 * 16 + cu * 4 + ct) / 16 = c16 := by omega
  have e2 : (c16 * 16 + cu * 4 + ct) / 4 = c16 * 4 + cu := by omega
  have e3 : c16 * 4 + cu - c16 * 4 = cu := by omega
  have e4 : c16 * 16 + cu * 4 + ct - (c16 * 4 + cu) * 4 = ct := by omega
  simp only [Neon.SynetConvertFilter_Oyxi4o_Yxio_stores, Neon.Transpose4x4xF, Neon.Copy,
    Neon.F, Nat.reduceMul, rounds_aligned _ 4 (by decide), rounds_aligned _ 16 (by decide),
    rounds_singles, rounds_unit,
    List.length_map, List.length_range, List.mem_append, List.mem_flatMap, List.mem_map,
    List.mem_range, exists_exists_and_eq_and, List.mem_cons, List.mem_singleton,
    List.not_mem_nil, or_false, List.mem_ite_nil_right] at hw
  generalize hki : kernel * input = ki at hw hb
  obtain ⟨s4, st, hst, rfl⟩ := split_by 4 ki (by decide)
  have e5 : (s4 * 4 + st) / 4 = s4 := by omega
  have e6 : s4 * 4 + st - s4 * 4 = st := by omega
  simp only [AlignLo, e1, e2, e3, e4, e5, e6, Nat.sub_zero, ite_tail] at hw
  rcases hw with ⟨a, ha, (⟨q, hq, r, hr, c, hc, l, hl, rfl⟩
      | ⟨m, hm, ((⟨l, hl, rfl⟩ | ⟨l, hl, rfl⟩) | ⟨l, hl, rfl⟩) | ⟨l, hl, rfl⟩⟩)
      | ⟨ht, i, hi, rfl | rfl | rfl | rfl⟩⟩
    | ⟨m, hm, ⟨q, hq, l, hl, rfl⟩ | ⟨ht, i, hi, rfl⟩⟩
  · exact elem_cast (hb (a * 4 + r) (q * 4 + c) l (by omega) hl (by omega))
      (by simp only; ring) (congrArg src (by ring))
  · exact elem_cast (hb (a * 4 + 0) (c16 * 4 + m) l (by omega) hl (by omega))
      (by simp only; ring) (congrArg src (by ring))
  · exact elem_cast (hb (a * 4 + 1) (c16 * 4 + m) l (by omega) hl (by omega))
      (by simp only; ring) (congrArg src (by ring))
  · exact elem_cast (hb (a * 4 + 2) (c16 * 4 + m) l (by omega) hl (by omega))
      (by simp only; ring) (congrArg src (by ring))
  · exact elem_cast (hb (a * 4 + 3) (c16 * 4 + m) l (by omega) hl (by omega))
      (by simp only; ring) (congrArg src (by ring))
  · exact elem_cast (hb (a * 4 + 0) (c16 * 4 + cu) i (by omega) (by omega) (by omega))
      (by simp only; ring) (congrArg src (by ring))
  · exact elem_cast (hb (a * 4 + 1) (c16 * 4 + cu) i (by omega) (by omega) (by omega))
      (by simp only; ring) (congrArg src (by ring))
  · exact elem_cast (hb (a * 4 + 2) (c16 * 4 + cu) i (by omega) (by omega) (by omega))
      (by simp only; ring) (congrArg src (by ring))
  · exact elem_cast (hb (a * 4 + 3) (c16 * 4 + cu) i (by omega) (by omega) (by omega))
      (by simp only; ring) (congrArg src (by ring))
  · exact elem_cast (hb (s4 * 4 + m) q l (by omega) hl (by omega))
      (by simp only; ring) (congrArg src (by ring))
  · exact elem_cast (hb (s4 * 4 + m) (c16 * 4 + cu) i (by omega) (by omega) (by omega))
      (by simp only; ring) (congrArg src (by ring))

/-- The NEON `Oyxi4o_Yxio` routine writes every element of the destination. -/
theorem neon_oyxi4o_yxio_complete {α : Type} [Zero α] (output input kernel : Nat)
    (src : Nat → α) (s c : Nat) (hs : s < kernel * input) (hc : c < output) :
    ∃ v, (s * output + c, v)
      ∈ Neon.SynetConvertFilter_Oyxi4o_Yxio_stores output input kernel src := by
  obtain ⟨c16, cu, ct, hcu, hct, rfl⟩ := split16 output
  have e1 : (c16 * 16 + cu * 4 + ct) / 16 = c16 := by omega
  have e2 : (c16 * 16 + cu * 4 + ct) / 4 = c16 * 4 + cu := by omega
  have e3 : c16 * 4 + cu - c16 * 4 = cu := by omega
  have e4 : c16 * 16 + cu * 4 + ct - (c16 * 4 + cu) * 4 = ct := by omega
  simp only [Neon.SynetConvertFilter_Oyxi4o_Yxio_stores, Neon.Transpose4x4xF, Neon.Copy,
    Neon.F, Nat.reduceMul, rounds_aligned _ 4 (by decide), rounds_aligned _ 16 (by decide),
    rounds_singles, rounds_unit,
    List.length_map, List.length_range, List.mem_append, List.mem_flatMap, List.mem_map,
    List.mem_range, exists_exists_and_eq_and, List.mem_cons, List.mem_singleton,
    List.not_mem_nil, or_false, List.mem_ite_nil_right]
  generalize hki : kernel * input = ki at hs ⊢
  obtain ⟨s4, st, hst, rfl⟩ := split_by 4 ki (by decide)
  have e5 : (s4 * 4 + st) / 4 = s4 := by omega
  have e6 : s4 * 4 + st - s4 * 4 = st := by omega
  simp only [AlignLo, e1, e2, e3, e4, e5, e6, Nat.sub_zero, ite_tail]
  obtain ⟨b, l, hl, rfl⟩ := split_by 4 c (by decide)
  by_cases h1 : s < s4 * 4
  · obtain ⟨a, r, hr, rfl⟩ := split_by 4 s (by decide)
    by_cases h2 : b < c16 * 4
    · obtain ⟨q, c, hc4, rfl⟩ := split_by 4 b (by decide)
      exact ⟨_, Or.inl ⟨a, by omega, Or.inl (Or.inl ⟨q, by omega, r, hr, c, hc4, l, hl,
        Prod.ext (by simp only; ring) rfl⟩)⟩⟩
    · obtain ⟨m, rfl⟩ := split_from _ b h2
      by_cases h3 : m < cu
      · interval_cases r
        · exact ⟨_, Or.inl ⟨a, by omega, Or.inl (Or.inr ⟨m, h3,
            Or.inl (Or.inl (Or.inl ⟨l, hl, Prod.ext (by simp only; ring) rfl⟩))⟩)⟩⟩
        · exact ⟨_, Or.inl ⟨a, by omega, Or.inl (Or.inr ⟨m, h3,
            Or.inl (Or.inl (Or.inr ⟨l, hl, Prod.ext (by simp only; ring) rfl⟩))⟩)⟩⟩
        · exact ⟨_, Or.inl ⟨a, by omega, Or.inl (Or.inr ⟨m, h3,
            Or.inl (Or.inr ⟨l, hl, Prod.ext (by simp only; ring) rfl⟩)⟩)⟩⟩
        · exact ⟨_, Or.inl ⟨a, by omega, Or.inl (Or.inr ⟨m, h3,
            Or.inr ⟨l, hl, Prod.ext (by simp only; ring) rfl⟩⟩)⟩⟩
      · have hm : m = cu := by omega
        subst hm
        interval_cases r
        · exact ⟨_, Or.inl ⟨a, by omega, Or.inr ⟨by omega, l, by omega,
            Or.inl (Prod.ext (by simp only; ring) rfl)⟩⟩⟩
        · exact ⟨_, Or.inl ⟨a, by omega, Or.inr ⟨by omega, l, by omega,
            Or.inr (Or.inl (Prod.ext (by simp only; ring) rfl))⟩⟩⟩
        · exact ⟨_, Or.inl ⟨a, by omega, Or.inr ⟨by omega, l, by omega,
            Or.inr (Or.inr (Or.inl (Prod.ext (by simp only; ring) rfl)))⟩⟩⟩
        · exact ⟨_, Or.inl ⟨a, by omega, Or.inr ⟨by omega, l, by omega,
            Or.inr (Or.inr (Or.inr (Prod.ext (by simp only; ring) rfl)))⟩⟩⟩
  · obtain ⟨m, rfl⟩ := split_from _ s h1
    by_cases h2 : b < c16 * 4 + cu
    · exact ⟨_, Or.inr ⟨m, by omega, Or.inl ⟨b, h2, l, hl,
        Prod.ext (by simp only; ring) rfl⟩⟩⟩
    · have hbc : b = c16 * 4 + cu := by omega
      subst hbc
      exact ⟨_, Or.inr ⟨m, by omega, Or.inr ⟨by omega, l, by omega,
        Prod.ext (by simp only; ring) rfl⟩⟩⟩

/-- The NEON `Oyxi4o_Yxio` routine gives the memory the base routine gives for `N = 4`. -/
theorem neon_oyxi4o_yxio_eq {α : Type} [Zero α] (output input kernel : Nat)
    (src dst : Nat → α) :
    Neon.SynetConvertFilter_Oyxi4o_Yxio output input kernel src dst
      = SynetConvertFilter_OyxiXo_Yxio 4 output input kernel src dst := by
  refine storeAll_eq_storeSeq _ _ (neon_oyxi4o_yxio_sound output input kernel src) ?_ dst
  intro j hj
  rw [oyxiXo_yxio_length 4 output input kernel src (by decide), ← Nat.mul_assoc] at hj
  obtain ⟨p, o, hp, ho, rfl⟩ := grid_split _ output j hj
  obtain ⟨v, hv⟩ := neon_oyxi4o_yxio_complete output input kernel src p o hp ho
  exact ⟨_, hv, rfl⟩

/-- The routine the base getter returns for a pair for which the NEON getter returns an image
routine is the one for `N = 4`, and it gives the same memory as the NEON routine. -/
theorem neon_image_refines {α : Type} [Zero α]
    (srcFormat dstFormat : SimdTensorFormatType) (f : Neon.SynetImageConverterPtr)
    (h : Neon.GetImageConverter srcFormat dstFormat = some f) :
    ∃ g, GetImageConverter srcFormat dstFormat = some g
      ∧ g ∈ [SynetImageConverterPtr.Chw_Hwc, .Chw_ChwXc 4, .Hwc_Chw, .Hwc_ChwXc 4,
          .ChwXc_Chw 4, .ChwXc_Hwc 4]
      ∧ ∀ (channels spatial : Nat) (src dst : Nat → α),
          f.call channels spatial src dst = g.call channels spatial src dst := by
  unfold Neon.GetImageConverter at h
  split_ifs at h with h1 h2 h3 h4 h5 h6
  · obtain ⟨rfl, rfl⟩ := h1
    cases h
    exact ⟨.Chw_Hwc, rfl, by decide, fun c s x d => neon_chw_hwc_eq c s x d⟩
  · obtain ⟨rfl, rfl⟩ := h2
    cases h
    exact ⟨.Chw_ChwXc 4, rfl, by decide, fun c s x d => neon_chw_chw4c_eq c s x d⟩
  · obtain ⟨rfl, rfl⟩ := h3
    cases h
    exact ⟨.Hwc_Chw, rfl, by decide, fun c s x d => neon_chw_hwc_eq s c x d⟩
  · obtain ⟨rfl, rfl⟩ := h4
    cases h
    exact ⟨.Hwc_ChwXc 4, rfl, by decide, fun c s x d => neon_hwc_chw4c_eq c s x d⟩
  · obtain ⟨rfl, rfl⟩ := h5
    cases h
    exact ⟨.ChwXc_Chw 4, rfl, by decide, fun c s x d => neon_chw4c_chw_eq c s x d⟩
  · obtain ⟨rfl, rfl⟩ := h6
    cases h
    exact ⟨.ChwXc_Hwc 4, rfl, by decide, fun c s x d => neon_chw4c_hwc_eq c s x d⟩

/-- The routine the base getter returns for a pair for which the NEON getter returns a filter
routine is the one for `N = 4`, and it gives the same memory as the NEON routine. -/
theorem neon_filter_refines {α : Type} [Zero α]
    (srcFormat dstFormat : SimdTensorFormatType) (f : Neon.SynetFilterConverterPtr)
    (h : Neon.GetFilterConverter srcFormat dstFormat = some f) :
    ∃ g, GetFilterConverter srcFormat dstFormat = some g
      ∧ g ∈ [SynetFilterConverterPtr.Oiyx_Yxio, .Oiyx_OyxiXo 4, .Yxio_Oiyx, .Yxio_OyxiXo 4,
          .OyxiXo_Oiyx 4, .OyxiXo_Yxio 4]
      ∧ ∀ (output input kernel : Nat) (src dst : Nat → α),
          f.call output input kernel src dst = g.call output input kernel src dst := by
  unfold Neon.GetFilterConverter at h
  split_ifs at h with h1 h2 h3 h4 h5 h6
  · obtain ⟨rfl, rfl⟩ := h1
    cases h
    exact ⟨.Oiyx_Yxio, rfl, by decide, fun o i k x d => neon_oiyx_yxio_eq o i k x d⟩
  · obtain ⟨rfl, rfl⟩ := h2
    cases h
    exact ⟨.Oiyx_OyxiXo 4, rfl, by decide, fun o i k x d => neon_oiyx_oyxi4o_eq o i k x d⟩
  · obtain ⟨rfl, rfl⟩ := h3
    cases h
    exact ⟨.Yxio_Oiyx, rfl, by decide, fun o i k x d => neon_yxio_oiyx_eq o i k x d⟩
  · obtain ⟨rfl, rfl⟩ := h4
    cases h
    exact ⟨.Yxio_OyxiXo 4, rfl, by decide, fun o i k x d => neon_yxio_oyxi4o_eq o i k x d⟩
  · obtain ⟨rfl, rfl⟩ := h5
    cases h
    exact ⟨.OyxiXo_Oiyx 4, rfl, by decide, fun o i k x d => neon_oyxi4o_oiyx_eq o i k x d⟩
  · obtain ⟨rfl, rfl⟩ := h6
    cases h
    exact ⟨.OyxiXo_Yxio 4, rfl, by decide, fun o i k x d => neon_oyxi4o_yxio_eq o i k x d⟩

/-- The pairs of image formats for which `Neon::GetImageConverter` returns a routine. -/
theorem neon_image_pairs (srcFormat dstFormat : SimdTensorFormatType) :
    (Neon.GetImageConverter srcFormat dstFormat).isSome = true
      ↔ srcFormat ≠ dstFormat
        ∧ srcFormat ∈ [SimdTensorFormatNchw, SimdTensorFormatNhwc, SimdTensorFormatNchw4c]
        ∧ dstFormat ∈ [SimdTensorFormatNchw, SimdTensorFormatNhwc, SimdTensorFormatNchw4c] := by
  cases srcFormat <;> cases dstFormat <;> decide

/-- The pairs of filter formats for which `Neon::GetFilterConverter` returns a routine. -/
theorem neon_filter_pairs (srcFormat dstFormat : SimdTensorFormatType) :
    (Neon.GetFilterConverter srcFormat dstFormat).isSome = true
      ↔ srcFormat ≠ dstFormat
        ∧ srcFormat ∈ [SimdTensorFormatOiyx, SimdTensorFormatYxio, SimdTensorFormatOyxi4o]
        ∧ dstFormat ∈ [SimdTensorFormatOiyx, SimdTensorFormatYxio, SimdTensorFormatOyxi4o] := by
  cases srcFormat <;> cases dstFormat <;> decide

/-! ### Transformers of the destination memory -/

section Transformers

variable {α : Type}

theorem foldl_flatMap' {β γ δ : Type} (l : List β) (f : β → List γ) (F : δ → γ → δ) (init : δ) :
    (l.flatMap f).foldl F init = l.foldl (fun acc x => (f x).foldl F acc) init := by
  induction l generalizing init with
  | nil => rfl
  | cons x xs ih => simp [List.flatMap_cons, List.foldl_append, ih]

theorem Updates.id_updates (S : Nat → Prop) (G : Nat → α → α) (h : ∀ j, ¬ S j) :
    Updates (fun dst : Nat → α => dst) S G := by
  intro dst j; exact ⟨fun hj => absurd hj (h j), fun _ => rfl⟩

theorem Updates.comp_updates {f g : (Nat → α) → Nat → α} {S T U : Nat → Prop} {G : Nat → α → α}
    (hf : Updates f S G) (hg : Updates g T G) (hd : ∀ j, S j → ¬ T j)
    (hu : ∀ j, U j ↔ S j ∨ T j) : Updates (fun dst => g (f dst)) U G := by
  intro dst j
  show (U j → g (f dst) j = G j (dst j)) ∧ (¬ U j → g (f dst) j = dst j)
  constructor
  · intro hj
    rcases (hu j).1 hj with h | h
    · rw [(hg (f dst) j).2 (hd j h), (hf dst j).1 h]
    · have hS : ¬ S j := fun hs => hd j hs h
      rw [(hg (f dst) j).1 h, (hf dst j).2 hS]
  · intro hj
    have hS : ¬ S j := fun hs => hj ((hu j).2 (Or.inl hs))
    have hT : ¬ T j := fun ht => hj ((hu j).2 (Or.inr ht))
    rw [(hg (f dst) j).2 hT, (hf dst j).2 hS]

theorem Updates.seq_updates {f g : (Nat → α) → Nat → α} {S : Nat → Prop} {G H K : Nat → α → α}
    (hf : Updates f S G) (hg : Updates g S H) (hk : ∀ j v, S j → K j v = H j (G j v)) :
    Updates (fun dst => g (f dst)) S K := by
  intro dst j
  show (S j → g (f dst) j = K j (dst j)) ∧ (¬ S j → g (f dst) j = dst j)
  constructor
  · intro hj
    rw [(hg (f dst) j).1 hj, (hf dst j).1 hj, hk j _ hj]
  · intro hj
    rw [(hg (f dst) j).2 hj, (hf dst j).2 hj]

theorem Updates.congr_updates {f : (Nat → α) → Nat → α} {S T : Nat → Prop} {G H : Nat → α → α}
    (hf : Updates f S G) (hs : ∀ j, T j ↔ S j) (hg : ∀ j v, S j → H j v = G j v) :
    Updates f T H := by
  intro dst j
  constructor
  · intro hj
    rw [(hf dst j).1 ((hs j).1 hj), hg j _ ((hs j).1 hj)]
  · intro hj
    exact (hf dst j).2 (fun h => hj ((hs j).2 h))

theorem fold_lanes (v : Nat → α → α) (b m : Nat) :
    Updates (fun dst : Nat → α => (List.range m).foldl
        (fun mem l => Function.update mem (b + l) (v l (mem (b + l)))) dst)
      (fun j => b ≤ j ∧ j < b + m) (fun j old => v (j - b) old) := by
  induction m with
  | zero =>
    intro dst j
    simp
  | succ m ih =>
    intro dst j
    have ih1 : ∀ j, (b ≤ j ∧ j < b + m) → (List.range m).foldl
        (fun mem l => Function.update mem (b + l) (v l (mem (b + l)))) dst j = v (j - b) (dst j) :=
      fun j hj => (ih dst j).1 hj
    have ih2 : ∀ j, ¬ (b ≤ j ∧ j < b + m) → (List.range m).foldl
        (fun mem l => Function.update mem (b + l) (v l (mem (b + l)))) dst j = dst j :=
      fun j hj => (ih dst j).2 hj
    show (b ≤ j ∧ j < b + (m + 1) → _) ∧ (¬ (b ≤ j ∧ j < b + (m + 1)) → _)
    simp only [List.range_succ, List.foldl_append, List.foldl_cons, List.foldl_nil]
    by_cases hj : j = b + m
    · subst hj
      simp only [Function.update_same]
      constructor
      · intro _
        rw [ih2 (b + m) (by omega)]
        congr 1; omega
      · intro h; omega
    · rw [Function.update_noteq hj]
      constructor
      · intro h
        exact ih1 j (by omega)
      · intro h
        exact ih2 j (by omega)

/-- The loop `for (dc = 0; dc < dstC; dc += DF)` of a row pass: when every tile rewrites its
box of channels, the loop rewrites the channels of the pass. -/
theorem channel_loop (D P0 P1 dst dstC step weight : Nat)
    (f : Nat × Nat → (Nat → α) → Nat → α) (G : Nat → α → α)
    (hf : ∀ k, DF * k < dstC → Updates (f (DF * k, weight + k * step))
      (Box D P0 P1 (dst + DF * k) (dst + DF * k + min DF (dstC - DF * k))) G) :
    ∀ fuel k0, dstC ≤ DF * k0 + fuel →
      Updates (fun m => (forLoop fuel dstC DF step (DF * k0) (weight + k0 * step)).foldl
          (fun acc x => f x acc) m)
        (Box D P0 P1 (dst + DF * k0) (dst + dstC)) G := by
  intro fuel
  induction fuel with
  | zero =>
    intro k0 h0
    refine Updates.id_updates _ _ (fun j hj => ?_)
    unfold Box at hj
    simp only [DF] at h0 hj
    omega
  | succ fuel ih =>
    intro k0 h0
    rw [forLoop_succ]
    by_cases hlt : DF * k0 < dstC
    · rw [if_pos hlt]
      have e1 : DF * k0 + DF = DF * (k0 + 1) := by ring
      have e2 : weight + k0 * step + step = weight + (k0 + 1) * step := by ring
      rw [e1, e2]
      have h1 := hf k0 hlt
      have h2 := ih (k0 + 1) (by simp only [DF] at h0 hlt ⊢; omega)
      have h3 := Updates.comp_updates h1 h2
        (fun j hj => by
          unfold Box at hj ⊢
          simp only [DF] at hj ⊢
          omega)
        (fun j => (by
          unfold Box
          simp only [DF] at hlt ⊢
          omega : Box D P0 P1 (dst + DF * k0) (dst + dstC) j ↔ _))
      intro m j
      exact h3 m j
    · rw [if_neg hlt]
      refine Updates.id_updates _ _ (fun j hj => ?_)
      unfold Box at hj
      simp only [DF] at hlt hj
      omega

/-- Two transformers that rewrite the same elements in the same way are equal. -/
theorem updates_unique {f g : (Nat → α) → Nat → α} {S : Nat → Prop} {G : Nat → α → α}
    (hf : Updates f S G) (hg : Updates g S G) (dst : Nat → α) : f dst = g dst := by
  funext j
  by_cases hj : S j
  · rw [(hf dst j).1 hj, (hg dst j).1 hj]
  · rw [(hf dst j).2 hj, (hg dst j).2 hj]

end Transformers

/-! ### What the calls of a tile store -/

section TileValue

variable {α : Type} [LinearOrderedCommRing α]

theorem sum_map_range (f : Nat → α) (n : Nat) :
    ((List.range n).map f).sum = ∑ i in Finset.range n, f i := rfl

theorem sum_map_flatMap_range {β : Type} (g : β → α) (f : Nat → List β) (n : Nat) :
    (((List.range n).flatMap f).map g).sum = ∑ i in Finset.range n, ((f i).map g).sum := by
  induction n with
  | zero => simp
  | succ n ih =>
    rw [List.range_succ, List.flatMap_append, List.map_append, List.sum_append, ih,
      Finset.sum_range_succ]
    simp

theorem acc_eq_sum (p : ConvParam32f) (src weight : Nat → α) (c : MicroCall) (i l : Nat)
    (h : c.macs p = kernelMacs p c.kernelH c.kernelW c.srcC) :
    c.acc p src weight i l =
      ∑ ky in Finset.range c.kernelH, ∑ kx in Finset.range c.kernelW,
        ∑ ch in Finset.range c.srcC,
          src (c.src0 + i * c.dS p + (ky * (p.srcW * p.srcC) + kx * p.srcC + ch))
            * weight (c.weight + (ky * (c.kernelW * c.srcC * DF
                + sz (DF * ((p.kernelX : Int) - c.kernelW) * c.srcC))
                + (kx * c.srcC + ch) * DF) + l) := by
  unfold MicroCall.acc
  rw [h]
  unfold kernelMacs
  simp only []
  rw [sum_map_flatMap_range]
  refine Finset.sum_congr rfl fun ky _ => ?_
  rw [sum_map_flatMap_range]
  refine Finset.sum_congr rfl fun kx _ => ?_
  rw [List.map_map, sum_map_range]
  rfl

/-- Clipping a window to the image: the zero-padded sum over the whole kernel is the sum over
the kernel indices that meet the image. -/
theorem clip_sum (kernel size pad pos : Nat) (h : Nat → Nat → α) :
    (∑ k in Finset.range kernel,
        if 0 ≤ ((pos + k : Nat) : Int) - pad ∧ ((pos + k : Nat) : Int) - pad < size then
          h (((pos + k : Nat) : Int) - pad).toNat k
        else 0)
      = ∑ k in Finset.range (winCnt kernel size pad pos),
          h (winOrg pad pos + k) (winLo pad pos + k) := by
  rw [← Finset.sum_filter]
  have hf : Finset.filter (fun k : Nat =>
      0 ≤ ((pos + k : Nat) : Int) - pad ∧ ((pos + k : Nat) : Int) - pad < size)
      (Finset.range kernel)
      = Finset.Ico (winLo pad pos) (winLo pad pos + winCnt kernel size pad pos) := by
    ext k
    simp only [Finset.mem_filter, Finset.mem_range, Finset.mem_Ico, winLo, winCnt]
    omega
  rw [hf, Finset.sum_Ico_eq_sum_range]
  have hn : winLo pad pos + winCnt kernel size pad pos - winLo pad pos
      = winCnt kernel size pad pos := by omega
  rw [hn]
  refine Finset.sum_congr rfl fun k hk => ?_
  have hk' := Finset.mem_range.1 hk
  congr 1
  simp only [winLo, winCnt, winOrg] at hk' ⊢
  omega

theorem acc_eq_tileAcc (p : ConvParam32f) (hdY : p.dilationY = 1) (hdX : p.dilationX = 1)
    (src weight : Nat → α) (t : TileCtx) (P0 : Nat) (c : MicroCall)
    (hc : c.Computes p t P0) (i l : Nat) (hi : i < c.n) :
    c.acc p src weight i l = tileAcc p src weight t (P0 + i) l := by
  obtain ⟨hm, hS, hsc, -, -, -, -, -, hpix⟩ := hc
  obtain ⟨hkH, hkW, hs0, hw⟩ := hpix i hi
  rw [acc_eq_sum p src weight c i l hm]
  unfold tileAcc convSum
  simp only [hdY, hdX, Nat.mul_one]
  -- bring the reference sum into clipped form
  have hY := clip_sum (α := α) p.kernelY p.srcH p.padY ((P0 + i) / p.dstW * p.strideY)
    (fun r ky => ∑ kx in Finset.range p.kernelX, ∑ ch in Finset.range t.srcC,
      (if 0 ≤ (((P0 + i) % p.dstW * p.strideX + kx : Nat) : Int) - p.padX
          ∧ (((P0 + i) % p.dstW * p.strideX + kx : Nat) : Int) - p.padX < p.srcW then
        src (t.src + (r * p.srcW
          + ((((P0 + i) % p.dstW * p.strideX + kx : Nat) : Int) - p.padX).toNat) * p.srcC + ch)
          * weight (t.weight + ((ky * p.kernelX + kx) * t.srcC + ch) * DF + l)
      else 0))
  have hL : (∑ ky in Finset.range p.kernelY, ∑ kx in Finset.range p.kernelX,
      ∑ ch in Finset.range t.srcC,
        srcZeroPadded p src t.src ((((P0 + i) / p.dstW * p.strideY + ky : Nat) : Int) - p.padY)
          ((((P0 + i) % p.dstW * p.strideX + kx : Nat) : Int) - p.padX) ch
          * weight (t.weight + ((ky * p.kernelX + kx) * t.srcC + ch) * DF + l))
      = ∑ k in Finset.range p.kernelY,
        if 0 ≤ ((((P0 + i) / p.dstW * p.strideY + k : Nat) : Int)) - p.padY
            ∧ ((((P0 + i) / p.dstW * p.strideY + k : Nat) : Int)) - p.padY < p.srcH then
          (fun r ky => ∑ kx in Finset.range p.kernelX, ∑ ch in Finset.range t.srcC,
            (if 0 ≤ (((P0 + i) % p.dstW * p.strideX + kx : Nat) : Int) - p.padX
                ∧ (((P0 + i) % p.dstW * p.strideX + kx : Nat) : Int) - p.padX < p.srcW then
              src (t.src + (r * p.srcW
                + ((((P0 + i) % p.dstW * p.strideX + kx : Nat) : Int) - p.padX).toNat) * p.srcC
                + ch)
                * weight (t.weight + ((ky * p.kernelX + kx) * t.srcC + ch) * DF + l)
            else 0))
            (((((P0 + i) / p.dstW * p.strideY + k : Nat) : Int)) - p.padY).toNat k
        else 0 := by
    refine Finset.sum_congr rfl fun ky _ => ?_
    unfold srcZeroPadded
    by_cases hA : 0 ≤ ((((P0 + i) / p.dstW * p.strideY + ky : Nat) : Int)) - p.padY
            ∧ ((((P0 + i) / p.dstW * p.strideY + ky : Nat) : Int)) - p.padY < p.srcH
    · rw [if_pos hA]
      refine Finset.sum_congr rfl fun kx _ => Finset.sum_congr rfl fun ch _ => ?_
      by_cases hB : 0 ≤ (((P0 + i) % p.dstW * p.strideX + kx : Nat) : Int) - p.padX
                ∧ (((P0 + i) % p.dstW * p.strideX + kx : Nat) : Int) - p.padX < p.srcW
      · rw [if_pos hB, if_pos ⟨hA.1, hA.2, hB.1, hB.2⟩]
      · rw [if_neg hB, if_neg (fun h => hB ⟨h.2.2.1, h.2.2.2⟩), zero_mul]
    · rw [if_neg hA]
      refine Finset.sum_eq_zero fun kx _ => Finset.sum_eq_zero fun ch _ => ?_
      rw [if_neg (fun h => hA ⟨h.1, h.2.1⟩), zero_mul]
  rw [hL, hY, ← hkH]
  refine Finset.sum_congr rfl fun ky _ => ?_
  beta_reduce
  have hX := clip_sum (α := α) p.kernelX p.srcW p.padX ((P0 + i) % p.dstW * p.strideX)
    (fun q kx => ∑ ch in Finset.range t.srcC,
        src (t.src + ((winOrg p.padY ((P0 + i) / p.dstW * p.strideY) + ky) * p.srcW + q) * p.srcC
          + ch)
          * weight (t.weight
            + (((winLo p.padY ((P0 + i) / p.dstW * p.strideY) + ky) * p.kernelX + kx) * t.srcC
              + ch) * DF + l))
  have hR : (∑ kx in Finset.range p.kernelX, ∑ ch in Finset.range t.srcC,
      (if 0 ≤ (((P0 + i) % p.dstW * p.strideX + kx : Nat) : Int) - p.padX
          ∧ (((P0 + i) % p.dstW * p.strideX + kx : Nat) : Int) - p.padX < p.srcW then
        src (t.src + ((winOrg p.padY ((P0 + i) / p.dstW * p.strideY) + ky) * p.srcW
          + ((((P0 + i) % p.dstW * p.strideX + kx : Nat) : Int) - p.padX).toNat) * p.srcC + ch)
          * weight (t.weight
            + (((winLo p.padY ((P0 + i) / p.dstW * p.strideY) + ky) * p.kernelX + kx) * t.srcC
              + ch) * DF + l)
      else 0))
      = ∑ k in Finset.range p.kernelX,
        if 0 ≤ (((P0 + i) % p.dstW * p.strideX + k : Nat) : Int) - p.padX
            ∧ (((P0 + i) % p.dstW * p.strideX + k : Nat) : Int) - p.padX < p.srcW then
          (fun q kx => ∑ ch in Finset.range t.srcC,
            src (t.src + ((winOrg p.padY ((P0 + i) / p.dstW * p.strideY) + ky) * p.srcW + q)
              * p.srcC + ch)
              * weight (t.weight
                + (((winLo p.padY ((P0 + i) / p.dstW * p.strideY) + ky) * p.kernelX + kx)
                  * t.srcC + ch) * DF + l))
            ((((P0 + i) % p.dstW * p.strideX + k : Nat) : Int) - p.padX).toNat k
        else 0 := by
    refine Finset.sum_congr rfl fun kx _ => ?_
    by_cases hB : 0 ≤ (((P0 + i) % p.dstW * p.strideX + kx : Nat) : Int) - p.padX
                ∧ (((P0 + i) % p.dstW * p.strideX + kx : Nat) : Int) - p.padX < p.srcW
    · rw [if_pos hB]
      exact Finset.sum_congr rfl fun ch _ => by rw [if_pos hB]
    · rw [if_neg hB]
      exact Finset.sum_eq_zero fun ch _ => by rw [if_neg hB]
  rw [hR, hX, ← hkW]
  refine Finset.sum_congr rfl fun kx hkx => ?_
  rw [hsc]
  refine Finset.sum_congr rfl fun ch _ => ?_
  beta_reduce
  have hle : c.kernelW ≤ p.kernelX := by rw [hkW]; exact winCnt_le _ _ _ _
  obtain ⟨e, he⟩ := Nat.exists_eq_add_of_le hle
  have hdW : sz (DF * ((p.kernelX : Int) - c.kernelW) * t.srcC) = DF * e * t.srcC := by
    rw [sz_of_nonneg]
    · rw [he]; push_cast; simp
      have : ((16 : Int) * e * t.srcC) = ((16 * e * t.srcC : Nat) : Int) := by push_cast; ring
      rw [this, Int.toNat_natCast]
    · rw [he]; push_cast; simp; positivity
  congr 2
  · rw [hs0]; ring
  · rw [hdW, hw, he]; ring

/-- The stores of one pixel of a call. -/
theorem pixel_updates (ex : α → α) (term : TermType) (type : SimdConvolutionActivationType)
    (p : ConvParam32f) (hdY : p.dilationY = 1) (hdX : p.dilationX = 1)
    (src weight bias params : Nat → α) (t : TileCtx) (P0 : Nat) (c : MicroCall)
    (hc : c.Computes p t P0) (hD : t.d0 + t.dC ≤ p.dstC) (i : Nat) (hi : i < c.n) :
    Updates (fun dst : Nat → α => (List.range c.stored).foldl (fun mem l =>
        Function.update mem (c.dst + i * p.dstC + l)
          (Save ex term type (params c.params) (params (c.params + 1)) (params (c.slope + l))
            (bias (c.bias + l)) (mem (c.dst + i * p.dstC + l)) (c.acc p src weight i l))) dst)
      (Box p.dstC (P0 + i) (P0 + i + 1) t.d0 (t.d0 + t.dC))
      (tileStore ex term type p src weight bias params t) := by
  have hfl := fold_lanes (fun l old => Save ex term type (params c.params)
      (params (c.params + 1)) (params (c.slope + l)) (bias (c.bias + l)) old
      (c.acc p src weight i l)) (c.dst + i * p.dstC) c.stored
  obtain ⟨-, -, -, hdC, hb, hp, hs, hdst, -⟩ := id hc
  have hst : c.stored = t.dC := by rw [stored_eq, hdC]
  have hbase : c.dst + i * p.dstC = t.d0 + (P0 + i) * p.dstC := by rw [hdst]; ring
  refine Updates.congr_updates hfl ?_ ?_
  · intro j
    rw [box_iff_interval _ _ _ _ _ hD, hbase, hst]
  · intro j v hj
    beta_reduce at hj ⊢
    rw [hbase, hst] at hj
    have hbox := (box_iff_interval p.dstC (P0 + i) t.d0 t.dC j hD).2 hj
    unfold Box at hbox
    have hP : j / p.dstC = P0 + i := by omega
    have hdm := Nat.div_add_mod j p.dstC
    rw [hP] at hdm
    have hc' : p.dstC * (P0 + i) = (P0 + i) * p.dstC := Nat.mul_comm _ _
    have hl : j - (c.dst + i * p.dstC) = j % p.dstC - t.d0 := by rw [hbase]; omega
    unfold tileStore
    rw [hl, hP, hb, hp, hs, acc_eq_tileAcc p hdY hdX src weight t P0 c hc i _ hi]

theorem run_eq_fold (ex : α → α) (term : TermType) (type : SimdConvolutionActivationType)
    (p : ConvParam32f) (src weight bias params : Nat → α) (c : MicroCall) (dst : Nat → α) :
    c.run ex term type p src weight bias params dst =
      (List.range c.n).foldl (fun m i => (List.range c.stored).foldl (fun mem l =>
        Function.update mem (c.dst + i * p.dstC + l)
          (Save ex term type (params c.params) (params (c.params + 1)) (params (c.slope + l))
            (bias (c.bias + l)) (mem (c.dst + i * p.dstC + l)) (c.acc p src weight i l))) m)
        dst := by
  unfold MicroCall.run MicroCall.stores
  rw [foldl_flatMap']
  congr 1
  funext m i
  rw [List.foldl_map]

/-- A call that computes the pixels `[P0, P0 + n)` of a tile rewrites exactly their elements. -/
theorem run_updates (ex : α → α) (term : TermType) (type : SimdConvolutionActivationType)
    (p : ConvParam32f) (hdY : p.dilationY = 1) (hdX : p.dilationX = 1)
    (src weight bias params : Nat → α) (t : TileCtx) (P0 : Nat) (c : MicroCall)
    (hc : c.Computes p t P0) (hD : t.d0 + t.dC ≤ p.dstC) :
    Updates (c.run ex term type p src weight bias params)
      (Box p.dstC P0 (P0 + c.n) t.d0 (t.d0 + t.dC))
      (tileStore ex term type p src weight bias params t) := by
  have key : ∀ k, k ≤ c.n → Updates (fun dst : Nat → α =>
      (List.range k).foldl (fun m i => (List.range c.stored).foldl (fun mem l =>
        Function.update mem (c.dst + i * p.dstC + l)
          (Save ex term type (params c.params) (params (c.params + 1)) (params (c.slope + l))
            (bias (c.bias + l)) (mem (c.dst + i * p.dstC + l)) (c.acc p src weight i l))) m)
        dst)
      (Box p.dstC P0 (P0 + k) t.d0 (t.d0 + t.dC))
      (tileStore ex term type p src weight bias params t) := by
    intro k
    induction k with
    | zero =>
      intro _
      simp only [List.range_zero, List.foldl_nil, Nat.add_zero]
      exact Updates.id_updates _ _ (fun j => box_empty_pix _ _ _ _ j)
    | succ k ih =>
      intro hk
      have h1 := ih (by omega)
      have h2 := pixel_updates ex term type p hdY hdX src weight bias params t P0 c hc hD k
        (by omega)
      have h3 := Updates.comp_updates h1 h2 (fun j hj => box_disjoint_pix hj)
        (box_union_pix p.dstC P0 (P0 + k) (P0 + k + 1) t.d0 (t.d0 + t.dC)
          (Nat.le_add_right P0 k) (Nat.le_succ _))
      intro dst j
      have h4 := h3 dst j
      simp only [List.range_succ, List.foldl_append, List.foldl_cons, List.foldl_nil]
      exact h4
  intro dst j
  rw [run_eq_fold]
  exact key c.n (Nat.le_refl _) dst j

/-- Calls that compute the pixels `[P0, P1)` of a tile one group after the other rewrite exactly
the elements of these pixels, each according to the term of the pass. -/
theorem tiled_updates (ex : α → α) (term : TermType) (type : SimdConvolutionActivationType)
    (p : ConvParam32f) (hdY : p.dilationY = 1) (hdX : p.dilationX = 1)
    (src weight bias params : Nat → α) (t : TileCtx) (hD : t.d0 + t.dC ≤ p.dstC)
    (cs : List MicroCall) (P0 P1 : Nat) (h : Tiled p t cs P0 P1) :
    Updates (runCalls ex type p src weight bias params (cs.map fun c => (term, c)))
      (Box p.dstC P0 P1 t.d0 (t.d0 + t.dC))
      (tileStore ex term type p src weight bias params t) := by
  induction cs generalizing P0 with
  | nil =>
    have : P0 = P1 := h
    subst this
    exact Updates.id_updates _ _ (fun j => box_empty_pix _ _ _ _ j)
  | cons c cs ih =>
    obtain ⟨hc, hcs⟩ := h
    have h1 := run_updates ex term type p hdY hdX src weight bias params t P0 c hc hD
    have h2 := ih (P0 + c.n) hcs
    have hle := tiled_le p t cs _ _ hcs
    have h3 := Updates.comp_updates h1 h2 (fun j hj => box_disjoint_pix hj)
      (box_union_pix p.dstC P0 (P0 + c.n) P1 t.d0 (t.d0 + t.dC)
        (Nat.le_add_right P0 c.n) hle)
    intro dst j
    exact h3 dst j

/-- On its box a tile of a row pass stores what the pass stores. -/
theorem passStore_eq_tileStore (ex : α → α) (term : TermType)
    (type : SimdConvolutionActivationType) (p : ConvParam32f)
    (srcB weightB biasB paramsB : Nat → α) (src dstC srcC weight bias params dst k j : Nat)
    (old : α) (hlo : dst + DF * k ≤ j % p.dstC)
    (hhi : j % p.dstC < dst + DF * k + min DF (dstC - DF * k)) :
    passStore ex term type p srcB weightB biasB paramsB src srcC weight bias params dst j old
      = tileStore ex term type p srcB weightB biasB paramsB
          (passTile src dstC srcC (weight + k * (p.kernelY * p.kernelX * srcC * DF)) bias params
            dst (DF * k)) j old := by
  have hc : j % p.dstC - dst = DF * k + (j % p.dstC - (dst + DF * k)) := by omega
  have hr : j % p.dstC - (dst + DF * k) < DF := by
    have := Nat.min_le_left DF (dstC - DF * k)
    omega
  have hq : (j % p.dstC - dst) / DF = k := by
    rw [hc, Nat.mul_add_div (by decide : 0 < DF), Nat.div_eq_of_lt hr, Nat.add_zero]
  have hm : (j % p.dstC - dst) % DF = j % p.dstC - (dst + DF * k) := by
    rw [hc, Nat.mul_add_mod, Nat.mod_eq_of_lt hr]
  unfold passStore tileStore tileAcc passTile
  simp only [hq, hm]
  have e1 : params + (j % p.dstC - dst) = params + DF * k + (j % p.dstC - (dst + DF * k)) := by
    omega
  have e2 : bias + (j % p.dstC - dst) = bias + DF * k + (j % p.dstC - (dst + DF * k)) := by
    omega
  rw [e1, e2]
  congr 2
  funext ky kx cc
  congr 1
  ring

/-- The calls of a loop over tiles run tile after tile. -/
theorem runCalls_flatMap {β : Type} (ex : α → α) (term : TermType)
    (type : SimdConvolutionActivationType) (p : ConvParam32f)
    (srcB weightB biasB paramsB : Nat → α) (L : List β) (g : β → List MicroCall)
    (m : Nat → α) :
    runCalls ex type p srcB weightB biasB paramsB ((L.flatMap g).map fun c => (term, c)) m
      = L.foldl (fun acc x =>
          runCalls ex type p srcB weightB biasB paramsB ((g x).map fun c => (term, c)) acc) m := by
  unfold runCalls
  induction L generalizing m with
  | nil => rfl
  | cons x xs ih =>
    simp only [List.flatMap_cons, List.map_append, List.foldl_append, List.foldl_cons]
    exact ih _

/-- A row pass on the domain of the engine returns, and rewrites exactly the rows `[yBeg, yEnd)`
and channels `[dst, dst + dstC)` of the destination, each element as `passStore` says. -/
theorem pass_updates (ex : α → α) (term : TermType) (type : SimdConvolutionActivationType)
    {p : ConvParam32f} (h : p.InDomain) (direct1x1 : Bool)
    (h1 : direct1x1 = true → p.Is1x1 = true) (srcB weightB biasB paramsB : Nat → α)
    (src dstC yBeg yEnd srcC weight bias params dst : Nat)
    (hy : yBeg ≤ yEnd) (hE : yEnd ≤ p.dstH) (hD : dst + dstC ≤ p.dstC) :
    ∃ cs, passCalls direct1x1 p src dstC yBeg yEnd srcC weight bias params dst = some cs
      ∧ Updates (runCalls ex type p srcB weightB biasB paramsB (cs.map fun c => (term, c)))
          (Box p.dstC (yBeg * p.dstW) (yEnd * p.dstW) dst (dst + dstC))
          (passStore ex term type p srcB weightB biasB paramsB src srcC weight bias params
            dst) := by
  have key : ∀ (g : Nat × Nat → List MicroCall),
      (∀ k, DF * k < dstC → Tiled p
        (passTile src dstC srcC (weight + k * (p.kernelY * p.kernelX * srcC * DF)) bias params
          dst (DF * k))
        (g (DF * k, weight + k * (p.kernelY * p.kernelX * srcC * DF)))
        (yBeg * p.dstW) (yEnd * p.dstW)) →
      Updates (runCalls ex type p srcB weightB biasB paramsB
          (((forRounds dstC DF (p.kernelY * p.kernelX * srcC * DF) 0 weight).flatMap g).map
            fun c => (term, c)))
        (Box p.dstC (yBeg * p.dstW) (yEnd * p.dstW) dst (dst + dstC))
        (passStore ex term type p srcB weightB biasB paramsB src srcC weight bias params
          dst) := by
    intro g hg
    have hloop := channel_loop p.dstC (yBeg * p.dstW) (yEnd * p.dstW) dst dstC
      (p.kernelY * p.kernelX * srcC * DF) weight
      (fun x m => runCalls ex type p srcB weightB biasB paramsB
        ((g x).map fun c => (term, c)) m)
      (passStore ex term type p srcB weightB biasB paramsB src srcC weight bias params dst)
      (by
        intro k hk
        have hT := tiled_updates ex term type p h.dilationY h.dilationX srcB weightB biasB
          paramsB
          (passTile src dstC srcC (weight + k * (p.kernelY * p.kernelX * srcC * DF)) bias
            params dst (DF * k))
          (by
            show dst + DF * k + min DF (dstC - DF * k) ≤ p.dstC
            have := Nat.min_le_right DF (dstC - DF * k)
            omega)
          _ _ _ (hg k hk)
        refine Updates.congr_updates hT (fun j => Iff.rfl) (fun j v hj => ?_)
        exact passStore_eq_tileStore ex term type p srcB weightB biasB paramsB src dstC srcC
          weight bias params dst k j v hj.2.2.1 hj.2.2.2)
      (dstC - 0) 0 (by omega)
    intro m j
    have e := hloop m j
    simp only [Nat.mul_zero, Nat.zero_mul, Nat.add_zero] at e
    rw [runCalls_flatMap]
    exact e
  cases direct1x1 with
  | false =>
    obtain ⟨b, hb, -⟩ := h.rowBoundsExact
    refine ⟨_, ?_, key
      (fun dw => tileCallsExact p b src dstC yBeg yEnd srcC dw.2 bias params dst dw.1)
      (fun k _ => tileCalls_tiled h b hb src dstC yBeg yEnd srcC _ bias params dst _ hy hE)⟩
    simp only [passCalls, Bool.false_eq_true, if_false]
    rw [h.rowPassCalls_eq _ _ _ _ _ _ _ _ _ (by omega)]
    simp only [rowPassCallsExact, hb, Option.map_some']
  | true =>
    have h1' := h1 rfl
    obtain ⟨⟨hkY, hkX⟩, -⟩ := (is1x1_iff p).1 h1'
    have hn : sz (((yEnd : Int) - yBeg) * p.dstW) = (yEnd - yBeg) * p.dstW :=
      sz_sub_mul yEnd yBeg p.dstW hy
    have hstep : srcC * DF = p.kernelY * p.kernelX * srcC * DF := by
      rw [hkY, hkX]; ring
    refine ⟨_, ?_, key (fun dw => tileCalls1x1 p ((yEnd - yBeg) * p.dstW)
        ((yEnd - yBeg) * p.dstW / 3 * 3) ((yEnd - yBeg) * p.dstW / 6 * 6) src dstC yBeg srcC
        dw.2 bias params dst dw.1)
      (fun k _ => tileCalls1x1_tiled h h1' src dstC yBeg yEnd srcC _ bias params dst _ hy hE)⟩
    simp only [passCalls, rowPassCalls1x1, hn, AlignLoAny, if_true, hstep]
    simp

/-- The loop over row blocks of a driver returns for `0 < a.macroH`, and rewrites the rows from
`yBeg` on of the channels `[dst, dst + macroD)`, each element as the row pass does. -/
theorem rows_updates (ex : α → α) (term : TermType) (type : SimdConvolutionActivationType)
    {p : ConvParam32f} (h : p.InDomain) (a : AlgParam) (hH : 0 < a.macroH) (direct1x1 : Bool)
    (h1 : direct1x1 = true → p.Is1x1 = true) (srcB weightB biasB paramsB : Nat → α)
    (src macroD macroC weight bias params dst : Nat) (hD : dst + macroD ≤ p.dstC) :
    ∀ fuel yBeg, p.dstH ≤ yBeg + fuel → yBeg ≤ p.dstH →
      ∃ cs, driverRows direct1x1 p a term src macroD macroC weight bias params dst fuel yBeg
          = some cs
        ∧ Updates (runCalls ex type p srcB weightB biasB paramsB cs)
            (Box p.dstC (yBeg * p.dstW) (p.dstH * p.dstW) dst (dst + macroD))
            (passStore ex term type p srcB weightB biasB paramsB src macroC weight bias params
              dst) := by
  intro fuel
  induction fuel with
  | zero =>
    intro yBeg h0 h2
    have e : yBeg = p.dstH := by omega
    refine ⟨[], ?_, ?_⟩
    · simp [driverRows, e]
    · rw [e]
      exact Updates.id_updates _ _ (fun j => box_empty_pix _ _ _ _ j)
  | succ fuel ih =>
    intro yBeg h0 h2
    by_cases hlt : yBeg < p.dstH
    · have hy : yBeg ≤ min (yBeg + a.macroH) p.dstH := by omega
      have hE : min (yBeg + a.macroH) p.dstH ≤ p.dstH := Nat.min_le_right _ _
      obtain ⟨cs, hcs, hU⟩ := pass_updates ex term type h direct1x1 h1 srcB weightB biasB paramsB
        src macroD yBeg (min (yBeg + a.macroH) p.dstH) macroC weight bias params dst hy hE hD
      obtain ⟨rest, hrest, hR⟩ := ih (min (yBeg + a.macroH) p.dstH) (by omega) hE
      refine ⟨cs.map (fun c => (term, c)) ++ rest, ?_, ?_⟩
      · simp only [driverRows, hlt, if_true, hcs, hrest]
      · have h3 := Updates.comp_updates hU hR (fun j hj => box_disjoint_pix hj)
          (box_union_pix p.dstC (yBeg * p.dstW) (min (yBeg + a.macroH) p.dstH * p.dstW)
            (p.dstH * p.dstW) dst (dst + macroD) (Nat.mul_le_mul_right _ hy)
            (Nat.mul_le_mul_right _ hE))
        intro m j
        have e := h3 m j
        unfold runCalls at e ⊢
        rw [List.foldl_append]
        exact e
    · have e : yBeg = p.dstH := by omega
      refine ⟨[], ?_, ?_⟩
      · simp [driverRows, hlt]
      · rw [e]
        exact Updates.id_updates _ _ (fun j => box_empty_pix _ _ _ _ j)

theorem driverWeightIndex_eq (p : ConvParam32f) (a : AlgParam) (o ky kx c : Nat) :
    driverWeightIndex p a o ky kx c
      = blockWeightIndex p a
          ((o / a.macroD) * ((a.macroD + 15) / 16 * 16) * (p.kernelY * p.kernelX * p.srcC))
          (o / a.macroD * a.macroD)
          (min p.dstC (o / a.macroD * a.macroD + a.macroD) - o / a.macroD * a.macroD)
          o ky kx c := rfl

/-- The reference sum only looks at the weights of the kernel positions and channels it sums
over. -/
theorem convSum_congr (p : ConvParam32f) (src : Nat → α) (off n : Nat)
    (w w' : Nat → Nat → Nat → α) (y x : Nat)
    (hw : ∀ ky, ky < p.kernelY → ∀ kx, kx < p.kernelX → ∀ c, c < n → w ky kx c = w' ky kx c) :
    convSum p src off n w y x = convSum p src off n w' y x := by
  unfold convSum
  refine Finset.sum_congr rfl (fun ky hky => ?_)
  refine Finset.sum_congr rfl (fun kx hkx => ?_)
  refine Finset.sum_congr rfl (fun c hc => ?_)
  rw [hw ky (Finset.mem_range.1 hky) kx (Finset.mem_range.1 hkx) c (Finset.mem_range.1 hc)]

/-- The reference sum over `m + n` source channels is the sum over the first `m` plus the sum
over the next `n`. -/
theorem convSum_split (p : ConvParam32f) (src : Nat → α) (off m n : Nat)
    (w : Nat → Nat → Nat → α) (y x : Nat) :
    convSum p src off (m + n) w y x
      = convSum p src off m w y x + convSum p src (off + m) n (fun ky kx cc => w ky kx (m + cc))
          y x := by
  unfold convSum
  rw [← Finset.sum_add_distrib]
  refine Finset.sum_congr rfl (fun ky _ => ?_)
  rw [← Finset.sum_add_distrib]
  refine Finset.sum_congr rfl (fun kx _ => ?_)
  rw [Finset.sum_range_add]
  congr 1
  refine Finset.sum_congr rfl (fun c _ => ?_)
  congr 1
  unfold srcZeroPadded
  split_ifs
  · congr 1; omega
  · rfl

theorem convSum_zero (p : ConvParam32f) (src : Nat → α) (off : Nat)
    (w : Nat → Nat → Nat → α) (y x : Nat) : convSum p src off 0 w y x = 0 := by
  unfold convSum
  simp

/-- The accumulator of the pass over the source channels `[sc, sc + macroC)` of a driver is the
difference of the reference sums over `sc + macroC` and over `sc` channels, with the weights
read in the order of the driver. -/
theorem block_value (p : ConvParam32f) (a : AlgParam) (srcB weightB : Nat → α)
    (weight dc macroD o s y x : Nat) :
    convSum p srcB (s * a.macroC) (min p.srcC (s * a.macroC + a.macroC) - s * a.macroC)
        (fun ky kx cc => weightB (weight
            + (macroD + 15) / 16 * 16 * (p.kernelY * p.kernelX * (s * a.macroC))
          + (((((o - dc) / DF) * p.kernelY + ky) * p.kernelX + kx)
              * (min p.srcC (s * a.macroC + a.macroC) - s * a.macroC) + cc) * DF
          + (o - dc) % DF)) y x
      = convSum p srcB 0 (s * a.macroC + (min p.srcC (s * a.macroC + a.macroC) - s * a.macroC))
          (fun ky kx c => weightB (blockWeightIndex p a weight dc macroD o ky kx c)) y x
        - convSum p srcB 0 (s * a.macroC)
          (fun ky kx c => weightB (blockWeightIndex p a weight dc macroD o ky kx c)) y x := by
  rw [convSum_split, add_sub_cancel_left, Nat.zero_add]
  refine convSum_congr p srcB _ _ _ _ y x (fun ky _ kx _ cc hcc => ?_)
  have hC : 0 < a.macroC := by
    rcases Nat.eq_zero_or_pos a.macroC with h0 | h0
    · rw [h0] at hcc; simp at hcc
    · exact h0
  have hcc' : cc < a.macroC := by omega
  have hq : (s * a.macroC + cc) / a.macroC * a.macroC = s * a.macroC := by
    congr 1
    rw [Nat.add_comm, Nat.add_mul_div_right _ _ hC, Nat.div_eq_of_lt hcc', Nat.zero_add]
  unfold blockWeightIndex
  simp only [hq, Nat.add_sub_cancel_left, DF]

/-- What the pass over the source channels from `s * a.macroC` on stores, by the reference sums
of the block. -/
theorem passStore_block (ex : α → α) (term : TermType) (type : SimdConvolutionActivationType)
    (p : ConvParam32f) (a : AlgParam) (srcB weightB biasB paramsB : Nat → α)
    (weight dc macroD params s j : Nat) (old : α) :
    passStore ex term type p srcB weightB biasB paramsB (s * a.macroC)
        (min p.srcC (s * a.macroC + a.macroC) - s * a.macroC)
        (weight + (macroD + 15) / 16 * 16 * (p.kernelY * p.kernelX * (s * a.macroC)))
        dc params dc j old
      = Save ex term type (paramsB params) (paramsB (params + 1))
          (paramsB (params + (j % p.dstC - dc))) (biasB (dc + (j % p.dstC - dc))) old
          (blockSum p a srcB weightB weight dc macroD
              (s * a.macroC + (min p.srcC (s * a.macroC + a.macroC) - s * a.macroC)) j
            - blockSum p a srcB weightB weight dc macroD (s * a.macroC) j) := by
  unfold passStore blockSum
  rw [← block_value]

theorem runCalls_append (ex : α → α) (type : SimdConvolutionActivationType) (p : ConvParam32f)
    (srcB weightB biasB paramsB : Nat → α) (cs1 cs2 : List (TermType × MicroCall))
    (m : Nat → α) :
    runCalls ex type p srcB weightB biasB paramsB (cs1 ++ cs2) m
      = runCalls ex type p srcB weightB biasB paramsB cs2
          (runCalls ex type p srcB weightB biasB paramsB cs1 m) := by
  unfold runCalls
  rw [List.foldl_append]

/-- The passes of a driver over the source channels from `s * a.macroC` on, `0 < s`, when the
source channels take more than one pass: they return, and add the rest of the reference sum to
the partial sum the destination holds, then bias and activation. -/
theorem channels_rest (ex : α → α) (type : SimdConvolutionActivationType)
    {p : ConvParam32f} (h : p.InDomain) (a : AlgParam) (hH : 0 < a.macroH)
    (hm : a.microD = 16) (hC : 0 < a.macroC) (hne : a.macroC ≠ p.srcC) (direct1x1 : Bool)
    (h1 : direct1x1 = true → p.Is1x1 = true) (srcB weightB biasB paramsB : Nat → α)
    (macroD params dc weight : Nat) (hD : dc + macroD ≤ p.dstC) :
    ∀ fuel s, 0 < s → s * a.macroC < p.srcC → p.srcC ≤ s * a.macroC + fuel →
      ∃ cs, driverChannels direct1x1 p a macroD 0 params 0 dc fuel (s * a.macroC)
          (weight + (macroD + 15) / 16 * 16 * (p.kernelY * p.kernelX * (s * a.macroC)))
            = some (cs, weight + (macroD + 15) / 16 * 16 * (p.kernelY * p.kernelX * p.srcC))
        ∧ Updates (runCalls ex type p srcB weightB biasB paramsB cs)
            (Box p.dstC 0 (p.dstH * p.dstW) dc (dc + macroD))
            (fun j old => Activate ex type (paramsB params) (paramsB (params + 1))
              (paramsB (params + (j % p.dstC - dc)))
              (old + (blockSum p a srcB weightB weight dc macroD p.srcC j
                - blockSum p a srcB weightB weight dc macroD (s * a.macroC) j)
                + biasB (dc + (j % p.dstC - dc)))) := by
  intro fuel
  induction fuel with
  | zero =>
    intro s _ h2 h3
    omega
  | succ fuel ih =>
    intro s hs hlt hf
    have hsc : 0 < s * a.macroC := Nat.mul_pos hs hC
    obtain ⟨cs, hcs, hU⟩ := rows_updates ex
      (driverTerm p a (s * a.macroC) (min p.srcC (s * a.macroC + a.macroC) - s * a.macroC)) type
      h a hH direct1x1 h1 srcB weightB biasB paramsB (s * a.macroC) macroD
      (min p.srcC (s * a.macroC + a.macroC) - s * a.macroC)
      (weight + (macroD + 15) / 16 * 16 * (p.kernelY * p.kernelX * (s * a.macroC)))
      (0 + dc) params (0 + dc) (by omega) p.dstH 0 (by omega) (Nat.zero_le _)
    simp only [Nat.zero_mul] at hU
    rw [Nat.zero_add dc] at hU
    by_cases hlast : p.srcC ≤ s * a.macroC + a.macroC
    · have hmin : min p.srcC (s * a.macroC + a.macroC) - s * a.macroC
          = p.srcC - s * a.macroC := by rw [Nat.min_eq_left hlast]
      have hterm : driverTerm p a (s * a.macroC)
          (min p.srcC (s * a.macroC + a.macroC) - s * a.macroC) = TermType.TermLast := by
        unfold driverTerm
        rw [if_neg hne, if_neg (by omega), if_pos (by omega)]
      have hrest := driverChannels_done direct1x1 p a macroD 0 params 0 dc fuel
        (s * a.macroC + a.macroC)
        (weight + (macroD + 15) / 16 * 16 * (p.kernelY * p.kernelX * (s * a.macroC))
          + (macroD + 15) / 16 * 16 * ((if direct1x1 then 1 else p.kernelY * p.kernelX)
            * (min p.srcC (s * a.macroC + a.macroC) - s * a.macroC))) (by omega)
      refine ⟨cs ++ [], ?_, ?_⟩
      · rw [driverChannels_step direct1x1 p a macroD 0 params 0 dc fuel _ _ hlt cs _ hcs
          (alignHi_16 a hm macroD) _ hrest]
        have e : p.kernelY * p.kernelX * (s * a.macroC)
            + p.kernelY * p.kernelX * (p.srcC - s * a.macroC) = p.kernelY * p.kernelX * p.srcC := by
          rw [← Nat.mul_add]; congr 1; omega
        simp only [macroK_eq direct1x1 p h1, hmin, Nat.add_assoc, ← Nat.mul_add, e]
      · rw [List.append_nil]
        rw [hterm] at hU
        refine Updates.congr_updates hU (fun j => Iff.rfl) (fun j v _ => ?_)
        rw [passStore_block]
        have e : s * a.macroC + (min p.srcC (s * a.macroC + a.macroC) - s * a.macroC)
            = p.srcC := by omega
        rw [e]
        rfl
    · have hnext : (s + 1) * a.macroC < p.srcC := by
        rw [Nat.add_mul, Nat.one_mul]; omega
      have hmin : min p.srcC (s * a.macroC + a.macroC) - s * a.macroC = a.macroC := by
        rw [Nat.min_eq_right (by omega)]; omega
      have hterm : driverTerm p a (s * a.macroC)
          (min p.srcC (s * a.macroC + a.macroC) - s * a.macroC) = TermType.TermIterim := by
        unfold driverTerm
        rw [if_neg hne, if_neg (by omega), if_neg (by omega)]
      obtain ⟨rest, hrest, hR⟩ := ih (s + 1) (Nat.succ_pos _) hnext
        (by rw [Nat.add_mul, Nat.one_mul]; omega)
      have e2 : weight + (macroD + 15) / 16 * 16 * (p.kernelY * p.kernelX * ((s + 1) * a.macroC))
          = weight + (macroD + 15) / 16 * 16 * (p.kernelY * p.kernelX * (s * a.macroC))
            + (macroD + 15) / 16 * 16 * ((if direct1x1 then 1 else p.kernelY * p.kernelX)
              * (min p.srcC (s * a.macroC + a.macroC) - s * a.macroC)) := by
        rw [macroK_eq direct1x1 p h1, hmin]; ring
      have e1 : (s + 1) * a.macroC = s * a.macroC + a.macroC := by ring
      rw [e2, e1] at hrest
      refine ⟨cs ++ rest, ?_, ?_⟩
      · rw [driverChannels_step direct1x1 p a macroD 0 params 0 dc fuel _ _ hlt cs _ hcs
          (alignHi_16 a hm macroD) _ hrest]
      · rw [hterm] at hU
        have h3 := Updates.seq_updates hU hR (K := fun j old => Activate ex type (paramsB params)
            (paramsB (params + 1)) (paramsB (params + (j % p.dstC - dc)))
            (old + (blockSum p a srcB weightB weight dc macroD p.srcC j
              - blockSum p a srcB weightB weight dc macroD (s * a.macroC) j)
              + biasB (dc + (j % p.dstC - dc))))
          (fun j v _ => by
            rw [passStore_block, hmin, ← e1]
            unfold Save
            simp only []
            congr 1
            ring)
        intro m j
        rw [runCalls_append]
        exact h3 m j

/-- The passes of a driver for one block of destination channels, for `0 < a.macroC ≤ p.srcC`:
they return, move the weight pointer past the weights of the block, and store activation of
reference sum plus bias to every element of the block. -/
theorem channels_updates (ex : α → α) (type : SimdConvolutionActivationType)
    {p : ConvParam32f} (h : p.InDomain) (a : AlgParam) (hH : 0 < a.macroH)
    (hm : a.microD = 16) (hC : 0 < a.macroC) (hle : a.macroC ≤ p.srcC) (direct1x1 : Bool)
    (h1 : direct1x1 = true → p.Is1x1 = true) (srcB weightB biasB paramsB : Nat → α)
    (macroD params dc weight : Nat) (hD : dc + macroD ≤ p.dstC) :
    ∃ cs, driverChannels direct1x1 p a macroD 0 params 0 dc p.srcC 0 weight
        = some (cs, weight + (macroD + 15) / 16 * 16 * (p.kernelY * p.kernelX * p.srcC))
      ∧ Updates (runCalls ex type p srcB weightB biasB paramsB cs)
          (Box p.dstC 0 (p.dstH * p.dstW) dc (dc + macroD))
          (fun j _ => Activate ex type (paramsB params) (paramsB (params + 1))
            (paramsB (params + (j % p.dstC - dc)))
            (blockSum p a srcB weightB weight dc macroD p.srcC j
              + biasB (dc + (j % p.dstC - dc)))) := by
  obtain ⟨fuel, hfuel⟩ : ∃ n, p.srcC = n + 1 := ⟨p.srcC - 1, by omega⟩
  have hlt : 0 < p.srcC := by omega
  obtain ⟨cs, hcs, hU⟩ := rows_updates ex
    (driverTerm p a (0 * a.macroC) (min p.srcC (0 * a.macroC + a.macroC) - 0 * a.macroC)) type
    h a hH direct1x1 h1 srcB weightB biasB paramsB (0 * a.macroC) macroD
    (min p.srcC (0 * a.macroC + a.macroC) - 0 * a.macroC)
    (weight + (macroD + 15) / 16 * 16 * (p.kernelY * p.kernelX * (0 * a.macroC)))
    (0 + dc) params (0 + dc) (by omega) p.dstH 0 (by omega) (Nat.zero_le _)
  rw [Nat.zero_mul p.dstW, Nat.zero_add dc] at hU
  have hmin : min p.srcC (0 * a.macroC + a.macroC) - 0 * a.macroC = a.macroC := by
    rw [Nat.zero_mul, Nat.zero_add, Nat.min_eq_right hle, Nat.sub_zero]
  have hz : ∀ j, blockSum p a srcB weightB weight dc macroD (0 * a.macroC) j = 0 := by
    intro j
    unfold blockSum
    rw [Nat.zero_mul, convSum_zero]
  have hw0 : weight + (macroD + 15) / 16 * 16 * (p.kernelY * p.kernelX * (0 * a.macroC))
      = weight := by
    rw [Nat.zero_mul, Nat.mul_zero, Nat.mul_zero, Nat.add_zero]
  by_cases hone : a.macroC = p.srcC
  · have hterm : driverTerm p a (0 * a.macroC)
        (min p.srcC (0 * a.macroC + a.macroC) - 0 * a.macroC) = TermType.TermSingle := by
      unfold driverTerm
      rw [if_pos hone]
    have hrest := driverChannels_done direct1x1 p a macroD 0 params 0 dc fuel
      (0 * a.macroC + a.macroC)
      (weight + (macroD + 15) / 16 * 16 * (p.kernelY * p.kernelX * (0 * a.macroC))
        + (macroD + 15) / 16 * 16 * ((if direct1x1 then 1 else p.kernelY * p.kernelX)
          * (min p.srcC (0 * a.macroC + a.macroC) - 0 * a.macroC)))
      (by rw [Nat.zero_mul, Nat.zero_add]; omega)
    refine ⟨cs ++ [], ?_, ?_⟩
    · have hstep := driverChannels_step direct1x1 p a macroD 0 params 0 dc fuel _ _
        (by rw [Nat.zero_mul]; exact hlt) cs _ hcs (alignHi_16 a hm macroD) _ hrest
      rw [hw0, Nat.zero_mul, ← hfuel] at hstep
      rw [hstep]
      simp only [macroK_eq direct1x1 p h1, Nat.zero_add, hone, Nat.min_self, Nat.sub_zero]
    · rw [List.append_nil]
      rw [hterm] at hU
      refine Updates.congr_updates hU (fun j => Iff.rfl) (fun j v _ => ?_)
      rw [passStore_block, hmin, hz, sub_zero, Nat.zero_mul, Nat.zero_add, hone]
      rfl
  · have hterm : driverTerm p a (0 * a.macroC)
        (min p.srcC (0 * a.macroC + a.macroC) - 0 * a.macroC) = TermType.TermFirst := by
      unfold driverTerm
      rw [if_neg hone, if_pos (Nat.zero_mul _)]
    have hlt1 : 1 * a.macroC < p.srcC := by
      rw [Nat.one_mul]; omega
    obtain ⟨rest, hrest, hR⟩ := channels_rest ex type h a hH hm hC hone direct1x1 h1 srcB
      weightB biasB paramsB macroD params dc weight hD fuel 1 Nat.one_pos hlt1
      (by rw [Nat.one_mul]; omega)
    have e2 : weight + (macroD + 15) / 16 * 16 * (p.kernelY * p.kernelX * (1 * a.macroC))
        = weight + (macroD + 15) / 16 * 16 * (p.kernelY * p.kernelX * (0 * a.macroC))
          + (macroD + 15) / 16 * 16 * ((if direct1x1 then 1 else p.kernelY * p.kernelX)
            * (min p.srcC (0 * a.macroC + a.macroC) - 0 * a.macroC)) := by
      rw [macroK_eq direct1x1 p h1, hmin]; ring
    have e1 : 1 * a.macroC = 0 * a.macroC + a.macroC := by ring
    have hrest' := hrest
    rw [e2, e1] at hrest'
    refine ⟨cs ++ rest, ?_, ?_⟩
    · have hstep := driverChannels_step direct1x1 p a macroD 0 params 0 dc fuel _ _
        (by rw [Nat.zero_mul]; exact hlt) cs _ hcs (alignHi_16 a hm macroD) _ hrest'
      rw [hw0, Nat.zero_mul, ← hfuel] at hstep
      exact hstep
    · rw [hterm] at hU
      have h3 := Updates.seq_updates hU hR (K := fun j _ => Activate ex type (paramsB params)
          (paramsB (params + 1)) (paramsB (params + (j % p.dstC - dc)))
          (blockSum p a srcB weightB weight dc macroD p.srcC j
            + biasB (dc + (j % p.dstC - dc))))
        (fun j v _ => by
          rw [passStore_block, hmin, hz, sub_zero, ← e1]
          unfold Save
          simp only []
          congr 1
          ring)
      intro m j
      rw [runCalls_append]
      exact h3 m j

/-- Only PReLU looks at the slope of the channel, and PReLU does not look at the two scalar
parameters. -/
theorem activate_params (ex : α → α) (type : SimdConvolutionActivationType)
    (a0 a1 b0 b1 s s' x : α)
    (hp : type = SimdConvolutionActivationType.Prelu → s = s')
    (hn : type ≠ SimdConvolutionActivationType.Prelu →
      a0 = b0 ∧ a1 = b1) :
    Activate ex type a0 a1 s x = Activate ex type b0 b1 s' x := by
  cases type
  case Prelu =>
    rw [hp rfl]
    rfl
  all_goals
    obtain ⟨e0, e1⟩ := hn (by simp)
    rw [e0, e1]
    rfl

/-- On its box of channels a block of a driver stores the reference convolution for the
weights in the order of the driver. -/
theorem block_final (ex : α → α) (type : SimdConvolutionActivationType) (p : ConvParam32f)
    (a : AlgParam) (srcB weightB biasB paramsB : Nat → α) (m j : Nat)
    (hlo : m * a.macroD ≤ j % p.dstC)
    (hhi : j % p.dstC < m * a.macroD + (min p.dstC (m * a.macroD + a.macroD) - m * a.macroD)) :
    Activate ex type
        (paramsB (if type = SimdConvolutionActivationType.Prelu
          then m * a.macroD else 0))
        (paramsB ((if type = SimdConvolutionActivationType.Prelu
          then m * a.macroD else 0) + 1))
        (paramsB ((if type = SimdConvolutionActivationType.Prelu
          then m * a.macroD else 0) + (j % p.dstC - m * a.macroD)))
        (blockSum p a srcB weightB
            (m * ((a.macroD + 15) / 16 * 16) * (p.kernelY * p.kernelX * p.srcC))
            (m * a.macroD) (min p.dstC (m * a.macroD + a.macroD) - m * a.macroD) p.srcC j
          + biasB (m * a.macroD + (j % p.dstC - m * a.macroD)))
      = referenceConvolution ex type p srcB
          (fun ky kx c d => weightB (driverWeightIndex p a d ky kx c)) biasB paramsB
          (j / p.dstC / p.dstW) (j / p.dstC % p.dstW) (j % p.dstC) := by
  have hD : 0 < a.macroD := by
    rcases Nat.eq_zero_or_pos a.macroD with h0 | h0
    · rw [h0] at hhi; simp at hhi
    · exact h0
  have hq : j % p.dstC / a.macroD = m := by
    apply Nat.div_eq_of_lt_le
    · exact hlo
    · rw [Nat.add_mul, Nat.one_mul]
      have := Nat.min_le_right p.dstC (m * a.macroD + a.macroD)
      omega
  have ho : m * a.macroD + (j % p.dstC - m * a.macroD) = j % p.dstC := by omega
  unfold referenceConvolution blockSum
  rw [ho, add_comm (convSum _ _ _ _ _ _ _) (biasB _)]
  simp only [driverWeightIndex_eq, hq]
  apply activate_params
  · intro ht
    rw [if_pos ht, ho]
  · intro ht
    rw [if_neg ht]
    exact ⟨rfl, rfl⟩

/-- The loop over blocks of destination channels from block `m` on: it returns, and stores the
reference convolution to every element of the channels from `m * a.macroD` on. -/
theorem blocks_updates (ex : α → α) (type : SimdConvolutionActivationType)
    {p : ConvParam32f} (h : p.InDomain) (a : AlgParam) (hH : 0 < a.macroH)
    (hm : a.microD = 16) (hC : 0 < a.macroC) (hle : a.macroC ≤ p.srcC) (hD : 0 < a.macroD)
    (direct1x1 : Bool) (h1 : direct1x1 = true → p.Is1x1 = true)
    (srcB weightB biasB paramsB : Nat → α) :
    ∀ fuel m, p.dstC ≤ m * a.macroD + fuel →
      ∃ cs, driverBlocks direct1x1 type p a 0 0 fuel (m * a.macroD)
          (m * ((a.macroD + 15) / 16 * 16) * (p.kernelY * p.kernelX * p.srcC))
          (if type = SimdConvolutionActivationType.Prelu then m * a.macroD else 0) = some cs
        ∧ Updates (runCalls ex type p srcB weightB biasB paramsB cs)
            (Box p.dstC 0 (p.dstH * p.dstW) (m * a.macroD) p.dstC)
            (fun j _ => referenceConvolution ex type p srcB
              (fun ky kx c d => weightB (driverWeightIndex p a d ky kx c)) biasB paramsB
              (j / p.dstC / p.dstW) (j / p.dstC % p.dstW) (j % p.dstC)) := by
  intro fuel
  induction fuel with
  | zero =>
    intro m h0
    refine ⟨[], driverBlocks_done _ _ _ _ _ _ _ _ _ _ (by omega), ?_⟩
    refine Updates.id_updates _ _ (fun j hj => ?_)
    unfold Box at hj
    omega
  | succ fuel ih =>
    intro m h0
    by_cases hlt : m * a.macroD < p.dstC
    · have hDD : m * a.macroD + (min p.dstC (m * a.macroD + a.macroD) - m * a.macroD)
          ≤ p.dstC := by
        have := Nat.min_le_left p.dstC (m * a.macroD + a.macroD)
        omega
      obtain ⟨cs, hcs, hU⟩ := channels_updates ex type h a hH hm hC hle direct1x1 h1 srcB
        weightB biasB paramsB (min p.dstC (m * a.macroD + a.macroD) - m * a.macroD)
        (if type = SimdConvolutionActivationType.Prelu then m * a.macroD else 0)
        (m * a.macroD) (m * ((a.macroD + 15) / 16 * 16) * (p.kernelY * p.kernelX * p.srcC)) hDD
      have hU' := Updates.congr_updates hU (fun j => Iff.rfl) (H := fun j _ =>
          referenceConvolution ex type p srcB
            (fun ky kx c d => weightB (driverWeightIndex p a d ky kx c)) biasB paramsB
            (j / p.dstC / p.dstW) (j / p.dstC % p.dstW) (j % p.dstC))
        (fun j v hj =>
          (block_final ex type p a srcB weightB biasB paramsB m j hj.2.2.1 hj.2.2.2).symm)
      have hrest : ∃ rest, driverBlocks direct1x1 type p a 0 0 fuel (m * a.macroD + a.macroD)
            (m * ((a.macroD + 15) / 16 * 16) * (p.kernelY * p.kernelX * p.srcC)
              + (min p.dstC (m * a.macroD + a.macroD) - m * a.macroD + 15) / 16 * 16
                * (p.kernelY * p.kernelX * p.srcC))
            (if type = SimdConvolutionActivationType.Prelu
              then (if type = SimdConvolutionActivationType.Prelu then m * a.macroD else 0)
                + (min p.dstC (m * a.macroD + a.macroD) - m * a.macroD)
              else (if type = SimdConvolutionActivationType.Prelu then m * a.macroD else 0))
            = some rest
          ∧ Updates (runCalls ex type p srcB weightB biasB paramsB rest)
            (Box p.dstC 0 (p.dstH * p.dstW)
              (m * a.macroD + (min p.dstC (m * a.macroD + a.macroD) - m * a.macroD)) p.dstC)
            (fun j _ => referenceConvolution ex type p srcB
              (fun ky kx c d => weightB (driverWeightIndex p a d ky kx c)) biasB paramsB
              (j / p.dstC / p.dstW) (j / p.dstC % p.dstW) (j % p.dstC)) := by
        by_cases hfull : m * a.macroD + a.macroD ≤ p.dstC
        · have hmin : min p.dstC (m * a.macroD + a.macroD) - m * a.macroD = a.macroD := by
            rw [Nat.min_eq_right hfull]; omega
          obtain ⟨rest, hr, hR⟩ := ih (m + 1) (by rw [Nat.add_mul, Nat.one_mul]; omega)
          refine ⟨rest, ?_, ?_⟩
          · rw [← hr, hmin]
            congr 1
            · ring
            · ring
            · by_cases ht : type = SimdConvolutionActivationType.Prelu
              · simp only [ht, if_true]; ring
              · simp only [ht, if_false]
          · rw [hmin]
            have e : m * a.macroD + a.macroD = (m + 1) * a.macroD := by ring
            rw [e]
            exact hR
        · refine ⟨[], driverBlocks_done _ _ _ _ _ _ _ _ _ _ (by omega), ?_⟩
          refine Updates.id_updates _ _ (fun j hj => ?_)
          unfold Box at hj
          have := Nat.min_eq_left (Nat.le_of_lt (Nat.lt_of_not_le hfull))
          omega
      obtain ⟨rest, hr, hR⟩ := hrest
      refine ⟨cs ++ rest, ?_, ?_⟩
      · exact driverBlocks_step direct1x1 type p a 0 0 fuel (m * a.macroD) _ _ hlt _ hcs rest hr
      · have h3 := Updates.comp_updates hU' hR (fun j hj => box_disjoint_ch hj)
          (box_union_ch p.dstC 0 (p.dstH * p.dstW) (m * a.macroD)
            (m * a.macroD + (min p.dstC (m * a.macroD + a.macroD) - m * a.macroD)) p.dstC
            (Nat.le_add_right _ _) hDD)
        intro d j
        rw [runCalls_append]
        exact h3 d j
    · refine ⟨[], driverBlocks_done _ _ _ _ _ _ _ _ _ _ hlt, ?_⟩
      refine Updates.id_updates _ _ (fun j hj => ?_)
      unfold Box at hj
      omega

/-- A driver on the domain of the engine, for `0 < a.macroC ≤ p.srcC`: it returns, stores the
reference convolution to every element of the destination tensor, and nothing else. -/
theorem driver_correct (ex : α → α) (type : SimdConvolutionActivationType)
    {p : ConvParam32f} (h : p.InDomain) (a : AlgParam) (hH : 0 < a.macroH)
    (hm : a.microD = 16) (hC : 0 < a.macroC) (hle : a.macroC ≤ p.srcC) (hD : 0 < a.macroD)
    (direct1x1 : Bool) (h1 : direct1x1 = true → p.Is1x1 = true)
    (srcB weightB biasB paramsB : Nat → α) :
    ∃ cs, driverCalls direct1x1 type p a = some cs
      ∧ ∀ dst j,
        (j < p.dstH * p.dstW * p.dstC →
          runCalls ex type p srcB weightB biasB paramsB cs dst j
            = referenceConvolution ex type p srcB
                (fun ky kx c d => weightB (driverWeightIndex p a d ky kx c)) biasB paramsB
                (j / p.dstC / p.dstW) (j / p.dstC % p.dstW) (j % p.dstC))
        ∧ (p.dstH * p.dstW * p.dstC ≤ j →
          runCalls ex type p srcB weightB biasB paramsB cs dst j = dst j) := by
  obtain ⟨cs, hcs, hU⟩ := blocks_updates ex type h a hH hm hC hle hD direct1x1 h1 srcB weightB
    biasB paramsB p.dstC 0 (by omega)
  simp only [Nat.zero_mul, ite_self] at hcs hU
  refine ⟨cs, hcs, fun dst j => ?_⟩
  have hbox : Box p.dstC 0 (p.dstH * p.dstW) 0 p.dstC j ↔ j < p.dstH * p.dstW * p.dstC := by
    unfold Box
    rcases Nat.eq_zero_or_pos p.dstC with h0 | h0
    · rw [h0]; simp
    · rw [Nat.div_lt_iff_lt_mul h0]
      exact ⟨fun hb => hb.2.1, fun hj => ⟨Nat.zero_le _, hj, Nat.zero_le _, Nat.mod_lt j h0⟩⟩
  constructor
  · intro hj
    exact (hU dst j).1 (hbox.2 hj)
  · intro hj
    exact (hU dst j).2 (fun hb => absurd (hbox.1 hb) (by omega))

/-- The installed kernel runs the calls of the driver it dispatches to. -/
theorem convolution_eq (ex : α → α) (type : SimdConvolutionActivationType)
    (src : Nat → α) (p : ConvParam32f) (a : AlgParam) (weight bias params dst : Nat → α) :
    convolution ex type src p a weight bias params dst
      = (driverCalls p.Is1x1 type p a).map fun cs =>
          runCalls ex type p src weight bias params cs dst := by
  unfold convolution ConvolutionNhwcDirect1x1_2 ConvolutionNhwcDirect_2
  cases p.Is1x1 <;> simp

/-- The position of the element of channel `d` of pixel `(y, x)` in a channels-last tensor. -/
theorem nhwc_index (H W D y x d : Nat) (hy : y < H) (hx : x < W) (hd : d < D) :
    ((y * W + x) * D + d) % D = d ∧ ((y * W + x) * D + d) / D / W = y
      ∧ ((y * W + x) * D + d) / D % W = x ∧ (y * W + x) * D + d < H * W * D := by
  obtain ⟨e1, e2⟩ := div_row (y * W + x) D d hd
  obtain ⟨e3, e4⟩ := div_row y W x hx
  refine ⟨e2, by rw [e1, e3], by rw [e1, e4], ?_⟩
  have h1 : y * W + x + 1 ≤ H * W := by
    have : (y + 1) * W ≤ H * W := Nat.mul_le_mul_right _ hy
    rw [Nat.add_mul, Nat.one_mul] at this
    omega
  have h2 : (y * W + x + 1) * D ≤ H * W * D := Nat.mul_le_mul_right _ h1
  rw [Nat.add_mul, Nat.one_mul] at h2
  omega

/-- The installed kernel on the domain of the engine, for `0 < a.macroC ≤ p.srcC`, with the
logical filter `w` stored in the order of the driver: the kernel returns, the element of channel
`d` of pixel `(y, x)` of the destination is the reference convolution, and the memory past the
destination tensor is untouched. -/
theorem convolution_spec (ex : α → α) (type : SimdConvolutionActivationType)
    {p : ConvParam32f} (h : p.InDomain) (a : AlgParam) (hH : 0 < a.macroH)
    (hm : a.microD = 16) (hC : 0 < a.macroC) (hle : a.macroC ≤ p.srcC) (hD : 0 < a.macroD)
    (src weight bias params dst : Nat → α) (w : Nat → Nat → Nat → Nat → α)
    (hw : ∀ d ky kx c, d < p.dstC → ky < p.kernelY → kx < p.kernelX → c < p.srcC →
      weight (driverWeightIndex p a d ky kx c) = w ky kx c d) :
    ∃ out, convolution ex type src p a weight bias params dst = some out
      ∧ (∀ y x d, y < p.dstH → x < p.dstW → d < p.dstC →
          out ((y * p.dstW + x) * p.dstC + d)
            = referenceConvolution ex type p src w bias params y x d)
      ∧ ∀ j, p.dstH * p.dstW * p.dstC ≤ j → out j = dst j := by
  obtain ⟨cs, hcs, hU⟩ := driver_correct ex type h a hH hm hC hle hD p.Is1x1 (fun e => e)
    src weight bias params
  refine ⟨runCalls ex type p src weight bias params cs dst, ?_, ?_, fun j hj => (hU dst j).2 hj⟩
  · rw [convolution_eq, hcs]; rfl
  · intro y x d hy hx hd
    obtain ⟨e1, e2, e3, e4⟩ := nhwc_index p.dstH p.dstW p.dstC y x d hy hx hd
    rw [(hU dst _).1 e4, e1, e2, e3]
    unfold referenceConvolution
    congr 2
    exact convSum_congr p src 0 p.srcC _ _ y x (fun ky hky kx hkx c hc => hw d ky kx c hd hky hkx hc)

/-- An element of the zero-padded view of the source is the element of the explicitly padded
source at the same padded position. -/
theorem srcZeroPadded_pad (p : ConvParam32f) (src : Nat → α) (off c R Q : Nat)
    (hc : off + c < p.srcC) :
    srcZeroPadded p src off ((R : Int) - p.padY) ((Q : Int) - p.padX) c
      = srcZeroPadded (padParams p) (padSource p src) off
          ((R : Int) - (padParams p).padY) ((Q : Int) - (padParams p).padX) c := by
  have e0 : ((padParams p).padY : Int) = 0 := rfl
  have e1 : ((padParams p).padX : Int) = 0 := rfl
  have e2 : (padParams p).srcH = p.srcH + p.padY + p.padH := rfl
  have e3 : (padParams p).srcW = p.srcW + p.padX + p.padW := rfl
  have e4 : (padParams p).srcC = p.srcC := rfl
  unfold srcZeroPadded
  rw [e0, e1, e2, e3, e4]
  simp only [sub_zero, Int.toNat_ofNat]
  have hR : ((R : Int) - p.padY).toNat = R - p.padY := by omega
  have hQ : ((Q : Int) - p.padX).toNat = Q - p.padX := by omega
  rw [hR, hQ]
  by_cases hin : p.padY ≤ R ∧ R < p.padY + p.srcH ∧ p.padX ≤ Q ∧ Q < p.padX + p.srcW
  · rw [if_pos (by omega), if_pos (by push_cast; omega)]
    have hQ' : Q < p.srcW + p.padX + p.padW := by omega
    have hidx : off + (R * (p.srcW + p.padX + p.padW) + Q) * p.srcC + c
        = (R * (p.srcW + p.padX + p.padW) + Q) * p.srcC + (off + c) := by ring
    obtain ⟨d1, d2⟩ := div_row (R * (p.srcW + p.padX + p.padW) + Q) p.srcC (off + c) hc
    obtain ⟨d3, d4⟩ := div_row R (p.srcW + p.padX + p.padW) Q hQ'
    unfold padSource
    simp only []
    rw [hidx, d1, d2, d3, d4, if_pos hin]
    congr 1
    ring
  · rw [if_neg (by omega)]
    by_cases hout : (0 : Int) ≤ R ∧ (R : Int) < ((p.srcH + p.padY + p.padH : Nat) : Int)
        ∧ (0 : Int) ≤ Q ∧ (Q : Int) < ((p.srcW + p.padX + p.padW : Nat) : Int)
    · rw [if_pos hout]
      have hQ' : Q < p.srcW + p.padX + p.padW := by omega
      have hidx : off + (R * (p.srcW + p.padX + p.padW) + Q) * p.srcC + c
          = (R * (p.srcW + p.padX + p.padW) + Q) * p.srcC + (off + c) := by ring
      obtain ⟨d1, d2⟩ := div_row (R * (p.srcW + p.padX + p.padW) + Q) p.srcC (off + c) hc
      obtain ⟨d3, d4⟩ := div_row R (p.srcW + p.padX + p.padW) Q hQ'
      unfold padSource
      simp only []
      rw [hidx, d1, d2, d3, d4, if_neg hin]
    · rw [if_neg hout]

/-- The reference sum over the zero-padded view of the source is the reference sum of the
unpadded convolution over the explicitly padded source. -/
theorem convSum_pad (p : ConvParam32f) (src : Nat → α) (off n : Nat)
    (w : Nat → Nat → Nat → α) (y x : Nat) (hn : off + n ≤ p.srcC) :
    convSum p src off n w y x = convSum (padParams p) (padSource p src) off n w y x := by
  unfold convSum
  refine Finset.sum_congr rfl (fun ky _ => ?_)
  refine Finset.sum_congr rfl (fun kx _ => ?_)
  refine Finset.sum_congr rfl (fun c hc => ?_)
  have hc' : off + c < p.srcC := by
    have := Finset.mem_range.1 hc
    omega
  rw [srcZeroPadded_pad p src off c _ _ hc']
  rfl

/-- A row pass stores the same on the explicitly padded source as on the padded view of the
source. -/
theorem passStore_pad (ex : α → α) (term : TermType) (type : SimdConvolutionActivationType)
    (p : ConvParam32f) (srcB weightB biasB paramsB : Nat → α)
    (src srcC weight bias params dst j : Nat) (old : α) (hS : src + srcC ≤ p.srcC) :
    passStore ex term type p srcB weightB biasB paramsB src srcC weight bias params dst j old
      = passStore ex term type (padParams p) (padSource p srcB) weightB biasB paramsB src srcC
          weight bias params dst j old := by
  unfold passStore
  rw [convSum_pad p srcB src srcC _ _ _ hS]
  rfl

/-- The reference convolution without activation and dilation, with the zero padding written
as a restriction of the sum to the kernel positions that meet the image. -/
theorem referenceConvolution_identity (ex : α → α) (p : ConvParam32f)
    (hdY : p.dilationY = 1) (hdX : p.dilationX = 1) (src : Nat → α)
    (w : Nat → Nat → Nat → Nat → α) (bias params : Nat → α) (y x d : Nat) :
    referenceConvolution ex Identity p src w bias params y x d
      = bias d + ∑ ky in Finset.range p.kernelY, ∑ kx in Finset.range p.kernelX,
          ∑ c in Finset.range p.srcC,
            if p.padY ≤ y * p.strideY + ky ∧ y * p.strideY + ky < p.srcH + p.padY
                ∧ p.padX ≤ x * p.strideX + kx ∧ x * p.strideX + kx < p.srcW + p.padX then
              src (((y * p.strideY + ky - p.padY) * p.srcW + (x * p.strideX + kx - p.padX))
                * p.srcC + c) * w ky kx c d
            else 0 := by
  unfold referenceConvolution convSum
  show bias d + _ = _
  congr 1
  apply Finset.sum_congr rfl
  intro ky _
  apply Finset.sum_congr rfl
  intro kx _
  apply Finset.sum_congr rfl
  intro c _
  unfold srcZeroPadded
  rw [hdY, hdX, Nat.mul_one, Nat.mul_one]
  by_cases hc : p.padY ≤ y * p.strideY + ky ∧ y * p.strideY + ky < p.srcH + p.padY
      ∧ p.padX ≤ x * p.strideX + kx ∧ x * p.strideX + kx < p.srcW + p.padX
  · rw [if_pos hc, if_pos (by omega), Int.toNat_sub, Int.toNat_sub, Nat.zero_add]
  · rw [if_neg hc, if_neg (by omega), zero_mul]

/-- On the domain of the engine, for 1x1 parameters, the 1x1 row pass and the general row pass
return and leave the same destination memory. -/
theorem pass_same (ex : α → α) (term : TermType) (type : SimdConvolutionActivationType)
    {p : ConvParam32f} (h : p.InDomain) (h1 : p.Is1x1 = true)
    (srcB weightB biasB paramsB : Nat → α)
    (src dstC yBeg yEnd srcC weight bias params dst : Nat)
    (hy : yBeg ≤ yEnd) (hE : yEnd ≤ p.dstH) (hD : dst + dstC ≤ p.dstC) :
    ∃ c1 c2, passCalls true p src dstC yBeg yEnd srcC weight bias params dst = some c1
      ∧ passCalls false p src dstC yBeg yEnd srcC weight bias params dst = some c2
      ∧ ∀ m, runCalls ex type p srcB weightB biasB paramsB (c1.map fun c => (term, c)) m
          = runCalls ex type p srcB weightB biasB paramsB (c2.map fun c => (term, c)) m := by
  obtain ⟨c1, e1, u1⟩ := pass_updates ex term type h true (fun _ => h1) srcB weightB biasB
    paramsB src dstC yBeg yEnd srcC weight bias params dst hy hE hD
  obtain ⟨c2, e2, u2⟩ := pass_updates ex term type h false (fun e => by cases e) srcB weightB
    biasB paramsB src dstC yBeg yEnd srcC weight bias params dst hy hE hD
  exact ⟨c1, c2, e1, e2, fun m => updates_unique u1 u2 m⟩

/-- The loops over row blocks of the two drivers, for 1x1 parameters: both do not return, or
both return and leave the same destination memory. -/
theorem rows_same (ex : α → α) (term : TermType) (type : SimdConvolutionActivationType)
    {p : ConvParam32f} (h : p.InDomain) (h1 : p.Is1x1 = true) (a : AlgParam)
    (srcB weightB biasB paramsB : Nat → α)
    (src macroD macroC weight bias params dst : Nat) (hD : dst + macroD ≤ p.dstC) :
    ∀ fuel yBeg, yBeg ≤ p.dstH →
      (driverRows true p a term src macroD macroC weight bias params dst fuel yBeg = none
        ∧ driverRows false p a term src macroD macroC weight bias params dst fuel yBeg = none)
      ∨ ∃ c1 c2,
          driverRows true p a term src macroD macroC weight bias params dst fuel yBeg = some c1
          ∧ driverRows false p a term src macroD macroC weight bias params dst fuel yBeg
              = some c2
          ∧ ∀ m, runCalls ex type p srcB weightB biasB paramsB c1 m
              = runCalls ex type p srcB weightB biasB paramsB c2 m := by
  intro fuel
  induction fuel with
  | zero =>
    intro yBeg _
    by_cases hlt : yBeg < p.dstH
    · exact Or.inl ⟨by simp [driverRows, hlt], by simp [driverRows, hlt]⟩
    · exact Or.inr ⟨[], [], by simp [driverRows, hlt], by simp [driverRows, hlt], fun _ => rfl⟩
  | succ fuel ih =>
    intro yBeg hle
    by_cases hlt : yBeg < p.dstH
    · have hy : yBeg ≤ min (yBeg + a.macroH) p.dstH := by omega
      have hE : min (yBeg + a.macroH) p.dstH ≤ p.dstH := Nat.min_le_right _ _
      obtain ⟨c1, c2, e1, e2, hc⟩ := pass_same ex term type h h1 srcB weightB biasB paramsB
        src macroD yBeg (min (yBeg + a.macroH) p.dstH) macroC weight bias params dst hy hE hD
      rcases ih (min (yBeg + a.macroH) p.dstH) hE with ⟨n1, n2⟩ | ⟨r1, r2, g1, g2, hr⟩
      · exact Or.inl ⟨by simp only [driverRows, hlt, if_true, e1, n1],
          by simp only [driverRows, hlt, if_true, e2, n2]⟩
      · refine Or.inr ⟨c1.map (fun c => (term, c)) ++ r1, c2.map (fun c => (term, c)) ++ r2,
          by simp only [driverRows, hlt, if_true, e1, g1],
          by simp only [driverRows, hlt, if_true, e2, g2], fun m => ?_⟩
        rw [runCalls_append, runCalls_append, hc m, hr]
    · exact Or.inr ⟨[], [], by simp [driverRows, hlt], by simp [driverRows, hlt], fun _ => rfl⟩

/-- The loops over source-channel blocks of the two drivers, for 1x1 parameters: both do not
return, or both return, leave the same destination memory and the same weight pointer. -/
theorem channels_same (ex : α → α) (type : SimdConvolutionActivationType)
    {p : ConvParam32f} (h : p.InDomain) (h1 : p.Is1x1 = true) (a : AlgParam)
    (srcB weightB biasB paramsB : Nat → α) (macroD params dc : Nat)
    (hD : dc + macroD ≤ p.dstC) :
    ∀ fuel sc weight,
      (driverChannels true p a macroD 0 params 0 dc fuel sc weight = none
        ∧ driverChannels false p a macroD 0 params 0 dc fuel sc weight = none)
      ∨ ∃ c1 c2 w,
          driverChannels true p a macroD 0 params 0 dc fuel sc weight = some (c1, w)
          ∧ driverChannels false p a macroD 0 params 0 dc fuel sc weight = some (c2, w)
          ∧ ∀ m, runCalls ex type p srcB weightB biasB paramsB c1 m
              = runCalls ex type p srcB weightB biasB paramsB c2 m := by
  obtain ⟨⟨hkY, hkX⟩, -⟩ := (is1x1_iff p).1 h1
  intro fuel
  induction fuel with
  | zero =>
    intro sc weight
    by_cases hlt : sc < p.srcC
    · exact Or.inl ⟨by simp [driverChannels, hlt], by simp [driverChannels, hlt]⟩
    · exact Or.inr ⟨[], [], weight, by simp [driverChannels, hlt],
        by simp [driverChannels, hlt], fun _ => rfl⟩
  | succ fuel ih =>
    intro sc weight
    by_cases hlt : sc < p.srcC
    · rcases rows_same ex (driverTerm p a sc (min p.srcC (sc + a.macroC) - sc)) type h h1 a
          srcB weightB biasB paramsB sc macroD (min p.srcC (sc + a.macroC) - sc) weight
          (0 + dc) params (0 + dc) (by omega) p.dstH 0 (Nat.zero_le _)
        with ⟨n1, n2⟩ | ⟨r1, r2, g1, g2, hr⟩
      · exact Or.inl ⟨by simp only [driverChannels, hlt, if_true, n1],
          by simp only [driverChannels, hlt, if_true, n2]⟩
      · cases hA : AlignHiAny macroD a.microD with
        | none =>
          exact Or.inl ⟨by simp only [driverChannels, hlt, if_true, g1, hA],
            by simp only [driverChannels, hlt, if_true, g2, hA]⟩
        | some aD =>
          have hK : (if false = true then 1 else p.kernelY * p.kernelX)
              * (min p.srcC (sc + a.macroC) - sc)
              = (if true = true then 1 else p.kernelY * p.kernelX)
                * (min p.srcC (sc + a.macroC) - sc) := by
            rw [hkY, hkX]; simp
          rcases ih (sc + a.macroC) (weight + aD * ((if true = true then 1
              else p.kernelY * p.kernelX) * (min p.srcC (sc + a.macroC) - sc)))
            with ⟨m1, m2⟩ | ⟨s1, s2, w, f1, f2, hs⟩
          · refine Or.inl ⟨driverChannels_step_none true p a macroD 0 params 0 dc fuel sc weight
              hlt r1 aD g1 hA m1, ?_⟩
            rw [← hK] at m2
            exact driverChannels_step_none false p a macroD 0 params 0 dc fuel sc weight hlt r2
              aD g2 hA m2
          · refine Or.inr ⟨r1 ++ s1, r2 ++ s2, w, ?_, ?_, fun m => ?_⟩
            · exact driverChannels_step true p a macroD 0 params 0 dc fuel sc weight hlt r1 aD
                g1 hA (s1, w) f1
            · rw [← hK] at f2
              exact driverChannels_step false p a macroD 0 params 0 dc fuel sc weight hlt r2 aD
                g2 hA (s2, w) f2
            · rw [runCalls_append, runCalls_append, hr m, hs]
    · exact Or.inr ⟨[], [], weight, by simp [driverChannels, hlt],
        by simp [driverChannels, hlt], fun _ => rfl⟩

/-- The loops over blocks of destination channels of the two drivers, for 1x1 parameters: both
do not return, or both return and leave the same destination memory. -/
theorem blocks_same (ex : α → α) (type : SimdConvolutionActivationType)
    {p : ConvParam32f} (h : p.InDomain) (h1 : p.Is1x1 = true) (a : AlgParam)
    (srcB weightB biasB paramsB : Nat → α) :
    ∀ fuel dc weight params,
      (driverBlocks true type p a 0 0 fuel dc weight params = none
        ∧ driverBlocks false type p a 0 0 fuel dc weight params = none)
      ∨ ∃ c1 c2,
          driverBlocks true type p a 0 0 fuel dc weight params = some c1
          ∧ driverBlocks false type p a 0 0 fuel dc weight params = some c2
          ∧ ∀ m, runCalls ex type p srcB weightB biasB paramsB c1 m
              = runCalls ex type p srcB weightB biasB paramsB c2 m := by
  intro fuel
  induction fuel with
  | zero =>
    intro dc weight params
    by_cases hlt : dc < p.dstC
    · exact Or.inl ⟨by simp [driverBlocks, hlt], by simp [driverBlocks, hlt]⟩
    · exact Or.inr ⟨[], [], by simp [driverBlocks, hlt], by simp [driverBlocks, hlt],
        fun _ => rfl⟩
  | succ fuel ih =>
    intro dc weight params
    by_cases hlt : dc < p.dstC
    · have hDD : dc + (min p.dstC (dc + a.macroD) - dc) ≤ p.dstC := by
        have := Nat.min_le_left p.dstC (dc + a.macroD)
        omega
      rcases channels_same ex type h h1 a srcB weightB biasB paramsB
          (min p.dstC (dc + a.macroD) - dc) params dc hDD p.srcC 0 weight
        with ⟨n1, n2⟩ | ⟨r1, r2, w, g1, g2, hr⟩
      · exact Or.inl ⟨by simp only [driverBlocks, hlt, if_true, n1],
          by simp only [driverBlocks, hlt, if_true, n2]⟩
      · rcases ih (dc + a.macroD) w (if type = SimdConvolutionActivationType.Prelu
            then params + (min p.dstC (dc + a.macroD) - dc) else params)
          with ⟨m1, m2⟩ | ⟨s1, s2, f1, f2, hs⟩
        · exact Or.inl ⟨by simp only [driverBlocks, hlt, if_true, g1, m1],
            by simp only [driverBlocks, hlt, if_true, g2, m2]⟩
        · refine Or.inr ⟨r1 ++ s1, r2 ++ s2, ?_, ?_, fun m => ?_⟩
          · exact driverBlocks_step true type p a 0 0 fuel dc weight params hlt (r1, w) g1 s1 f1
          · exact driverBlocks_step false type p a 0 0 fuel dc weight params hlt (r2, w) g2 s2
              f2
          · rw [runCalls_append, runCalls_append, hr m, hs]
    · exact Or.inr ⟨[], [], by simp [driverBlocks, hlt], by simp [driverBlocks, hlt],
        fun _ => rfl⟩

end TileValue

/-! ### The loop nest of a driver over the blocks it visits -/

/-- On the domain of the engine the first source row of a block of rows of the destination is
a value of `size_t`. -/
theorem ConvParam32f.InDomain.rows_start {p : ConvParam32f} (h : p.InDomain) (yBeg : Nat)
    (hy : yBeg ≤ p.dstH) : yBeg * p.strideY < sizeMod := by
  obtain ⟨hsy, -, hdH, -⟩ := h.shape
  have hzy := h.sizeY
  have hfy := h.fitY
  have hq : (p.srcH + p.padY + p.padH - p.kernelY) / p.strideY * p.strideY
      ≤ p.srcH + p.padY + p.padH - p.kernelY := Nat.div_mul_le_self _ _
  have hm : yBeg * p.strideY ≤ p.dstH * p.strideY := Nat.mul_le_mul_right _ hy
  rw [hdH, Nat.add_mul, Nat.one_mul] at hm
  omega

/-- On the domain of the engine the stores of a row pass (the general one, or the 1x1 one for
1x1 parameters) go to every element of its rows and of its channel slice, once each, and to no
other element. -/
theorem pass_stores_once {p : ConvParam32f} (h : p.InDomain) (direct1x1 : Bool)
    (h1 : direct1x1 = true → p.Is1x1 = true)
    (src dstC yBeg yEnd srcC weight bias params dst : Nat)
    (hy : yBeg ≤ yEnd) (hE : yEnd ≤ p.dstH) (hD : dst + dstC ≤ p.dstC) (cs : List MicroCall)
    (hcs : passCalls direct1x1 p src dstC yBeg yEnd srcC weight bias params dst = some cs) :
    OncePer (storeIndices p cs)
      (Box p.dstC (yBeg * p.dstW) (yEnd * p.dstW) dst (dst + dstC)) := by
  have key : ∀ (g : Nat × Nat → List MicroCall),
      (∀ k, DF * k < dstC → Tiled p
        (passTile src dstC srcC (weight + k * (p.kernelY * p.kernelX * srcC * DF)) bias params
          dst (DF * k))
        (g (DF * k, weight + k * (p.kernelY * p.kernelX * srcC * DF)))
        (yBeg * p.dstW) (yEnd * p.dstW)) →
      OncePer (storeIndices p
          ((forRounds dstC DF (p.kernelY * p.kernelX * srcC * DF) 0 weight).flatMap g))
        (Box p.dstC (yBeg * p.dstW) (yEnd * p.dstW) dst (dst + dstC)) := by
    intro g hg
    have hloop := oncePer_channel_loop p (yBeg * p.dstW) (yEnd * p.dstW) dst dstC
      (p.kernelY * p.kernelX * srcC * DF) weight g
      (fun k hk => oncePer_tiled p
        (passTile src dstC srcC (weight + k * (p.kernelY * p.kernelX * srcC * DF)) bias params
          dst (DF * k))
        (by
          show dst + DF * k + min DF (dstC - DF * k) ≤ p.dstC
          have := Nat.min_le_right DF (dstC - DF * k)
          omega)
        _ _ _ (hg k hk))
      (dstC - 0) 0 (by omega)
    simp only [Nat.mul_zero, Nat.zero_mul, Nat.add_zero] at hloop
    exact hloop
  cases direct1x1 with
  | false =>
    obtain ⟨b, hb, -⟩ := h.rowBoundsExact
    simp only [passCalls, Bool.false_eq_true, if_false] at hcs
    rw [h.rowPassCalls_eq _ _ _ _ _ _ _ _ _ (by omega)] at hcs
    simp only [rowPassCallsExact, hb, Option.map_some', Option.some.injEq] at hcs
    rw [← hcs]
    exact key (fun dw => tileCallsExact p b src dstC yBeg yEnd srcC dw.2 bias params dst dw.1)
      (fun k _ => tileCalls_tiled h b hb src dstC yBeg yEnd srcC _ bias params dst _ hy hE)
  | true =>
    have h1' := h1 rfl
    obtain ⟨⟨hkY, hkX⟩, -⟩ := (is1x1_iff p).1 h1'
    have hn : sz (((yEnd : Int) - yBeg) * p.dstW) = (yEnd - yBeg) * p.dstW :=
      sz_sub_mul yEnd yBeg p.dstW hy
    have hstep : srcC * DF = p.kernelY * p.kernelX * srcC * DF := by
      rw [hkY, hkX]; ring
    simp only [passCalls, rowPassCalls1x1, hn, AlignLoAny, if_true, hstep] at hcs
    simp only [OfNat.ofNat_ne_zero, if_false, Option.some.injEq] at hcs
    rw [← hcs]
    exact key (fun dw => tileCalls1x1 p ((yEnd - yBeg) * p.dstW)
        ((yEnd - yBeg) * p.dstW / 3 * 3) ((yEnd - yBeg) * p.dstW / 6 * 6) src dstC yBeg srcC
        dw.2 bias params dst dw.1)
      (fun k _ => tileCalls1x1_tiled h h1' src dstC yBeg yEnd srcC _ bias params dst _ hy hE)

/-- Where the dilated kernel fits the padded source and the padded size is a value of
`size_t`, the shape equation of `Valid()` in `size_t` arithmetic is the equation of the
specification. -/
theorem shapeRhs_eq_shapeSpec (src pad0 pad1 dilation kernel stride : Nat)
    (hfit : dilation * (kernel - 1) + 1 ≤ src + pad0 + pad1) (hk : 0 < kernel)
    (hsz : src + pad0 + pad1 < sizeMod) :
    ((ConvParam32f.shapeRhs src pad0 pad1 dilation kernel stride : Nat) : Int)
      = ConvParam32f.shapeSpec src pad0 pad1 dilation kernel stride := by
  unfold ConvParam32f.shapeRhs ConvParam32f.shapeSpec
  have hz : (src : Int) + pad0 + pad1 - (dilation * ((kernel : Int) - 1) + 1)
      = ((src + pad0 + pad1 - (dilation * (kernel - 1) + 1) : Nat) : Int) := by
    rw [Nat.cast_sub hfit]
    push_cast
    rw [Nat.cast_sub hk]
    push_cast
    ring
  have hw := wrap_eq (src + pad0 + pad1 - (dilation * (kernel - 1) + 1)) hz (by omega)
  have hq : (src + pad0 + pad1 - (dilation * (kernel - 1) + 1)) / stride
      ≤ src + pad0 + pad1 - (dilation * (kernel - 1) + 1) := Nat.div_le_self _ _
  rw [hw, Nat.mod_eq_of_lt (by omega), hz, ← Int.ofNat_fdiv]
  push_cast
  rfl

/-- Where both dilated kernel extents fit the padded source, the padded sizes are values of
`size_t` and the strides are not 0, `Valid()` returns what the specification asks for. -/
theorem valid_eq_validSpec_of_fit (p : ConvParam32f) (hsY : p.strideY ≠ 0) (hsX : p.strideX ≠ 0)
    (hkY : 0 < p.kernelY) (hkX : 0 < p.kernelX)
    (hfY : p.dilationY * (p.kernelY - 1) + 1 ≤ p.srcH + p.padY + p.padH)
    (hfX : p.dilationX * (p.kernelX - 1) + 1 ≤ p.srcW + p.padX + p.padW)
    (hzY : p.srcH + p.padY + p.padH < sizeMod) (hzX : p.srcW + p.padX + p.padW < sizeMod) :
    p.Valid = some p.ValidSpec := by
  have eY := shapeRhs_eq_shapeSpec p.srcH p.padY p.padH p.dilationY p.kernelY p.strideY hfY hkY
    hzY
  have eX := shapeRhs_eq_shapeSpec p.srcW p.padX p.padW p.dilationX p.kernelX p.strideX hfX hkX
    hzX
  unfold ConvParam32f.Valid ConvParam32f.ValidSpec
  rw [if_neg hsY, if_neg hsX, ← eY, ← eX]
  simp only [Nat.cast_inj]
  split_ifs with h1
  · simp [h1.1.symm, h1.2]
  · congr 1
    rw [not_and_or] at h1
    rcases h1 with h1 | h1
    · simp [h1]
    · simp [h1]

/-! ### The claims -/

section Claims

variable {α : Type} [LinearOrderedCommRing α]

/-- C7 (amended): for an `AlgParam` that runs all source channels in one pass
(`macroC = srcC`) and whose blocks of destination channels are a multiple of 16 (or a single
block), the engine consumes the weight buffer in the blocked layout
`[outputChannels/16, kernelY, kernelX, inputChannels, 16]`: on the domain of the engine, with
the weight of output channel `o`, kernel position `(ky, kx)` and source channel `c` stored at
`((((o div 16)*kernelY + ky)*kernelX + kx)*srcC + c)*16 + (o mod 16)`, the installed kernel
computes the reference convolution of that filter. -/
theorem convolution_reads_blocked (ex : α → α) (type : SimdConvolutionActivationType)
    (p : ConvParam32f) (h : p.InDomain) (a : AlgParam) (hH : 0 < a.macroH)
    (hm : a.microD = 16) (hC : a.macroC = p.srcC) (hS : 0 < p.srcC) (hD : 0 < a.macroD)
    (h16 : 16 ∣ a.macroD ∨ p.dstC ≤ a.macroD)
    (src weight bias params dst : Nat → α) (w : Nat → Nat → Nat → Nat → α)
    (hw : ∀ o, o < p.dstC → ∀ ky, ky < p.kernelY → ∀ kx, kx < p.kernelX → ∀ c, c < p.srcC →
      weight (blockedWeightIndex p o ky kx c) = w ky kx c o) :
    ∃ out, convolution ex type src p a weight bias params dst = some out
      ∧ ∀ y x d, y < p.dstH → x < p.dstW → d < p.dstC →
          out ((y * p.dstW + x) * p.dstC + d)
            = referenceConvolution ex type p src w bias params y x d := by
  obtain ⟨out, ho, hU, -⟩ := convolution_spec ex type h a hH hm (by omega) (by omega) hD src
    weight bias params dst w
    (fun d ky kx c hd hky hkx hc => by
      rw [driverWeightIndex_eq_blocked p a hC hD h16 d ky kx c hd hc]
      exact hw d hd ky hky kx hkx c hc)
  exact ⟨out, ho, hU⟩

/-- C7 (witness): the padded 3x3 convolution `pPad` with both source channels in one pass. -/
theorem convolution_reads_blocked_witness :
    ∃ out, convolution (fun x : Int => x) SimdConvolutionActivationType.Relu
        (fun i => (i : Int) - 3) pPad aWide (fun i => (i : Int) - 40) (fun i => (i : Int))
        (fun _ => 0) (fun _ => 7) = some out
      ∧ ∀ y x d, y < pPad.dstH → x < pPad.dstW → d < pPad.dstC →
          out ((y * pPad.dstW + x) * pPad.dstC + d)
            = referenceConvolution (fun x : Int => x) SimdConvolutionActivationType.Relu pPad
                (fun i => (i : Int) - 3)
                (fun ky kx c o => ((blockedWeightIndex pPad o ky kx c : Nat) : Int) - 40)
                (fun i => (i : Int)) (fun _ => 0) y x d :=
  convolution_reads_blocked (fun x : Int => x) SimdConvolutionActivationType.Relu pPad
    ⟨by decide, rfl, rfl, by decide, by decide, by decide, by decide, by decide, by decide,
      by decide, by decide,
      by decide, by decide, by decide, by decide, by decide⟩
    aWide (by decide) rfl rfl (by decide) (by decide) (by decide)
    (fun i => (i : Int) - 3) (fun i => (i : Int) - 40) (fun i => (i : Int)) (fun _ => 0)
    (fun _ => 7) (fun ky kx c o => ((blockedWeightIndex pPad o ky kx c : Nat) : Int) - 40)
    (fun _ _ _ _ _ _ _ _ => rfl)

set_option maxRecDepth 100000 in
/-- C7 (counterexample): `pTwo` has two source channels and a 1x2 kernel; the weight buffer
holds the filter `w(kx, c) = 2*kx + c + 1` in the blocked layout, the source is
`1, 10, 100, 1000`, so the reference convolution is `4321`.  With one source channel per pass
(`macroC = 1`) the engine stores `4231`: the second pass reads its weights from offset 32 on,
where the blocked layout keeps the weights of `kx = 1`. -/
theorem convolution_blocked_counterexample :
    pTwo.InDomain
      ∧ (∀ o, o < pTwo.dstC → ∀ ky, ky < pTwo.kernelY → ∀ kx, kx < pTwo.kernelX →
          ∀ c, c < pTwo.srcC →
            (fun i : Nat => if i % 16 = 0 then (i : Int) / 16 + 1 else 0)
                (blockedWeightIndex pTwo o ky kx c)
              = (fun ky kx c o : Nat => (2 * kx + c + 1 : Int) + ky + o) ky kx c o)
      ∧ referenceConvolution (fun x : Int => x) SimdConvolutionActivationType.Identity pTwo
          (fun i => (10 : Int) ^ i) (fun ky kx c o => (2 * kx + c + 1 : Int) + ky + o)
          (fun _ => 0) (fun _ => 0) 0 0 0 = 4321
      ∧ (convolution (fun x : Int => x) SimdConvolutionActivationType.Identity
          (fun i => (10 : Int) ^ i) pTwo aSplit
          (fun i : Nat => if i % 16 = 0 then (i : Int) / 16 + 1 else 0)
          (fun _ => 0) (fun _ => 0) (fun _ => 0)).map (fun out => out 0) = some 4231 :=
  ⟨⟨by decide, rfl, rfl, by decide, by decide, by decide, by decide, by decide, by decide,
      by decide, by decide,
      by decide, by decide, by decide, by decide, by decide⟩, by decide, by decide, by decide⟩

/-- C2 (amended): on the domain of the engine, the general row pass with its nose/body/tail
split, run on the unpadded source, returns the same destination memory as the same row pass
run with all four pads 0 on the source explicitly surrounded by `padY`, `padX`, `padH`, `padW`
rows and columns of zeros (for rows `yBeg ≤ yEnd ≤ dstH`, destination channels
`[dst, dst + dstC)` and source channels `[src, src + srcC)` inside the tensors). -/
theorem rowPass_eq_explicit_padding (ex : α → α) (term : TermType)
    (type : SimdConvolutionActivationType) (p : ConvParam32f) (h : p.InDomain)
    (srcB weightB biasB paramsB dstB : Nat → α)
    (src dstC yBeg yEnd srcC weight bias params dst : Nat)
    (hy : yBeg ≤ yEnd) (hE : yEnd ≤ p.dstH) (hD : dst + dstC ≤ p.dstC)
    (hS : src + srcC ≤ p.srcC) :
    ∃ out, ConvolutionNhwcDirect_2_pass ex term type p srcB weightB biasB paramsB
          src dstC yBeg yEnd srcC weight bias params dst dstB = some out
      ∧ ConvolutionNhwcDirect_2_pass ex term type (padParams p) (padSource p srcB) weightB
          biasB paramsB src dstC yBeg yEnd srcC weight bias params dst dstB = some out := by
  obtain ⟨cs, hcs, hU⟩ := pass_updates ex term type h false (fun e => absurd e (by decide))
    srcB weightB biasB paramsB src dstC yBeg yEnd srcC weight bias params dst hy hE hD
  obtain ⟨cs', hcs', hU'⟩ := pass_updates ex term type h.pad false
    (fun e => absurd e (by decide)) (padSource p srcB) weightB biasB paramsB src dstC yBeg yEnd
    srcC weight bias params dst hy hE hD
  simp only [passCalls, Bool.false_eq_true, if_false] at hcs hcs'
  refine ⟨runCalls ex type p srcB weightB biasB paramsB (cs.map fun c => (term, c)) dstB, ?_, ?_⟩
  · unfold ConvolutionNhwcDirect_2_pass
    rw [hcs]; rfl
  · unfold ConvolutionNhwcDirect_2_pass
    rw [hcs']
    show some (runCalls ex type (padParams p) (padSource p srcB) weightB biasB paramsB
      (cs'.map fun c => (term, c)) dstB) = some _
    congr 1
    funext j
    by_cases hj : Box p.dstC (yBeg * p.dstW) (yEnd * p.dstW) dst (dst + dstC) j
    · rw [(hU' dstB j).1 hj, (hU dstB j).1 hj]
      exact (passStore_pad ex term type p srcB weightB biasB paramsB src srcC weight bias params
        dst j (dstB j) hS).symm
    · rw [(hU' dstB j).2 hj, (hU dstB j).2 hj]

/-- C2 (witness): the padded 3x3 convolution `pPad`, all rows and channels in one pass. -/
theorem rowPass_eq_explicit_padding_witness :
    ∃ out, ConvolutionNhwcDirect_2_pass (fun x : Int => x) TermType.TermSingle
          SimdConvolutionActivationType.Relu pPad (fun i => (i : Int) - 3)
          (fun i => (i : Int) - 40) (fun i => (i : Int)) (fun _ => 0)
          0 2 0 2 2 0 0 0 0 (fun _ => 7) = some out
      ∧ ConvolutionNhwcDirect_2_pass (fun x : Int => x) TermType.TermSingle
          SimdConvolutionActivationType.Relu (padParams pPad)
          (padSource pPad (fun i => (i : Int) - 3))
          (fun i => (i : Int) - 40) (fun i => (i : Int)) (fun _ => 0)
          0 2 0 2 2 0 0 0 0 (fun _ => 7) = some out :=
  rowPass_eq_explicit_padding (fun x : Int => x) TermType.TermSingle
    SimdConvolutionActivationType.Relu pPad
    ⟨by decide, rfl, rfl, by decide, by decide, by decide, by decide, by decide, by decide,
      by decide, by decide,
      by decide, by decide, by decide, by decide, by decide⟩
    (fun i => (i : Int) - 3) (fun i => (i : Int) - 40) (fun i => (i : Int)) (fun _ => 0)
    (fun _ => 7) 0 2 0 2 2 0 0 0 0 (by decide) (by decide) (by decide) (by decide)

set_option maxRecDepth 100000 in
/-- C2 (counterexample): `pThin` passes `Valid()`, its kernel is larger than 1x1 and its
padding is non-zero.  The source tensor is the single element `1` at offset 0; the memory behind
it holds `10`.  On the unpadded source the nose branch runs the micro-kernel with kernel height
`kernelY - padY = 2` from source row 0, reads the row behind the image and stores `11`; on the
explicitly padded source `0, 1, 0` the row pass stores `1`. -/
theorem rowPass_padding_counterexample :
    pThin.Valid = some true ∧ pThin.IsKernel 1 = false ∧ pThin.IsPad 0 = false
      ∧ (ConvolutionNhwcDirect_2_pass (fun x : Int => x) TermType.TermSingle
          SimdConvolutionActivationType.Identity pThin (fun i => if i = 0 then 1 else 10)
          (fun _ => 1) (fun _ => 0) (fun _ => 0) 0 1 0 1 1 0 0 0 0 (fun _ => 0)).map
            (fun out => out 0) = some 11
      ∧ (ConvolutionNhwcDirect_2_pass (fun x : Int => x) TermType.TermSingle
          SimdConvolutionActivationType.Identity (padParams pThin)
          (padSource pThin (fun i => if i = 0 then 1 else 10))
          (fun _ => 1) (fun _ => 0) (fun _ => 0) 0 1 0 1 1 0 0 0 0 (fun _ => 0)).map
            (fun out => out 0) = some 1 :=
  ⟨by decide, by decide, by decide, by decide, by decide⟩

/-- C5 (failing input): `pWrap` has a 3x1 kernel on a 1x1 image without padding, so the kernel
extent 3 exceeds `srcH + padY + padH = 1` and the specification rejects it
(`floor((1 - 3) / 2) + 1 = 0`).  In `size_t` arithmetic `1 - 3` wraps to `2^64 - 2`, the
right-hand side is `2^63`, and `Valid()` returns true for `dstH = 2^63`. -/
theorem valid_accepts_wrapped_shape :
    pWrap.Valid = some true ∧ pWrap.ValidSpec = false
      ∧ pWrap.srcH + pWrap.padY + pWrap.padH < pWrap.dilationY * (pWrap.kernelY - 1) + 1 :=
  ⟨by decide, by decide, by decide⟩

/-- C6 (amended): for non-zero strides `Valid()` returns false whenever the source and
destination formats differ, or an element type is not 32-bit float, or the format is neither
NCHW nor NHWC, whatever the other fields are. -/
theorem valid_false_of_type_or_format (p : ConvParam32f) (hsY : p.strideY ≠ 0)
    (hsX : p.strideX ≠ 0)
    (hbad : p.srcF ≠ p.dstF ∨ p.srcT ≠ SimdTensorDataType.SimdTensorData32f
      ∨ p.dstT ≠ SimdTensorDataType.SimdTensorData32f
      ∨ (p.srcF ≠ SimdTensorFormatType.SimdTensorFormatNchw
        ∧ p.srcF ≠ SimdTensorFormatType.SimdTensorFormatNhwc)) :
    p.Valid = some false := by
  unfold ConvParam32f.Valid
  rw [if_neg hsY]
  split_ifs with h1
  · congr 1
    rcases hbad with hb | hb | hb | ⟨hb1, hb2⟩
    · simp [hb]
    · simp [hb]
    · simp [hb]
    · simp [hb1, hb2]
  · rfl

/-- C6 (witness): `pMixed` has consistent shape fields, channels-last source and planar
destination. -/
theorem valid_false_of_type_or_format_witness : pMixed.Valid = some false :=
  valid_false_of_type_or_format pMixed (by decide) (by decide) (Or.inl (by decide))

/-- C6 (counterexample): `pZeroStride` has 8-bit source elements, different source and
destination formats and `strideY = 0`; the first operand of the conjunction divides by
`strideY` before any type or format is tested, so `Valid()` does not return false. -/
theorem valid_zero_stride_counterexample :
    pZeroStride.srcT ≠ SimdTensorDataType.SimdTensorData32f
      ∧ pZeroStride.srcF ≠ pZeroStride.dstF ∧ pZeroStride.Valid = none
      ∧ pZeroStride.Valid ≠ some false :=
  ⟨by decide, by decide, by decide, by decide⟩

/-- C9 (where the reads stay in the image): on the domain of the engine, every source element
read by a micro-kernel called from the nose, body or tail branch of the row pass lies in the
image: its row is below `srcH`, its column below `srcW`, its channel among the source channels
`[src, src + srcC)` of the pass, and its flat index is below `srcH * srcW * srcC`. -/
theorem rowPass_reads_in_bounds (p : ConvParam32f) (h : p.InDomain)
    (src dstC yBeg yEnd srcC weight bias params dst : Nat)
    (hy : yBeg ≤ yEnd) (hE : yEnd ≤ p.dstH) (hS : src + srcC ≤ p.srcC)
    (cs : List MicroCall)
    (hcs : rowPassCalls p src dstC yBeg yEnd srcC weight bias params dst = some cs)
    (c : MicroCall) (hc : c ∈ cs) (idx : Nat) (hidx : idx ∈ c.srcReads p) :
    ∃ r q ch, r < p.srcH ∧ q < p.srcW ∧ src ≤ ch ∧ ch < src + srcC
      ∧ idx = (r * p.srcW + q) * p.srcC + ch ∧ idx < p.srcH * p.srcW * p.srcC := by
  obtain ⟨k, P, -, -, -, hC⟩ := pass_mem_computes h false (fun e => absurd e (by decide))
    src dstC yBeg yEnd srcC weight bias params dst hy hE cs
    (by simp only [passCalls, Bool.false_eq_true, if_false]; exact hcs) c hc
  obtain ⟨r, q, ch, hr, hq, hch, e⟩ := computes_reads p _ P c hC idx hidx
  have hch' : ch < srcC := hch
  have e' : idx = (r * p.srcW + q) * p.srcC + (src + ch) := e
  refine ⟨r, q, src + ch, hr, hq, Nat.le_add_right _ _, by omega, e', ?_⟩
  rw [e']
  exact (nhwc_index p.srcH p.srcW p.srcC r q (src + ch) hr hq (by omega)).2.2.2

set_option maxRecDepth 100000 in
/-- C9 (where the reads stay in the image, witness): the call for the top left pixel of the
padded 3x3 convolution `pPad` reads the element of channel 1 of source pixel `(1, 1)` at flat
index 7. -/
theorem rowPass_reads_in_bounds_witness :
    ∃ r q ch, r < pPad.srcH ∧ q < pPad.srcW ∧ 0 ≤ ch ∧ ch < 0 + 2
      ∧ 7 = (r * pPad.srcW + q) * pPad.srcC + ch ∧ 7 < pPad.srcH * pPad.srcW * pPad.srcC :=
  rowPass_reads_in_bounds pPad
    ⟨by decide, rfl, rfl, by decide, by decide, by decide, by decide, by decide, by decide,
      by decide, by decide,
      by decide, by decide, by decide, by decide, by decide⟩
    0 2 0 2 2 0 0 0 0 (by decide) (by decide) (by decide)
    ((rowPassCalls pPad 0 2 0 2 2 0 0 0 0).getD []) (by decide)
    { direct1x1 := false, n := 1, src0 := 0, kernelH := 2, kernelW := 2, srcC := 2, dstC := 2,
      weight := 128, bias := 0, params := 0, slope := 0, dst := 0 }
    (by decide) 7 (by decide)

set_option maxRecDepth 100000 in
/-- C9 (failing input): `pThin` is a 3x1 kernel with `padY = padH = 1` on a 1x1 image with one
channel.  It passes `Valid()`, and it is a valid shape in ordinary integers as well
(`floor((1 + 1 + 1 - 3) / 1) + 1 = 1 = dstH`), so nothing wraps.  Its source tensor has the
single element of flat index 0.  The only row of the destination is a row of the nose
(`sy = 0 < noseH = 1`); the nose branch clips the kernel at the top only and calls the
micro-kernel with kernel height `kernelY - noseH + sy = 2` from source row 0, and the call
reads the flat indices 0 and 1: row 1 is not a row of the image. -/
theorem rowPass_reads_out_of_bounds :
    pThin.Valid = some true ∧ pThin.ValidSpec = true
      ∧ pThin.srcH * pThin.srcW * pThin.srcC = 1
      ∧ (rowPassCalls pThin 0 1 0 1 1 0 0 0 0).map
          (fun cs => cs.map fun c => (c.kernelH, c.srcReads pThin)) = some [(2, [0, 1])] :=
  ⟨by decide, by decide, by decide, by decide⟩

set_option maxRecDepth 100000 in
/-- C4 (as stated, refuted): `pDilX17` passes `Valid()` and has `dstC = 17`, not a multiple of
16; its destination tensor is one pixel of 17 channels, the indices `0, …, 16`.  The column
loops of the row pass do not read the dilation and emit `srcW - kernelX + 1 = 2` pixels for the
row of `dstW = 1`: the tile of the channels `0, …, 15` stores to `0, …, 15` and to
`17, …, 32`, the tile of channel 16 to `16` and to `33`.  The stores to `17, …, 33` lie past
`dst + dstC` of the last pixel. -/
theorem stores_past_tensor_counterexample :
    pDilX17.Valid = some true ∧ pDilX17.dstC = 17
      ∧ pDilX17.dstH * pDilX17.dstW * pDilX17.dstC = 17
      ∧ (passCalls false pDilX17 0 17 0 1 1 0 0 0 0).map
          (fun cs => cs.map fun c => (c.stores pDilX17).map fun st => st.2.2)
        = some [[0, 1, 2, 3, 4, 5, 6, 7, 8, 9, 10, 11, 12, 13, 14, 15],
            [17, 18, 19, 20, 21, 22, 23, 24, 25, 26, 27, 28, 29, 30, 31, 32], [16], [33]] :=
  ⟨by decide, by decide, by decide, by decide⟩

/-- C4 (amended): on the domain of the engine, a row pass (the general one, or the 1x1 one for
1x1 parameters) over the rows `yBeg ≤ yEnd ≤ dstH` and the channel slice `[dst, dst + dstC)` of
the destination returns, and every call of it belongs to a channel tile starting at
`dc = 16 * k < dstC` and to the pixels `P, …, P + n - 1` of the rows of the pass.  For each of
its pixels the call stores exactly the `min(16, dstC - dc)` consecutive elements from
`dst + (P + i) * p.dstC + dc` on; so every store goes to a channel `dst + ch` with
`dc ≤ ch < dstC` of a pixel of the rows of the pass: no channel at or past `dst + dstC` of a
pixel is touched and every stored index is below `dstH * dstW * p.dstC`.  Every element of the
rows and of the channel slice of the pass is stored exactly once, and no other element. -/
theorem stores_within_channel_tile (direct1x1 : Bool) (p : ConvParam32f) (h : p.InDomain)
    (h1 : direct1x1 = true → p.Is1x1 = true)
    (src dstC yBeg yEnd srcC weight bias params dst : Nat)
    (hy : yBeg ≤ yEnd) (hE : yEnd ≤ p.dstH) (hD : dst + dstC ≤ p.dstC) :
    ∃ cs, passCalls direct1x1 p src dstC yBeg yEnd srcC weight bias params dst = some cs
      ∧ (∀ c, c ∈ cs →
          ∃ k P, DF * k < dstC ∧ yBeg * p.dstW ≤ P ∧ P + c.n ≤ yEnd * p.dstW
            ∧ c.dst = dst + DF * k + P * p.dstC
            ∧ (c.stores p).map (fun st => st.2.2)
                = (List.range c.n).flatMap (fun i =>
                    (List.range (min DF (dstC - DF * k))).map fun l =>
                      dst + (P + i) * p.dstC + (DF * k + l))
            ∧ ∀ st, st ∈ c.stores p →
                ∃ ch, DF * k ≤ ch ∧ ch < dstC ∧ st.1 < c.n
                  ∧ st.2.2 = (P + st.1) * p.dstC + (dst + ch)
                  ∧ st.2.2 / p.dstC = P + st.1 ∧ st.2.2 % p.dstC = dst + ch
                  ∧ st.2.2 < p.dstH * p.dstW * p.dstC)
      ∧ ∀ j, (Box p.dstC (yBeg * p.dstW) (yEnd * p.dstW) dst (dst + dstC) j →
              (storeIndices p cs).count j = 1)
          ∧ (¬ Box p.dstC (yBeg * p.dstW) (yEnd * p.dstW) dst (dst + dstC) j →
              (storeIndices p cs).count j = 0) := by
  obtain ⟨cs, hcs⟩ := passCalls_returns direct1x1 h.region src dstC yBeg yEnd srcC weight bias
    params dst (h.rows_start yBeg (by omega))
  refine ⟨cs, hcs, fun c hc => ?_, pass_stores_once h direct1x1 h1 src dstC yBeg yEnd srcC
    weight bias params dst hy hE hD cs hcs⟩
  obtain ⟨k, P, hk, hP0, hP1, hcomp⟩ := pass_mem_computes h direct1x1 h1 src dstC yBeg yEnd
    srcC weight bias params dst hy hE cs hcs c hc
  obtain ⟨-, -, -, hdC, -, -, -, hdst, -⟩ := hcomp
  have hdC' : c.dstC = min DF (dstC - DF * k) := hdC
  have hdst' : c.dst = dst + DF * k + P * p.dstC := hdst
  refine ⟨k, P, hk, hP0, hP1, hdst', ?_, ?_⟩
  · unfold MicroCall.stores
    rw [stored_eq, hdC', hdst', List.map_flatMap]
    congr 1
    funext i
    rw [List.map_map]
    congr 1
    funext l
    show dst + DF * k + P * p.dstC + i * p.dstC + l = dst + (P + i) * p.dstC + (DF * k + l)
    ring
  · intro st hst
    unfold MicroCall.stores at hst
    rw [stored_eq, hdC', hdst'] at hst
    simp only [List.mem_flatMap, List.mem_map, List.mem_range] at hst
    obtain ⟨i, hi, l, hl, e⟩ := hst
    have hl' : l < dstC - DF * k := Nat.lt_of_lt_of_le hl (Nat.min_le_right _ _)
    have e1 : st.1 = i := by rw [← e]
    have hidx : st.2.2 = (P + i) * p.dstC + (dst + (DF * k + l)) := by
      rw [← e]
      show dst + DF * k + P * p.dstC + i * p.dstC + l = _
      ring
    have hlt : dst + (DF * k + l) < p.dstC := by omega
    obtain ⟨e2, e3⟩ := div_row (P + i) p.dstC (dst + (DF * k + l)) hlt
    have hpix : (P + i + 1) * p.dstC ≤ p.dstH * p.dstW * p.dstC := by
      apply Nat.mul_le_mul_right
      have := Nat.mul_le_mul_right p.dstW hE
      omega
    rw [Nat.add_mul, Nat.one_mul] at hpix
    refine ⟨DF * k + l, Nat.le_add_right _ _, by omega, by omega, by rw [e1]; exact hidx,
      by rw [e1, hidx]; exact e2, by rw [hidx]; exact e3, by omega⟩

set_option maxRecDepth 100000 in
/-- C4 (amended, witness): `dstC = 17`; the row pass of the 1x1 convolution `p17` over its
only pixel makes two calls, the second one for the channel tile starting at channel 16, and
that call stores one element, channel 16 of the pixel. -/
theorem stores_within_channel_tile_witness :
    ∃ cs, passCalls false p17 0 17 0 1 1 0 0 0 0 = some cs
      ∧ (∀ c, c ∈ cs →
          ∃ k P, DF * k < 17 ∧ 0 * p17.dstW ≤ P ∧ P + c.n ≤ 1 * p17.dstW
            ∧ c.dst = 0 + DF * k + P * p17.dstC
            ∧ (c.stores p17).map (fun st => st.2.2)
                = (List.range c.n).flatMap (fun i =>
                    (List.range (min DF (17 - DF * k))).map fun l =>
                      0 + (P + i) * p17.dstC + (DF * k + l))
            ∧ ∀ st, st ∈ c.stores p17 →
                ∃ ch, DF * k ≤ ch ∧ ch < 17 ∧ st.1 < c.n
                  ∧ st.2.2 = (P + st.1) * p17.dstC + (0 + ch)
                  ∧ st.2.2 / p17.dstC = P + st.1 ∧ st.2.2 % p17.dstC = 0 + ch
                  ∧ st.2.2 < p17.dstH * p17.dstW * p17.dstC)
      ∧ ∀ j, (Box p17.dstC (0 * p17.dstW) (1 * p17.dstW) 0 (0 + 17) j →
              (storeIndices p17 cs).count j = 1)
          ∧ (¬ Box p17.dstC (0 * p17.dstW) (1 * p17.dstW) 0 (0 + 17) j →
              (storeIndices p17 cs).count j = 0) :=
  stores_within_channel_tile false p17
    ⟨by decide, rfl, rfl, by decide, by decide, by decide, by decide, by decide, by decide,
      by decide, by decide,
      by decide, by decide, by decide, by decide, by decide⟩
    (by decide) 0 17 0 1 1 0 0 0 0 (by decide) (by decide) (by decide)

/-- C13: the flat layout conversions are transpositions.  `SynetConvertImage_Chw_Hwc` writes
exactly `channels * spatial` elements, from `dst` on, with
`dst[s*channels + c] = src[c*spatial + s]`; `SynetConvertImage_Hwc_Chw` writes exactly
`channels * spatial` elements with `dst[c*spatial + s] = src[s*channels + c]`; both leave the
memory past these elements untouched. -/
theorem flat_conversion_transposes {α : Type} (channels spatial : Nat) (src dst : Nat → α)
    (c s : Nat) (hc : c < channels) (hs : s < spatial) :
    SynetConvertImage_Chw_Hwc channels spatial src dst (s * channels + c) = src (c * spatial + s)
      ∧ SynetConvertImage_Hwc_Chw channels spatial src dst (c * spatial + s)
          = src (s * channels + c)
      ∧ (SynetConvertImage_Chw_Hwc_values channels spatial src).length = channels * spatial
      ∧ (SynetConvertImage_Chw_Hwc_values spatial channels src).length = channels * spatial
      ∧ (∀ j, channels * spatial ≤ j →
          SynetConvertImage_Chw_Hwc channels spatial src dst j = dst j
            ∧ SynetConvertImage_Hwc_Chw channels spatial src dst j = dst j) := by
  obtain ⟨l1, g1⟩ := chw_hwc_values channels spatial src
  obtain ⟨l2, g2⟩ := chw_hwc_values spatial channels src
  obtain ⟨a1, a2⟩ := storeSeq_values _ dst (spatial * channels) l1
  obtain ⟨b1, b2⟩ := storeSeq_values _ dst (channels * spatial) l2
  refine ⟨a1 _ _ (g1 s c hs hc), b1 _ _ (g2 c s hc hs), by rw [l1, Nat.mul_comm], l2, ?_⟩
  intro j hj
  exact ⟨a2 j (by rw [Nat.mul_comm]; exact hj), b2 j hj⟩

/-- C13 (witness): 3 channels and 2 spatial positions; channel 2 at position 1 of the planar
source `10, 11, 20, 21, 30, 31` lands at offset 5 of the interleaved destination. -/
theorem flat_conversion_transposes_witness :
    SynetConvertImage_Chw_Hwc 3 2 (fun i : Nat => [10, 11, 20, 21, 30, 31].getD i 0)
        (fun _ => 7) (1 * 3 + 2) = (fun i : Nat => [10, 11, 20, 21, 30, 31].getD i 0) (2 * 2 + 1)
      ∧ SynetConvertImage_Hwc_Chw 3 2 (fun i : Nat => [10, 11, 20, 21, 30, 31].getD i 0)
          (fun _ => 7) (2 * 2 + 1)
          = (fun i : Nat => [10, 11, 20, 21, 30, 31].getD i 0) (1 * 3 + 2)
      ∧ (SynetConvertImage_Chw_Hwc_values 3 2
          (fun i : Nat => [10, 11, 20, 21, 30, 31].getD i 0)).length = 3 * 2
      ∧ (SynetConvertImage_Chw_Hwc_values 2 3
          (fun i : Nat => [10, 11, 20, 21, 30, 31].getD i 0)).length = 3 * 2
      ∧ (∀ j, 3 * 2 ≤ j →
          SynetConvertImage_Chw_Hwc 3 2 (fun i : Nat => [10, 11, 20, 21, 30, 31].getD i 0)
              (fun _ => 7) j = (fun _ => 7) j
            ∧ SynetConvertImage_Hwc_Chw 3 2 (fun i : Nat => [10, 11, 20, 21, 30, 31].getD i 0)
              (fun _ => 7) j = (fun _ => 7) j) :=
  flat_conversion_transposes 3 2 (fun i : Nat => [10, 11, 20, 21, 30, 31].getD i 0)
    (fun _ => 7) 2 1 (by decide) (by decide)

/-- C12: for `N` in {4, 8, 16} and every `channels`, `spatial`, both
`SynetConvertImage_Chw_ChwXc<N>` (from planar) and `SynetConvertImage_Hwc_ChwXc<N>` (from
interleaved) write exactly `ceil(channels/N) * spatial * N` elements, from `dst` on, with
`dst[(b*spatial + s)*N + i]` the source value of channel `b*N + i` at spatial position `s` when
`b*N + i < channels` and 0 otherwise; the memory past these elements is untouched. -/
theorem image_to_blocked {α : Type} [Zero α] (N channels spatial : Nat) (src dst : Nat → α)
    (hN : N = 4 ∨ N = 8 ∨ N = 16) (b s i : Nat) (hb : b < (channels + N - 1) / N)
    (hs : s < spatial) (hi : i < N) :
    SynetConvertImage_Chw_ChwXc N channels spatial src dst ((b * spatial + s) * N + i)
        = (if b * N + i < channels then src ((b * N + i) * spatial + s) else 0)
      ∧ SynetConvertImage_Hwc_ChwXc N channels spatial src dst ((b * spatial + s) * N + i)
          = (if b * N + i < channels then src (s * channels + (b * N + i)) else 0)
      ∧ (SynetConvertImage_Chw_ChwXc_values N channels spatial src).length
          = (channels + N - 1) / N * spatial * N
      ∧ (SynetConvertImage_Hwc_ChwXc_values N channels spatial src).length
          = (channels + N - 1) / N * spatial * N
      ∧ (∀ j, (channels + N - 1) / N * spatial * N ≤ j →
          SynetConvertImage_Chw_ChwXc N channels spatial src dst j = dst j
            ∧ SynetConvertImage_Hwc_ChwXc N channels spatial src dst j = dst j) := by
  have hN0 : 0 < N := by rcases hN with h | h | h <;> simp [h]
  obtain ⟨l1, g1⟩ := chw_chwXc_values N channels spatial src hN0
  obtain ⟨l2, g2⟩ := hwc_chwXc_values N channels spatial src hN0
  have e : (channels + N - 1) / N * (spatial * N) = (channels + N - 1) / N * spatial * N := by
    ring
  rw [e] at l1 l2
  obtain ⟨a1, a2⟩ := storeSeq_values _ dst _ l1
  obtain ⟨b1, b2⟩ := storeSeq_values _ dst _ l2
  exact ⟨a1 _ _ (g1 b s i hb hs hi), b1 _ _ (g2 b s i hb hs hi), l1, l2,
    fun j hj => ⟨a2 j hj, b2 j hj⟩⟩

/-- C12 (witness): 5 channels, 2 spatial positions, `N = 4`; element 1 of the tile of block 1
at position 1 belongs to channel 5, which does not exist, so it is 0 in both conversions. -/
theorem image_to_blocked_witness :
    SynetConvertImage_Chw_ChwXc 4 5 2 (fun i : Nat => (i : Int) + 1) (fun _ => 7)
        ((1 * 2 + 1) * 4 + 1)
        = (if 1 * 4 + 1 < 5 then (fun i : Nat => (i : Int) + 1) ((1 * 4 + 1) * 2 + 1) else 0)
      ∧ SynetConvertImage_Hwc_ChwXc 4 5 2 (fun i : Nat => (i : Int) + 1) (fun _ => 7)
          ((1 * 2 + 1) * 4 + 1)
          = (if 1 * 4 + 1 < 5 then (fun i : Nat => (i : Int) + 1) (1 * 5 + (1 * 4 + 1)) else 0)
      ∧ (SynetConvertImage_Chw_ChwXc_values 4 5 2 (fun i : Nat => (i : Int) + 1)).length
          = (5 + 4 - 1) / 4 * 2 * 4
      ∧ (SynetConvertImage_Hwc_ChwXc_values 4 5 2 (fun i : Nat => (i : Int) + 1)).length
          = (5 + 4 - 1) / 4 * 2 * 4
      ∧ (∀ j, (5 + 4 - 1) / 4 * 2 * 4 ≤ j →
          SynetConvertImage_Chw_ChwXc 4 5 2 (fun i : Nat => (i : Int) + 1) (fun _ => 7) j
              = (fun _ => 7) j
            ∧ SynetConvertImage_Hwc_ChwXc 4 5 2 (fun i : Nat => (i : Int) + 1) (fun _ => 7) j
              = (fun _ => 7) j) :=
  image_to_blocked 4 5 2 (fun i : Nat => (i : Int) + 1) (fun _ => 7) (Or.inl rfl) 1 1 1
    (by decide) (by decide) (by decide)

/-- C11: for `N` in {4, 8, 16} and every `output`, `input`, `kernel`, both
`SynetConvertFilter_Yxio_OyxiXo<N>` and `SynetConvertFilter_Oiyx_OyxiXo<N>` write exactly
`ceil(output/N) * kernel * input * N` elements, from `dst` on, with
`dst[((b*kernel + k)*input + i)*N + j]` the logical filter value at `(o = b*N + j, i, k)`
(`src[(k*input + i)*output + o]` in the layout Yxio, `src[(o*input + i)*kernel + k]` in the
layout Oiyx) when `b*N + j < output` and 0 otherwise; the memory past these elements is
untouched. -/
theorem filter_to_blocked {α : Type} [Zero α] (N output input kernel : Nat)
    (src dst : Nat → α) (hN : N = 4 ∨ N = 8 ∨ N = 16) (b k i j : Nat)
    (hb : b < (output + N - 1) / N) (hk : k < kernel) (hi : i < input) (hj : j < N) :
    SynetConvertFilter_Yxio_OyxiXo N output input kernel src dst
          (((b * kernel + k) * input + i) * N + j)
        = (if b * N + j < output then src ((k * input + i) * output + (b * N + j)) else 0)
      ∧ SynetConvertFilter_Oiyx_OyxiXo N output input kernel src dst
            (((b * kernel + k) * input + i) * N + j)
          = (if b * N + j < output then src (((b * N + j) * input + i) * kernel + k) else 0)
      ∧ (SynetConvertFilter_Yxio_OyxiXo_values N output input kernel src).length
          = (output + N - 1) / N * kernel * input * N
      ∧ (SynetConvertFilter_Oiyx_OyxiXo_values N output input kernel src).length
          = (output + N - 1) / N * kernel * input * N
      ∧ (∀ m, (output + N - 1) / N * kernel * input * N ≤ m →
          SynetConvertFilter_Yxio_OyxiXo N output input kernel src dst m = dst m
            ∧ SynetConvertFilter_Oiyx_OyxiXo N output input kernel src dst m = dst m) := by
  have hN0 : 0 < N := by rcases hN with h | h | h <;> simp [h]
  obtain ⟨l1, g1⟩ := yxio_oyxiXo_values N output input kernel src hN0
  obtain ⟨l2, g2⟩ := oiyx_oyxiXo_values N output input kernel src hN0
  have e : (output + N - 1) / N * (kernel * (input * N))
      = (output + N - 1) / N * kernel * input * N := by ring
  rw [e] at l1 l2
  obtain ⟨a1, a2⟩ := storeSeq_values _ dst _ l1
  obtain ⟨b1, b2⟩ := storeSeq_values _ dst _ l2
  exact ⟨a1 _ _ (g1 b k i j hb hk hi hj), b1 _ _ (g2 b k i j hb hk hi hj), l1, l2,
    fun m hm => ⟨a2 m hm, b2 m hm⟩⟩

/-- C11 (witness): 5 output channels, 2 input channels, a kernel of 3 positions, `N = 4`;
lane 1 of block 1 belongs to output channel 5, which does not exist, so it is 0 in both
conversions. -/
theorem filter_to_blocked_witness :
    SynetConvertFilter_Yxio_OyxiXo 4 5 2 3 (fun i : Nat => (i : Int) + 1) (fun _ => 7)
          (((1 * 3 + 2) * 2 + 1) * 4 + 1)
        = (if 1 * 4 + 1 < 5 then (fun i : Nat => (i : Int) + 1) ((2 * 2 + 1) * 5 + (1 * 4 + 1))
            else 0)
      ∧ SynetConvertFilter_Oiyx_OyxiXo 4 5 2 3 (fun i : Nat => (i : Int) + 1) (fun _ => 7)
            (((1 * 3 + 2) * 2 + 1) * 4 + 1)
          = (if 1 * 4 + 1 < 5 then (fun i : Nat => (i : Int) + 1) (((1 * 4 + 1) * 2 + 1) * 3 + 2)
              else 0)
      ∧ (SynetConvertFilter_Yxio_OyxiXo_values 4 5 2 3 (fun i : Nat => (i : Int) + 1)).length
          = (5 + 4 - 1) / 4 * 3 * 2 * 4
      ∧ (SynetConvertFilter_Oiyx_OyxiXo_values 4 5 2 3 (fun i : Nat => (i : Int) + 1)).length
          = (5 + 4 - 1) / 4 * 3 * 2 * 4
      ∧ (∀ m, (5 + 4 - 1) / 4 * 3 * 2 * 4 ≤ m →
          SynetConvertFilter_Yxio_OyxiXo 4 5 2 3 (fun i : Nat => (i : Int) + 1) (fun _ => 7) m
              = (fun _ => 7) m
            ∧ SynetConvertFilter_Oiyx_OyxiXo 4 5 2 3 (fun i : Nat => (i : Int) + 1)
                (fun _ => 7) m = (fun _ => 7) m) :=
  filter_to_blocked 4 5 2 3 (fun i : Nat => (i : Int) + 1) (fun _ => 7) (Or.inl rfl) 1 2 1 1
    (by decide) (by decide) (by decide) (by decide)

/-- C14 (as stated, refuted): with an empty batch `SynetConvertImage` never enters its loop, so
for the distinct blocked formats Nchw4c and Nchw8c it returns normally, without reaching
`assert(imageConverter)`, and leaves the destination as it was. -/
theorem convertImage_empty_batch_returns :
    GetImageConverter SimdTensorFormatNchw4c SimdTensorFormatNchw8c = none
      ∧ SynetConvertImage 0 5 2 (fun i : Nat => (i : Int)) SimdTensorFormatNchw4c (fun _ => 7)
          SimdTensorFormatNchw8c = some (fun _ => 7) :=
  ⟨rfl, rfl⟩

/-- C14 (amended): `GetImageConverter(a, b)` returns a converter exactly for the pairs of
distinct image formats of which at least one is NCHW or NHWC, and `NULL` for every other pair;
`GetFilterConverter` does the same over Oiyx/Yxio and Oyxi4o/8o/16o.  For equal formats
`SynetConvertImage` copies `batch * AlignHi(channels, alignment) * spatial` elements and
`SynetConvertFilter` copies `AlignHi(output, alignment) * input * kernel` elements, unchanged.
For a pair of distinct blocked formats `SynetConvertFilter` fails at `assert(filterConverter)`,
and `SynetConvertImage` fails at `assert(imageConverter)` when the batch is not empty. -/
theorem converter_selection {α : Type} [Zero α] (s d fs fd : SimdTensorFormatType)
    (batch channels spatial output input kernel : Nat) (src dst : Nat → α)
    (hbatch : 0 < batch) (hsd : s ≠ d)
    (hs : s = SimdTensorFormatNchw4c ∨ s = SimdTensorFormatNchw8c ∨ s = SimdTensorFormatNchw16c)
    (hd : d = SimdTensorFormatNchw4c ∨ d = SimdTensorFormatNchw8c ∨ d = SimdTensorFormatNchw16c)
    (hfsd : fs ≠ fd)
    (hfs : fs = SimdTensorFormatOyxi4o ∨ fs = SimdTensorFormatOyxi8o
      ∨ fs = SimdTensorFormatOyxi16o)
    (hfd : fd = SimdTensorFormatOyxi4o ∨ fd = SimdTensorFormatOyxi8o
      ∨ fd = SimdTensorFormatOyxi16o) :
    (∀ a b, (GetImageConverter a b).isSome
        = (decide (a ≠ b) && IsImageFormat a && IsImageFormat b
            && (decide (a = SimdTensorFormatNchw ∨ a = SimdTensorFormatNhwc)
              || decide (b = SimdTensorFormatNchw ∨ b = SimdTensorFormatNhwc))))
      ∧ (∀ a b, (GetFilterConverter a b).isSome
        = (decide (a ≠ b) && IsFilterFormat a && IsFilterFormat b
            && (decide (a = SimdTensorFormatOiyx ∨ a = SimdTensorFormatYxio)
              || decide (b = SimdTensorFormatOiyx ∨ b = SimdTensorFormatYxio))))
      ∧ (∀ f, ∃ m, SynetConvertImage batch channels spatial src f dst f = some m
          ∧ ∀ j, m j = if j < batch * (AlignHi channels (SynetTensorAlignment f) * spatial)
              then src j else dst j)
      ∧ (∀ f, ∃ m, SynetConvertFilter output input kernel src f dst f = some m
          ∧ ∀ j, m j = if j < AlignHi output (SynetTensorAlignment f) * input * kernel
              then src j else dst j)
      ∧ SynetConvertImage batch channels spatial src s dst d = none
      ∧ SynetConvertFilter output input kernel src fs dst fd = none := by
  refine ⟨?_, ?_, ?_, ?_, ?_, ?_⟩
  · intro a b
    cases a <;> cases b <;> rfl
  · intro a b
    cases a <;> cases b <;> rfl
  · intro f
    obtain ⟨m, hm, hj⟩ := convertImage_loop_same (GetImageConverter f f) channels spatial
      (AlignHi channels (SynetTensorAlignment f) * spatial) src batch 0 dst
    refine ⟨m, ?_, fun j => ?_⟩
    · rw [← hm]
      unfold SynetConvertImage
      simp only [decide_True]
    · rw [hj j]
      simp only [Nat.zero_le, true_and, Nat.zero_add]
  · intro f
    refine ⟨_, by unfold SynetConvertFilter; rw [if_pos rfl], fun j => ?_⟩
    unfold memcpy
    simp only [Nat.zero_le, true_and, Nat.zero_add, Nat.sub_zero]
  · obtain ⟨n, rfl⟩ : ∃ n, batch = n + 1 := ⟨batch - 1, by omega⟩
    have hnone : GetImageConverter s d = none := by
      rcases hs with h | h | h <;> rcases hd with h' | h' | h' <;> subst h <;> subst h' <;> rfl
    unfold SynetConvertImage
    simp only [hnone, decide_eq_false hsd]
    rfl
  · have hnone : GetFilterConverter fs fd = none := by
      rcases hfs with h | h | h <;> rcases hfd with h' | h' | h' <;> subst h <;> subst h' <;> rfl
    unfold SynetConvertFilter
    rw [if_neg hfsd, hnone]

/-- C14 (amended, witness): one image of 5 channels and 2 positions, a filter of 5 outputs,
2 inputs and 3 kernel positions, and the distinct blocked pairs Nchw4c to Nchw8c and Oyxi4o to
Oyxi8o. -/
theorem converter_selection_witness :
    (∀ a b, (GetImageConverter a b).isSome
        = (decide (a ≠ b) && IsImageFormat a && IsImageFormat b
            && (decide (a = SimdTensorFormatNchw ∨ a = SimdTensorFormatNhwc)
              || decide (b = SimdTensorFormatNchw ∨ b = SimdTensorFormatNhwc))))
      ∧ (∀ a b, (GetFilterConverter a b).isSome
        = (decide (a ≠ b) && IsFilterFormat a && IsFilterFormat b
            && (decide (a = SimdTensorFormatOiyx ∨ a = SimdTensorFormatYxio)
              || decide (b = SimdTensorFormatOiyx ∨ b = SimdTensorFormatYxio))))
      ∧ (∀ f, ∃ m, SynetConvertImage 1 5 2 (fun i : Nat => (i : Int)) f (fun _ => 7) f = some m
          ∧ ∀ j, m j = if j < 1 * (AlignHi 5 (SynetTensorAlignment f) * 2)
              then (fun i : Nat => (i : Int)) j else (fun _ => 7) j)
      ∧ (∀ f, ∃ m, SynetConvertFilter 5 2 3 (fun i : Nat => (i : Int)) f (fun _ => 7) f = some m
          ∧ ∀ j, m j = if j < AlignHi 5 (SynetTensorAlignment f) * 2 * 3
              then (fun i : Nat => (i : Int)) j else (fun _ => 7) j)
      ∧ SynetConvertImage 1 5 2 (fun i : Nat => (i : Int)) SimdTensorFormatNchw4c (fun _ => 7)
          SimdTensorFormatNchw8c = none
      ∧ SynetConvertFilter 5 2 3 (fun i : Nat => (i : Int)) SimdTensorFormatOyxi4o (fun _ => 7)
          SimdTensorFormatOyxi8o = none :=
  converter_selection SimdTensorFormatNchw4c SimdTensorFormatNchw8c SimdTensorFormatOyxi4o
    SimdTensorFormatOyxi8o 1 5 2 5 2 3 (fun i : Nat => (i : Int)) (fun _ => 7) (by decide)
    (by decide) (Or.inl rfl) (Or.inr (Or.inl rfl)) (by decide) (Or.inl rfl)
    (Or.inr (Or.inl rfl))

/-- C20: micro-tile grouping 6, then 3, then 1.  In `ConvolutionNhwcDirect1x1_2<term, type>`
the row pass runs, for each channel tile, the three pixel loops with `n3 = n1 / 3 * 3` and
`n6 = n1 / 6 * 6`; for every `n1` the calls of a tile are `n1 / 6` calls of the 6-pixel kernel,
then `n1 % 6 / 3 ≤ 1` calls of the 3-pixel kernel, then `n1 % 3 ≤ 2` calls of the 1-pixel
kernel, and the pixels of the calls, in program order, are the pixels `0, 1, ..., n1 - 1`, each
once (source address `ps + q * p.srcC`, destination address `pd + q * p.dstC`). -/
theorem micro_tile_grouping (p : ConvParam32f)
    (n1 src dstC yBeg yEnd srcC weight bias params dst dc : Nat) :
    rowPassCalls1x1 p src dstC yBeg yEnd srcC weight bias params dst
        = some ((forRounds dstC DF (srcC * DF) 0 weight).flatMap fun dw =>
            tileCalls1x1 p (sz (((yEnd : Int) - yBeg) * p.dstW))
              (sz (((yEnd : Int) - yBeg) * p.dstW) / 3 * 3)
              (sz (((yEnd : Int) - yBeg) * p.dstW) / 6 * 6)
              src dstC yBeg srcC dw.2 bias params dst dw.1)
      ∧ (tileCalls1x1 p n1 (n1 / 3 * 3) (n1 / 6 * 6) src dstC yBeg srcC weight bias params dst
            dc).map (fun c => c.n)
          = List.replicate (n1 / 6) 6 ++ List.replicate (n1 % 6 / 3) 3
              ++ List.replicate (n1 % 3) 1
      ∧ n1 % 6 / 3 ≤ 1 ∧ n1 % 3 ≤ 2
      ∧ ((tileCalls1x1 p n1 (n1 / 3 * 3) (n1 / 6 * 6) src dstC yBeg srcC weight bias params dst
            dc).flatMap fun c => (List.range c.n).map fun i =>
              (c.src0 + i * p.srcC, c.dst + i * p.dstC))
          = (List.range n1).map fun q =>
              (src + yBeg * p.srcW * p.srcC + q * p.srcC,
                dst + dc + yBeg * p.dstW * p.dstC + q * p.dstC) := by
  refine ⟨rfl, ?_, by omega, by omega,
    tileCalls1x1_pixels p n1 src dstC yBeg srcC weight bias params dst dc⟩
  rw [tileCalls1x1_rounds]
  simp only [List.map_append, List.map_map]
  congr 1
  congr 1
  all_goals
    apply List.ext_getElem?
    intro m
    simp only [List.getElem?_map, List.getElem?_replicate, List.getElem?_range, Function.comp]
    split <;> simp_all

/-- C16: `SynetConvolution32f::Buffer(b)` returns `b` itself and leaves the object, and with
it the engine-owned buffer, untouched whenever `b` is not null; for a null `b` it resizes the
engine-owned buffer to `ExternalBufferSize()` elements, 1 for the base class, changes nothing
else and returns the address of that buffer. -/
theorem buffer_selection (alloc : Nat → Nat) (ext : Nat) (self : SynetConvolution32f)
    (b : Nat) (hb : b ≠ 0) :
    SynetConvolution32f.Buffer alloc ext self b = (b, self)
      ∧ (SynetConvolution32f.Buffer alloc ext self 0).2._buffer.size = ext
      ∧ (SynetConvolution32f.Buffer alloc ext self 0).1
          = (SynetConvolution32f.Buffer alloc ext self 0).2._buffer.data
      ∧ (SynetConvolution32f.Buffer alloc ext self 0).2
          = { self with _buffer := self._buffer.Resize alloc ext }
      ∧ (SynetConvolution32f.Buffer alloc SynetConvolution32f.ExternalBufferSize self
          0).2._buffer.size = 1 := by
  have hsize : ∀ n, (self._buffer.Resize alloc n).size = n := by
    intro n
    unfold Array32f.Resize
    by_cases h : n ≠ self._buffer.size
    · rw [if_pos h]
    · rw [if_neg h]
      exact (not_not.1 h).symm
  refine ⟨?_, ?_, rfl, rfl, ?_⟩
  · unfold SynetConvolution32f.Buffer
    rw [if_pos hb]
  · exact hsize ext
  · exact hsize 1

/-- C16 (witness): an engine that owns no buffer yet, the caller's buffer at address 64, and an
allocator that returns address 1000. -/
theorem buffer_selection_witness :
    SynetConvolution32f.Buffer (fun _ => 1000) 1 engineNoBuffer 64 = (64, engineNoBuffer)
      ∧ (SynetConvolution32f.Buffer (fun _ => 1000) 1 engineNoBuffer 0).2._buffer.size = 1
      ∧ (SynetConvolution32f.Buffer (fun _ => 1000) 1 engineNoBuffer 0).1
          = (SynetConvolution32f.Buffer (fun _ => 1000) 1 engineNoBuffer 0).2._buffer.data
      ∧ (SynetConvolution32f.Buffer (fun _ => 1000) 1 engineNoBuffer 0).2
          = { engineNoBuffer with
              _buffer := engineNoBuffer._buffer.Resize (fun _ => 1000) 1 }
      ∧ (SynetConvolution32f.Buffer (fun _ => 1000) SynetConvolution32f.ExternalBufferSize
          engineNoBuffer 0).2._buffer.size = 1 :=
  buffer_selection (fun _ => 1000) 1 engineNoBuffer 64 (by decide)

/-- C17: the constructor `ConvParam32f(batch, conv, gemm)` copies every field of `conv`
unchanged, stores the given `batch` and `gemm`, and sets `trans` to true exactly when the
source format is NHWC, whatever the object held before. -/
theorem constructor_copies_parameters (self : ConvParam32f) (batch : Nat)
    (conv : SimdConvolutionParameters) (gemm : Nat) :
    (ConvParam32f.ctor self batch conv gemm).toSimdConvolutionParameters = conv
      ∧ (ConvParam32f.ctor self batch conv gemm).batch = batch
      ∧ (ConvParam32f.ctor self batch conv gemm).gemm = gemm
      ∧ ((ConvParam32f.ctor self batch conv gemm).trans = true
          ↔ conv.srcF = SimdTensorFormatNhwc) := by
  refine ⟨rfl, rfl, rfl, ?_⟩
  show decide (conv.srcF = SimdTensorFormatNhwc) = true ↔ _
  exact decide_eq_true_iff

/-- C15 (as stated, refuted): `pDilX` passes `Valid()`, yet the row pass over its only row
`[0, 1)` makes two single-pixel calls and the second one stores to flat index 1, outside
`[yBeg*dstW*dstC, yEnd*dstW*dstC) = [0, 1)`: the column loops do not read the dilation and
emit `srcW - kernelX + 1 = 2` pixels for a row of `dstW = 1`. -/
theorem rowPass_stores_counterexample :
    pDilX.Valid = some true ∧ 1 * pDilX.dstW * pDilX.dstC = 1
      ∧ (rowPassCalls pDilX 0 1 0 1 1 0 0 0 0).map
          (fun cs => cs.map fun c => (c.stores pDilX).map fun st => st.2.2)
          = some [[0], [1]] :=
  ⟨by decide, by decide, by decide⟩

/-- C15 (amended): on the domain of the engine, for `yBeg ≤ yEnd ≤ dstH` and a channel slice
`[dc, dc + dstC)` of the destination, every store of a row pass (the general one, or the 1x1
one for 1x1 parameters) called on `dst + dc` goes to an element whose row is in `[yBeg, yEnd)`
and whose channel is in `[dc, dc + dstC)`, so its flat index is inside
`[yBeg*dstW*p.dstC, yEnd*dstW*p.dstC)`; and no store of a pass over a disjoint row range or a
disjoint channel range goes to the same element. -/
theorem rowPass_slices_disjoint (p : ConvParam32f) (h : p.InDomain) (direct1x1 : Bool)
    (h1 : direct1x1 = true → p.Is1x1 = true)
    (src dstC yBeg yEnd srcC weight bias params dc : Nat)
    (hy : yBeg ≤ yEnd) (hE : yEnd ≤ p.dstH) (hD : dc + dstC ≤ p.dstC) (cs : List MicroCall)
    (hcs : passCalls direct1x1 p src dstC yBeg yEnd srcC weight bias params dc = some cs)
    (c : MicroCall) (hc : c ∈ cs) (st : Nat × Nat × Nat) (hst : st ∈ c.stores p) :
    (yBeg ≤ st.2.2 / p.dstC / p.dstW ∧ st.2.2 / p.dstC / p.dstW < yEnd
        ∧ dc ≤ st.2.2 % p.dstC ∧ st.2.2 % p.dstC < dc + dstC)
      ∧ yBeg * p.dstW * p.dstC ≤ st.2.2 ∧ st.2.2 < yEnd * p.dstW * p.dstC
      ∧ ∀ src' dstC' yBeg' yEnd' srcC' weight' bias' params' dc' : Nat,
          yBeg' ≤ yEnd' → yEnd' ≤ p.dstH → dc' + dstC' ≤ p.dstC →
          (yEnd ≤ yBeg' ∨ yEnd' ≤ yBeg ∨ dc + dstC ≤ dc' ∨ dc' + dstC' ≤ dc) →
          ∀ cs', passCalls direct1x1 p src' dstC' yBeg' yEnd' srcC' weight' bias' params' dc'
              = some cs' →
            ∀ c', c' ∈ cs' → ∀ st', st' ∈ c'.stores p → st'.2.2 ≠ st.2.2 := by
  have hB := pass_store_box h direct1x1 h1 src dstC yBeg yEnd srcC weight bias params dc hy hE
    hD cs hcs c hc st hst
  have hrow : ∀ (a b : Nat) (j : Nat), Box p.dstC (a * p.dstW) (b * p.dstW) 0 p.dstC j →
      a ≤ j / p.dstC / p.dstW ∧ j / p.dstC / p.dstW < b := by
    intro a b j hj
    obtain ⟨g1, g2, -, -⟩ := hj
    have hW : 0 < p.dstW := by
      rcases Nat.eq_zero_or_pos p.dstW with h0 | h0
      · rw [h0, Nat.mul_zero] at g2; omega
      · exact h0
    exact ⟨(Nat.le_div_iff_mul_le hW).2 g1, (Nat.div_lt_iff_lt_mul hW).2 g2⟩
  have hwide : ∀ (a b c0 c1 : Nat) (j : Nat), c1 ≤ p.dstC → Box p.dstC a b c0 c1 j →
      Box p.dstC a b 0 p.dstC j := by
    intro a b c0 c1 j hc1 hj
    unfold Box at hj ⊢
    omega
  obtain ⟨r1, r2⟩ := hrow yBeg yEnd _ (hwide _ _ _ _ _ hD hB)
  have hdm := Nat.div_add_mod st.2.2 p.dstC
  have hcm : p.dstC * (st.2.2 / p.dstC) = st.2.2 / p.dstC * p.dstC := Nat.mul_comm _ _
  have hlo : yBeg * p.dstW * p.dstC ≤ st.2.2 / p.dstC * p.dstC :=
    Nat.mul_le_mul_right _ hB.1
  have hhi : (st.2.2 / p.dstC + 1) * p.dstC ≤ yEnd * p.dstW * p.dstC :=
    Nat.mul_le_mul_right _ hB.2.1
  rw [Nat.add_mul, Nat.one_mul] at hhi
  have hmod : st.2.2 % p.dstC < p.dstC := by
    have := hB.2.2.2
    omega
  refine ⟨⟨r1, r2, hB.2.2.1, hB.2.2.2⟩, by omega, by omega, ?_⟩
  intro src' dstC' yBeg' yEnd' srcC' weight' bias' params' dc' hy' hE' hD' hdis cs' hcs' c' hc'
    st' hst' heq
  have hB' := pass_store_box h direct1x1 h1 src' dstC' yBeg' yEnd' srcC' weight' bias' params'
    dc' hy' hE' hD' cs' hcs' c' hc' st' hst'
  rw [heq] at hB'
  obtain ⟨r1', r2'⟩ := hrow yBeg' yEnd' _ (hwide _ _ _ _ _ hD' hB')
  have g3 := hB.2.2.1
  have g4 := hB.2.2.2
  have g3' := hB'.2.2.1
  have g4' := hB'.2.2.2
  omega

/-- C15 (amended, witness): the padded 3x3 convolution `pPad`, the pass over row 0, its first
call, and the store of lane 0 of its pixel. -/
theorem rowPass_slices_disjoint_witness :
    (0 ≤ (0, 0, 0).2.2 / pPad.dstC / pPad.dstW ∧ (0, 0, 0).2.2 / pPad.dstC / pPad.dstW < 1
        ∧ 0 ≤ (0, 0, 0).2.2 % pPad.dstC ∧ (0, 0, 0).2.2 % pPad.dstC < 0 + 2)
      ∧ 0 * pPad.dstW * pPad.dstC ≤ (0, 0, 0).2.2 ∧ (0, 0, 0).2.2 < 1 * pPad.dstW * pPad.dstC
      ∧ ∀ src' dstC' yBeg' yEnd' srcC' weight' bias' params' dc' : Nat,
          yBeg' ≤ yEnd' → yEnd' ≤ pPad.dstH → dc' + dstC' ≤ pPad.dstC →
          (1 ≤ yBeg' ∨ yEnd' ≤ 0 ∨ 0 + 2 ≤ dc' ∨ dc' + dstC' ≤ 0) →
          ∀ cs', passCalls false pPad src' dstC' yBeg' yEnd' srcC' weight' bias' params' dc'
              = some cs' →
            ∀ c', c' ∈ cs' → ∀ st', st' ∈ c'.stores pPad → st'.2.2 ≠ (0, 0, 0).2.2 :=
  rowPass_slices_disjoint pPad
    ⟨by decide, rfl, rfl, by decide, by decide, by decide, by decide, by decide, by decide,
      by decide, by decide,
      by decide, by decide, by decide, by decide, by decide⟩
    false (by decide) 0 2 0 1 2 0 0 0 0 (by decide) (by decide) (by decide)
    ((passCalls false pPad 0 2 0 1 2 0 0 0 0).getD []) (by decide) firstCallPad (by decide)
    (0, 0, 0) (by decide)

/-- C19 (as stated, refuted): `pSkip` passes `Valid()`, has dilation 1, strides of at least 1,
no padding, `srcW ≥ kernelX - 1` and `srcH ≥ kernelY - 1`, yet the row pass over its two
destination rows makes no call at all: the nose, body and tail regions are empty, so no row is
emitted and no element is stored. -/
theorem rowPass_coverage_counterexample :
    pSkip.Valid = some true ∧ pSkip.dilationY = 1 ∧ pSkip.dilationX = 1
      ∧ 1 ≤ pSkip.strideY ∧ 1 ≤ pSkip.strideX
      ∧ pSkip.padY ≤ pSkip.kernelY ∧ pSkip.padH ≤ pSkip.kernelY
      ∧ pSkip.padX ≤ pSkip.kernelX ∧ pSkip.padW ≤ pSkip.kernelX
      ∧ pSkip.kernelX - 1 ≤ pSkip.srcW ∧ pSkip.kernelY - 1 ≤ pSkip.srcH
      ∧ pSkip.dstH = 2
      ∧ rowPassCalls pSkip 0 1 0 2 1 0 0 0 0 = some [] := by
  decide

/-- C19 (amended): on the domain of the engine, which also asks that the kernel fits the padded
image, for `yBeg ≤ yEnd ≤ dstH` and a channel slice `[dst, dst + dstC)` of the destination: the
first lines of the row pass return the region bounds and the row pass returns; the five column
loops of a row return, emit exactly `dstW` pixels, at the pointers `d, d + p.dstC, ...`, and
leave the pointer at `d + dstW * p.dstC`; the three row loops of a channel tile return and emit
exactly the `(yEnd - yBeg) * dstW` pixels of the rows `[yBeg, yEnd)`, in row-major order, at
the pointers the pixels have in the tensor; and every element of these rows and of the
channels of the slice is stored exactly once by the row pass, no other element at all. -/
theorem rowPass_covers_once (p : ConvParam32f) (h : p.InDomain)
    (src dstC yBeg yEnd srcC weight bias params dst : Nat)
    (hy : yBeg ≤ yEnd) (hE : yEnd ≤ p.dstH) (hD : dst + dstC ≤ p.dstC) :
    ∃ b cs, rowBounds p = some b
      ∧ rowPassCalls p src dstC yBeg yEnd srcC weight bias params dst = some cs
      ∧ (∀ kH s w sC dC bi pa sl d, ∃ row,
          rowColumns p b kH s w sC dC bi pa sl d = some row
            ∧ pixelPointers p row.1 = (List.range p.dstW).map (fun x => d + x * p.dstC)
            ∧ row.2 = d + p.dstW * p.dstC)
      ∧ (∀ k w, DF * k < dstC → ∃ t,
          tileCalls p b src dstC yBeg yEnd srcC w bias params dst (DF * k) = some t
            ∧ pixelPointers p t
              = (List.range ((yEnd - yBeg) * p.dstW)).map
                  (fun q => dst + DF * k + (yBeg * p.dstW + q) * p.dstC))
      ∧ ∀ j, (Box p.dstC (yBeg * p.dstW) (yEnd * p.dstW) dst (dst + dstC) j →
              (storeIndices p cs).count j = 1)
          ∧ (¬ Box p.dstC (yBeg * p.dstW) (yEnd * p.dstW) dst (dst + dstC) j →
              (storeIndices p cs).count j = 0) := by
  obtain ⟨be, hbe, -⟩ := h.rowBoundsExact
  have hrows := h.rows_start yBeg (by omega)
  obtain ⟨cs, hcs⟩ := passCalls_returns false h.region src dstC yBeg yEnd srcC weight bias
    params dst hrows
  have hcs' : rowPassCalls p src dstC yBeg yEnd srcC weight bias params dst = some cs := by
    simpa only [passCalls, Bool.false_eq_true, if_false] using hcs
  refine ⟨be.wrapped p, cs, by rw [h.region.rowBounds_wrapped, hbe]; rfl, hcs',
    fun kH s w sC dC bi pa sl d => ⟨_, rowColumns_eq h.region be hbe kH s w sC dC bi pa sl d,
      rowColumns_pixels h be hbe kH s w sC dC bi pa sl d⟩, ?_,
    pass_stores_once h false (fun e => absurd e (by decide)) src dstC yBeg yEnd srcC weight
      bias params dst hy hE hD cs hcs⟩
  intro k w _
  refine ⟨_, tileCalls_eq h.region be hbe src dstC yBeg yEnd srcC w bias params dst (DF * k)
    hrows, ?_⟩
  have hT := tileCalls_tiled h be hbe src dstC yBeg yEnd srcC w bias params dst (DF * k) hy hE
  rw [pixelPointers_tiled p _ _ _ _ hT, Nat.sub_mul]
  rfl

/-- C19 (amended, witness): the padded 3x3 convolution `pPad` and the pass over both rows and
both channels. -/
theorem rowPass_covers_once_witness :
    ∃ b cs, rowBounds pPad = some b
      ∧ rowPassCalls pPad 0 2 0 2 2 0 0 0 0 = some cs
      ∧ (∀ kH s w sC dC bi pa sl d, ∃ row,
          rowColumns pPad b kH s w sC dC bi pa sl d = some row
            ∧ pixelPointers pPad row.1 = (List.range pPad.dstW).map (fun x => d + x * pPad.dstC)
            ∧ row.2 = d + pPad.dstW * pPad.dstC)
      ∧ (∀ k w, DF * k < 2 → ∃ t,
          tileCalls pPad b 0 2 0 2 2 w 0 0 0 (DF * k) = some t
            ∧ pixelPointers pPad t
              = (List.range ((2 - 0) * pPad.dstW)).map
                  (fun q => 0 + DF * k + (0 * pPad.dstW + q) * pPad.dstC))
      ∧ ∀ j, (Box pPad.dstC (0 * pPad.dstW) (2 * pPad.dstW) 0 (0 + 2) j →
              (storeIndices pPad cs).count j = 1)
          ∧ (¬ Box pPad.dstC (0 * pPad.dstW) (2 * pPad.dstW) 0 (0 + 2) j →
              (storeIndices pPad cs).count j = 0) :=
  rowPass_covers_once pPad
    ⟨by decide, rfl, rfl, by decide, by decide, by decide, by decide, by decide, by decide,
      by decide, by decide,
      by decide, by decide, by decide, by decide, by decide⟩
    0 2 0 2 2 0 0 0 0 (by decide) (by decide) (by decide)

/-- C18 (as stated, refuted): two parameter sets inside the preconditions of the claim.
`pSkip` passes `Valid()`, has dilation 1, strides of at least 1, no padding,
`srcW ≥ kernelX - 1` and `srcH ≥ kernelY - 1`, and `aSplit` has `macroC = srcC`, `macroH = 1`
and `macroD = 16`; the general driver returns without a single call and leaves the destination
as it was (7 everywhere), where the claimed value of element `(0, 0, 0)` is
`bias[0] + src[0] * weight[0] = 1`.  `pNoSource` is a 1x1 convolution of one pixel without
source channels, where nothing wraps in `Valid()`, and `aNoSource` has `macroC = srcC = 0`,
`macroH = 1` and `macroD = 16`; the loop over the blocks of source channels makes no round, so
the driver returns without a call and leaves the 7 in element `(0, 0, 0)`, where the claimed
value is `bias[0] = 3` plus an empty sum. -/
theorem driver_formula_counterexample :
    (pSkip.Valid = some true ∧ pSkip.dilationY = 1 ∧ pSkip.dilationX = 1
      ∧ 1 ≤ pSkip.strideY ∧ 1 ≤ pSkip.strideX
      ∧ pSkip.padY ≤ pSkip.kernelY ∧ pSkip.padH ≤ pSkip.kernelY
      ∧ pSkip.padX ≤ pSkip.kernelX ∧ pSkip.padW ≤ pSkip.kernelX
      ∧ pSkip.kernelX - 1 ≤ pSkip.srcW ∧ pSkip.kernelY - 1 ≤ pSkip.srcH
      ∧ aSplit.macroC = pSkip.srcC ∧ 1 ≤ aSplit.macroH ∧ aSplit.macroD = 16
      ∧ driverCalls false Identity pSkip aSplit = some []
      ∧ ConvolutionNhwcDirect_2 (fun v : Int => v) Identity (fun _ => 1) pSkip aSplit
          (fun _ => 1) (fun _ => 0) (fun _ => 0) (fun _ => 7) = some (fun _ => 7)
      ∧ ((fun _ : Nat => (0 : Int)) 0
          + ∑ ky in Finset.range pSkip.kernelY, ∑ kx in Finset.range pSkip.kernelX,
            ∑ c in Finset.range pSkip.srcC,
              if pSkip.padY ≤ 0 * pSkip.strideY + ky ∧ 0 * pSkip.strideY + ky < pSkip.srcH + pSkip.padY
                  ∧ pSkip.padX ≤ 0 * pSkip.strideX + kx
                  ∧ 0 * pSkip.strideX + kx < pSkip.srcW + pSkip.padX then
                (fun _ : Nat => (1 : Int))
                    (((0 * pSkip.strideY + ky - pSkip.padY) * pSkip.srcW
                      + (0 * pSkip.strideX + kx - pSkip.padX)) * pSkip.srcC + c)
                  * (fun _ : Nat => (1 : Int))
                    (((((0 / 16) * pSkip.kernelY + ky) * pSkip.kernelX + kx) * pSkip.srcC + c)
                      * 16 + 0 % 16)
              else 0) = 1)
      ∧ (pNoSource.Valid = some true ∧ pNoSource.ValidSpec = true
        ∧ pNoSource.dilationY = 1 ∧ pNoSource.dilationX = 1
        ∧ 1 ≤ pNoSource.strideY ∧ 1 ≤ pNoSource.strideX
        ∧ pNoSource.padY ≤ pNoSource.kernelY ∧ pNoSource.padH ≤ pNoSource.kernelY
        ∧ pNoSource.padX ≤ pNoSource.kernelX ∧ pNoSource.padW ≤ pNoSource.kernelX
        ∧ pNoSource.kernelX - 1 ≤ pNoSource.srcW ∧ pNoSource.kernelY - 1 ≤ pNoSource.srcH
        ∧ aNoSource.macroC = pNoSource.srcC ∧ 1 ≤ aNoSource.macroH ∧ aNoSource.macroD = 16
        ∧ driverCalls false Identity pNoSource aNoSource = some []
        ∧ ConvolutionNhwcDirect_2 (fun v : Int => v) Identity (fun _ => 1) pNoSource aNoSource
            (fun _ => 1) (fun _ => 3) (fun _ => 0) (fun _ => 7) = some (fun _ => 7)
        ∧ ((fun _ : Nat => (3 : Int)) 0
            + ∑ _ky in Finset.range pNoSource.kernelY, ∑ _kx in Finset.range pNoSource.kernelX,
              ∑ _c in Finset.range pNoSource.srcC, (1 : Int) * 1) = 3) := by
  have hcalls : driverCalls false Identity pSkip aSplit = some [] := by decide
  have hcalls0 : driverCalls false Identity pNoSource aNoSource = some [] := by decide
  refine ⟨⟨by decide, by decide, by decide, by decide, by decide, by decide, by decide,
    by decide, by decide, by decide, by decide, by decide, by decide, by decide, hcalls, ?_,
    by decide⟩, by decide, by decide, by decide, by decide, by decide, by decide, by decide,
    by decide, by decide, by decide, by decide, by decide, by decide, by decide, by decide,
    hcalls0, ?_, by decide⟩
  · unfold ConvolutionNhwcDirect_2
    rw [hcalls]
    rfl
  · unfold ConvolutionNhwcDirect_2
    rw [hcalls0]
    rfl

/-- C18 (amended): on the domain of the engine, which also asks that the kernel fits the padded
image, with at least one source channel, `microD = 16`, `macroC = srcC` (term Single),
`macroH ≥ 1` and `macroD` a positive multiple of 16, the general driver
`ConvolutionNhwcDirect_2<Identity>` returns and writes to every
`dst[(y*dstW + x)*dstC + d]` the value `bias[d]` plus the sum over the kernel positions
`(ky, kx)` that meet the image and over `c < srcC` of `src[..] * weight[..]`, the weights in
the blocked layout `[dstC/16, kernelY, kernelX, srcC, 16]`, in exact arithmetic; nothing past
the destination tensor is written. -/
theorem driver_blocked_formula (ex : α → α) (p : ConvParam32f) (h : p.InDomain)
    (hsrc : 0 < p.srcC) (a : AlgParam) (hH : 1 ≤ a.macroH) (hm : a.microD = 16)
    (hC : a.macroC = p.srcC) (hD : 0 < a.macroD) (h16 : 16 ∣ a.macroD)
    (src weight bias params dst : Nat → α) :
    ∃ out, ConvolutionNhwcDirect_2 ex Identity src p a weight bias params dst = some out
      ∧ (∀ y x d, y < p.dstH → x < p.dstW → d < p.dstC →
          out ((y * p.dstW + x) * p.dstC + d)
            = bias d + ∑ ky in Finset.range p.kernelY, ∑ kx in Finset.range p.kernelX,
                ∑ c in Finset.range p.srcC,
                  if p.padY ≤ y * p.strideY + ky ∧ y * p.strideY + ky < p.srcH + p.padY
                      ∧ p.padX ≤ x * p.strideX + kx ∧ x * p.strideX + kx < p.srcW + p.padX then
                    src (((y * p.strideY + ky - p.padY) * p.srcW
                        + (x * p.strideX + kx - p.padX)) * p.srcC + c)
                      * weight (((((d / 16) * p.kernelY + ky) * p.kernelX + kx) * p.srcC + c)
                        * 16 + d % 16)
                  else 0)
      ∧ ∀ j, p.dstH * p.dstW * p.dstC ≤ j → out j = dst j := by
  obtain ⟨cs, hcs, hU⟩ := driver_correct ex Identity h a hH hm (by rw [hC]; exact hsrc)
    (le_of_eq hC) hD false (fun e => by cases e) src weight bias params
  refine ⟨runCalls ex Identity p src weight bias params cs dst, ?_, ?_,
    fun j hj => (hU dst j).2 hj⟩
  · unfold ConvolutionNhwcDirect_2
    rw [hcs]; rfl
  · intro y x d hy hx hd
    obtain ⟨e1, e2, e3, e4⟩ := nhwc_index p.dstH p.dstW p.dstC y x d hy hx hd
    rw [(hU dst _).1 e4, e1, e2, e3,
      referenceConvolution_identity ex p h.dilationY h.dilationX]
    congr 1
    apply Finset.sum_congr rfl
    intro ky _
    apply Finset.sum_congr rfl
    intro kx _
    apply Finset.sum_congr rfl
    intro c hc
    rw [driverWeightIndex_eq_blocked p a hC hD (Or.inl h16) d ky kx c hd
      (Finset.mem_range.1 hc)]
    rfl

/-- C18 (amended, witness): the padded 3x3 convolution `pPad` with both source channels in one
pass (`aWide`) and integer tensors. -/
theorem driver_blocked_formula_witness :
    ∃ out, ConvolutionNhwcDirect_2 (fun v : Int => v) Identity (fun i => (i : Int) - 3) pPad
        aWide (fun i => (i : Int) - 40) (fun i => (i : Int)) (fun _ => 0) (fun _ => 7)
          = some out
      ∧ (∀ y x d, y < pPad.dstH → x < pPad.dstW → d < pPad.dstC →
          out ((y * pPad.dstW + x) * pPad.dstC + d)
            = (fun i : Nat => (i : Int)) d
              + ∑ ky in Finset.range pPad.kernelY, ∑ kx in Finset.range pPad.kernelX,
                ∑ c in Finset.range pPad.srcC,
                  if pPad.padY ≤ y * pPad.strideY + ky
                      ∧ y * pPad.strideY + ky < pPad.srcH + pPad.padY
                      ∧ pPad.padX ≤ x * pPad.strideX + kx
                      ∧ x * pPad.strideX + kx < pPad.srcW + pPad.padX then
                    (fun i : Nat => (i : Int) - 3)
                        (((y * pPad.strideY + ky - pPad.padY) * pPad.srcW
                          + (x * pPad.strideX + kx - pPad.padX)) * pPad.srcC + c)
                      * (fun i : Nat => (i : Int) - 40)
                        (((((d / 16) * pPad.kernelY + ky) * pPad.kernelX + kx) * pPad.srcC + c)
                          * 16 + d % 16)
                  else 0)
      ∧ ∀ j, pPad.dstH * pPad.dstW * pPad.dstC ≤ j → out j = (fun _ => 7) j :=
  driver_blocked_formula (fun v : Int => v) pPad
    ⟨by decide, rfl, rfl, by decide, by decide, by decide, by decide, by decide, by decide,
      by decide, by decide,
      by decide, by decide, by decide, by decide, by decide⟩
    (by decide) aWide (by decide) rfl rfl (by decide) (by decide)
    (fun i => (i : Int) - 3) (fun i => (i : Int) - 40) (fun i => (i : Int)) (fun _ => 0)
    (fun _ => 7)

/-- C23: for every parameter set with `Is1x1()` and `Valid()` (source height and width being
values of `size_t`, and with them the destination height and width, which `Valid()` makes
equal to them), every `AlgParam` and every activation, the drivers
`ConvolutionNhwcDirect1x1_2<type>` and `ConvolutionNhwcDirect_2<type>` behave alike on the same
buffers: both do not return (a zero block size or `microD = 0`), or both return the same
destination memory, and they do return for block sizes and `microD` of at least 1.  For every
term the row passes `ConvolutionNhwcDirect1x1_2<term, type>` and
`ConvolutionNhwcDirect_2<term, type>`, called as the drivers call them (`yBeg ≤ yEnd ≤ dstH`, a
channel slice inside the destination), both return and leave the same destination memory. -/
theorem direct1x1_refines_general (ex : α → α) (type : SimdConvolutionActivationType)
    (p : ConvParam32f) (h1 : p.Is1x1 = true) (hv : p.Valid = some true)
    (hH : p.srcH < sizeMod) (hW : p.srcW < sizeMod) (a : AlgParam)
    (src weight bias params dst : Nat → α) :
    ((ConvolutionNhwcDirect1x1_2 ex type src p a weight bias params dst = none
          ∧ ConvolutionNhwcDirect_2 ex type src p a weight bias params dst = none)
        ∨ ∃ out, ConvolutionNhwcDirect1x1_2 ex type src p a weight bias params dst = some out
          ∧ ConvolutionNhwcDirect_2 ex type src p a weight bias params dst = some out)
      ∧ (1 ≤ a.macroD → 1 ≤ a.macroC → 1 ≤ a.macroH → 1 ≤ a.microD →
          ∃ out, ConvolutionNhwcDirect1x1_2 ex type src p a weight bias params dst = some out
            ∧ ConvolutionNhwcDirect_2 ex type src p a weight bias params dst = some out)
      ∧ ∀ (term : TermType) (srcO dstC yBeg yEnd srcC weightO biasO paramsO dc : Nat),
          yBeg ≤ yEnd → yEnd ≤ p.dstH → dc + dstC ≤ p.dstC →
          ∃ out, ConvolutionNhwcDirect1x1_2_pass ex term type p src weight bias params srcO dstC
                yBeg yEnd srcC weightO biasO paramsO dc dst = some out
            ∧ ConvolutionNhwcDirect_2_pass ex term type p src weight bias params srcO dstC
                yBeg yEnd srcC weightO biasO paramsO dc dst = some out := by
  have h := inDomain_of_is1x1 p h1 hv hH hW
  have hsame := blocks_same ex type h h1 a src weight bias params p.dstC 0 0 0
  have hfirst : (ConvolutionNhwcDirect1x1_2 ex type src p a weight bias params dst = none
        ∧ ConvolutionNhwcDirect_2 ex type src p a weight bias params dst = none)
      ∨ ∃ out, ConvolutionNhwcDirect1x1_2 ex type src p a weight bias params dst = some out
        ∧ ConvolutionNhwcDirect_2 ex type src p a weight bias params dst = some out := by
    unfold ConvolutionNhwcDirect1x1_2 ConvolutionNhwcDirect_2 driverCalls
    rcases hsame with ⟨n1, n2⟩ | ⟨c1, c2, e1, e2, hc⟩
    · left
      rw [n1, n2]
      exact ⟨rfl, rfl⟩
    · right
      rw [e1, e2]
      exact ⟨runCalls ex type p src weight bias params c1 dst, rfl,
        congrArg some (hc dst).symm⟩
  refine ⟨hfirst, ?_, ?_⟩
  · intro hD hC hHH hm
    obtain ⟨cs, hcs⟩ := driverBlocks_returns false type h.region a hD hC hHH hm 0 0 p.dstC 0
      0 0 (by omega)
    rcases hfirst with ⟨-, n2⟩ | hsome
    · unfold ConvolutionNhwcDirect_2 driverCalls at n2
      rw [hcs] at n2
      cases n2
    · exact hsome
  · intro term srcO dstC yBeg yEnd srcC weightO biasO paramsO dc hy hE hDc
    obtain ⟨c1, c2, e1, e2, hc⟩ := pass_same ex term type h h1 src weight bias params srcO dstC
      yBeg yEnd srcC weightO biasO paramsO dc hy hE hDc
    simp only [passCalls, if_true, Bool.false_eq_true, if_false] at e1 e2
    unfold ConvolutionNhwcDirect1x1_2_pass ConvolutionNhwcDirect_2_pass
    rw [e1, e2]
    exact ⟨runCalls ex type p src weight bias params (c1.map fun c => (term, c)) dst, rfl,
      congrArg some (hc dst).symm⟩

/-- C23 (witness): a 1x1 convolution of a 2x2 image with 2 channels to 2 channels (`pOne`) with
two passes over the source channels (`aSplit`), ReLU, and integer tensors. -/
theorem direct1x1_refines_general_witness :
    ((ConvolutionNhwcDirect1x1_2 (fun v : Int => v) SimdConvolutionActivationType.Relu
            (fun i => (i : Int) - 3) pOne aSplit (fun i => (i : Int) - 40) (fun i => (i : Int))
            (fun _ => 0) (fun _ => 7) = none
          ∧ ConvolutionNhwcDirect_2 (fun v : Int => v) SimdConvolutionActivationType.Relu
            (fun i => (i : Int) - 3) pOne aSplit (fun i => (i : Int) - 40) (fun i => (i : Int))
            (fun _ => 0) (fun _ => 7) = none)
        ∨ ∃ out, ConvolutionNhwcDirect1x1_2 (fun v : Int => v)
            SimdConvolutionActivationType.Relu (fun i => (i : Int) - 3) pOne aSplit
            (fun i => (i : Int) - 40) (fun i => (i : Int)) (fun _ => 0) (fun _ => 7) = some out
          ∧ ConvolutionNhwcDirect_2 (fun v : Int => v) SimdConvolutionActivationType.Relu
            (fun i => (i : Int) - 3) pOne aSplit (fun i => (i : Int) - 40) (fun i => (i : Int))
            (fun _ => 0) (fun _ => 7) = some out)
      ∧ (1 ≤ aSplit.macroD → 1 ≤ aSplit.macroC → 1 ≤ aSplit.macroH → 1 ≤ aSplit.microD →
          ∃ out, ConvolutionNhwcDirect1x1_2 (fun v : Int => v)
              SimdConvolutionActivationType.Relu (fun i => (i : Int) - 3) pOne aSplit
              (fun i => (i : Int) - 40) (fun i => (i : Int)) (fun _ => 0) (fun _ => 7)
                = some out
            ∧ ConvolutionNhwcDirect_2 (fun v : Int => v) SimdConvolutionActivationType.Relu
              (fun i => (i : Int) - 3) pOne aSplit (fun i => (i : Int) - 40)
              (fun i => (i : Int)) (fun _ => 0) (fun _ => 7) = some out)
      ∧ ∀ (term : TermType) (srcO dstC yBeg yEnd srcC weightO biasO paramsO dc : Nat),
          yBeg ≤ yEnd → yEnd ≤ pOne.dstH → dc + dstC ≤ pOne.dstC →
          ∃ out, ConvolutionNhwcDirect1x1_2_pass (fun v : Int => v) term
                SimdConvolutionActivationType.Relu pOne (fun i => (i : Int) - 3)
                (fun i => (i : Int) - 40) (fun i => (i : Int)) (fun _ => 0) srcO dstC
                yBeg yEnd srcC weightO biasO paramsO dc (fun _ => 7) = some out
            ∧ ConvolutionNhwcDirect_2_pass (fun v : Int => v) term
                SimdConvolutionActivationType.Relu pOne (fun i => (i : Int) - 3)
                (fun i => (i : Int) - 40) (fun i => (i : Int)) (fun _ => 0) srcO dstC
                yBeg yEnd srcC weightO biasO paramsO dc (fun _ => 7) = some out :=
  direct1x1_refines_general (fun v : Int => v) SimdConvolutionActivationType.Relu pOne
    (by decide) (by decide) (by decide) (by decide) aSplit (fun i => (i : Int) - 3)
    (fun i => (i : Int) - 40) (fun i => (i : Int)) (fun _ => 0) (fun _ => 7)

/-- C32: `ConvParam32f::IsDepthwise()` is true exactly when `srcC = group` and `dstC = group`;
it reads no other field, so two parameter sets with the same `srcC`, `dstC` and `group` get the
same answer whatever their kernel, stride, dilation and padding; and when it is true with at
least one group, every group holds `srcC / group = 1` input channel and `dstC / group = 1`
output channel, so that every output channel depends on exactly one input channel. -/
theorem isDepthwise_iff (p : ConvParam32f) :
    (p.IsDepthwise = true ↔ p.srcC = p.group ∧ p.dstC = p.group)
      ∧ (∀ q : ConvParam32f, q.srcC = p.srcC → q.dstC = p.dstC → q.group = p.group →
          q.IsDepthwise = p.IsDepthwise)
      ∧ (p.IsDepthwise = true → 1 ≤ p.group → p.srcC / p.group = 1 ∧ p.dstC / p.group = 1) := by
  have h : p.IsDepthwise = true ↔ p.srcC = p.group ∧ p.dstC = p.group := by
    simp [ConvParam32f.IsDepthwise]
  refine ⟨h, fun q h1 h2 h3 => ?_, fun hd hg => ?_⟩
  · simp [ConvParam32f.IsDepthwise, h1, h2, h3]
  · obtain ⟨e1, e2⟩ := h.1 hd
    rw [e1, e2]
    exact ⟨Nat.div_self hg, Nat.div_self hg⟩
theorem prelu_cases (x s : α) : max 0 x + s * min 0 x = if 0 < x then x else s * x := by
  split_ifs with h
  · rw [max_eq_right h.le, min_eq_left h.le, mul_zero, add_zero]
  · have h' : x ≤ 0 := not_lt.1 h
    rw [max_eq_left h', min_eq_right h', zero_add]

theorem prelu_reg_covers (src : Nat → α) (sl : α) (p off : Nat) :
    Covers (Avx.SynetPreluLayerForward_reg src (fun _ => sl) p p off) (p + off) (p + off + F)
      (fun j => max 0 (src j) + sl * min 0 (src j)) :=
  covers_lanes F (p + off) _ _ (fun _ _ => rfl)

theorem prelu_ptr_covers (src slope : Nat → α) (p off : Nat) :
    Covers (Avx.SynetPreluLayerForward src slope p 0 p off) (p + off) (p + off + F)
      (fun j => max 0 (src j) + slope (j - p) * min 0 (src j)) :=
  covers_lanes F (p + off) _ _ (fun l _ => by
    show _ + slope (0 + off + l) * _ = _ + slope (p + off + l - p) * _
    rw [show 0 + off + l = p + off + l - p by omega])

theorem preluNchw_covers (al : Bool) (src slope : Nat → α) (channels spatial : Nat) :
    Covers (Avx.SynetPreluLayerForwardNchw_stores al src slope channels spatial) 0
      (0 + channels * spatial)
      (fun j => max 0 (src j) + slope (j / spatial) * min 0 (src j)) := by
  unfold Avx.SynetPreluLayerForwardNchw_stores
  rw [forRounds_eq_map channels 1 spatial 0 Nat.one_pos, List.flatMap_map,
    Nat.add_sub_cancel, Nat.div_one]
  refine covers_flatMap_range spatial 0 _ _ channels (fun k hk => ?_)
  have hrow := covers_row spatial (0 + k * spatial)
    (fun j => max 0 (src j) + slope k * min 0 (src j))
    (fun sd =>
      Avx.SynetPreluLayerForward_reg src (fun _ => slope k) (0 + k * spatial) (0 + k * spatial)
          (sd.1 + F * 0)
        ++ Avx.SynetPreluLayerForward_reg src (fun _ => slope k) (0 + k * spatial)
          (0 + k * spatial) (sd.1 + F * 1)
        ++ Avx.SynetPreluLayerForward_reg src (fun _ => slope k) (0 + k * spatial)
          (0 + k * spatial) (sd.1 + F * 2)
        ++ Avx.SynetPreluLayerForward_reg src (fun _ => slope k) (0 + k * spatial)
          (0 + k * spatial) (sd.1 + F * 3))
    (fun sd => Avx.SynetPreluLayerForward_reg src (fun _ => slope k) (0 + k * spatial)
      (0 + k * spatial) sd.1)
    (fun sd => (0 + k * spatial + sd.1,
      Base.SynetPreluLayerForward (src (0 + k * spatial + sd.1)) (slope k)))
    (fun x _ => covers_quad
      ((prelu_reg_covers src (slope k) _ _).cast (by ring) (by ring))
      ((prelu_reg_covers src (slope k) _ _).cast (by ring) (by ring))
      ((prelu_reg_covers src (slope k) _ _).cast (by ring) (by ring))
      ((prelu_reg_covers src (slope k) _ _).cast (by ring) (by ring)))
    (fun x _ => prelu_reg_covers src (slope k) _ _)
    (fun x _ => rfl)
  have hc := hrow.congr_covers (fun j => max 0 (src j) + slope (j / spatial) * min 0 (src j))
    (fun j h1 h2 => by
      have : j / spatial = k := by
        have hs : 0 < spatial := by
          rcases Nat.eq_zero_or_pos spatial with h0 | h0
          · rw [h0] at h1 h2; omega
          · exact h0
        apply Nat.div_eq_of_lt_le
        · omega
        · rw [Nat.succ_mul]; omega
      show _ = _ + slope (j / spatial) * _
      rw [this])
  simp only [Nat.mul_one] at hc ⊢
  exact hc.cast rfl (by ring)

theorem preluNhwc_covers (al : Bool) (src slope : Nat → α) (channels spatial : Nat) :
    Covers (Avx.SynetPreluLayerForwardNhwc_stores al src slope channels spatial) 0
      (0 + spatial * channels)
      (fun j => max 0 (src j) + slope (j % channels) * min 0 (src j)) := by
  unfold Avx.SynetPreluLayerForwardNhwc_stores
  rw [forRounds_eq_map spatial 1 channels 0 Nat.one_pos, List.flatMap_map,
    Nat.add_sub_cancel, Nat.div_one]
  refine covers_flatMap_range channels 0 _ _ spatial (fun k hk => ?_)
  have hrow := covers_row channels (0 + k * channels)
    (fun j => max 0 (src j) + slope (j - (0 + k * channels)) * min 0 (src j))
    (fun cd =>
      Avx.SynetPreluLayerForward src slope (0 + k * channels) 0 (0 + k * channels)
          (cd.1 + F * 0)
        ++ Avx.SynetPreluLayerForward src slope (0 + k * channels) 0 (0 + k * channels)
          (cd.1 + F * 1)
        ++ Avx.SynetPreluLayerForward src slope (0 + k * channels) 0 (0 + k * channels)
          (cd.1 + F * 2)
        ++ Avx.SynetPreluLayerForward src slope (0 + k * channels) 0 (0 + k * channels)
          (cd.1 + F * 3))
    (fun cd => Avx.SynetPreluLayerForward src slope (0 + k * channels) 0 (0 + k * channels)
      cd.1)
    (fun cd => (0 + k * channels + cd.1,
      Base.SynetPreluLayerForward (src (0 + k * channels + cd.1)) (slope cd.1)))
    (fun x _ => covers_quad
      ((prelu_ptr_covers src slope _ _).cast (by ring) (by ring))
      ((prelu_ptr_covers src slope _ _).cast (by ring) (by ring))
      ((prelu_ptr_covers src slope _ _).cast (by ring) (by ring))
      ((prelu_ptr_covers src slope _ _).cast (by ring) (by ring)))
    (fun x _ => prelu_ptr_covers src slope _ _)
    (fun x _ => by
      show (_, Base.SynetPreluLayerForward _ (slope x)) = (_, _ + slope _ * _)
      rw [show 0 + k * channels + x - (0 + k * channels) = x by omega]
      rfl)
  have hc := hrow.congr_covers (fun j => max 0 (src j) + slope (j % channels) * min 0 (src j))
    (fun j h1 h2 => by
      have : j - (0 + k * channels) = j % channels := by
        have e : j = (j - k * channels) + k * channels := by omega
        rw [Nat.zero_add]
        conv_rhs => rw [e, Nat.add_mul_mod_self_right]
        exact (Nat.mod_eq_of_lt (by omega)).symm
      show _ + slope (j - (0 + k * channels)) * _ = _
      rw [this])
  simp only [Nat.mul_one] at hc ⊢
  exact hc.cast rfl (by ring)

/-- C34: for every `channels` and `spatial` (and either outcome of the alignment test),
`SynetPreluLayerForwardNchw` and `SynetPreluLayerForwardNhwc` write
`dst[j] = max(0, src[j]) + slope[c]*min(0, src[j])` to every `j < channels*spatial`, where `c`
is `j div spatial` for NCHW and `j mod channels` for NHWC, and nothing else; this value is
`src[j]` when `src[j] > 0` and `slope[c]*src[j]` otherwise, for the elements stored by the
vector body and by the scalar tail (`Base::SynetPreluLayerForward`) alike. -/
theorem prelu_layer (isAligned : Bool) (src slope dst : Nat → α) (channels spatial : Nat) :
    (∀ j, j < channels * spatial →
        Avx.SynetPreluLayerForwardNchw isAligned src slope channels spatial dst j
            = max 0 (src j) + slope (j / spatial) * min 0 (src j)
          ∧ Avx.SynetPreluLayerForwardNchw isAligned src slope channels spatial dst j
            = (if 0 < src j then src j else slope (j / spatial) * src j)
          ∧ Avx.SynetPreluLayerForwardNhwc isAligned src slope channels spatial dst j
            = max 0 (src j) + slope (j % channels) * min 0 (src j)
          ∧ Avx.SynetPreluLayerForwardNhwc isAligned src slope channels spatial dst j
            = (if 0 < src j then src j else slope (j % channels) * src j))
      ∧ (∀ j, channels * spatial ≤ j →
          Avx.SynetPreluLayerForwardNchw isAligned src slope channels spatial dst j = dst j
            ∧ Avx.SynetPreluLayerForwardNhwc isAligned src slope channels spatial dst j = dst j)
      ∧ ∀ x s : α, Base.SynetPreluLayerForward x s = if 0 < x then x else s * x := by
  have h1 : ∀ j, Avx.SynetPreluLayerForwardNchw isAligned src slope channels spatial dst j
      = if 0 ≤ j ∧ j < 0 + channels * spatial
        then max 0 (src j) + slope (j / spatial) * min 0 (src j) else dst j := by
    intro j
    unfold Avx.SynetPreluLayerForwardNchw
    cases isAligned
    · exact storeAll_covers _ _ _ _ (preluNchw_covers false src slope channels spatial) dst j
    · exact storeAll_covers _ _ _ _ (preluNchw_covers true src slope channels spatial) dst j
  have h2 : ∀ j, Avx.SynetPreluLayerForwardNhwc isAligned src slope channels spatial dst j
      = if 0 ≤ j ∧ j < 0 + spatial * channels
        then max 0 (src j) + slope (j % channels) * min 0 (src j) else dst j := by
    intro j
    unfold Avx.SynetPreluLayerForwardNhwc
    cases isAligned
    · exact storeAll_covers _ _ _ _ (preluNhwc_covers false src slope channels spatial) dst j
    · exact storeAll_covers _ _ _ _ (preluNhwc_covers true src slope channels spatial) dst j
  refine ⟨fun j hj => ?_, fun j hj => ?_, fun x s => prelu_cases x s⟩
  · have e1 := h1 j
    have e2 := h2 j
    rw [if_pos ⟨Nat.zero_le j, by omega⟩] at e1
    rw [if_pos ⟨Nat.zero_le j, by rw [Nat.mul_comm]; omega⟩] at e2
    exact ⟨e1, e1.trans (prelu_cases _ _), e2, e2.trans (prelu_cases _ _)⟩
  · have e1 := h1 j
    have e2 := h2 j
    rw [if_neg (by omega)] at e1
    rw [if_neg (by rw [Nat.mul_comm spatial]; omega)] at e2
    exact ⟨e1, e2⟩
theorem scale3_pattern (v : Nat → α) (e : Nat) (he : e < 24) :
    Avx.SynetScaleLayerForwardNhwc3_pattern v e = v (e % 3) := by
  have hc : Covers ((List.range F).flatMap fun i => (List.range 3).map fun c => (i * 3 + c, v c))
      0 (0 + 8 * 3) (fun e => v (e % 3)) :=
    covers_flatMap_range 3 0 _ _ 8 (fun i _ =>
      (covers_lanes 3 (i * 3) v _ (fun l hl => by
        show v l = v ((i * 3 + l) % 3)
        rw [show (i * 3 + l) % 3 = l by omega])).cast (by omega) (by omega))
  unfold Avx.SynetScaleLayerForwardNhwc3_pattern
  rw [storeAll_covers _ _ _ _ hc, if_pos ⟨Nat.zero_le e, by omega⟩]

theorem scale3_reg_bias_covers (src sc bs : Nat → α) (x b : Nat) (hx : x % 24 = 0)
    (hb : b < 3) :
    Covers (Avx.SynetScaleLayerForward_reg_bias src
        (fun l => Avx.SynetScaleLayerForwardNhwc3_pattern sc (b * F + l))
        (fun l => Avx.SynetScaleLayerForwardNhwc3_pattern bs (b * F + l)) 0 0 (x + F * b))
      (x + 8 * b) (x + 8 * b + 8) (fun j => src j * sc (j % 3) + bs (j % 3)) := by
  have h := covers_lanes F (0 + (x + F * b))
    (fun l => src (0 + (x + F * b) + l) * Avx.SynetScaleLayerForwardNhwc3_pattern sc (b * F + l)
      + Avx.SynetScaleLayerForwardNhwc3_pattern bs (b * F + l))
    (fun j => src j * sc (j % 3) + bs (j % 3)) (fun l hl => by
      have hbF : b * F = b * 8 := rfl
      have hFb : F * b = 8 * b := rfl
      have hl8 : l < 8 := hl
      have e1 : (b * F + l) % 3 = (0 + (x + F * b) + l) % 3 := by omega
      show _ * Avx.SynetScaleLayerForwardNhwc3_pattern sc (b * F + l)
        + Avx.SynetScaleLayerForwardNhwc3_pattern bs (b * F + l) = _
      rw [scale3_pattern sc _ (by omega), scale3_pattern bs _ (by omega), e1])
  exact h.cast (by simp [F]) (by simp [F])

theorem scale3_reg_covers (src sc : Nat → α) (x b : Nat) (hx : x % 24 = 0) (hb : b < 3) :
    Covers (Avx.SynetScaleLayerForward_reg src
        (fun l => Avx.SynetScaleLayerForwardNhwc3_pattern sc (b * F + l)) 0 0 (x + F * b))
      (x + 8 * b) (x + 8 * b + 8) (fun j => src j * sc (j % 3)) := by
  have h := covers_lanes F (0 + (x + F * b))
    (fun l => src (0 + (x + F * b) + l) * Avx.SynetScaleLayerForwardNhwc3_pattern sc (b * F + l))
    (fun j => src j * sc (j % 3)) (fun l hl => by
      have hbF : b * F = b * 8 := rfl
      have hFb : F * b = 8 * b := rfl
      have hl8 : l < 8 := hl
      have e1 : (b * F + l) % 3 = (0 + (x + F * b) + l) % 3 := by omega
      show _ * Avx.SynetScaleLayerForwardNhwc3_pattern sc (b * F + l) = _
      rw [scale3_pattern sc _ (by omega), e1])
  exact h.cast (by simp [F]) (by simp [F])

theorem scaleNhwc3_covers (al : Bool) (src scale : Nat → α) (bias : Option (Nat → α))
    (spatial : Nat) :
    Covers (Avx.SynetScaleLayerForwardNhwc3_stores al src scale bias spatial) 0 (spatial * 3)
      (fun j => match bias with
        | some b => src j * scale (j % 3) + b (j % 3)
        | none => src j * scale (j % 3)) := by
  cases bias with
  | some b =>
    refine covers_nhwc3_loops spatial _ _ _ (fun x hx => ?_) (fun x hx => ?_)
    · have h0 := scale3_reg_bias_covers src scale b x 0 hx (by decide)
      have h1 := scale3_reg_bias_covers src scale b x 1 hx (by decide)
      have h2 := scale3_reg_bias_covers src scale b x 2 hx (by decide)
      exact ((h0.append_covers h1 (by omega) (by omega)).append_covers h2 (by omega) (by omega)).cast
        (by omega) (by omega)
    · have h := covers_three x (fun j => src j * scale (j % 3) + b (j % 3))
      have e0 : (x + 0) % 3 = 0 := by omega
      have e1 : (x + 1) % 3 = 1 := by omega
      have e2 : (x + 2) % 3 = 2 := by omega
      simp only [e0, e1, e2] at h
      exact h
  | none =>
    refine covers_nhwc3_loops spatial _ _ _ (fun x hx => ?_) (fun x hx => ?_)
    · have h0 := scale3_reg_covers src scale x 0 hx (by decide)
      have h1 := scale3_reg_covers src scale x 1 hx (by decide)
      have h2 := scale3_reg_covers src scale x 2 hx (by decide)
      exact ((h0.append_covers h1 (by omega) (by omega)).append_covers h2 (by omega) (by omega)).cast
        (by omega) (by omega)
    · have h := covers_three x (fun j => src j * scale (j % 3))
      have e0 : (x + 0) % 3 = 0 := by omega
      have e1 : (x + 1) % 3 = 1 := by omega
      have e2 : (x + 2) % 3 = 2 := by omega
      simp only [e0, e1, e2] at h
      exact h
theorem scale_bias_covers (src scale b : Nat → α) (p off : Nat) :
    Covers (Avx.SynetScaleLayerForward_bias src scale b p p off) (p + off) (p + off + F)
      (fun j => src j * scale (j - p) + b (j - p)) :=
  covers_lanes F (p + off) _ _ (fun l _ => by
    show _ * scale (off + l) + b (off + l) = _ * scale (p + off + l - p) + b (p + off + l - p)
    rw [show p + off + l - p = off + l by omega])

theorem scale_ptr_covers (src scale : Nat → α) (p off : Nat) :
    Covers (Avx.SynetScaleLayerForward src scale p p off) (p + off) (p + off + F)
      (fun j => src j * scale (j - p)) :=
  covers_lanes F (p + off) _ _ (fun l _ => by
    show _ * scale (off + l) = _ * scale (p + off + l - p)
    rw [show p + off + l - p = off + l by omega])

theorem row_index (channels k j : Nat) (h1 : 0 + k * channels ≤ j)
    (h2 : j < 0 + k * channels + channels) : j - (0 + k * channels) = j % channels := by
  have e : j = (j - k * channels) + k * channels := by omega
  rw [Nat.zero_add]
  conv_rhs => rw [e, Nat.add_mul_mod_self_right]
  exact (Nat.mod_eq_of_lt (by omega)).symm

theorem scaleNhwc_covers (al : Bool) (src scale : Nat → α) (bias : Option (Nat → α))
    (channels spatial : Nat) :
    Covers (Avx.SynetScaleLayerForwardNhwc_stores al src scale bias channels spatial) 0
      (0 + spatial * channels)
      (fun j => match bias with
        | some b => src j * scale (j % channels) + b (j % channels)
        | none => src j * scale (j % channels)) := by
  cases bias with
  | some b =>
    show Covers ((forRounds spatial 1 channels 0 0).flatMap _) _ _ _
    rw [forRounds_eq_map spatial 1 channels 0 Nat.one_pos, List.flatMap_map,
      Nat.add_sub_cancel, Nat.div_one]
    refine covers_flatMap_range channels 0 _ _ spatial (fun k hk => ?_)
    have hrow := covers_row channels (0 + k * channels)
      (fun j => src j * scale (j - (0 + k * channels)) + b (j - (0 + k * channels)))
      (fun cd =>
        Avx.SynetScaleLayerForward_bias src scale b (0 + k * channels) (0 + k * channels)
            (cd.1 + F * 0)
          ++ Avx.SynetScaleLayerForward_bias src scale b (0 + k * channels) (0 + k * channels)
            (cd.1 + F * 1)
          ++ Avx.SynetScaleLayerForward_bias src scale b (0 + k * channels) (0 + k * channels)
            (cd.1 + F * 2)
          ++ Avx.SynetScaleLayerForward_bias src scale b (0 + k * channels) (0 + k * channels)
            (cd.1 + F * 3))
      (fun cd => Avx.SynetScaleLayerForward_bias src scale b (0 + k * channels)
        (0 + k * channels) cd.1)
      (fun cd => (0 + k * channels + cd.1,
        src (0 + k * channels + cd.1) * scale cd.1 + b cd.1))
      (fun x _ => covers_quad
        ((scale_bias_covers src scale b _ _).cast (by ring) (by ring))
        ((scale_bias_covers src scale b _ _).cast (by ring) (by ring))
        ((scale_bias_covers src scale b _ _).cast (by ring) (by ring))
        ((scale_bias_covers src scale b _ _).cast (by ring) (by ring)))
      (fun x _ => scale_bias_covers src scale b _ _)
      (fun x _ => by
        show (_, _ * scale x + b x) = (_, _ * scale _ + b _)
        rw [show 0 + k * channels + x - (0 + k * channels) = x by omega])
    have hc := hrow.congr_covers (fun j => src j * scale (j % channels) + b (j % channels))
      (fun j h1 h2 => by
        show _ * scale (j - (0 + k * channels)) + b (j - (0 + k * channels)) = _
        rw [row_index channels k j h1 h2])
    simp only [Nat.mul_one] at hc ⊢
    exact hc.cast rfl (by ring)
  | none =>
    show Covers ((forRounds spatial 1 channels 0 0).flatMap _) _ _ _
    rw [forRounds_eq_map spatial 1 channels 0 Nat.one_pos, List.flatMap_map,
      Nat.add_sub_cancel, Nat.div_one]
    refine covers_flatMap_range channels 0 _ _ spatial (fun k hk => ?_)
    have hrow := covers_row channels (0 + k * channels)
      (fun j => src j * scale (j - (0 + k * channels)))
      (fun cd =>
        Avx.SynetScaleLayerForward src scale (0 + k * channels) (0 + k * channels)
            (cd.1 + F * 0)
          ++ Avx.SynetScaleLayerForward src scale (0 + k * channels) (0 + k * channels)
            (cd.1 + F * 1)
          ++ Avx.SynetScaleLayerForward src scale (0 + k * channels) (0 + k * channels)
            (cd.1 + F * 2)
          ++ Avx.SynetScaleLayerForward src scale (0 + k * channels) (0 + k * channels)
            (cd.1 + F * 3))
      (fun cd => Avx.SynetScaleLayerForward src scale (0 + k * channels) (0 + k * channels)
        cd.1)
      (fun cd => (0 + k * channels + cd.1, src (0 + k * channels + cd.1) * scale cd.1))
      (fun x _ => covers_quad
        ((scale_ptr_covers src scale _ _).cast (by ring) (by ring))
        ((scale_ptr_covers src scale _ _).cast (by ring) (by ring))
        ((scale_ptr_covers src scale _ _).cast (by ring) (by ring))
        ((scale_ptr_covers src scale _ _).cast (by ring) (by ring)))
      (fun x _ => scale_ptr_covers src scale _ _)
      (fun x _ => by
        show (_, _ * scale x) = (_, _ * scale _)
        rw [show 0 + k * channels + x - (0 + k * channels) = x by omega])
    have hc := hrow.congr_covers (fun j => src j * scale (j % channels))
      (fun j h1 h2 => by
        show _ * scale (j - (0 + k * channels)) = _
        rw [row_index channels k j h1 h2])
    simp only [Nat.mul_one] at hc ⊢
    exact hc.cast rfl (by ring)

theorem scaleNhwc3_eq_generic (al al' : Bool) (src scale dst : Nat → α)
    (bias : Option (Nat → α)) (spatial : Nat) :
    Avx.SynetScaleLayerForwardNhwc3 al src scale bias spatial dst
      = Avx.SynetScaleLayerForwardNhwc_generic al' src scale bias 3 spatial dst := by
  funext j
  unfold Avx.SynetScaleLayerForwardNhwc3 Avx.SynetScaleLayerForwardNhwc_generic
  rw [storeAll_covers _ _ _ _ (scaleNhwc3_covers al src scale bias spatial),
    storeAll_covers _ _ _ _ (scaleNhwc_covers al' src scale bias 3 spatial), Nat.zero_add]

/-- C33: for every `spatial` (and every outcome of the alignment tests),
`SynetScaleLayerForwardNhwc3` writes `dst[3*s + c] = src[3*s + c]*scale[c] + bias[c]` when
`bias` is not null and `dst[3*s + c] = src[3*s + c]*scale[c]` when it is null, for all
`s < spatial` and `c < 3`, and nothing else; the destination it leaves is the one the template
`SynetScaleLayerForwardNhwc` leaves with `channels = 3`, so the dispatcher, which takes the
fast path for three channels, agrees with the template for every number of channels; and the
replicated pattern holds `scale[e mod 3]` in element `e` of its 24. -/
theorem scale_nhwc3_refines (align align' aligned3 aligned : Bool) (src scale dst : Nat → α)
    (bias : Option (Nat → α)) (spatial : Nat) :
    (∀ s c, s < spatial → c < 3 →
        Avx.SynetScaleLayerForwardNhwc3 align src scale bias spatial dst (3 * s + c)
          = match bias with
            | some b => src (3 * s + c) * scale c + b c
            | none => src (3 * s + c) * scale c)
      ∧ (∀ j, 3 * spatial ≤ j →
          Avx.SynetScaleLayerForwardNhwc3 align src scale bias spatial dst j = dst j)
      ∧ Avx.SynetScaleLayerForwardNhwc3 align src scale bias spatial dst
          = Avx.SynetScaleLayerForwardNhwc_generic align' src scale bias 3 spatial dst
      ∧ (∀ channels, Avx.SynetScaleLayerForwardNhwc aligned3 aligned src scale bias channels
            spatial dst
          = Avx.SynetScaleLayerForwardNhwc_generic align' src scale bias channels spatial dst)
      ∧ ∀ e, e < 24 → Avx.SynetScaleLayerForwardNhwc3_pattern scale e = scale (e % 3) := by
  have hj : ∀ j, Avx.SynetScaleLayerForwardNhwc3 align src scale bias spatial dst j
      = if 0 ≤ j ∧ j < spatial * 3 then
          (match bias with
            | some b => src j * scale (j % 3) + b (j % 3)
            | none => src j * scale (j % 3))
        else dst j := fun j =>
    storeAll_covers _ _ _ _ (scaleNhwc3_covers align src scale bias spatial) dst j
  have hgen : ∀ (a a' : Bool) channels,
      Avx.SynetScaleLayerForwardNhwc_generic a src scale bias channels spatial dst
        = Avx.SynetScaleLayerForwardNhwc_generic a' src scale bias channels spatial dst := by
    intro a a' channels
    funext j
    unfold Avx.SynetScaleLayerForwardNhwc_generic
    rw [storeAll_covers _ _ _ _ (scaleNhwc_covers a src scale bias channels spatial),
      storeAll_covers _ _ _ _ (scaleNhwc_covers a' src scale bias channels spatial)]
  refine ⟨fun s c hs hc => ?_, fun j hj' => ?_,
    scaleNhwc3_eq_generic align align' src scale dst bias spatial, fun channels => ?_,
    fun e he => scale3_pattern scale e he⟩
  · rw [hj, if_pos ⟨Nat.zero_le _, by omega⟩, show (3 * s + c) % 3 = c by omega]
  · rw [hj, if_neg (by omega)]
  · unfold Avx.SynetScaleLayerForwardNhwc
    by_cases h3 : channels = 3
    · subst h3
      rw [if_pos rfl]
      cases aligned3
      · exact scaleNhwc3_eq_generic false align' src scale dst bias spatial
      · exact scaleNhwc3_eq_generic true align' src scale dst bias spatial
    · rw [if_neg h3]
      cases aligned
      · exact hgen false align' channels
      · exact hgen true align' channels

/-- C31 (failing input): for `count = 1` and `size = 1`, inside the claim (`size ≥ 1`),
`SynetInnerProductLayerForward1` has `K8 = 0 < K = 1` and takes the tail: `k = K - 8` is
computed in `size_t`, and the two loads `_mm256_loadu_ps(S0 + k)` and `_mm256_loadu_ps(W0 + k)`
start seven floats before the buffers.  The routine makes exactly these two loads, and neither
lies in `src[0, size)` or in the weight row.  The same holds for every `1 ≤ size ≤ 7` and every
`count ≥ 1`: the source is loaded at `size - 8 < 0`.  From `size = 8` on every load of eight
floats lies in `src[0, size)` or in the row `weight[i*size, (i+1)*size)` of an output
`i < count`. -/
theorem innerProduct_tail_load_out_of_bounds :
    (Avx.SynetInnerProductLayerForward_loads 1 1
        = [Avx.Load.src (-7), Avx.Load.weight 0 (-7)]
      ∧ ¬ Avx.Load.InBounds 1 1 (Avx.Load.src (-7))
      ∧ ¬ Avx.Load.InBounds 1 1 (Avx.Load.weight 0 (-7)))
      ∧ (∀ count size, 1 ≤ count → 1 ≤ size → size ≤ 7 →
          Avx.Load.src ((size : Int) - 8) ∈ Avx.SynetInnerProductLayerForward_loads count size
            ∧ ¬ Avx.Load.InBounds count size (Avx.Load.src ((size : Int) - 8)))
      ∧ ∀ count size, 8 ≤ size → ∀ ld ∈ Avx.SynetInnerProductLayerForward_loads count size,
          Avx.Load.InBounds count size ld := by
  refine ⟨⟨by decide, ?_, ?_⟩,
    fun count size hc h1 h7 => ⟨loads_before_origin count size hc h1 h7, ?_⟩,
    fun count size h8 ld hld => loads_inBounds count size h8 ld hld⟩
  · show ¬ ((0 : Int) ≤ -7 ∧ (-7 : Int) + 8 ≤ ((1 : Nat) : Int))
    decide
  · show ¬ (0 < 1 ∧ (0 : Int) ≤ -7 ∧ (-7 : Int) + 8 ≤ ((1 : Nat) : Int))
    decide
  · show ¬ ((0 : Int) ≤ (size : Int) - 8 ∧ (size : Int) - 8 + 8 ≤ (size : Int))
    omega

/-- C24: the constructor of the AVX2 engine passes `microD = 2*F = 16` to `Set` and to
`SetAlgParam`, and for each of the six activation kinds it installs
`ConvolutionNhwcDirect1x1_2<kind>` when `Is1x1()` holds and `ConvolutionNhwcDirect_2<kind>`
otherwise, whatever `_convolution` held before; `Is1x1()` holds exactly for
`kernelY = kernelX = 1`, dilation 1, stride 1 and all four pads 0; the installed kernel is the
function `convolution` of the engine; for any other activation value the constructor reaches
`assert(0)` and installs nothing. -/
theorem kernel_selection (SetAlgParam : Nat → Nat → Nat → Nat → AlgParam)
    (self : Avx2.SynetConvolution32fNhwcDirect) (p : ConvParam32f) :
    (∀ type, Avx2.SynetConvolution32fNhwcDirect.ctor SetAlgParam self p (ActivationValue.kind type)
        = some { _convolution := some (if p.Is1x1 = true
                    then ConvolutionPtr.ConvolutionNhwcDirect1x1_2 type
                    else ConvolutionPtr.ConvolutionNhwcDirect_2 type),
                 _alg := SetAlgParam 16 32768 262144 2097152 })
      ∧ Avx2.SynetConvolution32fNhwcDirect.ctor SetAlgParam self p ActivationValue.other = none
      ∧ (p.Is1x1 = true ↔ p.kernelY = 1 ∧ p.kernelX = 1 ∧ p.dilationY = 1 ∧ p.dilationX = 1
          ∧ p.strideY = 1 ∧ p.strideX = 1 ∧ p.padY = 0 ∧ p.padX = 0 ∧ p.padH = 0 ∧ p.padW = 0)
      ∧ ∀ (type : SimdConvolutionActivationType) (ex : α → α) (src : Nat → α) (a : AlgParam)
          (weight bias params dst : Nat → α),
          (if p.Is1x1 = true then ConvolutionPtr.ConvolutionNhwcDirect1x1_2 type
            else ConvolutionPtr.ConvolutionNhwcDirect_2 type).call ex src p a weight bias params dst
            = convolution ex type src p a weight bias params dst := by
  refine ⟨fun type => ?_, rfl, ?_, fun type ex src a weight bias params dst => ?_⟩
  · cases type <;> cases h : p.Is1x1 <;>
      simp [Avx2.SynetConvolution32fNhwcDirect.ctor, Avx2.Set, h] <;> rfl
  · simp only [ConvParam32f.Is1x1, ConvParam32f.IsKernel, ConvParam32f.IsDilation,
      ConvParam32f.IsStride, ConvParam32f.IsPad, Bool.and_eq_true, decide_eq_true_eq]
    tauto
  · unfold convolution
    cases h : p.Is1x1 <;> simp [ConvolutionPtr.call]

/-- C26: for `N` in {4, 8, 16} and every `channels` and `spatial`, converting a flat image to
the channel-blocked layout and back to the same flat layout returns the original image on all
`channels*spatial` elements: `SynetConvertImage_ChwXc_Chw<N>(SynetConvertImage_Chw_ChwXc<N>(x))
= x` and `SynetConvertImage_ChwXc_Hwc<N>(SynetConvertImage_Hwc_ChwXc<N>(x)) = x`, whatever the
two destination buffers held before. -/
theorem blocked_image_round_trip {α : Type} [Zero α] (N channels spatial : Nat)
    (hN : N = 4 ∨ N = 8 ∨ N = 16) (x d1 d2 : Nat → α) :
    ∀ j, j < channels * spatial →
      SynetConvertImage_ChwXc_Chw N channels spatial
          (SynetConvertImage_Chw_ChwXc N channels spatial x d1) d2 j = x j
        ∧ SynetConvertImage_ChwXc_Hwc N channels spatial
          (SynetConvertImage_Hwc_ChwXc N channels spatial x d1) d2 j = x j := by
  intro j hj
  have hN0 : 0 < N := by rcases hN with h | h | h <;> simp [h]
  constructor
  · obtain ⟨hc, hs, e⟩ := flat_split channels spatial j hj
    have hcd := Nat.div_add_mod (j / spatial) N
    have hcm := Nat.mod_lt (j / spatial) hN0
    have hcc : N * (j / spatial / N) = j / spatial / N * N := Nat.mul_comm _ _
    have ec : j / spatial / N * N + j / spatial % N = j / spatial := by omega
    have hb : j / spatial / N < (channels + N - 1) / N :=
      (ceil_lt channels N _ hN0).2 (by omega)
    have h1 := chwXc_chw_values N channels spatial
      (SynetConvertImage_Chw_ChwXc N channels spatial x d1) hN0 (j / spatial / N)
      (j / spatial % N) (j % spatial) (by omega) hcm hs
    have h2 := (storeSeq_values _ d2 _ rfl).1 _ _ h1
    have h3 := (storeSeq_values _ d1 _ rfl).1 _ _
      ((chw_chwXc_values N channels spatial x hN0).2 (j / spatial / N) (j % spatial)
        (j / spatial % N) hb hs hcm)
    rw [ec, ← e] at h2
    rw [ec, if_pos hc, ← e] at h3
    exact h2.trans h3
  · rw [Nat.mul_comm] at hj
    obtain ⟨hs, hc, e⟩ := flat_split spatial channels j hj
    have hcd := Nat.div_add_mod (j % channels) N
    have hcm := Nat.mod_lt (j % channels) hN0
    have hcc : N * (j % channels / N) = j % channels / N * N := Nat.mul_comm _ _
    have ec : j % channels / N * N + j % channels % N = j % channels := by omega
    have hb : j % channels / N < (channels + N - 1) / N :=
      (ceil_lt channels N _ hN0).2 (by omega)
    have h1 := chwXc_hwc_values N channels spatial
      (SynetConvertImage_Hwc_ChwXc N channels spatial x d1) hN0 (j / channels) (j % channels)
      hs hc
    have h2 := (storeSeq_values _ d2 _ rfl).1 _ _ h1
    have h3 := (storeSeq_values _ d1 _ rfl).1 _ _
      ((hwc_chwXc_values N channels spatial x hN0).2 (j % channels / N) (j / channels)
        (j % channels % N) hb hs hcm)
    rw [← e] at h2
    rw [ec, if_pos hc, ← e] at h3
    exact h2.trans h3

/-- C26 (witness): 5 channels, 2 spatial positions, `N = 4`: the second block holds one
channel and three lanes of padding; the last element, 9, comes back. -/
theorem blocked_image_round_trip_witness :
    (4 = 4 ∨ 4 = 8 ∨ 4 = 16) ∧ 9 < 5 * 2
      ∧ SynetConvertImage_ChwXc_Chw 4 5 2
          (SynetConvertImage_Chw_ChwXc 4 5 2 (fun i : Nat => (i : Int) + 1) (fun _ => 7))
          (fun _ => 9) 9 = (fun i : Nat => (i : Int) + 1) 9
      ∧ SynetConvertImage_ChwXc_Hwc 4 5 2
          (SynetConvertImage_Hwc_ChwXc 4 5 2 (fun i : Nat => (i : Int) + 1) (fun _ => 7))
          (fun _ => 9) 9 = (fun i : Nat => (i : Int) + 1) 9 :=
  ⟨Or.inl rfl, by decide,
    blocked_image_round_trip 4 5 2 (Or.inl rfl) (fun i : Nat => (i : Int) + 1) (fun _ => 7)
      (fun _ => 9) 9 (by decide)⟩

/-- C25: for `N` in {4, 8, 16} and every `output`, `input` and `kernel`,
`SynetConvertFilter_OyxiXo_Yxio<N>` applied to `SynetConvertFilter_Yxio_OyxiXo<N>(w)` returns
`w`, and `SynetConvertFilter_OyxiXo_Oiyx<N>` applied to `SynetConvertFilter_Oiyx_OyxiXo<N>(w)`
returns `w`, on all `output*input*kernel` elements and whatever the two destination buffers
held before: the padding lanes are dropped and no filter value is lost or moved. -/
theorem blocked_filter_round_trip {α : Type} [Zero α] (N output input kernel : Nat)
    (hN : N = 4 ∨ N = 8 ∨ N = 16) (w d1 d2 : Nat → α) :
    ∀ j, j < kernel * input * output →
      SynetConvertFilter_OyxiXo_Yxio N output input kernel
          (SynetConvertFilter_Yxio_OyxiXo N output input kernel w d1) d2 j = w j
        ∧ SynetConvertFilter_OyxiXo_Oiyx N output input kernel
          (SynetConvertFilter_Oiyx_OyxiXo N output input kernel w d1) d2 j = w j := by
  intro j hj
  have hN0 : 0 < N := by rcases hN with h | h | h <;> simp [h]
  constructor
  · -- `j = (k*input + i)*output + o`
    obtain ⟨hq, ho, e⟩ := flat_split (kernel * input) output j hj
    obtain ⟨hk, hi, eq⟩ := flat_split kernel input (j / output) hq
    have hod := Nat.div_add_mod (j % output) N
    have hom := Nat.mod_lt (j % output) hN0
    have hoc : N * (j % output / N) = j % output / N * N := Nat.mul_comm _ _
    have eo : j % output / N * N + j % output % N = j % output := by omega
    have hb : j % output / N < (output + N - 1) / N :=
      (ceil_lt output N _ hN0).2 (by omega)
    have h1 := oyxiXo_yxio_values N output input kernel
      (SynetConvertFilter_Yxio_OyxiXo N output input kernel w d1) hN0 (j / output / input)
      (j / output % input) (j % output) hk hi ho
    have h2 := (storeSeq_values _ d2 _ rfl).1 _ _ h1
    have h3 := (storeSeq_values _ d1 _ rfl).1 _ _
      ((yxio_oyxiXo_values N output input kernel w hN0).2 (j % output / N)
        (j / output / input) (j / output % input) (j % output % N) hb hk hi hom)
    rw [← eq, ← e] at h2
    rw [eo, if_pos ho, ← eq, ← e] at h3
    exact h2.trans h3
  · -- `j = (o*input + i)*kernel + k`
    have hj' : j < output * input * kernel := by
      calc j < kernel * input * output := hj
        _ = output * input * kernel := by ring
    obtain ⟨hq, hk, e⟩ := flat_split (output * input) kernel j hj'
    obtain ⟨ho, hi, eq⟩ := flat_split output input (j / kernel) hq
    have hod := Nat.div_add_mod (j / kernel / input) N
    have hom := Nat.mod_lt (j / kernel / input) hN0
    have hoc : N * (j / kernel / input / N) = j / kernel / input / N * N := Nat.mul_comm _ _
    have eo : j / kernel / input / N * N + j / kernel / input % N = j / kernel / input := by
      omega
    have hb : j / kernel / input / N < (output + N - 1) / N :=
      (ceil_lt output N _ hN0).2 (by omega)
    have h1 := oyxiXo_oiyx_values N output input kernel
      (SynetConvertFilter_Oiyx_OyxiXo N output input kernel w d1) hN0
      (j / kernel / input / N) (j / kernel / input % N) (j / kernel % input) (j % kernel)
      (by omega) hom hi hk
    have h2 := (storeSeq_values _ d2 _ rfl).1 _ _ h1
    have h3 := (storeSeq_values _ d1 _ rfl).1 _ _
      ((oiyx_oyxiXo_values N output input kernel w hN0).2 (j / kernel / input / N)
        (j % kernel) (j / kernel % input) (j / kernel / input % N) hb hk hi hom)
    rw [eo, ← eq, ← e] at h2
    rw [eo, if_pos ho, ← eq, ← e] at h3
    exact h2.trans h3

/-- C25 (witness): 5 output channels, 2 input channels, a kernel of 3 positions, `N = 4`: the
second block holds one output channel and three lanes of padding; the last element, 29, comes
back. -/
theorem blocked_filter_round_trip_witness :
    (4 = 4 ∨ 4 = 8 ∨ 4 = 16) ∧ 29 < 3 * 2 * 5
      ∧ SynetConvertFilter_OyxiXo_Yxio 4 5 2 3
          (SynetConvertFilter_Yxio_OyxiXo 4 5 2 3 (fun i : Nat => (i : Int) + 1) (fun _ => 7))
          (fun _ => 9) 29 = (fun i : Nat => (i : Int) + 1) 29
      ∧ SynetConvertFilter_OyxiXo_Oiyx 4 5 2 3
          (SynetConvertFilter_Oiyx_OyxiXo 4 5 2 3 (fun i : Nat => (i : Int) + 1) (fun _ => 7))
          (fun _ => 9) 29 = (fun i : Nat => (i : Int) + 1) 29 :=
  ⟨Or.inl rfl, by decide,
    blocked_filter_round_trip 4 5 2 3 (Or.inl rfl) (fun i : Nat => (i : Int) + 1) (fun _ => 7)
      (fun _ => 9) 29 (by decide)⟩

/-- C27: for every `channels` and `spatial`,
`SynetConvertImage_Hwc_Chw(SynetConvertImage_Chw_Hwc(x)) = x` and
`SynetConvertImage_Chw_Hwc(SynetConvertImage_Hwc_Chw(x)) = x` on all `channels*spatial`
elements, and for every `output`, `input`, `kernel`,
`SynetConvertFilter_Yxio_Oiyx(SynetConvertFilter_Oiyx_Yxio(w)) = w` and
`SynetConvertFilter_Oiyx_Yxio(SynetConvertFilter_Yxio_Oiyx(w)) = w` on all
`output*input*kernel` elements; each second converter is the routine of the first with the
dimension arguments swapped. -/
theorem flat_round_trips {α : Type} (x d1 d2 : Nat → α) :
    (∀ channels spatial j, j < channels * spatial →
        SynetConvertImage_Hwc_Chw channels spatial
            (SynetConvertImage_Chw_Hwc channels spatial x d1) d2 j = x j
          ∧ SynetConvertImage_Chw_Hwc channels spatial
            (SynetConvertImage_Hwc_Chw channels spatial x d1) d2 j = x j)
      ∧ (∀ output input kernel j, j < output * input * kernel →
          SynetConvertFilter_Yxio_Oiyx output input kernel
              (SynetConvertFilter_Oiyx_Yxio output input kernel x d1) d2 j = x j
            ∧ SynetConvertFilter_Oiyx_Yxio output input kernel
              (SynetConvertFilter_Yxio_Oiyx output input kernel x d1) d2 j = x j)
      ∧ (∀ channels spatial, SynetConvertImage_Hwc_Chw channels spatial x d1
          = SynetConvertImage_Chw_Hwc spatial channels x d1)
      ∧ ∀ output input kernel, SynetConvertFilter_Yxio_Oiyx output input kernel x d1
          = SynetConvertFilter_Oiyx_Yxio kernel input output x d1 := by
  -- a transposition followed by the transposition with the dimensions swapped
  have himg : ∀ (A B : Nat) (y e1 e2 : Nat → α) (j : Nat), j < A * B →
      SynetConvertImage_Chw_Hwc B A (SynetConvertImage_Chw_Hwc A B y e1) e2 j = y j := by
    intro A B y e1 e2 j hj
    obtain ⟨ha, hb, e⟩ := flat_split A B j hj
    have h1 := (chw_hwc_values B A (SynetConvertImage_Chw_Hwc A B y e1)).2 (j / B) (j % B) ha hb
    have h2 := (storeSeq_values _ e2 _ rfl).1 _ _ h1
    have h3 := (storeSeq_values _ e1 _ rfl).1 _ _
      ((chw_hwc_values A B y).2 (j % B) (j / B) hb ha)
    rw [← e] at h2 h3
    exact h2.trans h3
  have hfil : ∀ (O I K : Nat) (y e1 e2 : Nat → α) (j : Nat), j < O * I * K →
      SynetConvertFilter_Oiyx_Yxio K I O (SynetConvertFilter_Oiyx_Yxio O I K y e1) e2 j
        = y j := by
    intro O I K y e1 e2 j hj
    obtain ⟨hq, hk, e⟩ := flat_split (O * I) K j hj
    obtain ⟨ho, hi, eq⟩ := flat_split O I (j / K) hq
    have h1 := (oiyx_yxio_values K I O (SynetConvertFilter_Oiyx_Yxio O I K y e1)).2
      (j / K / I) (j / K % I) (j % K) ho hi hk
    have h2 := (storeSeq_values _ e2 _ rfl).1 _ _ h1
    have h3 := (storeSeq_values _ e1 _ rfl).1 _ _
      ((oiyx_yxio_values O I K y).2 (j % K) (j / K % I) (j / K / I) hk hi ho)
    rw [← eq, ← e] at h2 h3
    exact h2.trans h3
  refine ⟨fun channels spatial j hj => ⟨?_, ?_⟩, fun output input kernel j hj => ⟨?_, ?_⟩,
    fun _ _ => rfl, fun _ _ _ => rfl⟩
  · exact himg channels spatial x d1 d2 j hj
  · exact himg spatial channels x d1 d2 j (by rw [Nat.mul_comm]; exact hj)
  · exact hfil output input kernel x d1 d2 j hj
  · exact hfil kernel input output x d1 d2 j (by
      calc j < output * input * kernel := hj
        _ = kernel * input * output := by ring)

/-- C28: the NEON converters refine the base converters.  `Neon::GetImageConverter` returns a
routine exactly for the pairs of two different formats among NCHW, NHWC and Nchw4c, and
`Neon::GetFilterConverter` exactly for the pairs of two different formats among Oiyx, Yxio and
Oyxi4o.  For every such pair the base getter returns the routine of the same pair with
`N = 4`, and for all `channels` and `spatial` (`output`, `input` and `kernel`), whether
multiples of 4 or 16 or not and `kernel == 1` included, and all source and destination
memories, the NEON routine leaves the destination memory the base routine leaves: the same
values at the same addresses, and every other address untouched.  `Transpose4x4`,
`Transpose4x4xF` and `Copy` transpose a 4x4 block of scalars, a 4x4 block of 4-element vectors,
and copy 4 elements. -/
theorem neon_converters_refine_base {α : Type} [Zero α] :
    (∀ srcFormat dstFormat : SimdTensorFormatType,
        ((Neon.GetImageConverter srcFormat dstFormat).isSome = true
          ↔ srcFormat ≠ dstFormat
            ∧ srcFormat ∈ [SimdTensorFormatNchw, SimdTensorFormatNhwc, SimdTensorFormatNchw4c]
            ∧ dstFormat ∈ [SimdTensorFormatNchw, SimdTensorFormatNhwc,
                SimdTensorFormatNchw4c])
        ∧ ∀ f, Neon.GetImageConverter srcFormat dstFormat = some f →
            ∃ g, GetImageConverter srcFormat dstFormat = some g
              ∧ g ∈ [SynetImageConverterPtr.Chw_Hwc, .Chw_ChwXc 4, .Hwc_Chw, .Hwc_ChwXc 4,
                  .ChwXc_Chw 4, .ChwXc_Hwc 4]
              ∧ ∀ (channels spatial : Nat) (src dst : Nat → α),
                  f.call channels spatial src dst = g.call channels spatial src dst)
      ∧ ∀ srcFormat dstFormat : SimdTensorFormatType,
        ((Neon.GetFilterConverter srcFormat dstFormat).isSome = true
          ↔ srcFormat ≠ dstFormat
            ∧ srcFormat ∈ [SimdTensorFormatOiyx, SimdTensorFormatYxio, SimdTensorFormatOyxi4o]
            ∧ dstFormat ∈ [SimdTensorFormatOiyx, SimdTensorFormatYxio,
                SimdTensorFormatOyxi4o])
        ∧ ∀ f, Neon.GetFilterConverter srcFormat dstFormat = some f →
            ∃ g, GetFilterConverter srcFormat dstFormat = some g
              ∧ g ∈ [SynetFilterConverterPtr.Oiyx_Yxio, .Oiyx_OyxiXo 4, .Yxio_Oiyx,
                  .Yxio_OyxiXo 4, .OyxiXo_Oiyx 4, .OyxiXo_Yxio 4]
              ∧ ∀ (output input kernel : Nat) (src dst : Nat → α),
                  f.call output input kernel src dst = g.call output input kernel src dst :=
  ⟨fun s d => ⟨neon_image_pairs s d, fun f h => neon_image_refines s d f h⟩,
    fun s d => ⟨neon_filter_pairs s d, fun f h => neon_filter_refines s d f h⟩⟩

end Claims

end Simd
